import Mathlib

/-!
# Cool compiler support code: interning tables, string escapes, tree codec, token adapter

A shallow embedding of `stringtab_functions.h`, `stringtab.cc`, `utilities.cc`,
`cool-tree.cc` and `parser-adapter.cc`, followed by theorems about it.

Conventions of the embedding

* a `std::string` is a `List Nat` of bytes (each below 256);
* an `Elem *` handed out by a string table is a `Symbol`: the slot of `tbl` that
  holds the pointer together with the (immutable) `Entry` it points to;
* global mutable state is passed explicitly;
* `int index` of a table is an unbounded `Int`: `index++` overflowing an `int`
  is undefined behaviour in C++ and is not given a meaning here.
-/

namespace Cool

/-! ## Strings and machine integers -/

/-- A `std::string`: its bytes in order. -/
abbrev Str := List Nat

/-- The bytes of a string literal of the source. -/
def lit (s : String) : Str := s.toList.map Char.toNat

/-- Conversion of an integer value to `int` (32 bit, two's complement). -/
def toInt32 (n : Int) : Int := (n + 2147483648) % 4294967296 - 2147483648

/-- `#define MAXSIZE 1000000` (stringtab_functions.h). -/
def MAXSIZE : Int := 1000000

/-- `#define min(a, b) (a > b ? b : a)` (stringtab_functions.h). -/
def cmin (a b : Int) : Int := if a > b then b else a

/-! ## String tables (stringtab.cc, stringtab_functions.h) -/

/-- `Entry::Entry(std::string s, int l, int i) : str(s), len(l), index(i)`. -/
structure Entry where
  str : Str
  len : Int
  index : Int
deriving DecidableEq, Repr

/-- `int Entry::equal_string(std::string string, int length) const`:
`return str.compare(string) == 0;` (the `length` argument is not used). -/
def Entry.equal_string (e : Entry) (string : Str) (_length : Int) : Bool :=
  decide (e.str = string)

/-- `std::string Entry::get_string() const`. -/
def Entry.get_string (e : Entry) : Str := e.str

/-- `int Entry::get_len() const`. -/
def Entry.get_len (e : Entry) : Int := e.len

/-- A `Symbol` is a pointer to an `Entry` owned by a table: `addr` is the slot of
the table's `tbl` that holds this pointer (every slot is filled by its own
`new Elem`, so two symbols of one table are the same pointer exactly when their
slots agree) and `entry` is the object pointed to, which is never mutated. -/
structure Symbol where
  addr : Nat
  entry : Entry
deriving DecidableEq, Repr

/-- Modelled from the spec: `class StringTable` is declared in `stringtab.h`, which
is not among the sources; it holds the entries `tbl` in insertion order and the
next index to hand out, `index`. -/
structure StringTable where
  tbl : List Entry
  index : Int
deriving DecidableEq, Repr

/-- Modelled from the spec: the table as constructed (no entries, next index 0);
the constructor is in the absent `stringtab.h`. -/
def StringTable.empty : StringTable := ⟨[], 0⟩

/-- The loop `for (auto &entry : *tbl) if (entry->equal_string(s, len)) return entry;`
over the slots from `k` on: the first matching entry, or `none` when the loop
falls through. -/
def scan (s : Str) (len : Int) : List Entry → Nat → Option Symbol
  | [], _ => none
  | e :: es, k => if e.equal_string s len then some ⟨k, e⟩ else scan s len es (k + 1)

/-- `Elem *StringTable<Elem>::add_string(std::string s, int maxchars)`. -/
def StringTable.add_string_maxchars (t : StringTable) (s : Str) (maxchars : Int) :
    Symbol × StringTable :=
  let len := cmin (toInt32 s.length) maxchars
  match scan s len t.tbl 0 with
  | some entry => (entry, t)
  | none =>
    let e : Entry := ⟨s, len, t.index⟩
    (⟨t.tbl.length, e⟩, ⟨t.tbl ++ [e], t.index + 1⟩)

/-- `Elem *StringTable<Elem>::add_string(std::string s)`:
`return add_string(s, MAXSIZE);`. -/
def StringTable.add_string (t : StringTable) (s : Str) : Symbol × StringTable :=
  t.add_string_maxchars s MAXSIZE

/-- A sequence of `add_string` calls, one per text of `l` in order, on the table
`t`: the entries returned, in call order, and the final table. -/
def add_strings : List Str → StringTable → List Symbol × StringTable
  | [], t => ([], t)
  | s :: l, t =>
    let r := t.add_string s
    let rs := add_strings l r.2
    (r.1 :: rs.1, rs.2)

/-- The texts held by a table, in slot order. -/
def StringTable.texts (t : StringTable) : List Str := t.tbl.map Entry.str

/-- The state of a table that has only been filled through `add_string`: the
next index is the number of entries, the entry in slot `k` has index `k`, and no
text occurs twice. -/
def StringTable.Canonical (t : StringTable) : Prop :=
  t.index = t.tbl.length ∧ t.texts.Nodup ∧
    ∀ (k : Nat) (e : Entry), t.tbl[k]? = some e → e.index = k

/-! ## String escapes (utilities.cc) -/

/-- `isprint` of `<ctype.h>` in the C locale: the bytes 0x20 .. 0x7e. -/
def isprint (ch : Nat) : Bool := decide (32 ≤ ch ∧ ch ≤ 126)

/-- `oct << setfill('0') << setw(3) << (int)((unsigned char)(*ch))`: the value
is that of an `unsigned char`, so it is below 8 * 8 * 8 and its octal form padded
with zeros to width 3 is its three octal digits. -/
def octal3 (ch : Nat) : Str :=
  [48 + (ch % 256) / 64, 48 + (ch % 256) / 8 % 8, 48 + (ch % 256) % 8]

/-- The body of the loop of `get_escaped_string`: what the `switch (*ch)` writes
to the stream for one byte. -/
def escape_char (ch : Nat) : Str :=
  if ch = 92 then [92, 92]            -- case '\\': "\\\\"
  else if ch = 34 then [92, 34]       -- case '\"': "\\\""
  else if ch = 10 then [92, 110]      -- case '\n': "\\n"
  else if ch = 9 then [92, 116]       -- case '\t': "\\t"
  else if ch = 8 then [92, 98]        -- case '\b': "\\b"
  else if ch = 12 then [92, 102]      -- case '\f': "\\f"
  else if isprint ch then [ch]
  else 92 :: octal3 ch

/-- `string get_escaped_string(std::string s)`. -/
def get_escaped_string : Str → Str
  | [] => []
  | ch :: rest => escape_char ch ++ get_escaped_string rest

/-- `std::regex_match(oct_string, octal_pattern)` with
`octal_pattern("^[0-3][0-7]{2}$")`. -/
def octal_pattern_match (oct_string : Str) : Bool :=
  match oct_string with
  | [a, b, c] => decide (48 ≤ a ∧ a ≤ 51 ∧ 48 ≤ b ∧ b ≤ 55 ∧ 48 ≤ c ∧ c ≤ 55)
  | _ => false

/-- `stoi(oct_string, 0, 8)` on a string that matched `octal_pattern`, stored in an
`unsigned char`. -/
def stoi_octal (oct_string : Str) : Nat :=
  (oct_string.foldl (fun acc d => acc * 8 + (d - 48)) 0) % 256

/-- The diagnostic written when a backslash is the last byte. -/
def msg_unexpected_end : Str := lit "Unexpected end of string\n"

/-- The diagnostic written when a backslash starts no known escape. -/
def msg_unexpected_escape : Str :=
  lit "Unexpected escape sequence; expected \\\\, \\\", \\n, \\t, \\b, \\f, or \\xxx where xxx is an octal number\n"

/-- The `for (size_t i = 0; i < s.length(); ++i)` loop of `get_unescaped_string`.
The loop state is `rest`, the part of `s` from index `i` on, and `out`, what has
been written to the stream; the result is the returned string and what was
written to `cerr`. Every iteration advances `i` by at least one, so `fuel`
bounds the iterations when it is at least the length of `rest`. -/
def unescape_loop : Nat → Str → Str → Str × List Str
  | 0, _, out => (out, [])
  | _ + 1, [], out => (out, [])
  | fuel + 1, c :: rest, out =>
    if c ≠ 92 then unescape_loop fuel rest (out ++ [c])      -- s[i] != '\\'
    else
      -- i++
      match rest with
      | [] => ([], [msg_unexpected_end])                      -- i == s.length(): return ""
      | d :: rest1 =>
        if d = 92 then unescape_loop fuel rest1 (out ++ [92])        -- case '\\'
        else if d = 34 then unescape_loop fuel rest1 (out ++ [34])   -- case '\"'
        else if d = 110 then unescape_loop fuel rest1 (out ++ [10])  -- case 'n'
        else if d = 116 then unescape_loop fuel rest1 (out ++ [9])   -- case 't'
        else if d = 98 then unescape_loop fuel rest1 (out ++ [8])    -- case 'b'
        else if d = 102 then unescape_loop fuel rest1 (out ++ [12])  -- case 'f'
        else
          let oct_string := (d :: rest1).take 3                      -- s.substr(i, 3)
          if octal_pattern_match oct_string = false then ([], [msg_unexpected_escape])
          else
            let num := stoi_octal oct_string
            -- i += 3, then the ++i of the loop: the next byte read is s[i + 4]
            unescape_loop fuel ((d :: rest1).drop 4) (out ++ [num])

/-- `string get_unescaped_string(std::string s)` together with its output on
`cerr`. -/
def get_unescaped_string_cerr (s : Str) : Str × List Str := unescape_loop s.length s []

/-- `string get_unescaped_string(std::string s)`. -/
def get_unescaped_string (s : Str) : Str := (get_unescaped_string_cerr s).1

/-- The first backslash of `s` starts no escape that `get_unescaped_string` knows: it
is the last byte, or the byte after it is none of backslash, double quote, `n`,
`t`, `b`, `f` and the three bytes after the backslash do not match
`octal_pattern`. -/
def malformed_at_first_backslash (s : Str) : Bool :=
  match s.dropWhile (fun c => decide (c ≠ 92)) with
  | [] => false
  | [_] => true
  | _ :: d :: rest =>
    !(decide (d ∈ [92, 34, 110, 116, 98, 102])) && !(octal_pattern_match ((d :: rest).take 3))

/-- A node of a ryml tree, as far as the codec looks at it: a scalar with its text,
a map with its keyed children in order, or a sequence with its children in
order. -/
inductive Yaml where
  | val (s : Str)
  | map (children : List (Str × Yaml))
  | seq (children : List Yaml)

/-- One item written to `cerr` or `stderr`: a text, or the address of a heap object
(written when a pointer is streamed), whose digits the embedding does not
determine. -/
inductive Output where
  | text (s : Str)
  | pointer
deriving DecidableEq, Repr

/-- The process-wide mutable state the codec and the adapter work on: the three
tables of stringtab.cc, the ambient line numbers, and what has been written to
the error stream. -/
structure Globals where
  idtable : StringTable
  inttable : StringTable
  stringtable : StringTable
  node_lineno : Int
  curr_lineno : Int
  cerr : List Output
deriving DecidableEq, Repr

/-- How a call ends: it returns a value, or the process is terminated by `exit`, or
the process dies in a library call whose precondition is violated (a key that is
not there, the text of a node that is not a scalar, the exception of `std::stoi`),
or the fuel of the embedding ran out. -/
inductive Res (α : Type) where
  | ok (a : α) (g : Globals)
  | exit (code : Int) (g : Globals)
  | crash (g : Globals)
  | out_of_fuel
deriving DecidableEq

/-- A computation on the process state. -/
abbrev Dec (α : Type) := Globals → Res α

/-- Sequencing of computations: the second one runs only if the first returns. -/
def Dec.bind {α β : Type} (x : Dec α) (f : α → Dec β) : Dec β := fun g =>
  match x g with
  | .ok a g1 => f a g1
  | .exit c g1 => .exit c g1
  | .crash g1 => .crash g1
  | .out_of_fuel => .out_of_fuel

instance : Monad Dec where
  pure a := fun g => .ok a g
  bind := Dec.bind

/-- The process dies in a library call. -/
def crash {α : Type} : Dec α := fun g => .crash g

/-- `cerr << s` and `fprintf(stderr, s)`. -/
def cerr_text (s : Str) : Dec Unit := fun g => .ok () { g with cerr := g.cerr ++ [Output.text s] }

/-- `cerr << p` for a pointer `p` that is not a `char *`. -/
def cerr_pointer : Dec Unit := fun g => .ok () { g with cerr := g.cerr ++ [Output.pointer] }

/-- `node[key]` of ryml on a map: the first child with that key. -/
def Yaml.find_child (node : Yaml) (key : Str) : Option Yaml :=
  match node with
  | .map children => (children.find? (fun kv => decide (kv.1 = key))).map Prod.snd
  | _ => none

/-- Modelled from the spec: `node[key]` where the code goes on to read the child.
`operator[]` of ryml is in `ryml_all.hpp`, which is not among the sources; reading
a key that is not there is a fatal error in which the process dies. -/
def child (node : Yaml) (key : Str) : Dec Yaml :=
  match node.find_child key with
  | some c => pure c
  | none => crash

/-- `node.has_child(key)`. -/
def Yaml.has_child (node : Yaml) (key : Str) : Bool := (node.find_child key).isSome

/-- `node.is_seq()`. -/
def Yaml.is_seq : Yaml → Bool
  | .seq _ => true
  | _ => false

/-- `node.is_map()`. -/
def Yaml.is_map : Yaml → Bool
  | .map _ => true
  | _ => false

/-- `node.val()`: the text of a scalar. -/
def val (node : Yaml) : Dec Str :=
  match node with
  | .val s => pure s
  | _ => crash

/-- The value a call returned, if it returned. -/
def Res.value {α : Type} : Res α → Option α
  | .ok a _ => some a
  | _ => none

/-- The state in which a call ended, if the embedding got that far. -/
def Res.state {α : Type} : Res α → Option Globals
  | .ok _ g => some g
  | .exit _ g => some g
  | .crash g => some g
  | .out_of_fuel => none

/-- The status with which `exit` was called, if it was. -/
def Res.exit_code {α : Type} : Res α → Option Int
  | .exit code _ => some code
  | _ => none

/-- The call did not return: the process was terminated (by `exit` or in a library
call). -/
def Res.fatal {α : Type} : Res α → Bool
  | .exit _ _ => true
  | .crash _ => true
  | _ => false

mutual
/-- The keys and scalar texts of an external node, in document order. -/
def Yaml.scalars : Yaml → List Str
  | .val s => [s]
  | .map children => Yaml.scalars_map children
  | .seq children => Yaml.scalars_seq children
/-- The keys and scalar texts of the children of a map. -/
def Yaml.scalars_map : List (Str × Yaml) → List Str
  | [] => []
  | (k, v) :: rest => k :: (v.scalars ++ Yaml.scalars_map rest)
/-- The keys and scalar texts of the children of a sequence. -/
def Yaml.scalars_seq : List Yaml → List Str
  | [] => []
  | v :: rest => v.scalars ++ Yaml.scalars_seq rest
end

/-! ## Generic list codec (cool-tree.cc) -/

/-- `void list_to_yaml(std::list<phylum *> *tree_nodes, ryml::NodeRef *n)`: the
node becomes a sequence and every element, in list order, fills a freshly
appended child. -/
def list_to_yaml {phylum : Type} (to_yaml : phylum → Yaml) (tree_nodes : List phylum) : Yaml :=
  Yaml.seq (tree_nodes.foldl (fun children node => children ++ [to_yaml node]) [])

/-- The loop `for (const ryml::ConstNodeRef yaml_node : n.children())
tree_nodes->push_back(yaml_to_treenode(yaml_node));` of `yaml_to_list`. -/
def yaml_to_list_loop {phylum : Type} (yaml_to_treenode : Yaml → Dec phylum) :
    List Yaml → List phylum → Dec (List phylum)
  | [], tree_nodes => pure tree_nodes
  | yaml_node :: rest, tree_nodes => do
    let t ← yaml_to_treenode yaml_node
    yaml_to_list_loop yaml_to_treenode rest (tree_nodes ++ [t])

/-- `void yaml_to_list(std::list<phylum *> *tree_nodes,
phylum *(*yaml_to_treenode)(ryml::ConstNodeRef const &), const ryml::ConstNodeRef &n)`;
the list is passed in and handed back. -/
def yaml_to_list {phylum : Type} (tree_nodes : List phylum)
    (yaml_to_treenode : Yaml → Dec phylum) (n : Yaml) : Dec (List phylum) :=
  match n with
  | .seq children => yaml_to_list_loop yaml_to_treenode children tree_nodes
  | _ => do
    cerr_text (lit "Unexpected non-sequence from the input yaml\n")
    pure tree_nodes

/-! ## Tree nodes (tree.h, cool-tree.handcode.h, cool-tree.cc) -/

/-- Modelled from the spec: `Boolean` is declared in `cool.h`, which is not among the
sources; the value of a boolean literal, written to the external form as the
integer 0 or 1. -/
abbrev Boolean := Bool

mutual
/-- An `Expression *`: the `line_number` of `tree_node`, the `type` of
`Expression_EXTRAS` (`none` is the `NULL` symbol) and the fields of the concrete
class. -/
inductive Expression where
  | mk (line_number : Int) (type : Option Symbol) (node : Expression_class)
/-- The concrete expression classes, each with the fields `cool-tree.cc` uses. -/
inductive Expression_class where
  | assign_class (name : Symbol) (expr : Expression)
  | static_dispatch_class (expr : Expression) (type_name : Symbol) (name : Symbol)
      (actual : List Expression)
  | dispatch_class (expr : Expression) (name : Symbol) (actual : List Expression)
  | cond_class (pred : Expression) (then_exp : Expression) (else_exp : Expression)
  | loop_class (pred : Expression) (body : Expression)
  | typcase_class (expr : Expression) (cases : List Case)
  | block_class (body : List Expression)
  | let_class (identifier : Symbol) (type_decl : Symbol) (init : Expression) (body : Expression)
  | plus_class (e1 : Expression) (e2 : Expression)
  | sub_class (e1 : Expression) (e2 : Expression)
  | mul_class (e1 : Expression) (e2 : Expression)
  | divide_class (e1 : Expression) (e2 : Expression)
  | neg_class (e1 : Expression)
  | lt_class (e1 : Expression) (e2 : Expression)
  | eq_class (e1 : Expression) (e2 : Expression)
  | leq_class (e1 : Expression) (e2 : Expression)
  | comp_class (e1 : Expression)
  | int_const_class (token : Symbol)
  | bool_const_class (val : Boolean)
  | string_const_class (token : Symbol)
  | new__class (type_name : Symbol)
  | isvoid_class (e1 : Expression)
  | no_expr_class
  | object_class (name : Symbol)
/-- A `Case *`. -/
inductive Case where
  | branch_class (line_number : Int) (name : Symbol) (type_decl : Symbol) (expr : Expression)
end

/-- A `Formal *`. -/
inductive Formal where
  | formal_class (line_number : Int) (name : Symbol) (type_decl : Symbol)
deriving DecidableEq

/-- A `Feature *`. -/
inductive Feature where
  | method_class (line_number : Int) (name : Symbol) (formals : List Formal)
      (return_type : Symbol) (expr : Expression)
  | attr_class (line_number : Int) (name : Symbol) (type_decl : Symbol) (init : Expression)

/-- A `Class_ *`. -/
inductive Class_ where
  | class__class (line_number : Int) (name : Symbol) (parent : Symbol)
      (features : List Feature) (filename : Symbol)

/-- A `Program *`. -/
inductive Program where
  | program_class (line_number : Int) (classes : List Class_)

/-- `int tree_node::get_line_number() const`, on an expression. -/
def Expression.get_line_number : Expression → Int
  | .mk line_number _ _ => line_number

/-- `Symbol get_type() { return type; }`. -/
def Expression.get_type : Expression → Option Symbol
  | .mk _ type _ => type

/-- `Expression *set_type(Symbol s) { type = s; return this; }`. -/
def Expression.set_type (e : Expression) (s : Option Symbol) : Expression :=
  match e with
  | .mk line_number _ node => .mk line_number s node

/-! ### Encoding -/

/-- The decimal digits of `n`, most significant first, put in front of `ds`; `fuel`
bounds the number of digits. -/
def dec_digits : Nat → Nat → Str → Str
  | 0, _, ds => ds
  | fuel + 1, n, ds =>
    if n / 10 = 0 then (48 + n % 10) :: ds else dec_digits fuel (n / 10) ((48 + n % 10) :: ds)

/-- `<<` of an `int` into a ryml node, and the `%d` conversion of `snprintf`: its
decimal text, with a minus sign when negative. -/
def int_to_chars (i : Int) : Str :=
  if i < 0 then 45 :: dec_digits (i.natAbs + 1) i.natAbs [] else dec_digits (i.natAbs + 1) i.natAbs []

/-- `void emit_lineno(tree_node const *t, ryml::NodeRef *n)`: the child appended. -/
def emit_lineno (line_number : Int) : Str × Yaml := (lit "lineno", Yaml.val (int_to_chars line_number))

/-- `void emit_type(Expression const *e, ryml::NodeRef *n)`: the child appended. -/
def emit_type (type : Option Symbol) : Str × Yaml :=
  match type with
  | some t => (lit "type", Yaml.val t.entry.get_string)
  | none => (lit "type", Yaml.val (lit "_no_type"))

/-- `<<` of a `Boolean` into a ryml node. -/
def Boolean_to_chars (b : Boolean) : Str := if b then lit "1" else lit "0"

mutual
/-- `to_yaml` of the expression classes: `*n |= ryml::MAP; emit_lineno(this, n);
emit_type(this, n);` and then the children the class appends. -/
def Expression.to_yaml : Expression → Yaml
  | .mk line_number type node =>
    Yaml.map (emit_lineno line_number :: emit_type type :: Expression_class.to_yaml_rest node)
/-- What `to_yaml` of each expression class appends after `lineno` and `type`. -/
def Expression_class.to_yaml_rest : Expression_class → List (Str × Yaml)
  | .assign_class name expr =>
    [(lit "class", .val (lit "assign")), (lit "name", .val name.entry.get_string),
     (lit "expr", expr.to_yaml)]
  | .static_dispatch_class expr type_name name actual =>
    [(lit "class", .val (lit "static_dispatch")), (lit "expr", expr.to_yaml),
     (lit "type_name", .val type_name.entry.get_string), (lit "name", .val name.entry.get_string),
     (lit "actual", .seq (Expressions_to_yaml actual))]
  | .dispatch_class expr name actual =>
    [(lit "class", .val (lit "dispatch")), (lit "expr", expr.to_yaml),
     (lit "name", .val name.entry.get_string), (lit "actual", .seq (Expressions_to_yaml actual))]
  | .cond_class pred then_exp else_exp =>
    [(lit "class", .val (lit "cond")), (lit "pred", pred.to_yaml),
     (lit "then_exp", then_exp.to_yaml), (lit "else_exp", else_exp.to_yaml)]
  | .loop_class pred body =>
    [(lit "class", .val (lit "loop")), (lit "pred", pred.to_yaml), (lit "body", body.to_yaml)]
  | .typcase_class expr cases =>
    [(lit "class", .val (lit "typcase")), (lit "expr", expr.to_yaml),
     (lit "cases", .seq (Cases_to_yaml cases))]
  | .block_class body =>
    [(lit "class", .val (lit "block")), (lit "body", .seq (Expressions_to_yaml body))]
  | .let_class identifier type_decl init body =>
    [(lit "class", .val (lit "let")), (lit "identifier", .val identifier.entry.get_string),
     (lit "type_decl", .val type_decl.entry.get_string), (lit "init", init.to_yaml),
     (lit "body", body.to_yaml)]
  | .plus_class e1 e2 =>
    [(lit "class", .val (lit "plus")), (lit "e1", e1.to_yaml), (lit "e2", e2.to_yaml)]
  | .sub_class e1 e2 =>
    [(lit "class", .val (lit "sub")), (lit "e1", e1.to_yaml), (lit "e2", e2.to_yaml)]
  | .mul_class e1 e2 =>
    [(lit "class", .val (lit "mul")), (lit "e1", e1.to_yaml), (lit "e2", e2.to_yaml)]
  | .divide_class e1 e2 =>
    [(lit "class", .val (lit "divide")), (lit "e1", e1.to_yaml), (lit "e2", e2.to_yaml)]
  | .neg_class e1 => [(lit "class", .val (lit "neg")), (lit "e1", e1.to_yaml)]
  | .lt_class e1 e2 =>
    [(lit "class", .val (lit "lt")), (lit "e1", e1.to_yaml), (lit "e2", e2.to_yaml)]
  | .eq_class e1 e2 =>
    [(lit "class", .val (lit "eq")), (lit "e1", e1.to_yaml), (lit "e2", e2.to_yaml)]
  | .leq_class e1 e2 =>
    [(lit "class", .val (lit "leq")), (lit "e1", e1.to_yaml), (lit "e2", e2.to_yaml)]
  | .comp_class e1 => [(lit "class", .val (lit "comp")), (lit "e1", e1.to_yaml)]
  | .int_const_class token =>
    [(lit "class", .val (lit "int_const")), (lit "token", .val token.entry.get_string)]
  | .bool_const_class val =>
    [(lit "class", .val (lit "bool_const")), (lit "val", .val (Boolean_to_chars val))]
  | .string_const_class token =>
    [(lit "class", .val (lit "string_const")), (lit "token", .val token.entry.get_string)]
  | .new__class type_name =>
    [(lit "class", .val (lit "new_")), (lit "type_name", .val type_name.entry.get_string)]
  | .isvoid_class e1 => [(lit "class", .val (lit "isvoid")), (lit "e1", e1.to_yaml)]
  | .no_expr_class => [(lit "class", .val (lit "no_expr"))]
  | .object_class name =>
    [(lit "class", .val (lit "object")), (lit "name", .val name.entry.get_string)]
/-- The children `list_to_yaml<Expression>` appends, spelled out so that the
recursion is structural (`Expressions_to_yaml_eq` relates it to `list_to_yaml`). -/
def Expressions_to_yaml : List Expression → List Yaml
  | [] => []
  | e :: es => e.to_yaml :: Expressions_to_yaml es
/-- `void branch_class::to_yaml(ryml::NodeRef *n) const`. -/
def Case.to_yaml : Case → Yaml
  | .branch_class line_number name type_decl expr =>
    Yaml.map [emit_lineno line_number, (lit "class", .val (lit "branch")),
      (lit "name", .val name.entry.get_string),
      (lit "type_decl", .val type_decl.entry.get_string), (lit "expr", expr.to_yaml)]
/-- The children `list_to_yaml<Case>` appends, spelled out so that the recursion is
structural (`Cases_to_yaml_eq` relates it to `list_to_yaml`). -/
def Cases_to_yaml : List Case → List Yaml
  | [] => []
  | c :: cs => c.to_yaml :: Cases_to_yaml cs
end

/-- `void formal_class::to_yaml(ryml::NodeRef *n) const`. -/
def Formal.to_yaml : Formal → Yaml
  | .formal_class line_number name type_decl =>
    Yaml.map [emit_lineno line_number, (lit "class", .val (lit "formal")),
      (lit "name", .val name.entry.get_string),
      (lit "type_decl", .val type_decl.entry.get_string)]

/-- `void method_class::to_yaml` and `void attr_class::to_yaml`. -/
def Feature.to_yaml : Feature → Yaml
  | .method_class line_number name formals return_type expr =>
    Yaml.map [emit_lineno line_number, (lit "class", .val (lit "method")),
      (lit "name", .val name.entry.get_string),
      (lit "formals", list_to_yaml Formal.to_yaml formals),
      (lit "return_type", .val return_type.entry.get_string), (lit "expr", expr.to_yaml)]
  | .attr_class line_number name type_decl init =>
    Yaml.map [emit_lineno line_number, (lit "class", .val (lit "attr")),
      (lit "name", .val name.entry.get_string),
      (lit "type_decl", .val type_decl.entry.get_string), (lit "init", init.to_yaml)]

/-- `void class__class::to_yaml(ryml::NodeRef *n) const`. -/
def Class_.to_yaml : Class_ → Yaml
  | .class__class line_number name parent features filename =>
    Yaml.map [emit_lineno line_number, (lit "class", .val (lit "class_")),
      (lit "name", .val name.entry.get_string), (lit "parent", .val parent.entry.get_string),
      (lit "features", list_to_yaml Feature.to_yaml features),
      (lit "filename", .val filename.entry.get_string)]

/-- `void program_class::to_yaml(ryml::NodeRef *n) const`. -/
def Program.to_yaml : Program → Yaml
  | .program_class line_number classes =>
    Yaml.map [emit_lineno line_number, (lit "class", .val (lit "program")),
      (lit "classes", list_to_yaml Class_.to_yaml classes)]

/-! ### Node constructors -/

/-- Modelled from the spec: `tree_node::tree_node()` is defined in `tree.cc`, which is
not among the sources; a node captures its line number at construction from the
ambient current line, the `node_lineno` that the decoders of `cool-tree.cc` set
and restore around their children. The inferred type starts as `NULL`
(`Expression() { type = (Symbol)NULL; }`). -/
def new_Expression (node : Expression_class) : Dec Expression :=
  fun g => .ok (.mk g.node_lineno none node) g

/-- `Expression *assign(Symbol name, Expression *expr)`. -/
def assign (name : Symbol) (expr : Expression) : Dec Expression :=
  new_Expression (.assign_class name expr)
/-- `Expression *static_dispatch(...)`. -/
def static_dispatch (expr : Expression) (type_name name : Symbol) (actual : List Expression) :
    Dec Expression := new_Expression (.static_dispatch_class expr type_name name actual)
/-- `Expression *dispatch(...)`. -/
def dispatch (expr : Expression) (name : Symbol) (actual : List Expression) : Dec Expression :=
  new_Expression (.dispatch_class expr name actual)
/-- `Expression *cond(...)`. -/
def cond (pred then_exp else_exp : Expression) : Dec Expression :=
  new_Expression (.cond_class pred then_exp else_exp)
/-- `Expression *loop(...)`. -/
def loop (pred body : Expression) : Dec Expression := new_Expression (.loop_class pred body)
/-- `Expression *typcase(...)`. -/
def typcase (expr : Expression) (cases : List Case) : Dec Expression :=
  new_Expression (.typcase_class expr cases)
/-- `Expression *block(Expressions body)`. -/
def block (body : List Expression) : Dec Expression := new_Expression (.block_class body)
/-- `Expression *let(...)`. -/
def let_ (identifier type_decl : Symbol) (init body : Expression) : Dec Expression :=
  new_Expression (.let_class identifier type_decl init body)
/-- `Expression *plus(...)`. -/
def plus (e1 e2 : Expression) : Dec Expression := new_Expression (.plus_class e1 e2)
/-- `Expression *sub(...)`. -/
def sub (e1 e2 : Expression) : Dec Expression := new_Expression (.sub_class e1 e2)
/-- `Expression *mul(...)`. -/
def mul (e1 e2 : Expression) : Dec Expression := new_Expression (.mul_class e1 e2)
/-- `Expression *divide(...)`. -/
def divide (e1 e2 : Expression) : Dec Expression := new_Expression (.divide_class e1 e2)
/-- `Expression *neg(...)`. -/
def neg (e1 : Expression) : Dec Expression := new_Expression (.neg_class e1)
/-- `Expression *lt(...)`. -/
def lt (e1 e2 : Expression) : Dec Expression := new_Expression (.lt_class e1 e2)
/-- `Expression *eq(...)`. -/
def eq (e1 e2 : Expression) : Dec Expression := new_Expression (.eq_class e1 e2)
/-- `Expression *leq(...)`. -/
def leq (e1 e2 : Expression) : Dec Expression := new_Expression (.leq_class e1 e2)
/-- `Expression *comp(...)`. -/
def comp (e1 : Expression) : Dec Expression := new_Expression (.comp_class e1)
/-- `Expression *int_const(Symbol token)`. -/
def int_const (token : Symbol) : Dec Expression := new_Expression (.int_const_class token)
/-- `Expression *bool_const(Boolean val)`. -/
def bool_const (val : Boolean) : Dec Expression := new_Expression (.bool_const_class val)
/-- `Expression *string_const(Symbol token)`. -/
def string_const (token : Symbol) : Dec Expression := new_Expression (.string_const_class token)
/-- `Expression *new_(Symbol type_name)`. -/
def new_ (type_name : Symbol) : Dec Expression := new_Expression (.new__class type_name)
/-- `Expression *isvoid(Expression *e1)`. -/
def isvoid (e1 : Expression) : Dec Expression := new_Expression (.isvoid_class e1)
/-- `Expression *no_expr()`. -/
def no_expr : Dec Expression := new_Expression .no_expr_class
/-- `Expression *object(Symbol name)`. -/
def object (name : Symbol) : Dec Expression := new_Expression (.object_class name)

/-- `Case *branch(Symbol name, Symbol type_decl, Expression *expr)`; the line number
is captured as in `new_Expression`. -/
def branch (name type_decl : Symbol) (expr : Expression) : Dec Case :=
  fun g => .ok (.branch_class g.node_lineno name type_decl expr) g

/-- `Formal *formal(Symbol name, Symbol type_decl)`. -/
def formal (name type_decl : Symbol) : Dec Formal :=
  fun g => .ok (.formal_class g.node_lineno name type_decl) g

/-- `Feature *method(...)`. -/
def method (name : Symbol) (formals : List Formal) (return_type : Symbol) (expr : Expression) :
    Dec Feature := fun g => .ok (.method_class g.node_lineno name formals return_type expr) g

/-- `Feature *attr(...)`. -/
def attr (name type_decl : Symbol) (init : Expression) : Dec Feature :=
  fun g => .ok (.attr_class g.node_lineno name type_decl init) g

/-- `Class_ *class_(Symbol name, Symbol parent, Features features, Symbol filename)`. -/
def class_ (name parent : Symbol) (features : List Feature) (filename : Symbol) : Dec Class_ :=
  fun g => .ok (.class__class g.node_lineno name parent features filename) g

/-- `Program *program(Classes classes)`. -/
def program (classes : List Class_) : Dec Program :=
  fun g => .ok (.program_class g.node_lineno classes) g

/-! ### Decoding -/

/-- `s->c_str()` handed to a `std::string` parameter: the bytes before the first
NUL byte. -/
def c_str (s : Str) : Str := s.takeWhile (fun b => decide (b ≠ 0))

/-- `std::string *get_string_val(ryml::ConstNodeRef const &node)`. -/
def get_string_val (node : Yaml) : Dec Str := val node

/-- `void fail()`: `fprintf(stderr, "failed\n"); exit(1);`. -/
def fail {α : Type} : Dec α :=
  fun g => .exit 1 { g with cerr := g.cerr ++ [Output.text (lit "failed\n")] }

/-- `isspace` of `<ctype.h>` in the C locale. -/
def isspace (c : Nat) : Bool := decide (c = 32 ∨ (9 ≤ c ∧ c ≤ 13))

/-- `isdigit` of `<ctype.h>`. -/
def isdigit (c : Nat) : Bool := decide (48 ≤ c ∧ c ≤ 57)

/-- `std::stoi(s)`: leading white space is skipped, an optional sign and then the
longest run of decimal digits is read; `none` is the exception thrown when there
is no digit or the value does not fit an `int`. -/
def stoi (s : Str) : Option Int :=
  let s1 := s.dropWhile isspace
  let negative := decide (s1.head? = some 45)
  let s2 := if s1.head? = some 45 ∨ s1.head? = some 43 then s1.tail else s1
  let digits := s2.takeWhile isdigit
  if digits = [] then none
  else
    let n : Nat := digits.foldl (fun acc d => acc * 10 + (d - 48)) 0
    let v : Int := if negative then -(n : Int) else (n : Int)
    if -2147483648 ≤ v ∧ v ≤ 2147483647 then some v else none

/-- `int set_lineno(ryml::ConstNodeRef const &node)`. -/
def set_lineno (node : Yaml) : Dec Int := do
  let prev_lineno ← (fun g => Res.ok g.node_lineno g : Dec Int)
  let text ← get_string_val (← child node (lit "lineno"))
  match stoi text with
  | some v => fun g => .ok prev_lineno { g with node_lineno := v }
  | none => crash

/-- The assignment `node_lineno = prev_lineno;`. -/
def restore_lineno (prev_lineno : Int) : Dec Unit :=
  fun g => .ok () { g with node_lineno := prev_lineno }

/-- `idtable.add_string(s)`. -/
def idtable_add_string (s : Str) : Dec Symbol :=
  fun g => .ok (g.idtable.add_string s).1 { g with idtable := (g.idtable.add_string s).2 }

/-- `inttable.add_string(s)`. -/
def inttable_add_string (s : Str) : Dec Symbol :=
  fun g => .ok (g.inttable.add_string s).1 { g with inttable := (g.inttable.add_string s).2 }

/-- `stringtable.add_string(s)`. -/
def stringtable_add_string (s : Str) : Dec Symbol :=
  fun g => .ok (g.stringtable.add_string s).1
    { g with stringtable := (g.stringtable.add_string s).2 }

/-- The fuel of the embedding ran out. -/
def out_of_fuel {α : Type} : Dec α := fun _ => .out_of_fuel

mutual
/-- `Expression *yaml_to_expression(ryml::ConstNodeRef const &node)`; `fuel` bounds
the nesting depth of the calls. -/
def yaml_to_expression : Nat → Yaml → Dec Expression
  | 0, _ => out_of_fuel
  | fuel + 1, node => do
    let tree_node_class ← get_string_val (← child node (lit "class"))
    let prev_lineno ← set_lineno node
    let expression : Option Expression ←
      if tree_node_class = lit "assign" then do
        let name ← idtable_add_string (c_str (← get_string_val (← child node (lit "name"))))
        let expr ← yaml_to_expression fuel (← child node (lit "expr"))
        some <$> assign name expr
      else if tree_node_class = lit "static_dispatch" then do
        let expr ← yaml_to_expression fuel (← child node (lit "expr"))
        let type_name ← idtable_add_string (c_str (← get_string_val (← child node (lit "type_name"))))
        let name ← idtable_add_string (c_str (← get_string_val (← child node (lit "name"))))
        let actual ← yaml_to_list [] (yaml_to_expression fuel) (← child node (lit "actual"))
        some <$> static_dispatch expr type_name name actual
      else if tree_node_class = lit "dispatch" then do
        let expr ← yaml_to_expression fuel (← child node (lit "expr"))
        let name ← idtable_add_string (c_str (← get_string_val (← child node (lit "name"))))
        let actual ← yaml_to_list [] (yaml_to_expression fuel) (← child node (lit "actual"))
        some <$> dispatch expr name actual
      else if tree_node_class = lit "cond" then do
        let pred ← yaml_to_expression fuel (← child node (lit "pred"))
        let then_exp ← yaml_to_expression fuel (← child node (lit "then_exp"))
        let else_exp ← yaml_to_expression fuel (← child node (lit "else_exp"))
        some <$> cond pred then_exp else_exp
      else if tree_node_class = lit "loop" then do
        let pred ← yaml_to_expression fuel (← child node (lit "pred"))
        let body ← yaml_to_expression fuel (← child node (lit "body"))
        some <$> loop pred body
      else if tree_node_class = lit "typcase" then do
        let expr ← yaml_to_expression fuel (← child node (lit "expr"))
        let cases ← yaml_to_list [] (yaml_to_case fuel) (← child node (lit "cases"))
        some <$> typcase expr cases
      else if tree_node_class = lit "block" then do
        let body ← yaml_to_list [] (yaml_to_expression fuel) (← child node (lit "body"))
        some <$> block body
      else if tree_node_class = lit "let" then do
        let identifier ← idtable_add_string (c_str (← get_string_val (← child node (lit "identifier"))))
        let type_decl ← idtable_add_string (c_str (← get_string_val (← child node (lit "type_decl"))))
        let init ← yaml_to_expression fuel (← child node (lit "init"))
        let body ← yaml_to_expression fuel (← child node (lit "body"))
        some <$> let_ identifier type_decl init body
      else if tree_node_class = lit "plus" then do
        let e1 ← yaml_to_expression fuel (← child node (lit "e1"))
        let e2 ← yaml_to_expression fuel (← child node (lit "e2"))
        some <$> plus e1 e2
      else if tree_node_class = lit "sub" then do
        let e1 ← yaml_to_expression fuel (← child node (lit "e1"))
        let e2 ← yaml_to_expression fuel (← child node (lit "e2"))
        some <$> sub e1 e2
      else if tree_node_class = lit "mul" then do
        let e1 ← yaml_to_expression fuel (← child node (lit "e1"))
        let e2 ← yaml_to_expression fuel (← child node (lit "e2"))
        some <$> mul e1 e2
      else if tree_node_class = lit "divide" then do
        let e1 ← yaml_to_expression fuel (← child node (lit "e1"))
        let e2 ← yaml_to_expression fuel (← child node (lit "e2"))
        some <$> divide e1 e2
      else if tree_node_class = lit "neg" then do
        let e1 ← yaml_to_expression fuel (← child node (lit "e1"))
        some <$> neg e1
      else if tree_node_class = lit "lt" then do
        let e1 ← yaml_to_expression fuel (← child node (lit "e1"))
        let e2 ← yaml_to_expression fuel (← child node (lit "e2"))
        some <$> lt e1 e2
      else if tree_node_class = lit "eq" then do
        let e1 ← yaml_to_expression fuel (← child node (lit "e1"))
        let e2 ← yaml_to_expression fuel (← child node (lit "e2"))
        some <$> eq e1 e2
      else if tree_node_class = lit "leq" then do
        let e1 ← yaml_to_expression fuel (← child node (lit "e1"))
        let e2 ← yaml_to_expression fuel (← child node (lit "e2"))
        some <$> leq e1 e2
      else if tree_node_class = lit "comp" then do
        let e1 ← yaml_to_expression fuel (← child node (lit "e1"))
        some <$> comp e1
      else if tree_node_class = lit "int_const" then do
        let token ← inttable_add_string (c_str (← get_string_val (← child node (lit "token"))))
        some <$> int_const token
      else if tree_node_class = lit "bool_const" then do
        let val := decide ((← val (← child node (lit "val"))) = lit "1")
        some <$> bool_const val
      else if tree_node_class = lit "string_const" then do
        let token ← stringtable_add_string (c_str (← get_string_val (← child node (lit "token"))))
        some <$> string_const token
      else if tree_node_class = lit "isvoid" then do
        let e1 ← yaml_to_expression fuel (← child node (lit "e1"))
        some <$> isvoid e1
      else if tree_node_class = lit "new_" then do
        let type_name ← idtable_add_string (c_str (← get_string_val (← child node (lit "type_name"))))
        some <$> new_ type_name
      else if tree_node_class = lit "no_expr" then do
        some <$> no_expr
      else if tree_node_class = lit "object" then do
        let name ← idtable_add_string (c_str (← get_string_val (← child node (lit "name"))))
        some <$> object name
      else pure none
    restore_lineno prev_lineno
    match expression with
    | none => do
      cerr_text (lit "Invalid class: ")
      cerr_pointer                       -- `<< tree_node_class`, a `std::string *`
      cerr_text (lit "\n")
      fail
    | some expression => do
      let type ← idtable_add_string (c_str (← get_string_val (← child node (lit "type"))))
      pure (expression.set_type (some type))
/-- `Case *yaml_to_case(ryml::ConstNodeRef const &node)`. -/
def yaml_to_case : Nat → Yaml → Dec Case
  | 0, _ => out_of_fuel
  | fuel + 1, node => do
    let tree_node_class ← get_string_val (← child node (lit "class"))
    let prev_lineno ← set_lineno node
    let branch_obj : Option Case ←
      if tree_node_class = lit "branch" then do
        let name ← idtable_add_string (c_str (← get_string_val (← child node (lit "name"))))
        let type_decl ←
          idtable_add_string (c_str (← get_string_val (← child node (lit "type_decl"))))
        let expr ← yaml_to_expression fuel (← child node (lit "expr"))
        some <$> branch name type_decl expr
      else pure none
    restore_lineno prev_lineno
    match branch_obj with
    | none => fail
    | some branch_obj => pure branch_obj
end

/-- `Formal *yaml_to_formal(ryml::ConstNodeRef const &node)`. -/
def yaml_to_formal (node : Yaml) : Dec Formal := do
  let tree_node_class ← get_string_val (← child node (lit "class"))
  let prev_lineno ← set_lineno node
  let formal_obj : Option Formal ←
    if tree_node_class = lit "formal" then do
      let name ← idtable_add_string (c_str (← get_string_val (← child node (lit "name"))))
      let type_decl ←
        idtable_add_string (c_str (← get_string_val (← child node (lit "type_decl"))))
      some <$> formal name type_decl
    else pure none
  restore_lineno prev_lineno
  match formal_obj with
  | none => fail
  | some formal_obj => pure formal_obj

/-- `Feature *yaml_to_feature(ryml::ConstNodeRef const &node)`; `fuel` is handed to
`yaml_to_expression`. -/
def yaml_to_feature (fuel : Nat) (node : Yaml) : Dec Feature := do
  let tree_node_class ← get_string_val (← child node (lit "class"))
  let prev_lineno ← set_lineno node
  let feature : Option Feature ←
    if tree_node_class = lit "method" then do
      let name ← idtable_add_string (c_str (← get_string_val (← child node (lit "name"))))
      let formals ← yaml_to_list [] yaml_to_formal (← child node (lit "formals"))
      let return_type ←
        idtable_add_string (c_str (← get_string_val (← child node (lit "return_type"))))
      let expr ← yaml_to_expression fuel (← child node (lit "expr"))
      some <$> method name formals return_type expr
    else if tree_node_class = lit "attr" then do
      let name ← idtable_add_string (c_str (← get_string_val (← child node (lit "name"))))
      let type_decl ←
        idtable_add_string (c_str (← get_string_val (← child node (lit "type_decl"))))
      let init ← yaml_to_expression fuel (← child node (lit "init"))
      some <$> attr name type_decl init
    else pure none
  restore_lineno prev_lineno
  match feature with
  | none => fail
  | some feature => pure feature

/-- `Class_ *yaml_to_class_(ryml::ConstNodeRef const &node)`. -/
def yaml_to_class_ (fuel : Nat) (node : Yaml) : Dec Class_ := do
  let tree_node_class ← get_string_val (← child node (lit "class"))
  let prev_lineno ← set_lineno node
  let class_obj : Option Class_ ←
    if tree_node_class = lit "class_" then do
      let name ← idtable_add_string (c_str (← get_string_val (← child node (lit "name"))))
      let parent ← idtable_add_string (c_str (← get_string_val (← child node (lit "parent"))))
      let features ← yaml_to_list [] (yaml_to_feature fuel) (← child node (lit "features"))
      let filename ←
        stringtable_add_string (c_str (← get_string_val (← child node (lit "filename"))))
      some <$> class_ name parent features filename
    else pure none
  restore_lineno prev_lineno
  match class_obj with
  | none => fail
  | some class_obj => pure class_obj

/-- `Program *yaml_to_program(ryml::ConstNodeRef const &node)`. -/
def yaml_to_program (fuel : Nat) (node : Yaml) : Dec Program := do
  let tree_node_class ← get_string_val (← child node (lit "class"))
  let prev_lineno ← set_lineno node
  let program_obj : Option Program ←
    if tree_node_class = lit "program" then do
      let classes ← yaml_to_list [] (yaml_to_class_ fuel) (← child node (lit "classes"))
      some <$> program classes
    else pure none
  restore_lineno prev_lineno
  match program_obj with
  | none => fail
  | some program_obj => pure program_obj

/-- The class tags `yaml_to_expression` accepts, in the order it tests them. -/
def expression_tags : List Str :=
  [lit "assign", lit "static_dispatch", lit "dispatch", lit "cond", lit "loop", lit "typcase",
   lit "block", lit "let", lit "plus", lit "sub", lit "mul", lit "divide", lit "neg", lit "lt",
   lit "eq", lit "leq", lit "comp", lit "int_const", lit "bool_const", lit "string_const",
   lit "isvoid", lit "new_", lit "no_expr", lit "object"]

/-- What `fail()` writes to the error stream. -/
def cerr_failed : List Output := [Output.text (lit "failed\n")]

/-- What `yaml_to_expression` writes to the error stream for a tag it does not
know: the text `Invalid class: `, the address held by `tree_node_class` (a
`std::string *`), the end of line, and then the line of `fail()`. -/
def cerr_invalid_class : List Output :=
  [Output.text (lit "Invalid class: "), Output.pointer, Output.text (lit "\n"),
   Output.text (lit "failed\n")]

/-! ### Well-formed trees and the specification of a decoding step -/

/-- The values of an `int`. -/
def int_range (i : Int) : Bool := decide (-2147483648 ≤ i ∧ i ≤ 2147483647)

/-- The text of the symbol has no NUL byte. -/
def nul_free (s : Symbol) : Bool := decide (0 ∉ s.entry.str)

/-- The inferred type is unset or its text has no NUL byte. -/
def type_nul_free : Option Symbol → Bool
  | none => true
  | some s => nul_free s

mutual
/-- Every line number of the expression is an `int` and no symbol text in it (names,
tokens, set types) has a NUL byte. -/
def Expression.wf : Expression → Bool
  | .mk line_number type node => int_range line_number && type_nul_free type && node.wf
/-- The fields of the class are well formed (see `Expression.wf`). -/
def Expression_class.wf : Expression_class → Bool
  | .assign_class name expr => nul_free name && expr.wf
  | .static_dispatch_class expr type_name name actual =>
    expr.wf && nul_free type_name && nul_free name && Expressions_wf actual
  | .dispatch_class expr name actual => expr.wf && nul_free name && Expressions_wf actual
  | .cond_class pred then_exp else_exp => pred.wf && then_exp.wf && else_exp.wf
  | .loop_class pred body => pred.wf && body.wf
  | .typcase_class expr cases => expr.wf && Cases_wf cases
  | .block_class body => Expressions_wf body
  | .let_class identifier type_decl init body =>
    nul_free identifier && nul_free type_decl && init.wf && body.wf
  | .plus_class e1 e2 => e1.wf && e2.wf
  | .sub_class e1 e2 => e1.wf && e2.wf
  | .mul_class e1 e2 => e1.wf && e2.wf
  | .divide_class e1 e2 => e1.wf && e2.wf
  | .neg_class e1 => e1.wf
  | .lt_class e1 e2 => e1.wf && e2.wf
  | .eq_class e1 e2 => e1.wf && e2.wf
  | .leq_class e1 e2 => e1.wf && e2.wf
  | .comp_class e1 => e1.wf
  | .int_const_class token => nul_free token
  | .bool_const_class _ => true
  | .string_const_class token => nul_free token
  | .new__class type_name => nul_free type_name
  | .isvoid_class e1 => e1.wf
  | .no_expr_class => true
  | .object_class name => nul_free name
/-- Every expression of the list is well formed. -/
def Expressions_wf : List Expression → Bool
  | [] => true
  | e :: es => e.wf && Expressions_wf es
/-- The branch is well formed (see `Expression.wf`). -/
def Case.wf : Case → Bool
  | .branch_class line_number name type_decl expr =>
    int_range line_number && nul_free name && nul_free type_decl && expr.wf
/-- Every branch of the list is well formed. -/
def Cases_wf : List Case → Bool
  | [] => true
  | c :: cs => c.wf && Cases_wf cs
end

/-- The formal is well formed (see `Expression.wf`). -/
def Formal.wf : Formal → Bool
  | .formal_class line_number name type_decl =>
    int_range line_number && nul_free name && nul_free type_decl

/-- The feature is well formed (see `Expression.wf`). -/
def Feature.wf : Feature → Bool
  | .method_class line_number name formals return_type expr =>
    int_range line_number && nul_free name && formals.all Formal.wf && nul_free return_type &&
      expr.wf
  | .attr_class line_number name type_decl init =>
    int_range line_number && nul_free name && nul_free type_decl && init.wf

/-- The class is well formed (see `Expression.wf`). -/
def Class_.wf : Class_ → Bool
  | .class__class line_number name parent features filename =>
    int_range line_number && nul_free name && nul_free parent && features.all Feature.wf &&
      nul_free filename

/-- Every line number of the program is an `int` and no symbol text in it has a NUL
byte. -/
def Program.wf : Program → Bool
  | .program_class line_number classes => int_range line_number && classes.all Class_.wf

/-- The text of a type field in the external form: the text of the symbol, or the
sentinel when it is `NULL` (the two branches of `emit_type`). -/
def type_text : Option Symbol → Str
  | some t => t.entry.str
  | none => lit "_no_type"

/-- The part of the state a decoder hands back as it found it: the ambient
`node_lineno` is `n` and the error stream holds `c`. -/
def Inv (n : Int) (c : List Output) (g : Globals) : Prop := g.node_lineno = n ∧ g.cerr = c

/-- Total correctness of a computation: from every state satisfying `P` it returns,
with a value and a state satisfying `Q`. -/
def Triple {α : Type} (P : Globals → Prop) (x : Dec α) (Q : α → Globals → Prop) : Prop :=
  ∀ g, P g → ∃ a g', x g = Res.ok a g' ∧ Q a g'

/-- Partial correctness of a computation: whenever it returns, the value and the
state satisfy `Q`. -/
def Post {α : Type} (x : Dec α) (Q : α → Globals → Prop) : Prop :=
  ∀ g a g', x g = Res.ok a g' → Q a g'

/-! ## Token stream adapter (parser-adapter.cc, utilities.h) -/

/-- `#define YYEOF 0`. -/
def YYEOF : Int := 0

/-- `#define YYerror 256`. -/
def YYerror : Int := 256

/-- The token codes of `cool-parse.h`, which is not among the sources: they are a
parameter of the adapter. -/
structure cool_parse where
  CLASS : Int
  ELSE : Int
  FI : Int
  IF : Int
  IN : Int
  INHERITS : Int
  LET : Int
  LOOP : Int
  POOL : Int
  THEN : Int
  WHILE : Int
  ASSIGN : Int
  CASE : Int
  ESAC : Int
  OF : Int
  DARROW : Int
  NEW : Int
  STR_CONST : Int
  INT_CONST : Int
  BOOL_CONST : Int
  TYPEID : Int
  OBJECTID : Int
  ERROR : Int
  LE : Int
  NOT : Int
  ISVOID : Int

/-- `static const std::unordered_map<std::string, int> string_to_cool_token`
(utilities.h), as its initializer list; the keys are pairwise distinct. The
codes of the one-character tokens are their character codes. -/
def string_to_cool_token (P : cool_parse) : List (Str × Int) :=
  [(lit "EOF", 0), (lit "CLASS", P.CLASS), (lit "ELSE", P.ELSE), (lit "FI", P.FI),
   (lit "IF", P.IF), (lit "IN", P.IN), (lit "INHERITS", P.INHERITS), (lit "LET", P.LET),
   (lit "LOOP", P.LOOP), (lit "POOL", P.POOL), (lit "THEN", P.THEN), (lit "WHILE", P.WHILE),
   (lit "ASSIGN", P.ASSIGN), (lit "CASE", P.CASE), (lit "ESAC", P.ESAC), (lit "OF", P.OF),
   (lit "DARROW", P.DARROW), (lit "NEW", P.NEW), (lit "STR_CONST", P.STR_CONST),
   (lit "INT_CONST", P.INT_CONST), (lit "BOOL_CONST", P.BOOL_CONST), (lit "TYPEID", P.TYPEID),
   (lit "OBJECTID", P.OBJECTID), (lit "ERROR", P.ERROR), (lit "LE", P.LE), (lit "NOT", P.NOT),
   (lit "ISVOID", P.ISVOID), (lit "+", 43), (lit "/", 47), (lit "-", 45), (lit "*", 42),
   (lit "=", 61), (lit "<", 60), (lit ".", 46), (lit "~", 126), (lit ",", 44), (lit ";", 59),
   (lit ":", 58), (lit "(", 40), (lit ")", 41), (lit "@", 64), ([123], 123), ([125], 125)]

/-- `string_to_cool_token.find(str_kind)`. -/
def find_cool_token (P : cool_parse) (str_kind : Str) : Option Int :=
  ((string_to_cool_token P).find? (fun kv => decide (kv.1 = str_kind))).map Prod.snd

/-- Modelled from the spec: `struct token` is declared in `cool-yaml.h`, which is not
among the sources; a token has its line (an `unsigned int`), its kind code and
the optional payloads `symbol` and `boolean`. -/
structure token where
  lineno : Nat
  kind : Int
  symbol : Str
  boolean : Bool
deriving DecidableEq, Repr

/-- The local `token tok;` of `cool_yylex` before `node_to_token` fills it. -/
def token.fresh : token := ⟨0, 0, [], false⟩

/-- Modelled from the spec: `YYSTYPE` (the type of `cool_yylval`) is declared in
`cool-parse.h`, which is not among the sources; the adapter stores a symbol or a
boolean in it. -/
inductive YYSTYPE where
  | unset
  | symbol (s : Symbol)
  | boolean (b : Bool)
deriving DecidableEq, Repr

/-- `cerr << pos` for a `size_t`. -/
def size_to_chars (n : Nat) : Str := dec_digits (n + 1) n []

/-- `bool node_to_token(ryml::ConstNodeRef node, token &tok, const size_t pos)`; the
token is handed back with the result. `atou` is `c4::atou<unsigned int>` of the
ryml library (not among the sources): `none` when it returns false. -/
def node_to_token (atou : Str → Option Nat) (P : cool_parse) (node : Yaml) (tok : token)
    (pos : Nat) : Dec (Bool × token) := do
  let lineno_text ← val (← child node (lit "lineno"))
  match atou lineno_text with
  | none => do
    cerr_text (lit "Invalid lineno at token #")
    cerr_text (size_to_chars pos)
    cerr_text (lit "; expected an unsigned number, got ")
    cerr_text lineno_text
    cerr_text (lit "\n")
    pure (false, tok)
  | some n => do
    let tok := { tok with lineno := n % 4294967296 }
    (fun g => Res.ok () { g with curr_lineno := toInt32 tok.lineno } : Dec Unit)
    let str_kind ← val (← child node (lit "kind"))
    match find_cool_token P str_kind with
    | none => do
      cerr_text (lit "Invalid kind at token #")
      cerr_text (size_to_chars pos)
      cerr_text (lit "; expected a kind, got ")
      cerr_text str_kind
      cerr_text (lit "\n")
      pure (false, tok)
    | some c => do
      let tok := { tok with kind := c }
      let tok ← if node.has_child (lit "symbol") then do
          let symbol ← val (← child node (lit "symbol"))
          pure { tok with symbol := symbol }
        else pure tok
      let tok ← if node.has_child (lit "boolean") then do
          let boolean ← val (← child node (lit "boolean"))
          pure { tok with boolean := decide (boolean = lit "true") }
        else pure tok
      pure (true, tok)

/-- `void populate_tables_from_token(const token tok)`: the new value of
`cool_yylval`; `get_unescaped_string` may write to `cerr`. -/
def populate_tables_from_token (P : cool_parse) (tok : token) (yylval : YYSTYPE) :
    Dec YYSTYPE :=
  if tok.kind = P.INT_CONST then do
    pure (YYSTYPE.symbol (← inttable_add_string tok.symbol))
  else if tok.kind = P.STR_CONST then do
    let unescaped := get_unescaped_string_cerr tok.symbol
    (fun g => Res.ok () { g with cerr := g.cerr ++ unescaped.2.map Output.text } : Dec Unit)
    pure (YYSTYPE.symbol (← stringtable_add_string unescaped.1))
  else if tok.kind = P.TYPEID ∨ tok.kind = P.OBJECTID then do
    pure (YYSTYPE.symbol (← idtable_add_string tok.symbol))
  else if tok.kind = P.BOOL_CONST then pure (YYSTYPE.boolean tok.boolean)
  else pure yylval

/-- `node.num_children()`. -/
def Yaml.num_children : Yaml → Nat
  | .val _ => 0
  | .map children => children.length
  | .seq children => children.length

/-- `node[pos]` for a position: the child at that position. -/
def Yaml.child_at : Yaml → Nat → Option Yaml
  | .val _, _ => none
  | .map children, pos => (children[pos]?).map Prod.snd
  | .seq children, pos => children[pos]?

/-- The state `cool_yylex` works on: the process state, the document that
`ryml::parse_in_place` makes of the bytes read from `fin`, the function statics
`init`, `pos`, `token_root` and `filename`, and the globals `curr_filename` and
`cool_yylval`. -/
structure LexState where
  g : Globals
  doc : Yaml
  init : Int
  pos : Nat
  token_root : Yaml
  filename : Str
  curr_filename : Str
  yylval : YYSTYPE

/-- How a call of `cool_yylex` ends: it returns a token code, or the process dies in
a library call whose precondition is violated. -/
inductive LexRes where
  | ret (code : Int) (st : LexState)
  | crash (st : LexState)

/-- The code a call returned, if it returned. -/
def LexRes.code : LexRes → Option Int
  | .ret code _ => some code
  | .crash _ => none

/-- The state a call left. -/
def LexRes.st : LexRes → LexState
  | .ret _ st => st
  | .crash st => st

/-- The part of `cool_yylex` after the `if (init == 0)` block. -/
def cool_yylex_pull (atou : Str → Option Nat) (P : cool_parse) (st : LexState) : LexRes :=
  match st.token_root.find_child (lit "tokens") with
  | none => .crash st
  | some tokens =>
    -- Reached the end of the token stream
    if st.pos = tokens.num_children then .ret YYEOF st
    else
      match tokens.child_at st.pos with
      | none => .crash st
      | some node =>
        match node_to_token atou P node token.fresh st.pos st.g with
        | .ok (false, _) g1 => .ret YYerror { st with g := g1, pos := st.pos + 1 }
        | .ok (true, tok) g1 =>
          match populate_tables_from_token P tok st.yylval g1 with
          | .ok yylval g2 => .ret tok.kind { st with g := g2, pos := st.pos + 1, yylval := yylval }
          | .exit _ g2 => .crash { st with g := g2, pos := st.pos + 1 }
          | .crash g2 => .crash { st with g := g2, pos := st.pos + 1 }
          | .out_of_fuel => .crash { st with pos := st.pos + 1 }
        | .exit _ g1 => .crash { st with g := g1 }
        | .crash g1 => .crash { st with g := g1 }
        | .out_of_fuel => .crash st

/-- `int cool_yylex(void)`. On the first call the bytes of `fin` are read and
parsed into `token_root`. -/
def cool_yylex (atou : Str → Option Nat) (P : cool_parse) (st : LexState) : LexRes :=
  if st.init = 0 then
    let st1 := { st with token_root := st.doc }
    if st1.token_root.is_map = false then
      .ret YYEOF { st1 with g := { st1.g with cerr := st1.g.cerr ++
        [Output.text (lit "Failed to parse the input; expected a YAML token stream.\n")] } }
    else
      match st1.token_root.find_child (lit "name") with
      | some (.val name) =>
        cool_yylex_pull atou P { st1 with filename := name, curr_filename := name, init := 1 }
      | _ => .crash st1
  else cool_yylex_pull atou P st

/-- The state with which `cool_yylex` goes on after its `if (init == 0)` block: the
state itself once initialised; on the first call, if the document is a map with
a scalar `name`, the state with the document loaded, the file name set and
`init = 1`; `none` when the call ends in that block. -/
def LexState.loaded (st : LexState) : Option LexState :=
  if st.init = 0 then
    if st.doc.is_map = false then none
    else
      match st.doc.find_child (lit "name") with
      | some (.val name) =>
        some { st with token_root := st.doc, filename := name, curr_filename := name, init := 1 }
      | _ => none
  else some st

/-- Successive calls of `cool_yylex`: for each call that returns, the code and the
value of `curr_lineno` at that moment; the run stops after `n` calls or when the
process dies. -/
def cool_yylex_calls (atou : Str → Option Nat) (P : cool_parse) :
    Nat → LexState → List (Int × Int)
  | 0, _ => []
  | n + 1, st =>
    match cool_yylex atou P st with
    | .ret code st1 => (code, st1.g.curr_lineno) :: cool_yylex_calls atou P n st1
    | .crash _ => []

/-- The state before the first call of `cool_yylex` on the document `doc`. -/
def LexState.start (g : Globals) (doc : Yaml) : LexState :=
  ⟨g, doc, 0, 0, Yaml.val [], [], lit "<stdin>", YYSTYPE.unset⟩

/-- A sample of `c4::atou<unsigned int>`: a non-empty run of decimal digits, read as
a number. -/
def atou_decimal (s : Str) : Option Nat :=
  if s ≠ [] ∧ s.all isdigit then some (s.foldl (fun acc d => acc * 10 + (d - 48)) 0) else none

/-- A sample of the token codes, numbered the way bison numbers tokens. -/
def sample_cool_parse : cool_parse :=
  ⟨258, 259, 260, 261, 262, 263, 264, 265, 266, 267, 268, 280, 269, 270, 271, 272, 273, 275, 276, 277, 278, 279, 283, 282, 281, 274⟩

/-- A token map as the adapter expects it: `lineno` is a scalar that `atou` reads as
the unsigned `lineno`, `kind` is a scalar found in `string_to_cool_token` with
code `code`, and `symbol` and `boolean`, when present, are scalars. -/
def WellFormedToken (atou : Str → Option Nat) (P : cool_parse) (node : Yaml) (lineno : Nat)
    (code : Int) : Prop :=
  ∃ t k, node.find_child (lit "lineno") = some (Yaml.val t) ∧ atou t = some lineno ∧
    lineno < 4294967296 ∧
    node.find_child (lit "kind") = some (Yaml.val k) ∧ find_cool_token P k = some code ∧
    (∀ c, node.find_child (lit "symbol") = some c → ∃ s, c = Yaml.val s) ∧
    (∀ c, node.find_child (lit "boolean") = some c → ∃ s, c = Yaml.val s)

/-- A token map that is malformed in one of the two ways `node_to_token` reports:
its `lineno` is a scalar that `atou` rejects, or its `lineno` is fine and its
`kind` is a scalar that is not in `string_to_cool_token`. -/
def MalformedToken (atou : Str → Option Nat) (P : cool_parse) (node : Yaml) : Prop :=
  (∃ t, node.find_child (lit "lineno") = some (Yaml.val t) ∧ atou t = none) ∨
  (∃ t n k, node.find_child (lit "lineno") = some (Yaml.val t) ∧ atou t = some n ∧
    node.find_child (lit "kind") = some (Yaml.val k) ∧ find_cool_token P k = none)

/-- The computation `y` does what `x` does, except that it may go on where `x` runs
out of fuel. -/
def FuelLe {α : Type} (x y : Dec α) : Prop := ∀ g, x g = Res.out_of_fuel ∨ x g = y g

/-! ## String tables: lookups and integers (stringtab_functions.h) -/

/-- How a lookup in a string table ends: it returns an entry, or its `assert(0)`
fails and the process is aborted. -/
inductive Lookup where
  | found (entry : Symbol)
  | assertion_failure
deriving DecidableEq, Repr

/-- `Elem *StringTable<Elem>::lookup_string(std::string s)`; the table is handed
back with the result. -/
def StringTable.lookup_string (t : StringTable) (s : Str) : Lookup × StringTable :=
  let len := toInt32 s.length
  match scan s len t.tbl 0 with
  | some entry => (Lookup.found entry, t)
  | none => (Lookup.assertion_failure, t)            -- assert(0)

/-- Modelled from the spec: `Entry::equal_index` is declared in `stringtab.h`, which is
not among the sources; the lookup by index is a scan for the entry with a
matching index. -/
def Entry.equal_index (e : Entry) (ind : Int) : Bool := decide (ind = e.index)

/-- The loop `for (auto &entry : *tbl) if (entry->equal_index(ind)) return entry;`
over the slots from `k` on. -/
def scan_index (ind : Int) : List Entry → Nat → Option Symbol
  | [], _ => none
  | e :: es, k => if e.equal_index ind then some ⟨k, e⟩ else scan_index ind es (k + 1)

/-- `Elem *StringTable<Elem>::lookup(int ind)`; the table is handed back with the
result. -/
def StringTable.lookup (t : StringTable) (ind : Int) : Lookup × StringTable :=
  match scan_index ind t.tbl 0 with
  | some entry => (Lookup.found entry, t)
  | none => (Lookup.assertion_failure, t)            -- assert(0)

/-- `snprintf(buf, size, "%d", i)`: the bytes written to `buf` before the
terminating NUL, which are the first `size - 1` bytes of the decimal text of `i`. -/
def snprintf_d (size : Nat) (i : Int) : Str := (int_to_chars i).take (size - 1)

/-- `Elem *StringTable<Elem>::add_int(int i)`: the buffer has 20 bytes and is read
back as a C string. -/
def StringTable.add_int (t : StringTable) (i : Int) : Symbol × StringTable :=
  t.add_string (c_str (snprintf_d 20 i))

/-- One interning call on a table. -/
inductive TableCall where
  | add_string (s : Str)
  | add_string_maxchars (s : Str) (maxchars : Int)
  | add_int (i : Int)
deriving DecidableEq, Repr

/-- The call made on a table: the entry returned and the table afterwards. -/
def StringTable.call (t : StringTable) : TableCall → Symbol × StringTable
  | .add_string s => t.add_string s
  | .add_string_maxchars s maxchars => t.add_string_maxchars s maxchars
  | .add_int i => t.add_int i

/-- A sequence of interning calls on a table, in order: the table afterwards. -/
def StringTable.calls : List TableCall → StringTable → StringTable
  | [], t => t
  | c :: cs, t => StringTable.calls cs (t.call c).2

/-- The text an interning call looks for. -/
def TableCall.text : TableCall → Str
  | .add_string s => s
  | .add_string_maxchars s _ => s
  | .add_int i => c_str (snprintf_d 20 i)

/-- The distinct texts of a list, in the order of their first occurrence. -/
def first_seen (l : List Str) : List Str :=
  l.foldl (fun acc s => if s ∈ acc then acc else acc ++ [s]) []

/-! ## Node kinds and class tags (cool-tree.cc) -/

/-- The concrete node classes of `cool-tree.cc`, one for each `to_yaml`. -/
inductive Kind where
  | program_class
  | class__class
  | method_class
  | attr_class
  | formal_class
  | branch_class
  | assign_class
  | static_dispatch_class
  | dispatch_class
  | cond_class
  | loop_class
  | typcase_class
  | block_class
  | let_class
  | plus_class
  | sub_class
  | mul_class
  | divide_class
  | neg_class
  | lt_class
  | eq_class
  | leq_class
  | comp_class
  | int_const_class
  | bool_const_class
  | string_const_class
  | new__class
  | isvoid_class
  | no_expr_class
  | object_class
deriving DecidableEq, Repr

/-- A `tree_node *`: a node of one of the six phyla. -/
inductive tree_node where
  | of_Program (p : Program)
  | of_Class_ (c : Class_)
  | of_Feature (f : Feature)
  | of_Formal (f : Formal)
  | of_Case (c : Case)
  | of_Expression (e : Expression)

/-- The concrete class of an expression. -/
def Expression_class.kind : Expression_class → Kind
  | .assign_class _ _ => .assign_class
  | .static_dispatch_class _ _ _ _ => .static_dispatch_class
  | .dispatch_class _ _ _ => .dispatch_class
  | .cond_class _ _ _ => .cond_class
  | .loop_class _ _ => .loop_class
  | .typcase_class _ _ => .typcase_class
  | .block_class _ => .block_class
  | .let_class _ _ _ _ => .let_class
  | .plus_class _ _ => .plus_class
  | .sub_class _ _ => .sub_class
  | .mul_class _ _ => .mul_class
  | .divide_class _ _ => .divide_class
  | .neg_class _ => .neg_class
  | .lt_class _ _ => .lt_class
  | .eq_class _ _ => .eq_class
  | .leq_class _ _ => .leq_class
  | .comp_class _ => .comp_class
  | .int_const_class _ => .int_const_class
  | .bool_const_class _ => .bool_const_class
  | .string_const_class _ => .string_const_class
  | .new__class _ => .new__class
  | .isvoid_class _ => .isvoid_class
  | .no_expr_class => .no_expr_class
  | .object_class _ => .object_class

/-- The concrete class of a node. -/
def tree_node.kind : tree_node → Kind
  | .of_Program _ => .program_class
  | .of_Class_ _ => .class__class
  | .of_Feature (.method_class _ _ _ _ _) => .method_class
  | .of_Feature (.attr_class _ _ _ _) => .attr_class
  | .of_Formal _ => .formal_class
  | .of_Case _ => .branch_class
  | .of_Expression (.mk _ _ node) => node.kind

/-- The virtual call `t->to_yaml(n)`. -/
def tree_node.to_yaml : tree_node → Yaml
  | .of_Program p => p.to_yaml
  | .of_Class_ c => c.to_yaml
  | .of_Feature f => f.to_yaml
  | .of_Formal f => f.to_yaml
  | .of_Case c => c.to_yaml
  | .of_Expression e => e.to_yaml

/-- `int tree_node::get_line_number() const`. -/
def tree_node.get_line_number : tree_node → Int
  | .of_Program (.program_class line_number _) => line_number
  | .of_Class_ (.class__class line_number _ _ _ _) => line_number
  | .of_Feature (.method_class line_number _ _ _ _) => line_number
  | .of_Feature (.attr_class line_number _ _ _) => line_number
  | .of_Formal (.formal_class line_number _ _) => line_number
  | .of_Case (.branch_class line_number _ _ _) => line_number
  | .of_Expression e => e.get_line_number

/-- The node is an `Expression`. -/
def tree_node.is_Expression : tree_node → Bool
  | .of_Expression _ => true
  | _ => false

/-- The number of children of a map that carry the key `key`. -/
def Yaml.count_key (node : Yaml) (key : Str) : Nat :=
  match node with
  | .map children => children.countP (fun kv => decide (kv.1 = key))
  | _ => 0

/-- The string literal that the `to_yaml` of each class writes under the key
`class`. -/
def Kind.tag : Kind → Str
  | .program_class => lit "program"
  | .class__class => lit "class_"
  | .method_class => lit "method"
  | .attr_class => lit "attr"
  | .formal_class => lit "formal"
  | .branch_class => lit "branch"
  | .assign_class => lit "assign"
  | .static_dispatch_class => lit "static_dispatch"
  | .dispatch_class => lit "dispatch"
  | .cond_class => lit "cond"
  | .loop_class => lit "loop"
  | .typcase_class => lit "typcase"
  | .block_class => lit "block"
  | .let_class => lit "let"
  | .plus_class => lit "plus"
  | .sub_class => lit "sub"
  | .mul_class => lit "mul"
  | .divide_class => lit "divide"
  | .neg_class => lit "neg"
  | .lt_class => lit "lt"
  | .eq_class => lit "eq"
  | .leq_class => lit "leq"
  | .comp_class => lit "comp"
  | .int_const_class => lit "int_const"
  | .bool_const_class => lit "bool_const"
  | .string_const_class => lit "string_const"
  | .new__class => lit "new_"
  | .isvoid_class => lit "isvoid"
  | .no_expr_class => lit "no_expr"
  | .object_class => lit "object"

/-- The class whose `to_yaml` writes a given class tag, if there is one (the tags in
the order in which the decoders test them). -/
def kind_of_tag (tag : Str) : Option Kind :=
  if tag = lit "program" then some .program_class
  else if tag = lit "class_" then some .class__class
  else if tag = lit "method" then some .method_class
  else if tag = lit "attr" then some .attr_class
  else if tag = lit "formal" then some .formal_class
  else if tag = lit "branch" then some .branch_class
  else if tag = lit "assign" then some .assign_class
  else if tag = lit "static_dispatch" then some .static_dispatch_class
  else if tag = lit "dispatch" then some .dispatch_class
  else if tag = lit "cond" then some .cond_class
  else if tag = lit "loop" then some .loop_class
  else if tag = lit "typcase" then some .typcase_class
  else if tag = lit "block" then some .block_class
  else if tag = lit "let" then some .let_class
  else if tag = lit "plus" then some .plus_class
  else if tag = lit "sub" then some .sub_class
  else if tag = lit "mul" then some .mul_class
  else if tag = lit "divide" then some .divide_class
  else if tag = lit "neg" then some .neg_class
  else if tag = lit "lt" then some .lt_class
  else if tag = lit "eq" then some .eq_class
  else if tag = lit "leq" then some .leq_class
  else if tag = lit "comp" then some .comp_class
  else if tag = lit "int_const" then some .int_const_class
  else if tag = lit "bool_const" then some .bool_const_class
  else if tag = lit "string_const" then some .string_const_class
  else if tag = lit "isvoid" then some .isvoid_class
  else if tag = lit "new_" then some .new__class
  else if tag = lit "no_expr" then some .no_expr_class
  else if tag = lit "object" then some .object_class
  else none

/-- The 30 class tags of the external representation. -/
def class_tags : List Str :=
  [lit "program", lit "class_", lit "method", lit "attr", lit "formal", lit "branch",
   lit "assign", lit "static_dispatch", lit "dispatch", lit "cond", lit "loop", lit "typcase",
   lit "block", lit "let", lit "plus", lit "sub", lit "mul", lit "divide", lit "neg", lit "lt",
   lit "eq", lit "leq", lit "comp", lit "int_const", lit "bool_const", lit "string_const",
   lit "new_", lit "isvoid", lit "no_expr", lit "object"]

/-- The `case` labels of the `switch` of `populate_tables_from_token` are pairwise
distinct, as C++ requires of the labels of one `switch`; with that the chain of
tests of the embedding takes the branch the `switch` takes. -/
def cool_parse.case_labels_distinct (P : cool_parse) : Prop :=
  [P.INT_CONST, P.STR_CONST, P.TYPEID, P.OBJECTID, P.BOOL_CONST].Nodup

/-- Successive calls of `cool_yylex`: for each call that returns, the code and the
state it leaves; the run stops after `n` calls or when the process dies. -/
def cool_yylex_trace (atou : Str → Option Nat) (P : cool_parse) :
    Nat → LexState → List (Int × LexState)
  | 0, _ => []
  | n + 1, st =>
    match cool_yylex atou P st with
    | .ret code st1 => (code, st1) :: cool_yylex_trace atou P n st1
    | .crash _ => []

/-! ## Lists of nodes (tree.h) -/

/-- How a call of `nth` ends: it returns an element, or it writes
`error: outside the range of the list` and calls `exit(1)`, or it dereferences the
past-the-end iterator of the list, which is undefined behaviour. -/
inductive NthRes (Elem : Type) where
  | ret (x : Elem)
  | error_exit
  | past_the_end
deriving DecidableEq, Repr

/-- `template <class Elem> Elem nth(std::list<Elem> *l, size_t n)`. -/
def nth {Elem : Type} (l : List Elem) (n : Nat) : NthRes Elem :=
  let length := l.length
  if n > length then NthRes.error_exit
  else
    match l.drop n with            -- it = l->begin(); std::advance(it, n);
    | x :: _ => NthRes.ret x       -- return *it;
    | [] => NthRes.past_the_end    -- it == l->end()

/-! ## Copies of nodes (cool-tree.cc) -/

/-- The fields of the concrete class of an expression. -/
def Expression.node : Expression → Expression_class
  | .mk _ _ node => node

mutual
/-- `copy_Expression` of the expression classes, at the current line `ln`:
`return new X_class(...)` with the symbols and the boolean passed on as they are,
every child expression replaced by its `copy_Expression()`, and every child list
passed on as the pointer it is. Modelled from the spec: the constructors of the
classes are in `cool-tree.h` and `tree.cc`, which are not among the sources; as in
`new_Expression` the new node captures the current line, and `Expression()`
leaves its type `NULL`. -/
def Expression.copy_at (ln : Int) : Expression → Expression
  | .mk _ _ node => .mk ln none (Expression_class.copy_at ln node)
/-- The arguments `copy_Expression` hands to the constructor of each class. -/
def Expression_class.copy_at (ln : Int) : Expression_class → Expression_class
  | .assign_class name expr => .assign_class name (Expression.copy_at ln expr)
  | .static_dispatch_class expr type_name name actual =>
    .static_dispatch_class (Expression.copy_at ln expr) type_name name actual
  | .dispatch_class expr name actual => .dispatch_class (Expression.copy_at ln expr) name actual
  | .cond_class pred then_exp else_exp =>
    .cond_class (Expression.copy_at ln pred) (Expression.copy_at ln then_exp)
      (Expression.copy_at ln else_exp)
  | .loop_class pred body => .loop_class (Expression.copy_at ln pred) (Expression.copy_at ln body)
  | .typcase_class expr cases => .typcase_class (Expression.copy_at ln expr) cases
  | .block_class body => .block_class body
  | .let_class identifier type_decl init body =>
    .let_class identifier type_decl (Expression.copy_at ln init) (Expression.copy_at ln body)
  | .plus_class e1 e2 => .plus_class (Expression.copy_at ln e1) (Expression.copy_at ln e2)
  | .sub_class e1 e2 => .sub_class (Expression.copy_at ln e1) (Expression.copy_at ln e2)
  | .mul_class e1 e2 => .mul_class (Expression.copy_at ln e1) (Expression.copy_at ln e2)
  | .divide_class e1 e2 => .divide_class (Expression.copy_at ln e1) (Expression.copy_at ln e2)
  | .neg_class e1 => .neg_class (Expression.copy_at ln e1)
  | .lt_class e1 e2 => .lt_class (Expression.copy_at ln e1) (Expression.copy_at ln e2)
  | .eq_class e1 e2 => .eq_class (Expression.copy_at ln e1) (Expression.copy_at ln e2)
  | .leq_class e1 e2 => .leq_class (Expression.copy_at ln e1) (Expression.copy_at ln e2)
  | .comp_class e1 => .comp_class (Expression.copy_at ln e1)
  | .int_const_class token => .int_const_class token
  | .bool_const_class val => .bool_const_class val
  | .string_const_class token => .string_const_class token
  | .new__class type_name => .new__class type_name
  | .isvoid_class e1 => .isvoid_class (Expression.copy_at ln e1)
  | .no_expr_class => .no_expr_class
  | .object_class name => .object_class name
end

/-- `Expression *X_class::copy_Expression()`: the copy is built on the current
line, which copying does not change. -/
def Expression.copy_Expression (e : Expression) : Dec Expression :=
  fun g => .ok (e.copy_at g.node_lineno) g

/-- `Case *branch_class::copy_Case()`. -/
def Case.copy_Case : Case → Dec Case
  | .branch_class _ name type_decl expr =>
    fun g => .ok (.branch_class g.node_lineno name type_decl (expr.copy_at g.node_lineno)) g

/-- `Formal *formal_class::copy_Formal()`. -/
def Formal.copy_Formal : Formal → Dec Formal
  | .formal_class _ name type_decl => fun g => .ok (.formal_class g.node_lineno name type_decl) g

/-- `Feature *method_class::copy_Feature()` and `Feature *attr_class::copy_Feature()`. -/
def Feature.copy_Feature : Feature → Dec Feature
  | .method_class _ name formals return_type expr =>
    fun g => .ok (.method_class g.node_lineno name formals return_type
      (expr.copy_at g.node_lineno)) g
  | .attr_class _ name type_decl init =>
    fun g => .ok (.attr_class g.node_lineno name type_decl (init.copy_at g.node_lineno)) g

/-- `Class_ *class__class::copy_Class_()`. -/
def Class_.copy_Class_ : Class_ → Dec Class_
  | .class__class _ name parent features filename =>
    fun g => .ok (.class__class g.node_lineno name parent features filename) g

/-- `Program *program_class::copy_Program()`. -/
def Program.copy_Program : Program → Dec Program
  | .program_class _ classes => fun g => .ok (.program_class g.node_lineno classes) g

mutual
/-- The expression and the child expressions that `copy_Expression` copies with it
(those not inside a child list) all have line number `ln` and an unset type. -/
def Expression.fresh_at (ln : Int) : Expression → Bool
  | .mk line_number type node =>
    decide (line_number = ln) && type.isNone && Expression_class.fresh_at ln node
/-- The child expressions of the class that are not inside a list are fresh (see
`Expression.fresh_at`). -/
def Expression_class.fresh_at (ln : Int) : Expression_class → Bool
  | .assign_class _ expr => Expression.fresh_at ln expr
  | .static_dispatch_class expr _ _ _ => Expression.fresh_at ln expr
  | .dispatch_class expr _ _ => Expression.fresh_at ln expr
  | .cond_class pred then_exp else_exp =>
    Expression.fresh_at ln pred && Expression.fresh_at ln then_exp &&
      Expression.fresh_at ln else_exp
  | .loop_class pred body => Expression.fresh_at ln pred && Expression.fresh_at ln body
  | .typcase_class expr _ => Expression.fresh_at ln expr
  | .block_class _ => true
  | .let_class _ _ init body => Expression.fresh_at ln init && Expression.fresh_at ln body
  | .plus_class e1 e2 => Expression.fresh_at ln e1 && Expression.fresh_at ln e2
  | .sub_class e1 e2 => Expression.fresh_at ln e1 && Expression.fresh_at ln e2
  | .mul_class e1 e2 => Expression.fresh_at ln e1 && Expression.fresh_at ln e2
  | .divide_class e1 e2 => Expression.fresh_at ln e1 && Expression.fresh_at ln e2
  | .neg_class e1 => Expression.fresh_at ln e1
  | .lt_class e1 e2 => Expression.fresh_at ln e1 && Expression.fresh_at ln e2
  | .eq_class e1 e2 => Expression.fresh_at ln e1 && Expression.fresh_at ln e2
  | .leq_class e1 e2 => Expression.fresh_at ln e1 && Expression.fresh_at ln e2
  | .comp_class e1 => Expression.fresh_at ln e1
  | .int_const_class _ => true
  | .bool_const_class _ => true
  | .string_const_class _ => true
  | .new__class _ => true
  | .isvoid_class e1 => Expression.fresh_at ln e1
  | .no_expr_class => true
  | .object_class _ => true
end

/-! ## Specification of the decoders: partial correctness -/

/-- Partial correctness of a computation from the states satisfying `P`: whenever it
returns, the value and the state satisfy `Q`. -/
def Partial {α : Type} (P : Globals → Prop) (x : Dec α) (Q : α → Globals → Prop) : Prop :=
  ∀ g, P g → ∀ a g', x g = Res.ok a g' → Q a g'

/-- The integer under the key `lineno` of an external map, as `set_lineno` reads
it. -/
def Yaml.lineno (node : Yaml) : Option Int :=
  match node.find_child (lit "lineno") with
  | some (.val l) => stoi l
  | _ => none

/-- The ambient `node_lineno` satisfies `q`. -/
def LineIs (q : Int → Prop) (g : Globals) : Prop := q g.node_lineno

/-! ## The symbols of a tree and their tables (cool-tree.cc, stringtab.cc) -/

/-- The three global tables `idtable`, `inttable` and `stringtable`. -/
inductive Table where
  | idtable
  | inttable
  | stringtable
deriving DecidableEq, Repr

/-- The table of the process state with the given name. -/
def Globals.table (g : Globals) : Table → StringTable
  | .idtable => g.idtable
  | .inttable => g.inttable
  | .stringtable => g.stringtable

/-- The symbol is an entry of the table: the slot it points to holds its entry. -/
def Symbol.entry_of (s : Symbol) (t : StringTable) : Prop := t.tbl[s.addr]? = some s.entry

/-- Every entry of a table of `g` is still in the same slot of the same table of
`g'`, with the same text, length and index. -/
def Globals.kept (g g' : Globals) : Prop :=
  ∀ (tab : Table) (i : Nat) (e : Entry),
    (g.table tab).tbl[i]? = some e → (g'.table tab).tbl[i]? = some e

/-- The type field of an expression, when set, with the table the decoder interns it
in. -/
def type_symbols : Option Symbol → List (Table × Symbol)
  | some t => [(.idtable, t)]
  | none => []

mutual
/-- The symbol fields of the expression and of the nodes below it, each with the
table in which the decoder of its node kind interns the text of its key. -/
def Expression.symbols : Expression → List (Table × Symbol)
  | .mk _ type node => type_symbols type ++ node.symbols
/-- The symbol fields of the class and of the nodes below it (see
`Expression.symbols`). -/
def Expression_class.symbols : Expression_class → List (Table × Symbol)
  | .assign_class name expr => (.idtable, name) :: expr.symbols
  | .static_dispatch_class expr type_name name actual =>
    (.idtable, type_name) :: (.idtable, name) :: (expr.symbols ++ Expressions_symbols actual)
  | .dispatch_class expr name actual =>
    (.idtable, name) :: (expr.symbols ++ Expressions_symbols actual)
  | .cond_class pred then_exp else_exp => pred.symbols ++ (then_exp.symbols ++ else_exp.symbols)
  | .loop_class pred body => pred.symbols ++ body.symbols
  | .typcase_class expr cases => expr.symbols ++ Cases_symbols cases
  | .block_class body => Expressions_symbols body
  | .let_class identifier type_decl init body =>
    (.idtable, identifier) :: (.idtable, type_decl) :: (init.symbols ++ body.symbols)
  | .plus_class e1 e2 => e1.symbols ++ e2.symbols
  | .sub_class e1 e2 => e1.symbols ++ e2.symbols
  | .mul_class e1 e2 => e1.symbols ++ e2.symbols
  | .divide_class e1 e2 => e1.symbols ++ e2.symbols
  | .neg_class e1 => e1.symbols
  | .lt_class e1 e2 => e1.symbols ++ e2.symbols
  | .eq_class e1 e2 => e1.symbols ++ e2.symbols
  | .leq_class e1 e2 => e1.symbols ++ e2.symbols
  | .comp_class e1 => e1.symbols
  | .int_const_class token => [(.inttable, token)]
  | .bool_const_class _ => []
  | .string_const_class token => [(.stringtable, token)]
  | .new__class type_name => [(.idtable, type_name)]
  | .isvoid_class e1 => e1.symbols
  | .no_expr_class => []
  | .object_class name => [(.idtable, name)]
/-- The symbol fields of the expressions of a list. -/
def Expressions_symbols : List Expression → List (Table × Symbol)
  | [] => []
  | e :: es => e.symbols ++ Expressions_symbols es
/-- The symbol fields of the branch and of the nodes below it. -/
def Case.symbols : Case → List (Table × Symbol)
  | .branch_class _ name type_decl expr =>
    (.idtable, name) :: (.idtable, type_decl) :: expr.symbols
/-- The symbol fields of the branches of a list. -/
def Cases_symbols : List Case → List (Table × Symbol)
  | [] => []
  | c :: cs => c.symbols ++ Cases_symbols cs
end

/-- The symbol fields of the formal. -/
def Formal.symbols : Formal → List (Table × Symbol)
  | .formal_class _ name type_decl => [(.idtable, name), (.idtable, type_decl)]

/-- The symbol fields of the nodes of a list. -/
def list_symbols {phylum : Type} (symbols : phylum → List (Table × Symbol)) :
    List phylum → List (Table × Symbol)
  | [] => []
  | t :: ts => symbols t ++ list_symbols symbols ts

/-- The symbol fields of the feature and of the nodes below it. -/
def Feature.symbols : Feature → List (Table × Symbol)
  | .method_class _ name formals return_type expr =>
    (.idtable, name) :: (.idtable, return_type) ::
      (list_symbols Formal.symbols formals ++ expr.symbols)
  | .attr_class _ name type_decl init => (.idtable, name) :: (.idtable, type_decl) :: init.symbols

/-- The symbol fields of the class and of the nodes below it; the file name is the
one symbol of a class kept in the string table. -/
def Class_.symbols : Class_ → List (Table × Symbol)
  | .class__class _ name parent features filename =>
    (.idtable, name) :: (.idtable, parent) :: (.stringtable, filename) ::
      list_symbols Feature.symbols features

/-- The symbol fields of all nodes of the program. -/
def Program.symbols : Program → List (Table × Symbol)
  | .program_class _ classes => list_symbols Class_.symbols classes

/-- The state of the tables during a decoding that started in `g0`: every entry of
`g0` is still in place, and every symbol of `l` is an entry of its table. -/
def Interned (g0 : Globals) (l : List (Table × Symbol)) (g : Globals) : Prop :=
  g0.kept g ∧ ∀ p ∈ l, p.2.entry_of (g.table p.1)

/-! ## The keys a decoder reads (cool-tree.cc) -/

/-- The text under the key `class` of a map, which every decoder reads first. -/
def Yaml.class_tag (node : Yaml) : Option Str :=
  match node.find_child (lit "class") with
  | some (.val s) => some s
  | _ => none

/-- The keys `yaml_to_expression` reads from a map whose class tag is `tag`, in the
order of the reads `node["..."]`: `class`, `lineno`, the keys of the branch for
that tag, and `type`; for a tag without a branch only `class` and `lineno`. -/
def expression_keys (tag : Str) : List Str :=
  [lit "class", lit "lineno"] ++
    (if tag = lit "assign" then [lit "name", lit "expr", lit "type"]
    else if tag = lit "static_dispatch" then
      [lit "expr", lit "type_name", lit "name", lit "actual", lit "type"]
    else if tag = lit "dispatch" then [lit "expr", lit "name", lit "actual", lit "type"]
    else if tag = lit "cond" then [lit "pred", lit "then_exp", lit "else_exp", lit "type"]
    else if tag = lit "loop" then [lit "pred", lit "body", lit "type"]
    else if tag = lit "typcase" then [lit "expr", lit "cases", lit "type"]
    else if tag = lit "block" then [lit "body", lit "type"]
    else if tag = lit "let" then
      [lit "identifier", lit "type_decl", lit "init", lit "body", lit "type"]
    else if tag = lit "plus" then [lit "e1", lit "e2", lit "type"]
    else if tag = lit "sub" then [lit "e1", lit "e2", lit "type"]
    else if tag = lit "mul" then [lit "e1", lit "e2", lit "type"]
    else if tag = lit "divide" then [lit "e1", lit "e2", lit "type"]
    else if tag = lit "neg" then [lit "e1", lit "type"]
    else if tag = lit "lt" then [lit "e1", lit "e2", lit "type"]
    else if tag = lit "eq" then [lit "e1", lit "e2", lit "type"]
    else if tag = lit "leq" then [lit "e1", lit "e2", lit "type"]
    else if tag = lit "comp" then [lit "e1", lit "type"]
    else if tag = lit "int_const" then [lit "token", lit "type"]
    else if tag = lit "bool_const" then [lit "val", lit "type"]
    else if tag = lit "string_const" then [lit "token", lit "type"]
    else if tag = lit "isvoid" then [lit "e1", lit "type"]
    else if tag = lit "new_" then [lit "type_name", lit "type"]
    else if tag = lit "no_expr" then [lit "type"]
    else if tag = lit "object" then [lit "name", lit "type"]
    else [])

/-- The keys `yaml_to_case` reads from a map whose class tag is `tag`. -/
def case_keys (tag : Str) : List Str :=
  [lit "class", lit "lineno"] ++
    (if tag = lit "branch" then [lit "name", lit "type_decl", lit "expr"] else [])

/-- The keys `yaml_to_formal` reads from a map whose class tag is `tag`. -/
def formal_keys (tag : Str) : List Str :=
  [lit "class", lit "lineno"] ++
    (if tag = lit "formal" then [lit "name", lit "type_decl"] else [])

/-- The keys `yaml_to_feature` reads from a map whose class tag is `tag`. -/
def feature_keys (tag : Str) : List Str :=
  [lit "class", lit "lineno"] ++
    (if tag = lit "method" then [lit "name", lit "formals", lit "return_type", lit "expr"]
    else if tag = lit "attr" then [lit "name", lit "type_decl", lit "init"]
    else [])

/-- The keys `yaml_to_class_` reads from a map whose class tag is `tag`. -/
def class_keys (tag : Str) : List Str :=
  [lit "class", lit "lineno"] ++
    (if tag = lit "class_" then [lit "name", lit "parent", lit "features", lit "filename"]
    else [])

/-- The keys `yaml_to_program` reads from a map whose class tag is `tag`. -/
def program_keys (tag : Str) : List Str :=
  [lit "class", lit "lineno"] ++ (if tag = lit "program" then [lit "classes"] else [])

/-- The keys a decoder reads from the map `node`, given the keys it reads for each
class tag: when the map has no scalar under `class` the decoder gets no further
than reading `class`. -/
def Yaml.keys_read (node : Yaml) (keys : Str → List Str) : List Str :=
  match node.class_tag with
  | some tag => keys tag
  | none => [lit "class"]

/-- The computation ends in every state (it returns, or the process is terminated),
and whatever it returns satisfies `φ`. -/
def Halts {α : Type} (x : Dec α) (φ : α → Prop) : Prop :=
  ∀ g, x g ≠ Res.out_of_fuel ∧ ∀ a g', x g = Res.ok a g' → φ a

/-! ## String tables: runs of calls with lookups (stringtab_functions.h) -/

/-- One call on a string table: an interning call or a lookup. -/
inductive TableOp where
  | add_string (s : Str)
  | add_string_maxchars (s : Str) (maxchars : Int)
  | add_int (i : Int)
  | lookup_string (s : Str)
  | lookup (ind : Int)
deriving DecidableEq, Repr

/-- The table after a call that returns; `none` when the `assert(0)` of a lookup
fails and the process is aborted. -/
def StringTable.op (t : StringTable) : TableOp → Option StringTable
  | .add_string s => some (t.add_string s).2
  | .add_string_maxchars s maxchars => some (t.add_string_maxchars s maxchars).2
  | .add_int i => some (t.add_int i).2
  | .lookup_string s =>
    match t.lookup_string s with
    | (Lookup.found _, t1) => some t1
    | (Lookup.assertion_failure, _) => none
  | .lookup ind =>
    match t.lookup ind with
    | (Lookup.found _, t1) => some t1
    | (Lookup.assertion_failure, _) => none

/-- A sequence of calls on a table, in order: the table after the last call, or
`none` when one of the calls aborts the process. -/
def StringTable.ops : List TableOp → StringTable → Option StringTable
  | [], t => some t
  | c :: cs, t =>
    match t.op c with
    | some t1 => StringTable.ops cs t1
    | none => none

/-! ## List builders (cool-tree.cc) -/

/-- The `std::list` objects of one phylum made by `new` so far: the pointer that
the `k`-th `new` returned is `k`, and slot `k` holds the elements of that list in
order. -/
abbrev ListHeap (Elem : Type) := List (List Elem)

/-- `new std::list<Elem *>(...)`: a new list object with the given elements; its
pointer is returned. -/
def list_new {Elem : Type} (elements : List Elem) (h : ListHeap Elem) : Nat × ListHeap Elem :=
  (h.length, h ++ [elements])

/-- `p1->splice(p1->end(), *p2)`: the elements of `*p2` are moved to the end of
`*p1`, which leaves `*p2` empty; `none` when the behaviour is undefined (`p1` or
`p2` is not a list object, or both are the same object). -/
def list_splice_end {Elem : Type} (p1 p2 : Nat) (h : ListHeap Elem) : Option (ListHeap Elem) :=
  match h[p1]?, h[p2]? with
  | some l1, some l2 => if p1 = p2 then none else some ((h.set p1 (l1 ++ l2)).set p2 [])
  | _, _ => none

/-- `nil_Classes()`, `nil_Features()`, `nil_Formals()`, `nil_Expressions()` and
`nil_Cases()`: `return new std::list<Elem *>();`. -/
def nil_list {Elem : Type} (h : ListHeap Elem) : Nat × ListHeap Elem := list_new [] h

/-- `single_Classes(e)` and the four other `single_X(e)`:
`return new std::list<Elem *>(1, e);`. -/
def single_list {Elem : Type} (e : Elem) (h : ListHeap Elem) : Nat × ListHeap Elem :=
  list_new (List.replicate 1 e) h

/-- `append_Classes(p1, p2)` and the four other `append_X(p1, p2)`:
`p1->splice(p1->end(), *p2); return p1;`. -/
def append_list {Elem : Type} (p1 p2 : Nat) (h : ListHeap Elem) : Option (Nat × ListHeap Elem) :=
  match list_splice_end p1 p2 h with
  | some h1 => some (p1, h1)
  | none => none

/-- `Classes nil_Classes()`. -/
def nil_Classes : ListHeap Class_ → Nat × ListHeap Class_ := nil_list

/-- `Classes single_Classes(Class_ *e)`. -/
def single_Classes : Class_ → ListHeap Class_ → Nat × ListHeap Class_ := single_list

/-- `Classes append_Classes(Classes p1, Classes p2)`. -/
def append_Classes : Nat → Nat → ListHeap Class_ → Option (Nat × ListHeap Class_) := append_list

/-- `Features nil_Features()`. -/
def nil_Features : ListHeap Feature → Nat × ListHeap Feature := nil_list

/-- `Features single_Features(Feature *e)`. -/
def single_Features : Feature → ListHeap Feature → Nat × ListHeap Feature := single_list

/-- `Features append_Features(Features p1, Features p2)`. -/
def append_Features : Nat → Nat → ListHeap Feature → Option (Nat × ListHeap Feature) :=
  append_list

/-- `Formals nil_Formals()`. -/
def nil_Formals : ListHeap Formal → Nat × ListHeap Formal := nil_list

/-- `Formals single_Formals(Formal *e)`. -/
def single_Formals : Formal → ListHeap Formal → Nat × ListHeap Formal := single_list

/-- `Formals append_Formals(Formals p1, Formals p2)`. -/
def append_Formals : Nat → Nat → ListHeap Formal → Option (Nat × ListHeap Formal) := append_list

/-- `Expressions nil_Expressions()`. -/
def nil_Expressions : ListHeap Expression → Nat × ListHeap Expression := nil_list

/-- `Expressions single_Expressions(Expression *e)`. -/
def single_Expressions : Expression → ListHeap Expression → Nat × ListHeap Expression :=
  single_list

/-- `Expressions append_Expressions(Expressions p1, Expressions p2)`. -/
def append_Expressions : Nat → Nat → ListHeap Expression → Option (Nat × ListHeap Expression) :=
  append_list

/-- `Cases nil_Cases()`. -/
def nil_Cases : ListHeap Case → Nat × ListHeap Case := nil_list

/-- `Cases single_Cases(Case *e)`. -/
def single_Cases : Case → ListHeap Case → Nat × ListHeap Case := single_list

/-- `Cases append_Cases(Cases p1, Cases p2)`. -/
def append_Cases : Nat → Nat → ListHeap Case → Option (Nat × ListHeap Case) := append_list

/-! ## String escapes: reading an escaped string -/

/-- Reading a string from the left, where a backslash escapes the byte after it: the
string holds a double quote that no backslash escapes. -/
def has_unescaped_quote : Str → Bool
  | [] => false
  | [c] => decide (c = 34)
  | c :: d :: rest =>
    if c = 92 then has_unescaped_quote rest
    else if c = 34 then true
    else has_unescaped_quote (d :: rest)

/-! ## Token kinds on the lexer side (utilities.cc) -/

/-- The `case` labels of the `switch` of `cool_token_to_string`, each with the text
its case returns, in the order of the source. -/
def cool_token_cases (P : cool_parse) : List (Int × Str) :=
  [(0, lit "EOF"), (P.CLASS, lit "CLASS"), (P.ELSE, lit "ELSE"), (P.FI, lit "FI"),
   (P.IF, lit "IF"), (P.IN, lit "IN"), (P.INHERITS, lit "INHERITS"), (P.LET, lit "LET"),
   (P.LOOP, lit "LOOP"), (P.POOL, lit "POOL"), (P.THEN, lit "THEN"), (P.WHILE, lit "WHILE"),
   (P.ASSIGN, lit "ASSIGN"), (P.CASE, lit "CASE"), (P.ESAC, lit "ESAC"), (P.OF, lit "OF"),
   (P.DARROW, lit "DARROW"), (P.NEW, lit "NEW"), (P.STR_CONST, lit "STR_CONST"),
   (P.INT_CONST, lit "INT_CONST"), (P.BOOL_CONST, lit "BOOL_CONST"), (P.TYPEID, lit "TYPEID"),
   (P.OBJECTID, lit "OBJECTID"), (P.ERROR, lit "ERROR"), (P.LE, lit "LE"), (P.NOT, lit "NOT"),
   (P.ISVOID, lit "ISVOID"), (43, lit "+"), (47, lit "/"), (45, lit "-"), (42, lit "*"),
   (61, lit "="), (60, lit "<"), (46, lit "."), (126, lit "~"), (44, lit ","), (59, lit ";"),
   (58, lit ":"), (40, lit "("), (41, lit ")"), (64, lit "@"), (123, [123]), (125, [125])]

/-- The text returned by the `default` of `cool_token_to_string`. -/
def invalid_token : Str := lit "<Invalid Token>"

/-- `const char *cool_token_to_string(int tok)`: the text of the case whose label is
`tok`, and the `default` text when there is none. -/
def cool_token_to_string (P : cool_parse) (tok : Int) : Str :=
  match (cool_token_cases P).find? (fun kv => decide (kv.1 = tok)) with
  | some kv => kv.2
  | none => invalid_token

/-- The `case` labels of the `switch` of `cool_token_to_string` are pairwise
distinct, as C++ requires of the labels of one `switch`. -/
def cool_parse.token_labels_distinct (P : cool_parse) : Prop :=
  ((cool_token_cases P).map Prod.fst).Nodup

/-- The keys of `string_to_cool_token`. -/
def token_names : List Str :=
  [lit "EOF", lit "CLASS", lit "ELSE", lit "FI", lit "IF", lit "IN", lit "INHERITS", lit "LET",
   lit "LOOP", lit "POOL", lit "THEN", lit "WHILE", lit "ASSIGN", lit "CASE", lit "ESAC",
   lit "OF", lit "DARROW", lit "NEW", lit "STR_CONST", lit "INT_CONST", lit "BOOL_CONST",
   lit "TYPEID", lit "OBJECTID", lit "ERROR", lit "LE", lit "NOT", lit "ISVOID", lit "+",
   lit "/", lit "-", lit "*", lit "=", lit "<", lit ".", lit "~", lit ",", lit ";", lit ":",
   lit "(", lit ")", lit "@", [123], [125]]

/-- `ryml::fmt::boolalpha(b)` written into a node. -/
def boolalpha (b : Bool) : Str := if b then lit "true" else lit "false"

/-- `void build_yaml_tree(int lineno, int token, YYSTYPE yylval, ryml::NodeRef token_node)`:
the map the lexer side writes for one token. `symbol`, `boolean` and `error_msg`
are the members of the global `cool_yylval` as the function reads them
(`error_msg` is a C string). -/
def build_yaml_tree (P : cool_parse) (lineno : Int) (token : Int) (symbol : Symbol)
    (boolean : Bool) (error_msg : Str) : Yaml :=
  Yaml.map ([(lit "kind", Yaml.val (cool_token_to_string P token)),
      (lit "lineno", Yaml.val (int_to_chars lineno))] ++
    (if token = P.STR_CONST then
      [(lit "symbol", Yaml.val (get_escaped_string symbol.entry.get_string))]
    else if token = P.INT_CONST then [(lit "symbol", Yaml.val symbol.entry.get_string)]
    else if token = P.BOOL_CONST then [(lit "boolean", Yaml.val (boolalpha boolean))]
    else if token = P.TYPEID ∨ token = P.OBJECTID then
      [(lit "symbol", Yaml.val symbol.entry.get_string)]
    else if token = P.ERROR then
      (if error_msg = [] then [(lit "symbol", Yaml.val (lit "\\000"))]   -- error_msg[0] == 0
      else [(lit "symbol", Yaml.val (get_escaped_string error_msg))])
    else []))

/-! ## Sample inputs -/

/-- A state of the process before anything was interned: empty tables, ambient
lines 1, nothing written to the error stream. -/
def sampleGlobals : Globals := ⟨StringTable.empty, StringTable.empty, StringTable.empty, 1, 1, []⟩

/-- The tree of `class Main { };` in file `m.cl`: one class `Main` with parent
`Object` and no features. -/
def sampleProgram : Program :=
  .program_class 1
    [.class__class 1 ⟨0, ⟨lit "Main", 4, 0⟩⟩ ⟨1, ⟨lit "Object", 6, 1⟩⟩ []
      ⟨0, ⟨lit "m.cl", 4, 0⟩⟩]

/-- The tree of a class with one attribute `s : String` initialised with a string
constant whose text is the two bytes `a` and NUL. -/
def nulProgram : Program :=
  .program_class 1
    [.class__class 1 ⟨0, ⟨lit "Main", 4, 0⟩⟩ ⟨1, ⟨lit "Object", 6, 1⟩⟩
      [.attr_class 1 ⟨2, ⟨lit "s", 1, 2⟩⟩ ⟨3, ⟨lit "String", 6, 3⟩⟩
        (.mk 1 none (.string_const_class ⟨0, ⟨[97, 0], 2, 0⟩⟩))]
      ⟨1, ⟨lit "m.cl", 4, 1⟩⟩]

/-- Two formals, `x : Int` and `y : Bool`, built on line 3. -/
def sampleFormals : List Formal :=
  [.formal_class 3 ⟨0, ⟨lit "x", 1, 0⟩⟩ ⟨1, ⟨lit "Int", 3, 1⟩⟩,
   .formal_class 3 ⟨2, ⟨lit "y", 1, 2⟩⟩ ⟨3, ⟨lit "Bool", 4, 3⟩⟩]

/-- The states the process goes through while `sampleFormals` is decoded from
`sampleGlobals`: before, after the first formal, after the second. -/
def sampleFormalStates : List Globals :=
  [sampleGlobals,
   { sampleGlobals with idtable := ⟨[⟨lit "x", 1, 0⟩, ⟨lit "Int", 3, 1⟩], 2⟩ },
   { sampleGlobals with
       idtable := ⟨[⟨lit "x", 1, 0⟩, ⟨lit "Int", 3, 1⟩, ⟨lit "y", 1, 2⟩, ⟨lit "Bool", 4, 3⟩], 4⟩ }]

/-- An external map with line 1 and the class tag `bogus`, which no decoder
accepts. -/
def bogusNode : Yaml :=
  Yaml.map [(lit "lineno", Yaml.val (lit "1")), (lit "class", Yaml.val (lit "bogus"))]

/-- The token document of `class Main` in file `m.cl`: the two tokens `CLASS` and
`TYPEID Main`, both on line 1. -/
def sampleTokenDoc : Yaml :=
  Yaml.map [(lit "name", Yaml.val (lit "m.cl")),
    (lit "tokens", Yaml.seq [
      Yaml.map [(lit "kind", Yaml.val (lit "CLASS")), (lit "lineno", Yaml.val (lit "1"))],
      Yaml.map [(lit "kind", Yaml.val (lit "TYPEID")), (lit "lineno", Yaml.val (lit "1")),
        (lit "symbol", Yaml.val (lit "Main"))]])]

/-- A token document whose single token `CLASS` is on line 3000000000. -/
def bigLineTokenDoc : Yaml :=
  Yaml.map [(lit "name", Yaml.val (lit "m.cl")),
    (lit "tokens", Yaml.seq [
      Yaml.map [(lit "kind", Yaml.val (lit "CLASS")),
        (lit "lineno", Yaml.val (lit "3000000000"))]])]

/-- A token document whose first token has the kind `BOGUS` and whose second token
is a `CLASS` on line 2. -/
def bogusTokenDoc : Yaml :=
  Yaml.map [(lit "name", Yaml.val (lit "m.cl")),
    (lit "tokens", Yaml.seq [
      Yaml.map [(lit "kind", Yaml.val (lit "BOGUS")), (lit "lineno", Yaml.val (lit "1"))],
      Yaml.map [(lit "kind", Yaml.val (lit "CLASS")), (lit "lineno", Yaml.val (lit "2"))]])]

/-- A sample run: the texts `a`, `b`, `a` interned in this order. -/
def sampleTexts : List Str := [lit "a", lit "b", lit "a"]

/-- A sample table holding the text `ab` once, created with `maxchars = 1`. -/
def sampleTable : StringTable := ⟨[⟨lit "ab", 1, 0⟩], 1⟩

/-- A sample run of interning calls: `x`, the integer 7, `x` again, `y`. -/
def sampleCalls : List TableCall :=
  [.add_string (lit "x"), .add_int 7, .add_string (lit "x"), .add_string_maxchars (lit "y") 1]

/-- An expression on line 5 whose type has been set to the symbol `Int`: the sum of
the integer constants `1` and `2`, themselves typed and on line 5. -/
def typedSum : Expression :=
  .mk 5 (some ⟨0, ⟨lit "Int", 3, 0⟩⟩)
    (.plus_class (.mk 5 (some ⟨0, ⟨lit "Int", 3, 0⟩⟩) (.int_const_class ⟨0, ⟨lit "1", 1, 0⟩⟩))
      (.mk 5 (some ⟨0, ⟨lit "Int", 3, 0⟩⟩) (.int_const_class ⟨1, ⟨lit "2", 1, 1⟩⟩)))

/-- An arithmetic negation on line 7 whose operand, the integer constant `4`, is on
line 9. -/
def nestedLines : Expression :=
  .mk 7 none (.neg_class (.mk 9 none (.int_const_class ⟨0, ⟨lit "4", 1, 0⟩⟩)))

/-- A `no_expr` on line 1 whose type has been set to a symbol with the three-byte
text `A`, NUL, `B`. -/
def nulTyped : Expression :=
  .mk 1 (some ⟨0, ⟨[65, 0, 66], 3, 0⟩⟩) .no_expr_class

/-- The map of a sum on line 3 that has its first operand, a `no_expr` on line 3,
but no key `e2`. -/
def sumWithoutE2 : Yaml :=
  Yaml.map [(lit "class", Yaml.val (lit "plus")), (lit "lineno", Yaml.val (lit "3")),
    (lit "e1", (Expression.mk 3 none .no_expr_class).to_yaml),
    (lit "type", Yaml.val (lit "Int"))]

/-- A token document whose single token has the kind `BOGUS` and is on line
3000000000. -/
def bogusBigLineTokenDoc : Yaml :=
  Yaml.map [(lit "name", Yaml.val (lit "m.cl")),
    (lit "tokens", Yaml.seq [
      Yaml.map [(lit "kind", Yaml.val (lit "BOGUS")),
        (lit "lineno", Yaml.val (lit "3000000000"))]])]

/-- A token document whose first token has a `lineno` that is no number and whose
second token has the kind `BOGUS` and is on line 7. -/
def failingTokenDoc : Yaml :=
  Yaml.map [(lit "name", Yaml.val (lit "m.cl")),
    (lit "tokens", Yaml.seq [
      Yaml.map [(lit "kind", Yaml.val (lit "CLASS")), (lit "lineno", Yaml.val (lit "x"))],
      Yaml.map [(lit "kind", Yaml.val (lit "BOGUS")), (lit "lineno", Yaml.val (lit "7"))]])]

/-! ## Theorems -/

theorem scan_append_some (s : Str) (len : Int) (l l' : List Entry) (k : Nat) (x : Symbol)
    (h : scan s len l k = some x) : scan s len (l ++ l') k = some x := by
  induction l generalizing k with
  | nil => simp [scan] at h
  | cons e es ih =>
    simp only [scan, List.cons_append] at h ⊢
    split
    · rename_i he; simpa [he] using h
    · rename_i he; simp only [he] at h; exact ih _ h

theorem scan_append_none (s : Str) (len : Int) (l l' : List Entry) (k : Nat)
    (h : scan s len l k = none) : scan s len (l ++ l') k = scan s len l' (k + l.length) := by
  induction l generalizing k with
  | nil => simp
  | cons e es ih =>
    rw [List.cons_append]
    simp only [scan] at h ⊢
    by_cases he : e.equal_string s len = true
    · simp [he] at h
    · simp only [he] at h ⊢
      simp only [Bool.false_eq_true, if_false] at h ⊢
      rw [ih _ h]
      congr 1
      simp only [List.length_cons]; omega

theorem add_string_maxchars_found (t : StringTable) (s : Str) (m : Int) (x : Symbol)
    (h : scan s (cmin (toInt32 s.length) m) t.tbl 0 = some x) :
    t.add_string_maxchars s m = (x, t) := by
  simp only [StringTable.add_string_maxchars, h]

theorem add_string_maxchars_new (t : StringTable) (s : Str) (m : Int)
    (h : scan s (cmin (toInt32 s.length) m) t.tbl 0 = none) :
    t.add_string_maxchars s m =
      (⟨t.tbl.length, ⟨s, cmin (toInt32 s.length) m, t.index⟩⟩,
       ⟨t.tbl ++ [⟨s, cmin (toInt32 s.length) m, t.index⟩], t.index + 1⟩) := by
  simp only [StringTable.add_string_maxchars, h]

/-- The scan does not look at the length it is given. -/
theorem scan_len_irrelevant (s : Str) (len len' : Int) (l : List Entry) (k : Nat) :
    scan s len l k = scan s len' l k := by
  induction l generalizing k with
  | nil => rfl
  | cons e es ih => simp only [scan, Entry.equal_string, ih]

/-- After any `add_string(s, m)`, a scan for `s` finds the entry that call returned. -/
theorem scan_after_add (t : StringTable) (s : Str) (m len : Int) :
    scan s len (t.add_string_maxchars s m).2.tbl 0 = some (t.add_string_maxchars s m).1 := by
  cases h : scan s (cmin (toInt32 s.length) m) t.tbl 0 with
  | some x =>
    rw [add_string_maxchars_found t s m x h, scan_len_irrelevant s len _ t.tbl 0]
    exact h
  | none =>
    rw [add_string_maxchars_new t s m h]
    simp only []
    rw [scan_append_none s len _ _ 0 (by rw [scan_len_irrelevant s len _ t.tbl 0]; exact h)]
    simp [scan, Entry.equal_string]

/-- A second interning of `s` (with any `maxchars`) right after a first one returns
the first call's entry and leaves the table as it is. -/
theorem add_string_maxchars_again (t : StringTable) (s : Str) (m1 m2 : Int) :
    (t.add_string_maxchars s m1).2.add_string_maxchars s m2 =
      ((t.add_string_maxchars s m1).1, (t.add_string_maxchars s m1).2) :=
  add_string_maxchars_found _ s m2 _ (scan_after_add t s m1 _)

/-- C3. Interning idempotence: on every table and for every text `s`, a second
`add_string(s)` right after a first one returns the same entry (same pointer,
same index) and leaves the table (entries and next-index counter) unchanged. -/
theorem add_string_idempotent (t : StringTable) (s : Str) :
    ((t.add_string s).2.add_string s).1 = (t.add_string s).1 ∧
    ((t.add_string s).2.add_string s).1.addr = (t.add_string s).1.addr ∧
    ((t.add_string s).2.add_string s).1.entry.index = (t.add_string s).1.entry.index ∧
    ((t.add_string s).2.add_string s).2 = (t.add_string s).2 := by
  have key : ((t.add_string s).2.add_string s) = ((t.add_string s).1, (t.add_string s).2) :=
    add_string_maxchars_again t s MAXSIZE MAXSIZE
  rw [key]
  exact ⟨rfl, rfl, rfl, rfl⟩

theorem scan_eq_none_iff (s : Str) (len : Int) (l : List Entry) (k : Nat) :
    scan s len l k = none ↔ ∀ e ∈ l, e.str ≠ s := by
  induction l generalizing k with
  | nil => simp [scan]
  | cons e es ih =>
    simp only [scan, Entry.equal_string, List.mem_cons, forall_eq_or_imp]
    by_cases he : e.str = s
    · simp [he]
    · simp [he, ih]

theorem scan_first (s : Str) (len : Int) (l : List Entry) (k i : Nat) (e : Entry)
    (hi : l[i]? = some e) (he : e.str = s)
    (hfirst : ∀ j, j < i → ∀ e', l[j]? = some e' → e'.str ≠ s) :
    scan s len l k = some ⟨k + i, e⟩ := by
  induction l generalizing k i with
  | nil => simp at hi
  | cons x xs ih =>
    cases i with
    | zero =>
      simp only [List.getElem?_cons_zero, Option.some.injEq] at hi
      subst hi
      simp [scan, Entry.equal_string, he]
    | succ i =>
      simp only [List.getElem?_cons_succ] at hi
      have hx : x.str ≠ s := hfirst 0 (Nat.succ_pos _) x (by simp)
      have := ih (k + 1) i hi (fun j hj e' hj' => hfirst (j + 1) (by omega) e' (by simpa using hj'))
      simp only [scan, Entry.equal_string, hx, decide_False, Bool.false_eq_true, if_false, this]
      congr 2
      omega

theorem scan_some_spec (s : Str) (len : Int) (l : List Entry) (k : Nat) (x : Symbol)
    (h : scan s len l k = some x) :
    k ≤ x.addr ∧ l[x.addr - k]? = some x.entry ∧ x.entry.str = s := by
  induction l generalizing k with
  | nil => simp [scan] at h
  | cons e es ih =>
    simp only [scan, Entry.equal_string] at h
    by_cases he : e.str = s
    · simp only [he, decide_True, if_true, Option.some.injEq] at h
      subst h
      simp [he]
    · simp only [he, decide_False, Bool.false_eq_true, if_false] at h
      obtain ⟨h1, h2, h3⟩ := ih _ h
      refine ⟨by omega, ?_, h3⟩
      have : x.addr - k = (x.addr - (k + 1)) + 1 := by omega
      rw [this, List.getElem?_cons_succ]
      exact h2

/-- What one `add_string(s, m)` does to a canonical table. -/
theorem add_string_maxchars_canonical (t : StringTable) (s : Str) (m : Int)
    (ht : t.Canonical) :
    (t.add_string_maxchars s m).2.Canonical ∧
    (t.add_string_maxchars s m).1.entry.str = s ∧
    (t.add_string_maxchars s m).2.tbl[(t.add_string_maxchars s m).1.addr]? =
      some (t.add_string_maxchars s m).1.entry ∧
    (t.add_string_maxchars s m).1.entry.index = (t.add_string_maxchars s m).1.addr ∧
    (∃ ext, (t.add_string_maxchars s m).2.tbl = t.tbl ++ ext) ∧
    (∀ x, x ∈ (t.add_string_maxchars s m).2.texts ↔ x ∈ t.texts ∨ x = s) ∧
    (s ∉ t.texts → (t.add_string_maxchars s m).1.entry.index = t.tbl.length ∧
      (t.add_string_maxchars s m).2.tbl.length = t.tbl.length + 1) := by
  obtain ⟨hidx, hnd, hk⟩ := ht
  cases h : scan s (cmin (toInt32 s.length) m) t.tbl 0 with
  | some x =>
    rw [add_string_maxchars_found t s m x h]
    obtain ⟨-, h2, h3⟩ := scan_some_spec _ _ _ _ _ h
    simp only [Nat.sub_zero] at h2
    have hmem : s ∈ t.texts := by
      simp only [StringTable.texts, List.mem_map]
      exact ⟨x.entry, List.getElem?_mem h2, h3⟩
    refine ⟨⟨hidx, hnd, hk⟩, h3, h2, ?_, ⟨[], by simp⟩, ?_, fun hn => absurd hmem hn⟩
    · exact_mod_cast hk _ _ h2
    · intro y
      constructor
      · intro hy; exact Or.inl hy
      · rintro (hy | hy)
        · exact hy
        · subst hy; exact hmem
  | none =>
    rw [add_string_maxchars_new t s m h]
    have hnot : s ∉ t.texts := by
      rw [scan_eq_none_iff] at h
      simp only [StringTable.texts, List.mem_map, not_exists, not_and]
      exact fun e he => h e he
    refine ⟨⟨?_, ?_, ?_⟩, rfl, by simp, by simp [hidx], ⟨_, rfl⟩, ?_, fun _ => ⟨by simp [hidx], by simp⟩⟩
    · simp [hidx]
    · simp only [StringTable.texts, List.map_append, List.map_cons, List.map_nil]
      rw [List.nodup_append]
      refine ⟨hnd, by simp, ?_⟩
      intro a ha hb
      simp only [List.mem_singleton] at hb
      subst hb
      exact hnot ha
    · intro k e hke
      simp only [] at hke
      by_cases hlt : k < t.tbl.length
      · rw [List.getElem?_append_left hlt] at hke
        exact hk k e hke
      · rw [List.getElem?_append_right (by omega)] at hke
        have hk0 : k - t.tbl.length = 0 := by
          by_contra hne
          have : k - t.tbl.length = (k - t.tbl.length - 1) + 1 := by omega
          rw [this] at hke
          simp at hke
        rw [hk0] at hke
        simp only [List.getElem?_cons_zero, Option.some.injEq] at hke
        subst hke
        simp only [hidx]
        have : k = t.tbl.length := by omega
        rw [this]
    · intro y
      simp [StringTable.texts]

theorem canonical_empty : StringTable.empty.Canonical := by
  refine ⟨rfl, ?_, ?_⟩
  · simp [StringTable.texts, StringTable.empty]
  · intro k e h
    simp [StringTable.empty] at h

theorem add_strings_append (l1 l2 : List Str) (t : StringTable) :
    add_strings (l1 ++ l2) t =
      ((add_strings l1 t).1 ++ (add_strings l2 (add_strings l1 t).2).1,
       (add_strings l2 (add_strings l1 t).2).2) := by
  induction l1 generalizing t with
  | nil => simp [add_strings]
  | cons s l ih =>
    rw [List.cons_append]
    simp only [add_strings, ih, List.cons_append]

/-- What a run of `add_string` calls does to a canonical table. -/
theorem add_strings_canonical (l : List Str) (t : StringTable) (ht : t.Canonical) :
    (add_strings l t).2.Canonical ∧
    (add_strings l t).1.length = l.length ∧
    (∃ ext, (add_strings l t).2.tbl = t.tbl ++ ext) ∧
    (∀ x, x ∈ (add_strings l t).2.texts ↔ x ∈ t.texts ∨ x ∈ l) ∧
    (∀ (j : Nat) (s : Str) (e : Symbol), l[j]? = some s → (add_strings l t).1[j]? = some e →
      e.entry.str = s ∧ (add_strings l t).2.tbl[e.addr]? = some e.entry ∧
      e.entry.index = e.addr) := by
  induction l generalizing t with
  | nil =>
    refine ⟨ht, rfl, ⟨[], by simp [add_strings]⟩, by simp [add_strings], ?_⟩
    intro j s e h
    simp at h
  | cons s l ih =>
    obtain ⟨hc, hstr, hget, hidx, ⟨ext1, hext1⟩, hmem, -⟩ :=
      add_string_maxchars_canonical t s MAXSIZE ht
    obtain ⟨ihc, ihlen, ⟨ext2, hext2⟩, ihmem, ihget⟩ := ih (t.add_string_maxchars s MAXSIZE).2 hc
    simp only [add_strings, StringTable.add_string]
    refine ⟨ihc, by simp [ihlen], ⟨ext1 ++ ext2, by rw [hext2, hext1, List.append_assoc]⟩, ?_, ?_⟩
    · intro x
      rw [ihmem, hmem, List.mem_cons]
      tauto
    · intro j s' e hj he
      cases j with
      | zero =>
        simp only [List.getElem?_cons_zero, Option.some.injEq] at hj he
        subst hj he
        refine ⟨hstr, ?_, hidx⟩
        rw [hext2]
        have hlt := (List.getElem?_eq_some.mp hget).1
        rw [List.getElem?_append_left hlt]
        exact hget
      | succ j =>
        simp only [List.getElem?_cons_succ] at hj he
        exact ihget j s' e hj he

theorem nodup_same_mem_length {α : Type} (l1 l2 : List α) (h1 : l1.Nodup) (h2 : l2.Nodup)
    (h : ∀ x, x ∈ l1 ↔ x ∈ l2) : l1.length = l2.length :=
  ((List.perm_ext_iff_of_nodup h1 h2).mpr h).length_eq

/-- C4. From the empty table, for every sequence `l` of `add_string` calls (call `i`
has text `si` and returns `ei`, call `j` has text `sj` and returns `ej`): equal
texts give the same entry, distinct texts give distinct entries (distinct
pointers, distinct indices); a text first seen at call `j` gets an index strictly
greater than the index returned by every earlier call; and that index is the
number of distinct texts seen before, so indices are handed out 0, 1, 2, ... in
first-seen order. -/
theorem add_strings_first_seen_order (l : List Str) (i j : Nat) (si sj : Str)
    (ei ej : Symbol) (hi : l[i]? = some si) (hj : l[j]? = some sj)
    (hei : (add_strings l StringTable.empty).1[i]? = some ei)
    (hej : (add_strings l StringTable.empty).1[j]? = some ej) :
    (add_strings l StringTable.empty).1.length = l.length ∧
    ei.entry.str = si ∧ ej.entry.str = sj ∧
    (si = sj → ei = ej) ∧
    (si ≠ sj → ei ≠ ej ∧ ei.addr ≠ ej.addr ∧ ei.entry.index ≠ ej.entry.index) ∧
    (i < j → sj ∉ l.take j → ei.entry.index < ej.entry.index) ∧
    (sj ∉ l.take j → ej.entry.index = ((l.take j).dedup.length : Int)) := by
  obtain ⟨hc, hlen, -, -, hget⟩ := add_strings_canonical l StringTable.empty canonical_empty
  obtain ⟨hsi, hti, hii⟩ := hget i si ei hi hei
  obtain ⟨hsj, htj, hij⟩ := hget j sj ej hj hej
  obtain ⟨-, hnd, -⟩ := hc
  have hjl : j < l.length := (List.getElem?_eq_some.mp hj).1
  -- the run up to call `j`
  have hsplit : l = l.take j ++ sj :: l.drop (j + 1) := by
    have h1 : l.drop j = sj :: l.drop (j + 1) := by
      rw [List.drop_eq_getElem_cons hjl]
      congr 1
      exact Option.some.inj ((List.getElem?_eq_getElem hjl).symm.trans hj)
    conv_lhs => rw [← List.take_append_drop j l, h1]
  obtain ⟨pc, plen, -, pmem, pget⟩ :=
    add_strings_canonical (l.take j) StringTable.empty canonical_empty
  have htake : (l.take j).length = j := by simp [List.length_take]; omega
  have hrun : (add_strings l StringTable.empty).1 =
      (add_strings (l.take j) StringTable.empty).1 ++
        ((add_strings (l.take j) StringTable.empty).2.add_string sj).1 ::
        (add_strings (l.drop (j + 1))
          ((add_strings (l.take j) StringTable.empty).2.add_string sj).2).1 := by
    conv_lhs => rw [hsplit, add_strings_append]
    simp only [add_strings]
  have hejr : ej = ((add_strings (l.take j) StringTable.empty).2.add_string sj).1 := by
    rw [hrun, List.getElem?_append_right (by omega)] at hej
    have : j - (add_strings (l.take j) StringTable.empty).1.length = 0 := by omega
    rw [this] at hej
    simpa using hej.symm
  have hfresh : sj ∉ l.take j →
      ej.entry.index = ((add_strings (l.take j) StringTable.empty).2.tbl.length : Int) := by
    intro hn
    have hn' : sj ∉ (add_strings (l.take j) StringTable.empty).2.texts := by
      rw [pmem]
      simp [StringTable.texts, StringTable.empty, hn]
    rw [hejr]
    exact ((add_string_maxchars_canonical _ sj MAXSIZE pc).2.2.2.2.2.2 hn').1
  refine ⟨hlen, hsi, hsj, ?_, ?_, ?_, ?_⟩
  · intro heq
    -- both pointers are slots of the final table holding the same text
    have hlti := (List.getElem?_eq_some.mp hti).1
    have hltj := (List.getElem?_eq_some.mp htj).1
    have haddr : ei.addr = ej.addr := by
      have hinj := List.nodup_iff_injective_get.mp hnd
      have hti' : (add_strings l StringTable.empty).2.texts[ei.addr]? = some si := by
        simp [StringTable.texts, hti, hsi]
      have htj' : (add_strings l StringTable.empty).2.texts[ej.addr]? = some si := by
        simp [StringTable.texts, htj, hsj, heq]
      obtain ⟨hl1, hv1⟩ := List.getElem?_eq_some.mp hti'
      obtain ⟨hl2, hv2⟩ := List.getElem?_eq_some.mp htj'
      have := @hinj ⟨ei.addr, hl1⟩ ⟨ej.addr, hl2⟩ (by simp only [List.get_eq_getElem]; rw [hv1, hv2])
      exact Fin.mk.inj this
    have hent : ei.entry = ej.entry := by
      rw [haddr] at hti
      exact Option.some.inj (hti.symm.trans htj)
    cases ei; cases ej
    simp only [] at haddr hent
    rw [haddr, hent]
  · intro hne
    have h1 : ei.addr ≠ ej.addr := by
      intro heq
      rw [heq] at hti
      have := Option.some.inj (hti.symm.trans htj)
      exact hne (by rw [← hsi, ← hsj, this])
    refine ⟨?_, h1, ?_⟩
    · intro heq
      exact h1 (by rw [heq])
    · rw [hii, hij]
      exact_mod_cast h1
  · intro hlt hn
    rw [hfresh hn, hii]
    have hei' : (add_strings (l.take j) StringTable.empty).1[i]? = some ei := by
      rw [hrun, List.getElem?_append_left (by omega)] at hei
      exact hei
    have hi' : (l.take j)[i]? = some si := by
      rw [List.getElem?_take_of_lt hlt]; exact hi
    obtain ⟨-, hslot, -⟩ := pget i si ei hi' hei'
    exact_mod_cast (List.getElem?_eq_some.mp hslot).1
  · intro hn
    rw [hfresh hn]
    have : (add_strings (l.take j) StringTable.empty).2.tbl.length =
        (add_strings (l.take j) StringTable.empty).2.texts.length := by
      simp [StringTable.texts]
    rw [this]
    congr 1
    apply nodup_same_mem_length _ _ pc.2.1 (List.nodup_dedup _)
    intro x
    rw [pmem, List.mem_dedup]
    simp [StringTable.texts, StringTable.empty]

theorem add_strings_first_seen_order_witness :
    sampleTexts[0]? = some (lit "a") ∧ sampleTexts[1]? = some (lit "b") ∧
    (add_strings sampleTexts StringTable.empty).1[0]? = some ⟨0, ⟨lit "a", 1, 0⟩⟩ ∧
    (add_strings sampleTexts StringTable.empty).1[1]? = some ⟨1, ⟨lit "b", 1, 1⟩⟩ ∧
    ((add_strings sampleTexts StringTable.empty).1.length = sampleTexts.length ∧
     (⟨0, ⟨lit "a", 1, 0⟩⟩ : Symbol).entry.str = lit "a" ∧
     (⟨1, ⟨lit "b", 1, 1⟩⟩ : Symbol).entry.str = lit "b" ∧
     (lit "a" = lit "b" → (⟨0, ⟨lit "a", 1, 0⟩⟩ : Symbol) = ⟨1, ⟨lit "b", 1, 1⟩⟩) ∧
     (lit "a" ≠ lit "b" → (⟨0, ⟨lit "a", 1, 0⟩⟩ : Symbol) ≠ ⟨1, ⟨lit "b", 1, 1⟩⟩ ∧
        (⟨0, ⟨lit "a", 1, 0⟩⟩ : Symbol).addr ≠ (⟨1, ⟨lit "b", 1, 1⟩⟩ : Symbol).addr ∧
        (⟨0, ⟨lit "a", 1, 0⟩⟩ : Symbol).entry.index ≠
          (⟨1, ⟨lit "b", 1, 1⟩⟩ : Symbol).entry.index) ∧
     (0 < 1 → lit "b" ∉ sampleTexts.take 1 →
        (⟨0, ⟨lit "a", 1, 0⟩⟩ : Symbol).entry.index <
          (⟨1, ⟨lit "b", 1, 1⟩⟩ : Symbol).entry.index) ∧
     (lit "b" ∉ sampleTexts.take 1 →
        (⟨1, ⟨lit "b", 1, 1⟩⟩ : Symbol).entry.index =
          (((sampleTexts.take 1).dedup.length : Nat) : Int))) :=
  ⟨by decide, by decide, by decide, by decide,
   add_strings_first_seen_order sampleTexts 0 1 (lit "a") (lit "b")
     ⟨0, ⟨lit "a", 1, 0⟩⟩ ⟨1, ⟨lit "b", 1, 1⟩⟩ (by decide) (by decide) (by decide) (by decide)⟩

/-- C10, as stated, fails: on the empty table `add_string("ab", 1)` followed by
`add_string("ab", 2)` has `min(|s|, 1) = 1` different from `min(|s|, 2) = 2`, yet the
second call returns the first call's entry, whose stored length is 1, not 2. -/
theorem add_string_maxchars_length_counterexample :
    cmin (toInt32 (lit "ab").length) 1 ≠ cmin (toInt32 (lit "ab").length) 2 ∧
    ((StringTable.empty.add_string_maxchars (lit "ab") 1).2.add_string_maxchars (lit "ab") 2).1 =
      (StringTable.empty.add_string_maxchars (lit "ab") 1).1 ∧
    ((StringTable.empty.add_string_maxchars (lit "ab") 1).2.add_string_maxchars
      (lit "ab") 2).1.entry.len ≠ cmin (toInt32 (lit "ab").length) 2 := by
  decide

/-- C10, amended. `add_string(s, maxchars)` returns an existing entry exactly when
that entry's text equals `s`, whatever its length, namely the first such entry,
and then leaves the table unchanged; when no entry has text `s` it creates the
entry `(s, min(|s|, maxchars), next index)` and appends it at the end, advancing
the next index by one. Hence `add_string(s, m1)` followed by `add_string(s, m2)`
yields the same entry for all `m1`, `m2`. -/
theorem add_string_maxchars_by_text (t : StringTable) (s : Str) (maxchars : Int) :
    (∀ (k : Nat) (e : Entry), t.tbl[k]? = some e → e.str = s →
      (∀ j, j < k → ∀ e', t.tbl[j]? = some e' → e'.str ≠ s) →
      t.add_string_maxchars s maxchars = (⟨k, e⟩, t)) ∧
    ((∀ e ∈ t.tbl, e.str ≠ s) →
      t.add_string_maxchars s maxchars =
        (⟨t.tbl.length, ⟨s, cmin (toInt32 s.length) maxchars, t.index⟩⟩,
         ⟨t.tbl ++ [⟨s, cmin (toInt32 s.length) maxchars, t.index⟩], t.index + 1⟩)) ∧
    (∀ m2 : Int, (t.add_string_maxchars s maxchars).2.add_string_maxchars s m2 =
      ((t.add_string_maxchars s maxchars).1, (t.add_string_maxchars s maxchars).2)) := by
  refine ⟨?_, ?_, ?_⟩
  · intro k e hk he hfirst
    apply add_string_maxchars_found
    have := scan_first s (cmin (toInt32 s.length) maxchars) t.tbl 0 k e hk he hfirst
    simpa using this
  · intro h
    exact add_string_maxchars_new t s maxchars ((scan_eq_none_iff _ _ _ _).mpr h)
  · intro m2
    exact add_string_maxchars_again t s maxchars m2

theorem add_string_maxchars_by_text_witness :
    sampleTable.add_string_maxchars (lit "ab") 2 = (⟨0, ⟨lit "ab", 1, 0⟩⟩, sampleTable) ∧
    sampleTable.add_string_maxchars (lit "c") 2 =
      (⟨1, ⟨lit "c", 1, 1⟩⟩, ⟨[⟨lit "ab", 1, 0⟩, ⟨lit "c", 1, 1⟩], 2⟩) :=
  ⟨(add_string_maxchars_by_text sampleTable (lit "ab") 2).1 0 ⟨lit "ab", 1, 0⟩
      (by decide) (by decide) (by intro j hj; omega),
   (add_string_maxchars_by_text sampleTable (lit "c") 2).2.1 (by decide)⟩

/-! ### String escapes -/

/-- C2 at a failing input. For the two-byte string `0x01 'A'`, `get_escaped_string`
gives the five bytes backslash `0` `0` `1` `A`, and `get_unescaped_string` of these
gives the single byte `0x01`: after the octal escape the loop skips the byte that
follows it, so the round trip loses the `A`. -/
theorem escape_round_trip_fails_after_octal :
    get_escaped_string [1, 65] = [92, 48, 48, 49, 65] ∧
    get_unescaped_string (get_escaped_string [1, 65]) = [1] ∧
    get_unescaped_string (get_escaped_string [1, 65]) ≠ [1, 65] := by
  decide

/-! ### Generic list codec -/

theorem foldl_append_singleton {α β : Type} (f : α → β) (l : List α) (acc : List β) :
    l.foldl (fun children node => children ++ [f node]) acc = acc ++ l.map f := by
  induction l generalizing acc with
  | nil => simp
  | cons x xs ih => simp [ih]

theorem list_to_yaml_eq_map {α : Type} (to_yaml : α → Yaml) (l : List α) :
    list_to_yaml to_yaml l = Yaml.seq (l.map to_yaml) := by
  simp [list_to_yaml, foldl_append_singleton]

theorem dec_bind_ok {α β : Type} (x : Dec α) (f : α → Dec β) (g g1 : Globals) (a : α)
    (h : x g = .ok a g1) : (x >>= f) g = f a g1 := by
  show Dec.bind x f g = f a g1
  simp only [Dec.bind, h]

theorem yaml_to_list_loop_chain {α : Type} (dec : Yaml → Dec α) (cs : List Yaml) :
    ∀ (nodes : List α) (sts : List Globals) (acc : List α),
    nodes.length = cs.length → sts.length = cs.length + 1 →
    (∀ (i : Nat) (c : Yaml), cs[i]? = some c → ∃ a g g', nodes[i]? = some a ∧
      sts[i]? = some g ∧ sts[i + 1]? = some g' ∧ dec c g = .ok a g') →
    ∃ g0 gN, sts[0]? = some g0 ∧ sts[cs.length]? = some gN ∧
      yaml_to_list_loop dec cs acc g0 = .ok (acc ++ nodes) gN := by
  induction cs with
  | nil =>
    intro nodes sts acc hn hs _
    match sts, hs with
    | [g], _ =>
      have : nodes = [] := List.length_eq_zero.mp hn
      subst this
      exact ⟨g, g, rfl, rfl, by simp [yaml_to_list_loop, pure]⟩
  | cons c cs ih =>
    intro nodes sts acc hn hs hstep
    obtain ⟨a, g, g', ha, hg, hg', hdec⟩ := hstep 0 c (by simp)
    match nodes, sts, hn, hs, ha, hg with
    | a0 :: nodes', g0 :: sts', hn, hs, ha, hg =>
      simp only [List.getElem?_cons_zero, Option.some.injEq] at ha hg
      subst ha hg
      simp only [List.getElem?_cons_succ] at hg'
      obtain ⟨g1, gN, h1, hN, hloop⟩ := ih nodes' sts' (acc ++ [a0])
        (by simpa using hn) (by simpa using hs)
        (fun i c' hi => by
          obtain ⟨a', ga, gb, h1, h2, h3, h4⟩ := hstep (i + 1) c' (by simpa using hi)
          exact ⟨a', ga, gb, by simpa using h1, by simpa using h2, by simpa using h3, h4⟩)
      have hg1 : g1 = g' := Option.some.inj (h1.symm.trans hg')
      subst hg1
      refine ⟨g0, gN, by simp, by simpa using hN, ?_⟩
      simp only [yaml_to_list_loop]
      rw [dec_bind_ok _ _ _ _ _ hdec, hloop]
      simp

/-- C5. List order preservation, for every list `l` of `N` nodes (any `N`):
`list_to_yaml` gives a sequence with exactly `N` children, the `i`-th being the
encoding of the `i`-th element; and if the element decoder, run on the `i`-th
child in the state `sts[i]`, returns `nodes[i]` and leaves the state `sts[i+1]`,
then `yaml_to_list` on that sequence with an empty target list, started in
`sts[0]`, returns exactly `nodes` (the `N` decodings, in order) in state `sts[N]`. -/
theorem list_codec_order {α : Type} (to_yaml : α → Yaml) (yaml_to_treenode : Yaml → Dec α)
    (l nodes : List α) (sts : List Globals)
    (hnodes : nodes.length = l.length) (hsts : sts.length = l.length + 1)
    (hstep : ∀ (i : Nat) (x : α), l[i]? = some x → ∃ a g g', nodes[i]? = some a ∧
      sts[i]? = some g ∧ sts[i + 1]? = some g' ∧ yaml_to_treenode (to_yaml x) g = .ok a g') :
    (∃ children, list_to_yaml to_yaml l = Yaml.seq children ∧ children.length = l.length ∧
      ∀ (i : Nat) (x : α), l[i]? = some x → children[i]? = some (to_yaml x)) ∧
    (∃ g0 gN, sts[0]? = some g0 ∧ sts[l.length]? = some gN ∧
      yaml_to_list [] yaml_to_treenode (list_to_yaml to_yaml l) g0 = .ok nodes gN) := by
  refine ⟨⟨l.map to_yaml, list_to_yaml_eq_map to_yaml l, by simp, ?_⟩, ?_⟩
  · intro i x hx
    simp [List.getElem?_map, hx]
  · obtain ⟨g0, gN, h0, hN, hloop⟩ := yaml_to_list_loop_chain yaml_to_treenode (l.map to_yaml)
      nodes sts [] (by simpa using hnodes) (by simpa using hsts)
      (fun i c hc => by
        rw [List.getElem?_map] at hc
        cases hx : l[i]? with
        | none => simp [hx] at hc
        | some x =>
          simp only [hx, Option.map_some', Option.some.injEq] at hc
          subst hc
          exact hstep i x hx)
    refine ⟨g0, gN, h0, by simpa using hN, ?_⟩
    rw [list_to_yaml_eq_map]
    simpa [yaml_to_list] using hloop

/-! ### Decimal text of an `int` -/

theorem dec_digits_append (fuel n : Nat) (ds : Str) :
    dec_digits fuel n ds = dec_digits fuel n [] ++ ds := by
  induction fuel generalizing n ds with
  | zero => simp [dec_digits]
  | succ fuel ih =>
    simp only [dec_digits]
    split
    · simp
    · rw [ih (n / 10) ((48 + n % 10) :: ds), ih (n / 10) [48 + n % 10]]
      simp

theorem dec_digits_spec (fuel n : Nat) (h : n < fuel) :
    dec_digits fuel n [] ≠ [] ∧ (∀ d ∈ dec_digits fuel n [], 48 ≤ d ∧ d ≤ 57) ∧
    (dec_digits fuel n []).foldl (fun acc d => acc * 10 + (d - 48)) 0 = n := by
  induction fuel generalizing n with
  | zero => omega
  | succ fuel ih =>
    simp only [dec_digits]
    split
    · rename_i h0
      refine ⟨by simp, ?_, ?_⟩
      · intro d hd
        simp only [List.mem_singleton] at hd
        omega
      · simp only [List.foldl_cons, List.foldl_nil]
        omega
    · rename_i h0
      obtain ⟨h1, h2, h3⟩ := ih (n / 10) (by omega)
      rw [dec_digits_append]
      refine ⟨by simp, ?_, ?_⟩
      · intro d hd
        simp only [List.mem_append, List.mem_singleton] at hd
        rcases hd with hd | hd
        · exact h2 d hd
        · omega
      · rw [List.foldl_append, h3]
        simp only [List.foldl_cons, List.foldl_nil]
        omega

theorem takeWhile_all {α : Type} (p : α → Bool) (l : List α) (h : ∀ x ∈ l, p x = true) :
    l.takeWhile p = l := by
  induction l with
  | nil => rfl
  | cons x xs ih =>
    simp only [List.takeWhile_cons, h x (List.mem_cons_self _ _), if_true]
    rw [ih (fun y hy => h y (List.mem_cons_of_mem _ hy))]

theorem stoi_signed_digits (negative : Bool) (D : Str) (hne : D ≠ [])
    (hdig : ∀ d ∈ D, 48 ≤ d ∧ d ≤ 57) :
    stoi (if negative then 45 :: D else D) =
      (if -2147483648 ≤ (if negative then
            -((D.foldl (fun acc d => acc * 10 + (d - 48)) 0 : Nat) : Int)
          else ((D.foldl (fun acc d => acc * 10 + (d - 48)) 0 : Nat) : Int)) ∧
          (if negative then -((D.foldl (fun acc d => acc * 10 + (d - 48)) 0 : Nat) : Int)
          else ((D.foldl (fun acc d => acc * 10 + (d - 48)) 0 : Nat) : Int)) ≤ 2147483647
       then some (if negative then -((D.foldl (fun acc d => acc * 10 + (d - 48)) 0 : Nat) : Int)
          else ((D.foldl (fun acc d => acc * 10 + (d - 48)) 0 : Nat) : Int))
       else none) := by
  have htw : D.takeWhile isdigit = D :=
    takeWhile_all _ _ (fun d hd => by simpa [isdigit] using hdig d hd)
  cases negative with
  | true =>
    have hsp : isspace 45 = false := by decide
    simp only [stoi, if_true, List.dropWhile_cons, hsp, Bool.false_eq_true, if_false,
      List.head?_cons, true_or, List.tail_cons, htw, hne, decide_True]
  | false =>
    obtain ⟨d0, ds, hD⟩ := List.exists_cons_of_ne_nil hne
    have hd0 : 48 ≤ d0 ∧ d0 ≤ 57 := hdig d0 (by rw [hD]; exact List.mem_cons_self _ _)
    have hsp : isspace d0 = false := by
      simp only [isspace, decide_eq_false_iff_not]
      omega
    have h45 : ¬ (d0 = 45) := by omega
    have h43 : ¬ (d0 = 43) := by omega
    subst hD
    simp only [stoi, Bool.false_eq_true, if_false, List.dropWhile_cons, hsp, List.head?_cons,
      Option.some.injEq, h45, h43, or_self, htw, hne, decide_False]

/-- `std::stoi` reads back the text written for an `int`. -/
theorem stoi_int_to_chars (i : Int) (h : int_range i = true) : stoi (int_to_chars i) = some i := by
  simp only [int_range, decide_eq_true_eq] at h
  obtain ⟨hne, hdig, hval⟩ := dec_digits_spec (i.natAbs + 1) i.natAbs (by omega)
  have e : int_to_chars i =
      (if decide (i < 0) then 45 :: dec_digits (i.natAbs + 1) i.natAbs []
       else dec_digits (i.natAbs + 1) i.natAbs []) := by
    simp [int_to_chars]
  rw [e, stoi_signed_digits _ _ hne hdig, hval]
  by_cases hneg : i < 0
  · have : -((i.natAbs : Nat) : Int) = i := by omega
    simp only [hneg, decide_True, if_true, this, h.1, h.2, and_self]
  · have : ((i.natAbs : Nat) : Int) = i := by omega
    simp only [hneg, decide_False, Bool.false_eq_true, if_false, this, h.1, h.2, and_self, if_true]

/-! ### Tree codec: round trip -/

theorem char_toNat_inj (a b : Char) (h : a.toNat = b.toNat) : a = b := by
  cases a with
  | mk va ha =>
    cases b with
    | mk vb hb =>
      have : va = vb := by
        cases va with
        | mk fa =>
          cases vb with
          | mk fb =>
            simp only [Char.toNat, UInt32.toNat] at h
            have : fa = fb := BitVec.eq_of_toNat_eq h
            rw [this]
      subst this
      rfl

@[simp] theorem lit_inj (a b : String) : lit a = lit b ↔ a = b := by
  constructor
  · intro h
    have hmap : Function.Injective (List.map Char.toNat) :=
      List.map_injective_iff.mpr (fun x y hxy => char_toNat_inj x y hxy)
    exact String.ext (hmap h)
  · intro h; rw [h]


/-! ### The monad of computations -/

theorem dec_pure_bind {α β : Type} (a : α) (f : α → Dec β) : (pure a >>= f) = f a := rfl

theorem dec_bind_assoc {α β γ : Type} (x : Dec α) (f : α → Dec β) (h : β → Dec γ) :
    (x >>= f >>= h) = x >>= fun a => f a >>= h := by
  funext g
  show Dec.bind (Dec.bind x f) h g = Dec.bind x (fun a => Dec.bind (f a) h) g
  simp only [Dec.bind]
  cases x g <;> rfl

theorem dec_map_eq {α β : Type} (f : α → β) (x : Dec α) :
    (f <$> x) = x >>= fun a => pure (f a) := rfl

theorem child_cons_eq (key : Str) (v : Yaml) (rest : List (Str × Yaml)) :
    child (Yaml.map ((key, v) :: rest)) key = pure v := by
  simp [child, Yaml.find_child]

theorem child_cons_ne (k key : Str) (v : Yaml) (rest : List (Str × Yaml)) (h : k ≠ key) :
    child (Yaml.map ((k, v) :: rest)) key = child (Yaml.map rest) key := by
  simp [child, Yaml.find_child, h]

theorem get_string_val_val (s : Str) : get_string_val (Yaml.val s) = pure s := rfl

theorem val_val (s : Str) : val (Yaml.val s) = pure s := rfl

/-! ### Total-correctness rules -/

theorem triple_step {α β : Type} {P P' : Globals → Prop} {x : Dec α} {f : α → Dec β}
    {φ : α → Prop} {R : β → Globals → Prop}
    (hx : Triple P x (fun a g => φ a ∧ P' g)) (hf : ∀ a, φ a → Triple P' (f a) R) :
    Triple P (x >>= f) R := by
  intro g hg
  obtain ⟨a, g1, h1, ha, hP⟩ := hx g hg
  obtain ⟨b, g2, h2, hR⟩ := hf a ha g1 hP
  exact ⟨b, g2, by rw [dec_bind_ok x f g g1 a h1]; exact h2, hR⟩

theorem triple_pure {α : Type} {P : Globals → Prop} {R : α → Globals → Prop} (a : α)
    (h : ∀ g, P g → R a g) : Triple P (pure a) R :=
  fun g hg => ⟨a, g, rfl, h g hg⟩

theorem c_str_of_not_mem (s : Str) (h : 0 ∉ s) : c_str s = s := by
  apply takeWhile_all
  intro x hx
  simp only [decide_eq_true_eq]
  intro h0
  exact h (h0 ▸ hx)

theorem add_string_str (t : StringTable) (s : Str) : (t.add_string s).1.entry.str = s := by
  unfold StringTable.add_string
  cases h : scan s (cmin (toInt32 s.length) MAXSIZE) t.tbl 0 with
  | some x =>
    rw [add_string_maxchars_found t s _ x h]
    exact (scan_some_spec _ _ _ _ _ h).2.2
  | none => rw [add_string_maxchars_new t s _ h]

theorem triple_idtable (n : Int) (c : List Output) (s : Str) :
    Triple (Inv n c) (idtable_add_string s) (fun sym g => sym.entry.str = s ∧ Inv n c g) :=
  fun _ hg => ⟨_, _, rfl, add_string_str _ _, hg⟩

theorem triple_inttable (n : Int) (c : List Output) (s : Str) :
    Triple (Inv n c) (inttable_add_string s) (fun sym g => sym.entry.str = s ∧ Inv n c g) :=
  fun _ hg => ⟨_, _, rfl, add_string_str _ _, hg⟩

theorem triple_stringtable (n : Int) (c : List Output) (s : Str) :
    Triple (Inv n c) (stringtable_add_string s) (fun sym g => sym.entry.str = s ∧ Inv n c g) :=
  fun _ hg => ⟨_, _, rfl, add_string_str _ _, hg⟩

theorem triple_set_lineno (n : Int) (c : List Output) (ln : Int) (rest : List (Str × Yaml))
    (hln : int_range ln = true) :
    Triple (Inv n c) (set_lineno (Yaml.map ((lit "lineno", Yaml.val (int_to_chars ln)) :: rest)))
      (fun prev g => prev = n ∧ Inv ln c g) := by
  intro g hg
  refine ⟨n, { g with node_lineno := ln }, ?_, rfl, rfl, hg.2⟩
  simp only [set_lineno, child_cons_eq, dec_pure_bind, get_string_val_val, stoi_int_to_chars ln hln]
  show Dec.bind _ _ g = _
  simp only [Dec.bind, hg.1]

theorem triple_restore (m n : Int) (c : List Output) :
    Triple (Inv m c) (restore_lineno n) (fun _ g => True ∧ Inv n c g) :=
  fun _ hg => ⟨(), _, rfl, trivial, rfl, hg.2⟩

theorem triple_branch (n : Int) (c : List Output) (name type_decl : Symbol) (expr : Expression) :
    Triple (Inv n c) (branch name type_decl expr)
      (fun b g => b = .branch_class n name type_decl expr ∧ Inv n c g) :=
  fun g hg => ⟨_, g, rfl, by rw [hg.1], hg⟩

theorem triple_new_Expression (n : Int) (c : List Output) (node : Expression_class) :
    Triple (Inv n c) (new_Expression node) (fun e g => e = .mk n none node ∧ Inv n c g) :=
  fun g hg => ⟨_, g, rfl, by rw [hg.1], hg⟩

theorem triple_list_loop {α : Type} (n : Int) (c : List Output) (enc : α → Yaml)
    (dec : Yaml → Dec α) (l : List α)
    (h : ∀ x ∈ l, Triple (Inv n c) (dec (enc x)) (fun a g => enc a = enc x ∧ Inv n c g)) :
    ∀ acc : List α, Triple (Inv n c) (yaml_to_list_loop dec (l.map enc) acc)
      (fun nodes g => nodes.map enc = acc.map enc ++ l.map enc ∧ Inv n c g) := by
  induction l with
  | nil =>
    intro acc
    exact triple_pure _ (fun g hg => ⟨by simp, hg⟩)
  | cons x xs ih =>
    intro acc
    simp only [List.map_cons, yaml_to_list_loop]
    refine triple_step (h x (List.mem_cons_self _ _)) ?_
    intro a ha
    intro g hg
    obtain ⟨nodes, g', h1, h2, h3⟩ :=
      ih (fun y hy => h y (List.mem_cons_of_mem _ hy)) (acc ++ [a]) g hg
    exact ⟨nodes, g', h1, by simp [h2, ha], h3⟩

theorem triple_list {α : Type} (n : Int) (c : List Output) (enc : α → Yaml)
    (dec : Yaml → Dec α) (l : List α)
    (h : ∀ x ∈ l, Triple (Inv n c) (dec (enc x)) (fun a g => enc a = enc x ∧ Inv n c g)) :
    Triple (Inv n c) (yaml_to_list [] dec (Yaml.seq (l.map enc)))
      (fun nodes g => nodes.map enc = l.map enc ∧ Inv n c g) := by
  intro g hg
  obtain ⟨nodes, g', h1, h2, h3⟩ := triple_list_loop n c enc dec l h [] g hg
  exact ⟨nodes, g', h1, by simpa using h2, h3⟩

theorem Expressions_to_yaml_eq (es : List Expression) :
    Expressions_to_yaml es = es.map Expression.to_yaml := by
  induction es with
  | nil => rfl
  | cons e es ih => simp [Expressions_to_yaml, ih]

theorem Cases_to_yaml_eq (cs : List Case) : Cases_to_yaml cs = cs.map Case.to_yaml := by
  induction cs with
  | nil => rfl
  | cons e es ih => simp [Cases_to_yaml, ih]


/-- The text `emit_type` writes for a type field. -/
theorem emit_type_eq (ty : Option Symbol) : emit_type ty = (lit "type", Yaml.val (type_text ty)) := by
  cases ty <;> rfl

theorem c_str_type_text (ty : Option Symbol) (h : type_nul_free ty = true) :
    c_str (type_text ty) = type_text ty := by
  cases ty with
  | none => exact c_str_of_not_mem _ (by decide)
  | some t =>
    apply c_str_of_not_mem
    simpa [type_nul_free, nul_free] using h

theorem Boolean_to_chars_eq_one (b : Boolean) : decide (Boolean_to_chars b = lit "1") = b := by
  cases b <;> decide

theorem c_str_nul_free (s : Symbol) (h : nul_free s = true) : c_str s.entry.str = s.entry.str :=
  c_str_of_not_mem _ (by simpa [nul_free] using h)

theorem Expressions_wf_mem (l : List Expression) (h : Expressions_wf l = true) :
    ∀ x ∈ l, x.wf = true := by
  induction l with
  | nil => intro x hx; simp at hx
  | cons e es ih =>
    simp only [Expressions_wf, Bool.and_eq_true] at h
    intro x hx
    rcases List.mem_cons.mp hx with hx | hx
    · rw [hx]; exact h.1
    · exact ih h.2 x hx

theorem Cases_wf_mem (l : List Case) (h : Cases_wf l = true) : ∀ x ∈ l, x.wf = true := by
  induction l with
  | nil => intro x hx; simp at hx
  | cons e es ih =>
    simp only [Cases_wf, Bool.and_eq_true] at h
    intro x hx
    rcases List.mem_cons.mp hx with hx | hx
    · rw [hx]; exact h.1
    · exact ih h.2 x hx

set_option maxHeartbeats 4000000 in
theorem yaml_to_expression_round_trip_aux (fuel : Nat) :
    (∀ e : Expression, sizeOf e < fuel → e.wf = true → ∀ (n : Int) (c : List Output),
      Triple (Inv n c) (yaml_to_expression fuel e.to_yaml)
        (fun e' g => e'.to_yaml = e.to_yaml ∧ Inv n c g)) ∧
    (∀ b : Case, sizeOf b < fuel → b.wf = true → ∀ (n : Int) (c : List Output),
      Triple (Inv n c) (yaml_to_case fuel b.to_yaml)
        (fun b' g => b'.to_yaml = b.to_yaml ∧ Inv n c g)) := by
  induction fuel with
  | zero => exact ⟨fun e h => absurd h (Nat.not_lt_zero _), fun b h => absurd h (Nat.not_lt_zero _)⟩
  | succ fuel ih =>
    obtain ⟨ihE, ihC⟩ := ih
    constructor
    · intro e hsize hwf n c
      cases e with
      | mk ln ty node =>
        simp only [Expression.wf, Bool.and_eq_true] at hwf
        obtain ⟨⟨hln, hty⟩, hnode⟩ := hwf
        cases node
        all_goals
          simp only [Expression_class.wf, Bool.and_eq_true] at hnode
          simp only [Expression.mk.sizeOf_spec, Expression_class.assign_class.sizeOf_spec,
            Expression_class.static_dispatch_class.sizeOf_spec,
            Expression_class.dispatch_class.sizeOf_spec, Expression_class.cond_class.sizeOf_spec,
            Expression_class.loop_class.sizeOf_spec, Expression_class.typcase_class.sizeOf_spec,
            Expression_class.block_class.sizeOf_spec, Expression_class.let_class.sizeOf_spec,
            Expression_class.plus_class.sizeOf_spec, Expression_class.sub_class.sizeOf_spec,
            Expression_class.mul_class.sizeOf_spec, Expression_class.divide_class.sizeOf_spec,
            Expression_class.neg_class.sizeOf_spec, Expression_class.lt_class.sizeOf_spec,
            Expression_class.eq_class.sizeOf_spec, Expression_class.leq_class.sizeOf_spec,
            Expression_class.comp_class.sizeOf_spec, Expression_class.int_const_class.sizeOf_spec,
            Expression_class.bool_const_class.sizeOf_spec,
            Expression_class.string_const_class.sizeOf_spec,
            Expression_class.new__class.sizeOf_spec, Expression_class.isvoid_class.sizeOf_spec,
            Expression_class.no_expr_class.sizeOf_spec,
            Expression_class.object_class.sizeOf_spec] at hsize
          simp only [Expression.to_yaml, Expression_class.to_yaml_rest, emit_lineno, emit_type_eq,
            yaml_to_expression, child_cons_eq, child_cons_ne, get_string_val_val, val_val,
            dec_pure_bind, dec_bind_assoc, dec_map_eq, lit_inj, String.reduceEq, ne_eq,
            not_false_eq_true, if_true, if_false, Expressions_to_yaml_eq, Cases_to_yaml_eq,
            Entry.get_string,
            assign, static_dispatch, dispatch, cond, loop, typcase, block, let_, plus, sub, mul,
            divide, neg, lt, eq, leq, comp, int_const, bool_const, string_const, new_, isvoid,
            no_expr, object]
          refine triple_step (triple_set_lineno n c ln _ hln) ?_
          intro prev hprev
          subst hprev
          repeat (first
            | (refine triple_step (triple_idtable _ _ _) ?_; intro _ _)
            | (refine triple_step (triple_inttable _ _ _) ?_; intro _ _)
            | (refine triple_step (triple_stringtable _ _ _) ?_; intro _ _)
            | (refine triple_step (ihE _ (by omega) (by simp only [hnode]) _ _) ?_; intro _ _)
            | (refine triple_step (triple_list _ _ Expression.to_yaml _ _
                (fun x hx => ihE x (by have := List.sizeOf_lt_of_mem hx; omega)
                  (Expressions_wf_mem _ (by simp only [hnode]) x hx) _ _)) ?_; intro _ _)
            | (refine triple_step (triple_list _ _ Case.to_yaml _ _
                (fun x hx => ihC x (by have := List.sizeOf_lt_of_mem hx; omega)
                  (Cases_wf_mem _ (by simp only [hnode]) x hx) _ _)) ?_; intro _ _)
            | (refine triple_step (triple_new_Expression _ _ _) ?_; intro _ _)
            | (refine triple_step (triple_restore _ _ _) ?_; intro _ _))
          refine triple_pure _ (fun g hg => ⟨?_, hg⟩)
          subst_vars
          simp only [Expression.set_type, Expression.to_yaml, Expression_class.to_yaml_rest,
            emit_lineno, emit_type, Entry.get_string, Expressions_to_yaml_eq, Cases_to_yaml_eq,
            c_str_nul_free, c_str_type_text ty hty, Boolean_to_chars_eq_one, hnode, *]
    · intro b hsize hwf n c
      cases b with
      | branch_class ln name type_decl expr =>
        simp only [Case.wf, Bool.and_eq_true] at hwf
        simp only [Case.branch_class.sizeOf_spec] at hsize
        simp only [Case.to_yaml, emit_lineno, yaml_to_case, child_cons_eq, child_cons_ne,
          get_string_val_val, dec_pure_bind, dec_bind_assoc, dec_map_eq, lit_inj,
          String.reduceEq, ne_eq, not_false_eq_true, if_true, Entry.get_string]
        refine triple_step (triple_set_lineno n c ln _ hwf.1.1.1) ?_
        intro prev hprev
        subst hprev
        refine triple_step (triple_idtable _ _ _) ?_
        intro name1 hname1
        refine triple_step (triple_idtable _ _ _) ?_
        intro type1 htype1
        refine triple_step (ihE expr (by omega) hwf.2 _ _) ?_
        intro expr1 hexpr1
        refine triple_step (triple_branch _ _ _ _ _) ?_
        intro b1 hb1
        refine triple_step (triple_restore _ _ _) ?_
        intro _ _
        refine triple_pure _ (fun g hg => ⟨?_, hg⟩)
        subst hb1
        simp only [Case.to_yaml, emit_lineno, Entry.get_string, hname1, htype1, hexpr1,
          c_str_nul_free _ hwf.1.1.2, c_str_nul_free _ hwf.1.2]

theorem triple_formal (n : Int) (c : List Output) (name type_decl : Symbol) :
    Triple (Inv n c) (formal name type_decl)
      (fun f g => f = .formal_class n name type_decl ∧ Inv n c g) :=
  fun g hg => ⟨_, g, rfl, by rw [hg.1], hg⟩

theorem triple_method (n : Int) (c : List Output) (name : Symbol) (formals : List Formal)
    (return_type : Symbol) (expr : Expression) :
    Triple (Inv n c) (method name formals return_type expr)
      (fun f g => f = .method_class n name formals return_type expr ∧ Inv n c g) :=
  fun g hg => ⟨_, g, rfl, by rw [hg.1], hg⟩

theorem triple_attr (n : Int) (c : List Output) (name type_decl : Symbol) (init : Expression) :
    Triple (Inv n c) (attr name type_decl init)
      (fun f g => f = .attr_class n name type_decl init ∧ Inv n c g) :=
  fun g hg => ⟨_, g, rfl, by rw [hg.1], hg⟩

theorem triple_class_ (n : Int) (c : List Output) (name parent : Symbol)
    (features : List Feature) (filename : Symbol) :
    Triple (Inv n c) (class_ name parent features filename)
      (fun f g => f = .class__class n name parent features filename ∧ Inv n c g) :=
  fun g hg => ⟨_, g, rfl, by rw [hg.1], hg⟩

theorem triple_program (n : Int) (c : List Output) (classes : List Class_) :
    Triple (Inv n c) (program classes) (fun p g => p = .program_class n classes ∧ Inv n c g) :=
  fun g hg => ⟨_, g, rfl, by rw [hg.1], hg⟩

theorem yaml_to_formal_round_trip (f : Formal) (hwf : f.wf = true) (n : Int) (c : List Output) :
    Triple (Inv n c) (yaml_to_formal f.to_yaml) (fun f' g => f'.to_yaml = f.to_yaml ∧ Inv n c g) := by
  cases f with
  | formal_class ln name type_decl =>
    simp only [Formal.wf, Bool.and_eq_true] at hwf
    simp only [Formal.to_yaml, emit_lineno, yaml_to_formal, child_cons_eq, child_cons_ne,
      get_string_val_val, dec_pure_bind, dec_bind_assoc, dec_map_eq, lit_inj,
      String.reduceEq, ne_eq, not_false_eq_true, if_true, Entry.get_string]
    refine triple_step (triple_set_lineno n c ln _ hwf.1.1) ?_
    intro prev hprev
    subst hprev
    refine triple_step (triple_idtable _ _ _) ?_
    intro name1 hname1
    refine triple_step (triple_idtable _ _ _) ?_
    intro type1 htype1
    refine triple_step (triple_formal _ _ _ _) ?_
    intro f1 hf1
    refine triple_step (triple_restore _ _ _) ?_
    intro _ _
    refine triple_pure _ (fun g hg => ⟨?_, hg⟩)
    subst hf1
    simp only [Formal.to_yaml, emit_lineno, Entry.get_string, hname1, htype1,
      c_str_nul_free _ hwf.1.2, c_str_nul_free _ hwf.2]

theorem yaml_to_feature_round_trip (fuel : Nat) (f : Feature) (hsize : sizeOf f < fuel)
    (hwf : f.wf = true) (n : Int) (c : List Output) :
    Triple (Inv n c) (yaml_to_feature fuel f.to_yaml)
      (fun f' g => f'.to_yaml = f.to_yaml ∧ Inv n c g) := by
  cases f with
  | method_class ln name formals return_type expr =>
    simp only [Feature.wf, Bool.and_eq_true, List.all_eq_true] at hwf
    simp only [Feature.method_class.sizeOf_spec] at hsize
    simp only [Feature.to_yaml, emit_lineno, yaml_to_feature, child_cons_eq, child_cons_ne,
      get_string_val_val, dec_pure_bind, dec_bind_assoc, dec_map_eq, lit_inj,
      String.reduceEq, ne_eq, not_false_eq_true, if_true, Entry.get_string, list_to_yaml_eq_map]
    refine triple_step (triple_set_lineno n c ln _ hwf.1.1.1.1) ?_
    intro prev hprev
    subst hprev
    refine triple_step (triple_idtable _ _ _) ?_
    intro name1 hname1
    refine triple_step (triple_list _ _ Formal.to_yaml _ _
      (fun x hx => yaml_to_formal_round_trip x (hwf.1.1.2 x hx) _ _)) ?_
    intro formals1 hformals1
    refine triple_step (triple_idtable _ _ _) ?_
    intro rt1 hrt1
    refine triple_step ((yaml_to_expression_round_trip_aux fuel).1 expr (by omega) hwf.2 _ _) ?_
    intro expr1 hexpr1
    refine triple_step (triple_method _ _ _ _ _ _) ?_
    intro f1 hf1
    refine triple_step (triple_restore _ _ _) ?_
    intro _ _
    refine triple_pure _ (fun g hg => ⟨?_, hg⟩)
    subst hf1
    simp only [Feature.to_yaml, emit_lineno, Entry.get_string, hname1, hformals1, hrt1, hexpr1,
      list_to_yaml_eq_map, c_str_nul_free _ hwf.1.1.1.2, c_str_nul_free _ hwf.1.2]
  | attr_class ln name type_decl init =>
    simp only [Feature.wf, Bool.and_eq_true] at hwf
    simp only [Feature.attr_class.sizeOf_spec] at hsize
    simp only [Feature.to_yaml, emit_lineno, yaml_to_feature, child_cons_eq, child_cons_ne,
      get_string_val_val, dec_pure_bind, dec_bind_assoc, dec_map_eq, lit_inj,
      String.reduceEq, ne_eq, not_false_eq_true, if_true, if_false, Entry.get_string]
    refine triple_step (triple_set_lineno n c ln _ hwf.1.1.1) ?_
    intro prev hprev
    subst hprev
    refine triple_step (triple_idtable _ _ _) ?_
    intro name1 hname1
    refine triple_step (triple_idtable _ _ _) ?_
    intro type1 htype1
    refine triple_step ((yaml_to_expression_round_trip_aux fuel).1 init (by omega) hwf.2 _ _) ?_
    intro init1 hinit1
    refine triple_step (triple_attr _ _ _ _ _) ?_
    intro f1 hf1
    refine triple_step (triple_restore _ _ _) ?_
    intro _ _
    refine triple_pure _ (fun g hg => ⟨?_, hg⟩)
    subst hf1
    simp only [Feature.to_yaml, emit_lineno, Entry.get_string, hname1, htype1, hinit1,
      c_str_nul_free _ hwf.1.1.2, c_str_nul_free _ hwf.1.2]

theorem yaml_to_class__round_trip (fuel : Nat) (cl : Class_) (hsize : sizeOf cl < fuel)
    (hwf : cl.wf = true) (n : Int) (c : List Output) :
    Triple (Inv n c) (yaml_to_class_ fuel cl.to_yaml)
      (fun cl' g => cl'.to_yaml = cl.to_yaml ∧ Inv n c g) := by
  cases cl with
  | class__class ln name parent features filename =>
    simp only [Class_.wf, Bool.and_eq_true, List.all_eq_true] at hwf
    simp only [Class_.class__class.sizeOf_spec] at hsize
    simp only [Class_.to_yaml, emit_lineno, yaml_to_class_, child_cons_eq, child_cons_ne,
      get_string_val_val, dec_pure_bind, dec_bind_assoc, dec_map_eq, lit_inj,
      String.reduceEq, ne_eq, not_false_eq_true, if_true, Entry.get_string, list_to_yaml_eq_map]
    refine triple_step (triple_set_lineno n c ln _ hwf.1.1.1.1) ?_
    intro prev hprev
    subst hprev
    refine triple_step (triple_idtable _ _ _) ?_
    intro name1 hname1
    refine triple_step (triple_idtable _ _ _) ?_
    intro parent1 hparent1
    refine triple_step (triple_list _ _ Feature.to_yaml _ _
      (fun x hx => yaml_to_feature_round_trip fuel x
        (by have := List.sizeOf_lt_of_mem hx; omega) (hwf.1.2 x hx) _ _)) ?_
    intro features1 hfeatures1
    refine triple_step (triple_stringtable _ _ _) ?_
    intro filename1 hfilename1
    refine triple_step (triple_class_ _ _ _ _ _ _) ?_
    intro c1 hc1
    refine triple_step (triple_restore _ _ _) ?_
    intro _ _
    refine triple_pure _ (fun g hg => ⟨?_, hg⟩)
    subst hc1
    simp only [Class_.to_yaml, emit_lineno, Entry.get_string, hname1, hparent1, hfeatures1,
      hfilename1, list_to_yaml_eq_map, c_str_nul_free _ hwf.1.1.1.2, c_str_nul_free _ hwf.1.1.2,
      c_str_nul_free _ hwf.2]

theorem yaml_to_program_round_trip (fuel : Nat) (p : Program) (hsize : sizeOf p < fuel)
    (hwf : p.wf = true) (n : Int) (c : List Output) :
    Triple (Inv n c) (yaml_to_program fuel p.to_yaml)
      (fun p' g => p'.to_yaml = p.to_yaml ∧ Inv n c g) := by
  cases p with
  | program_class ln classes =>
    simp only [Program.wf, Bool.and_eq_true, List.all_eq_true] at hwf
    simp only [Program.program_class.sizeOf_spec] at hsize
    simp only [Program.to_yaml, emit_lineno, yaml_to_program, child_cons_eq, child_cons_ne,
      get_string_val_val, dec_pure_bind, dec_bind_assoc, dec_map_eq, lit_inj,
      String.reduceEq, ne_eq, not_false_eq_true, if_true, Entry.get_string, list_to_yaml_eq_map]
    refine triple_step (triple_set_lineno n c ln _ hwf.1) ?_
    intro prev hprev
    subst hprev
    refine triple_step (triple_list _ _ Class_.to_yaml _ _
      (fun x hx => yaml_to_class__round_trip fuel x
        (by have := List.sizeOf_lt_of_mem hx; omega) (hwf.2 x hx) _ _)) ?_
    intro classes1 hclasses1
    refine triple_step (triple_program _ _ _) ?_
    intro p1 hp1
    refine triple_step (triple_restore _ _ _) ?_
    intro _ _
    refine triple_pure _ (fun g hg => ⟨?_, hg⟩)
    subst hp1
    simp only [Program.to_yaml, emit_lineno, hclasses1, list_to_yaml_eq_map]

/-- C1, amended. For every Program tree whose line numbers are `int` values and whose
symbol texts (names, tokens, set types) contain no NUL byte, there is a bound
such that with at least that much fuel `yaml_to_program`, run in any state on the
map produced by `to_yaml`, returns a tree, and re-encoding that tree with
`to_yaml` gives the same external map (so kinds, children and their order, line
numbers, symbol texts and type-field texts all agree); the ambient `node_lineno`
and the error stream are as before the call. -/
theorem tree_codec_round_trip (p : Program) (hwf : p.wf = true) :
    ∃ N : Nat, ∀ fuel : Nat, N ≤ fuel → ∀ g : Globals, ∃ p' g',
      yaml_to_program fuel p.to_yaml g = Res.ok p' g' ∧ p'.to_yaml = p.to_yaml ∧
      g'.node_lineno = g.node_lineno ∧ g'.cerr = g.cerr := by
  refine ⟨sizeOf p + 1, fun fuel hfuel g => ?_⟩
  obtain ⟨p', g', h1, h2, h3, h4⟩ :=
    yaml_to_program_round_trip fuel p (by omega) hwf g.node_lineno g.cerr g ⟨rfl, rfl⟩
  exact ⟨p', g', h1, h2, h3, h4⟩

/-! ### More fuel does not change what a decoder does -/

theorem fuelLe_refl {α : Type} (x : Dec α) : FuelLe x x := fun _ => Or.inr rfl

theorem fuelLe_bind {α β : Type} {x y : Dec α} {f f' : α → Dec β} (hx : FuelLe x y)
    (hf : ∀ a, FuelLe (f a) (f' a)) : FuelLe (x >>= f) (y >>= f') := by
  intro g
  show Dec.bind x f g = Res.out_of_fuel ∨ Dec.bind x f g = Dec.bind y f' g
  rcases hx g with h | h
  · left
    simp only [Dec.bind, h]
  · simp only [Dec.bind, ← h]
    cases x g with
    | ok a g1 => exact hf a g1
    | exit c g1 => exact Or.inr rfl
    | crash g1 => exact Or.inr rfl
    | out_of_fuel => exact Or.inl rfl

theorem fuelLe_ite {α : Type} (c : Prop) [Decidable c] {x y x' y' : Dec α} (hx : FuelLe x x')
    (hy : FuelLe y y') : FuelLe (if c then x else y) (if c then x' else y') := by
  split
  · exact hx
  · exact hy

theorem fuelLe_list_loop {α : Type} {d d' : Yaml → Dec α} (h : ∀ n, FuelLe (d n) (d' n))
    (children : List Yaml) :
    ∀ acc : List α, FuelLe (yaml_to_list_loop d children acc) (yaml_to_list_loop d' children acc) := by
  induction children with
  | nil => intro acc; exact fuelLe_refl _
  | cons c cs ih =>
    intro acc
    simp only [yaml_to_list_loop]
    exact fuelLe_bind (h c) (fun a => ih (acc ++ [a]))

theorem fuelLe_list {α : Type} {d d' : Yaml → Dec α} (h : ∀ n, FuelLe (d n) (d' n))
    (acc : List α) (n : Yaml) : FuelLe (yaml_to_list acc d n) (yaml_to_list acc d' n) := by
  cases n with
  | seq children => exact fuelLe_list_loop h children acc
  | val s => exact fuelLe_refl _
  | map kvs => exact fuelLe_refl _

set_option maxRecDepth 100000 in
set_option maxHeartbeats 4000000 in
/-- With more fuel `yaml_to_expression` and `yaml_to_case` do what they did with
less, wherever that was not running out of fuel. -/
theorem yaml_to_expression_fuel_mono (fuel : Nat) :
    ∀ fuel' : Nat, fuel ≤ fuel' →
    (∀ n, FuelLe (yaml_to_expression fuel n) (yaml_to_expression fuel' n)) ∧
    (∀ n, FuelLe (yaml_to_case fuel n) (yaml_to_case fuel' n)) := by
  induction fuel with
  | zero => exact fun _ _ => ⟨fun n g => Or.inl rfl, fun n g => Or.inl rfl⟩
  | succ fuel ih =>
    intro fuel' hle
    cases fuel' with
    | zero => omega
    | succ fuel' =>
      obtain ⟨ihE, ihC⟩ := ih fuel' (by omega)
      constructor
      · intro n
        simp only [yaml_to_expression]
        repeat' (first
          | with_reducible exact fuelLe_refl _
          | with_reducible exact ihE _
          | with_reducible exact fuelLe_list ihE _ _
          | with_reducible exact fuelLe_list ihC _ _
          | with_reducible refine fuelLe_ite _ ?_ ?_
          | with_reducible refine fuelLe_bind ?_ (fun _ => ?_))
      · intro n
        simp only [yaml_to_case]
        repeat' (first
          | with_reducible exact fuelLe_refl _
          | with_reducible exact ihE _
          | with_reducible refine fuelLe_ite _ ?_ ?_
          | with_reducible refine fuelLe_bind ?_ (fun _ => ?_))

theorem yaml_to_feature_fuel_mono (fuel fuel' : Nat) (h : fuel ≤ fuel') (n : Yaml) :
    FuelLe (yaml_to_feature fuel n) (yaml_to_feature fuel' n) := by
  have ihE := (yaml_to_expression_fuel_mono fuel fuel' h).1
  simp only [yaml_to_feature]
  repeat' (first
    | with_reducible exact fuelLe_refl _
    | with_reducible exact ihE _
    | with_reducible refine fuelLe_ite _ ?_ ?_
    | with_reducible refine fuelLe_bind ?_ (fun _ => ?_))

theorem yaml_to_class__fuel_mono (fuel fuel' : Nat) (h : fuel ≤ fuel') (n : Yaml) :
    FuelLe (yaml_to_class_ fuel n) (yaml_to_class_ fuel' n) := by
  have ihF := yaml_to_feature_fuel_mono fuel fuel' h
  simp only [yaml_to_class_]
  repeat' (first
    | with_reducible exact fuelLe_refl _
    | with_reducible exact fuelLe_list ihF _ _
    | with_reducible refine fuelLe_ite _ ?_ ?_
    | with_reducible refine fuelLe_bind ?_ (fun _ => ?_))

theorem yaml_to_program_fuel_mono (fuel fuel' : Nat) (h : fuel ≤ fuel') (n : Yaml) :
    FuelLe (yaml_to_program fuel n) (yaml_to_program fuel' n) := by
  have ihC := yaml_to_class__fuel_mono fuel fuel' h
  simp only [yaml_to_program]
  repeat' (first
    | with_reducible exact fuelLe_refl _
    | with_reducible exact fuelLe_list ihC _ _
    | with_reducible refine fuelLe_ite _ ?_ ?_
    | with_reducible refine fuelLe_bind ?_ (fun _ => ?_))

/-- What a decoder returned with some fuel it returns with any larger fuel. -/
theorem fuelLe_ok {α : Type} {x y : Dec α} (h : FuelLe x y) (g g' : Globals) (a : α)
    (hx : x g = Res.ok a g') : y g = Res.ok a g' := by
  rcases h g with h1 | h1
  · rw [hx] at h1; cases h1
  · rw [← h1]; exact hx

/-- C1, as stated, fails: `nulProgram` holds a string constant whose text is the two
bytes `a`, NUL. With any fuel from 5 on, `yaml_to_program` run on its encoding
returns a tree, but the re-encoding of that tree differs from the encoding of
`nulProgram`: the scalar `a` NUL is gone and the scalar `a` stands in its place,
because the decoder interns `get_string_val(...)->c_str()`, the text up to the
first NUL. -/
theorem tree_codec_round_trip_fails_on_nul :
    [97, 0] ∈ nulProgram.to_yaml.scalars ∧
    ∀ fuel : Nat, 5 ≤ fuel → ∃ p' g',
      yaml_to_program fuel nulProgram.to_yaml sampleGlobals = Res.ok p' g' ∧
      p'.to_yaml ≠ nulProgram.to_yaml ∧
      [97, 0] ∉ p'.to_yaml.scalars ∧ [97] ∈ p'.to_yaml.scalars := by
  have h : (yaml_to_program 5 nulProgram.to_yaml sampleGlobals).value.map
      (fun p => (decide (p.to_yaml.scalars = nulProgram.to_yaml.scalars),
        decide ([97, 0] ∈ p.to_yaml.scalars), decide ([97] ∈ p.to_yaml.scalars))) =
      some (false, false, true) := by
    decide!
  have h0 : [97, 0] ∈ nulProgram.to_yaml.scalars := by decide!
  refine ⟨h0, fun fuel hfuel => ?_⟩
  cases hres : yaml_to_program 5 nulProgram.to_yaml sampleGlobals with
  | ok p' g' =>
    rw [hres] at h
    simp only [Res.value, Option.map_some', Option.some.injEq, Prod.mk.injEq,
      decide_eq_false_iff_not, decide_eq_true_eq] at h
    exact ⟨p', g', fuelLe_ok (yaml_to_program_fuel_mono 5 fuel hfuel _) _ _ _ hres,
      fun heq => h.1 (by rw [heq]), h.2.1, h.2.2⟩
  | exit code g' => rw [hres] at h; simp [Res.value] at h
  | crash g' => rw [hres] at h; simp [Res.value] at h
  | out_of_fuel => rw [hres] at h; simp [Res.value] at h

theorem tree_codec_round_trip_witness :
    sampleProgram.wf = true ∧
    ∃ N : Nat, ∀ fuel : Nat, N ≤ fuel → ∀ g : Globals, ∃ p' g',
      yaml_to_program fuel sampleProgram.to_yaml g = Res.ok p' g' ∧
      p'.to_yaml = sampleProgram.to_yaml ∧
      g'.node_lineno = g.node_lineno ∧ g'.cerr = g.cerr :=
  ⟨by decide!, tree_codec_round_trip sampleProgram (by decide!)⟩

theorem list_codec_order_witness :
    sampleFormals.length = sampleFormals.length ∧
    sampleFormalStates.length = sampleFormals.length + 1 ∧
    (∀ (i : Nat) (x : Formal), sampleFormals[i]? = some x → ∃ a g g',
      sampleFormals[i]? = some a ∧ sampleFormalStates[i]? = some g ∧
      sampleFormalStates[i + 1]? = some g' ∧ yaml_to_formal (Formal.to_yaml x) g = .ok a g') ∧
    ((∃ children, list_to_yaml Formal.to_yaml sampleFormals = Yaml.seq children ∧
        children.length = sampleFormals.length ∧
        ∀ (i : Nat) (x : Formal), sampleFormals[i]? = some x →
          children[i]? = some (Formal.to_yaml x)) ∧
     (∃ g0 gN, sampleFormalStates[0]? = some g0 ∧
        sampleFormalStates[sampleFormals.length]? = some gN ∧
        yaml_to_list [] yaml_to_formal (list_to_yaml Formal.to_yaml sampleFormals) g0 =
          .ok sampleFormals gN)) := by
  have hstep : ∀ (i : Nat) (x : Formal), sampleFormals[i]? = some x → ∃ a g g',
      sampleFormals[i]? = some a ∧ sampleFormalStates[i]? = some g ∧
      sampleFormalStates[i + 1]? = some g' ∧ yaml_to_formal (Formal.to_yaml x) g = .ok a g' := by
    intro i x hx
    match i, hx with
    | 0, hx =>
      have : x = .formal_class 3 ⟨0, ⟨lit "x", 1, 0⟩⟩ ⟨1, ⟨lit "Int", 3, 1⟩⟩ := by
        simpa [sampleFormals] using hx.symm
      subst this
      exact ⟨_, _, _, rfl, rfl, rfl, by decide!⟩
    | 1, hx =>
      have : x = .formal_class 3 ⟨2, ⟨lit "y", 1, 2⟩⟩ ⟨3, ⟨lit "Bool", 4, 3⟩⟩ := by
        simpa [sampleFormals] using hx.symm
      subst this
      exact ⟨_, _, _, rfl, rfl, rfl, by decide!⟩
    | i + 2, hx => simp [sampleFormals] at hx
  exact ⟨rfl, rfl, hstep,
    list_codec_order Formal.to_yaml yaml_to_formal sampleFormals sampleFormals
      sampleFormalStates rfl rfl hstep⟩

/-! ### Tree codec: unknown class tags -/

theorem child_of_find (node : Yaml) (key : Str) (v : Yaml) (h : node.find_child key = some v) :
    child node key = pure v := by
  simp only [child, h]

theorem set_lineno_cases (node : Yaml) (g : Globals) :
    (∃ t v, node.find_child (lit "lineno") = some (Yaml.val t) ∧ stoi t = some v ∧
      set_lineno node g = Res.ok g.node_lineno { g with node_lineno := v }) ∨
    set_lineno node g = Res.crash g := by
  cases hf : node.find_child (lit "lineno") with
  | none =>
    right
    simp only [set_lineno, child, hf]
    rfl
  | some ch =>
    cases ch with
    | val t =>
      cases hs : stoi t with
      | none =>
        right
        simp only [set_lineno, child_of_find _ _ _ hf, dec_pure_bind, get_string_val_val, hs]
        rfl
      | some v =>
        left
        refine ⟨t, v, rfl, hs, ?_⟩
        simp only [set_lineno, child_of_find _ _ _ hf, dec_pure_bind, get_string_val_val, hs]
        rfl
    | map kvs =>
      right
      simp only [set_lineno, child_of_find _ _ _ hf, dec_pure_bind]
      rfl
    | seq cs =>
      right
      simp only [set_lineno, child_of_find _ _ _ hf, dec_pure_bind]
      rfl

/-- A decoder that finds no branch for the tag: it sets and restores the line and
then calls `fail()`, having written `msg` first. -/
theorem fail_after_set_lineno {α : Type} (node : Yaml) (g : Globals) (msg : List Output)
    (tail : Dec α) (htail : ∀ g1, tail g1 = Res.exit 1 { g1 with cerr := g1.cerr ++ msg }) :
    ((set_lineno node >>= fun prev_lineno => restore_lineno prev_lineno >>= fun _ => tail) g).fatal
      = true ∧
    ∀ t v, node.find_child (lit "lineno") = some (Yaml.val t) → stoi t = some v →
      (set_lineno node >>= fun prev_lineno => restore_lineno prev_lineno >>= fun _ => tail) g =
        Res.exit 1 { g with cerr := g.cerr ++ msg } := by
  rcases set_lineno_cases node g with ⟨t, v, hf, hs, hset⟩ | hcrash
  · have key : (set_lineno node >>= fun prev_lineno =>
        restore_lineno prev_lineno >>= fun _ => tail) g =
        Res.exit 1 { g with cerr := g.cerr ++ msg } := by
      rw [dec_bind_ok _ _ _ _ _ hset]
      rw [dec_bind_ok (restore_lineno g.node_lineno) _ _ _ () rfl, htail]
    exact ⟨by rw [key]; rfl, fun _ _ _ _ => key⟩
  · have key : (set_lineno node >>= fun prev_lineno =>
        restore_lineno prev_lineno >>= fun _ => tail) g = Res.crash g := by
      show Dec.bind _ _ g = _
      simp only [Dec.bind, hcrash]
    refine ⟨by rw [key]; rfl, fun t v hf hs => ?_⟩
    exfalso
    rcases set_lineno_cases node g with ⟨t', v', hf', hs', hset'⟩ | _
    · rw [hset'] at hcrash; cases hcrash
    · have : set_lineno node g = Res.ok g.node_lineno { g with node_lineno := v } := by
        simp only [set_lineno, child_of_find _ _ _ hf, dec_pure_bind, get_string_val_val, hs]
        rfl
      rw [this] at hcrash; cases hcrash

theorem fail_eq (α : Type) (g1 : Globals) :
    (fail : Dec α) g1 = Res.exit 1 { g1 with cerr := g1.cerr ++ cerr_failed } := rfl

theorem invalid_class_eq (g1 : Globals) :
    ((do
      cerr_text (lit "Invalid class: ")
      cerr_pointer
      cerr_text (lit "\n")
      fail) : Dec Expression) g1 = Res.exit 1 { g1 with cerr := g1.cerr ++ cerr_invalid_class } := by
  show Dec.bind _ _ g1 = _
  simp [Dec.bind, cerr_text, cerr_pointer, fail, cerr_invalid_class, bind]

theorem yaml_to_program_bad_tag (fuel : Nat) (node : Yaml) (tag : Str)
    (hclass : node.find_child (lit "class") = some (Yaml.val tag)) (htag : tag ≠ lit "program") :
    yaml_to_program fuel node =
      set_lineno node >>= fun prev_lineno => restore_lineno prev_lineno >>= fun _ => fail := by
  simp only [yaml_to_program, child_of_find _ _ _ hclass, dec_pure_bind, get_string_val_val,
    htag, if_false]

theorem yaml_to_expression_bad_tag (fuel : Nat) (node : Yaml) (tag : Str)
    (hclass : node.find_child (lit "class") = some (Yaml.val tag))
    (htag : tag ∉ expression_tags) :
    yaml_to_expression (fuel + 1) node =
      set_lineno node >>= fun prev_lineno => restore_lineno prev_lineno >>= fun _ => (do
        cerr_text (lit "Invalid class: ")
        cerr_pointer
        cerr_text (lit "\n")
        fail) := by
  simp only [expression_tags, List.mem_cons, List.mem_singleton, not_or, List.mem_nil_iff,
    or_false] at htag
  simp only [yaml_to_expression, child_of_find _ _ _ hclass, dec_pure_bind, get_string_val_val,
    htag, if_false]

theorem yaml_to_class__bad_tag (fuel : Nat) (node : Yaml) (tag : Str)
    (hclass : node.find_child (lit "class") = some (Yaml.val tag)) (htag : tag ≠ lit "class_") :
    yaml_to_class_ fuel node =
      set_lineno node >>= fun prev_lineno => restore_lineno prev_lineno >>= fun _ => fail := by
  simp only [yaml_to_class_, child_of_find _ _ _ hclass, dec_pure_bind, get_string_val_val,
    htag, if_false]

theorem yaml_to_feature_bad_tag (fuel : Nat) (node : Yaml) (tag : Str)
    (hclass : node.find_child (lit "class") = some (Yaml.val tag))
    (htag : tag ≠ lit "method" ∧ tag ≠ lit "attr") :
    yaml_to_feature fuel node =
      set_lineno node >>= fun prev_lineno => restore_lineno prev_lineno >>= fun _ => fail := by
  simp only [yaml_to_feature, child_of_find _ _ _ hclass, dec_pure_bind, get_string_val_val,
    htag.1, htag.2, if_false]

theorem yaml_to_formal_bad_tag (node : Yaml) (tag : Str)
    (hclass : node.find_child (lit "class") = some (Yaml.val tag)) (htag : tag ≠ lit "formal") :
    yaml_to_formal node =
      set_lineno node >>= fun prev_lineno => restore_lineno prev_lineno >>= fun _ => fail := by
  simp only [yaml_to_formal, child_of_find _ _ _ hclass, dec_pure_bind, get_string_val_val,
    htag, if_false]

theorem yaml_to_case_bad_tag (fuel : Nat) (node : Yaml) (tag : Str)
    (hclass : node.find_child (lit "class") = some (Yaml.val tag)) (htag : tag ≠ lit "branch") :
    yaml_to_case (fuel + 1) node =
      set_lineno node >>= fun prev_lineno => restore_lineno prev_lineno >>= fun _ => fail := by
  simp only [yaml_to_case, child_of_find _ _ _ hclass, dec_pure_bind, get_string_val_val,
    htag, if_false]

/-- C9, amended. For each decoder and every external map whose class tag is a text
the decoder does not accept, decoding (with any fuel that lets the decoder start)
does not return a node: the process is terminated. When the `lineno` of the map
is integer text, the termination is the one of `fail()`: exit status 1, the
ambient line restored, and the line `failed` written last to the error stream;
for the five decoders other than `yaml_to_expression` that line is all that is
written, so the bad tag is not named. -/
theorem unrecognized_tag_is_fatal (fuel : Nat) (node : Yaml) (tag : Str) (g : Globals)
    (hclass : node.find_child (lit "class") = some (Yaml.val tag)) :
    (tag ≠ lit "program" → (yaml_to_program fuel node g).fatal = true ∧
      ∀ t v, node.find_child (lit "lineno") = some (Yaml.val t) → stoi t = some v →
        yaml_to_program fuel node g = Res.exit 1 { g with cerr := g.cerr ++ cerr_failed }) ∧
    (tag ≠ lit "class_" → (yaml_to_class_ fuel node g).fatal = true ∧
      ∀ t v, node.find_child (lit "lineno") = some (Yaml.val t) → stoi t = some v →
        yaml_to_class_ fuel node g = Res.exit 1 { g with cerr := g.cerr ++ cerr_failed }) ∧
    (tag ≠ lit "method" ∧ tag ≠ lit "attr" → (yaml_to_feature fuel node g).fatal = true ∧
      ∀ t v, node.find_child (lit "lineno") = some (Yaml.val t) → stoi t = some v →
        yaml_to_feature fuel node g = Res.exit 1 { g with cerr := g.cerr ++ cerr_failed }) ∧
    (tag ≠ lit "formal" → (yaml_to_formal node g).fatal = true ∧
      ∀ t v, node.find_child (lit "lineno") = some (Yaml.val t) → stoi t = some v →
        yaml_to_formal node g = Res.exit 1 { g with cerr := g.cerr ++ cerr_failed }) ∧
    (tag ≠ lit "branch" → (yaml_to_case (fuel + 1) node g).fatal = true ∧
      ∀ t v, node.find_child (lit "lineno") = some (Yaml.val t) → stoi t = some v →
        yaml_to_case (fuel + 1) node g = Res.exit 1 { g with cerr := g.cerr ++ cerr_failed }) ∧
    (tag ∉ expression_tags → (yaml_to_expression (fuel + 1) node g).fatal = true ∧
      ∀ t v, node.find_child (lit "lineno") = some (Yaml.val t) → stoi t = some v →
        ∃ before, yaml_to_expression (fuel + 1) node g =
          Res.exit 1 { g with cerr := g.cerr ++ (before ++ cerr_failed) }) := by
  refine ⟨fun h => ?_, fun h => ?_, fun h => ?_, fun h => ?_, fun h => ?_, fun h => ?_⟩
  · rw [yaml_to_program_bad_tag fuel node tag hclass h]
    exact fail_after_set_lineno node g cerr_failed fail (fail_eq _)
  · rw [yaml_to_class__bad_tag fuel node tag hclass h]
    exact fail_after_set_lineno node g cerr_failed fail (fail_eq _)
  · rw [yaml_to_feature_bad_tag fuel node tag hclass h]
    exact fail_after_set_lineno node g cerr_failed fail (fail_eq _)
  · rw [yaml_to_formal_bad_tag node tag hclass h]
    exact fail_after_set_lineno node g cerr_failed fail (fail_eq _)
  · rw [yaml_to_case_bad_tag fuel node tag hclass h]
    exact fail_after_set_lineno node g cerr_failed fail (fail_eq _)
  · rw [yaml_to_expression_bad_tag fuel node tag hclass h]
    obtain ⟨h1, h2⟩ := fail_after_set_lineno node g cerr_invalid_class _ invalid_class_eq
    exact ⟨h1, fun t v ht hv => ⟨[Output.text (lit "Invalid class: "), Output.pointer,
      Output.text (lit "\n")], h2 t v ht hv⟩⟩

theorem unrecognized_tag_is_fatal_witness :
    bogusNode.find_child (lit "class") = some (Yaml.val (lit "bogus")) ∧
    lit "bogus" ≠ lit "program" ∧ lit "bogus" ∉ expression_tags ∧
    bogusNode.find_child (lit "lineno") = some (Yaml.val (lit "1")) ∧ stoi (lit "1") = some 1 ∧
    yaml_to_program 0 bogusNode sampleGlobals =
      Res.exit 1 { sampleGlobals with cerr := sampleGlobals.cerr ++ cerr_failed } ∧
    (∃ before, yaml_to_expression (0 + 1) bogusNode sampleGlobals =
      Res.exit 1 { sampleGlobals with cerr := sampleGlobals.cerr ++ (before ++ cerr_failed) }) :=
  ⟨rfl, by decide, by decide, rfl, by decide,
   ((unrecognized_tag_is_fatal 0 bogusNode (lit "bogus") sampleGlobals rfl).1 (by decide)).2
      (lit "1") 1 rfl (by decide),
   ((unrecognized_tag_is_fatal 0 bogusNode (lit "bogus") sampleGlobals
      rfl).2.2.2.2.2 (by decide)).2 (lit "1") 1 rfl (by decide)⟩

/-- C9, as stated, fails: `yaml_to_program` and `yaml_to_formal` on a map with class
tag `bogus` end the process with status 1 having written only the line `failed`,
which does not contain the bad tag. -/
theorem unrecognized_tag_diagnostic_counterexample :
    (yaml_to_program 1 bogusNode sampleGlobals).exit_code = some 1 ∧
    ((yaml_to_program 1 bogusNode sampleGlobals).state.map Globals.cerr) =
      some [Output.text (lit "failed\n")] ∧
    (yaml_to_formal bogusNode sampleGlobals).exit_code = some 1 ∧
    ((yaml_to_formal bogusNode sampleGlobals).state.map Globals.cerr) =
      some [Output.text (lit "failed\n")] ∧
    ¬ (lit "bogus" <:+: lit "failed\n") := by
  decide!

/-! ### Tree codec: the type field -/

theorem dec_bind_inv {α β : Type} (x : Dec α) (f : α → Dec β) (g g' : Globals) (b : β)
    (h : (x >>= f) g = Res.ok b g') : ∃ a g1, x g = Res.ok a g1 ∧ f a g1 = Res.ok b g' := by
  have h' : Dec.bind x f g = Res.ok b g' := h
  simp only [Dec.bind] at h'
  cases hx : x g with
  | ok a g1 => rw [hx] at h'; exact ⟨a, g1, rfl, h'⟩
  | exit c g1 => rw [hx] at h'; cases h'
  | crash g1 => rw [hx] at h'; cases h'
  | out_of_fuel => rw [hx] at h'; cases h'

theorem add_string_slot (t : StringTable) (s : Str) :
    (t.add_string s).2.tbl[(t.add_string s).1.addr]? = some (t.add_string s).1.entry := by
  unfold StringTable.add_string
  cases h : scan s (cmin (toInt32 s.length) MAXSIZE) t.tbl 0 with
  | some x =>
    rw [add_string_maxchars_found t s _ x h]
    simpa using (scan_some_spec _ _ _ _ _ h).2.1
  | none =>
    rw [add_string_maxchars_new t s _ h]
    simp

theorem post_bind {α β : Type} (x : Dec α) (f : α → Dec β) (Q : β → Globals → Prop)
    (h : ∀ a, Post (f a) Q) : Post (x >>= f) Q := by
  intro g b g' hb
  obtain ⟨a, g1, -, h2⟩ := dec_bind_inv x f g g' b hb
  exact h a g1 b g' h2

theorem post_ite {α : Type} (c : Prop) [Decidable c] (x y : Dec α) (Q : α → Globals → Prop)
    (hx : Post x Q) (hy : Post y Q) : Post (if c then x else y) Q := by
  split
  · exact hx
  · exact hy

theorem post_fail {α : Type} (Q : α → Globals → Prop) : Post (fail : Dec α) Q := by
  intro g a g' h
  cases h

/-- The last step of `yaml_to_expression`: the type is set to the symbol interned
for the text of the `type` key. -/
theorem post_set_type (text : Str) (e0 : Expression) :
    Post (idtable_add_string (c_str text) >>= fun type => pure (e0.set_type (some type)))
      (fun e g' => ∃ sym, e.get_type = some sym ∧ sym.entry.str = c_str text ∧
        g'.idtable.tbl[sym.addr]? = some sym.entry ∧
        e.to_yaml.find_child (lit "type") = some (Yaml.val (c_str text))) := by
  intro g e g' h
  obtain ⟨sym, g6, hsym, h⟩ := dec_bind_inv _ _ _ _ _ h
  simp only [idtable_add_string, Res.ok.injEq] at hsym
  obtain ⟨hs1, hs2⟩ := hsym
  have he : e0.set_type (some sym) = e ∧ g6 = g' := by
    simpa [pure] using h
  obtain ⟨he1, he2⟩ := he
  subst he1 he2 hs1
  cases e0 with
  | mk ln ty0 nd =>
    refine ⟨_, rfl, add_string_str _ _, ?_, ?_⟩
    · rw [← hs2]
      exact add_string_slot _ _
    · simp [Expression.set_type, Expression.to_yaml, Yaml.find_child, emit_lineno,
        emit_type, Entry.get_string, add_string_str]

set_option maxRecDepth 100000 in
set_option maxHeartbeats 4000000 in
/-- Whatever `yaml_to_expression` returns carries as its type the identifier-table
symbol interned for the text of the `type` key (up to its first NUL byte). -/
theorem yaml_to_expression_type (fuel : Nat) (y : Yaml) (text : Str)
    (htype : y.find_child (lit "type") = some (Yaml.val text)) :
    Post (yaml_to_expression fuel y)
      (fun e g' => ∃ sym, e.get_type = some sym ∧ sym.entry.str = c_str text ∧
        g'.idtable.tbl[sym.addr]? = some sym.entry ∧
        e.to_yaml.find_child (lit "type") = some (Yaml.val (c_str text))) := by
  cases fuel with
  | zero =>
    intro g a g' h
    cases h
  | succ fuel =>
    simp only [yaml_to_expression, child_of_find _ _ _ htype, dec_pure_bind, dec_bind_assoc,
      dec_map_eq, get_string_val_val,
      assign, static_dispatch, dispatch, cond, loop, typcase, block, let_, plus, sub, mul,
      divide, neg, lt, eq, leq, comp, int_const, bool_const, string_const, new_, isvoid,
      no_expr, object]
    refine post_bind _ _ _ (fun c => ?_)
    refine post_bind _ _ _ (fun cls => ?_)
    refine post_bind _ _ _ (fun prev => ?_)
    repeat (first
      | with_reducible exact post_set_type text _
      | with_reducible exact post_fail _
      | with_reducible refine post_ite _ _ _ _ ?_ ?_
      | with_reducible refine post_bind _ _ _ (fun _ => ?_))

/-- C8, amended. Every expression built by a constructor has its type unset
(`get_type` is `NULL`) and encodes its `type` key as the sentinel text `_no_type`.
Decoding an expression map whose `type` key is `_no_type` does not give the unset
state back: whenever `yaml_to_expression` returns, `get_type` of the result is a
symbol of the identifier table with text `_no_type`, which encodes as `_no_type`
again. And it does return on the encoding of every freshly constructed
(well-formed) expression, given enough fuel. -/
theorem unset_type_decodes_to_symbol (node : Expression_class) (g : Globals) :
    (∃ e, new_Expression node g = Res.ok e g ∧ e.get_type = none ∧
      e.to_yaml.find_child (lit "type") = some (Yaml.val (lit "_no_type"))) ∧
    (∀ (fuel : Nat) (y : Yaml) (g1 g2 : Globals) (e : Expression),
      y.find_child (lit "type") = some (Yaml.val (lit "_no_type")) →
      yaml_to_expression fuel y g1 = Res.ok e g2 →
      ∃ sym, e.get_type = some sym ∧ sym.entry.str = lit "_no_type" ∧
        g2.idtable.tbl[sym.addr]? = some sym.entry ∧
        e.to_yaml.find_child (lit "type") = some (Yaml.val (lit "_no_type"))) ∧
    (node.wf = true → int_range g.node_lineno = true →
      ∃ N : Nat, ∀ fuel : Nat, N ≤ fuel → ∀ g1 : Globals, ∃ e' g2 sym,
        yaml_to_expression fuel (Expression.mk g.node_lineno none node).to_yaml g1 =
          Res.ok e' g2 ∧
        e'.get_type = some sym ∧ sym.entry.str = lit "_no_type") := by
  have hc : c_str (lit "_no_type") = lit "_no_type" := c_str_of_not_mem _ (by decide)
  have hfresh : (Expression.mk g.node_lineno none node).to_yaml.find_child (lit "type") =
      some (Yaml.val (lit "_no_type")) := by
    simp [Expression.to_yaml, Yaml.find_child, emit_lineno, emit_type]
  refine ⟨⟨_, rfl, rfl, hfresh⟩, ?_, ?_⟩
  · intro fuel y g1 g2 e hy h
    obtain ⟨sym, h1, h2, h3, h4⟩ := yaml_to_expression_type fuel y _ hy g1 e g2 h
    rw [hc] at h2 h4
    exact ⟨sym, h1, h2, h3, h4⟩
  · intro hwf hln
    refine ⟨sizeOf (Expression.mk g.node_lineno none node) + 1, fun fuel hfuel g1 => ?_⟩
    obtain ⟨e', g2, hdec, -, -⟩ := (yaml_to_expression_round_trip_aux fuel).1
      (Expression.mk g.node_lineno none node) (by omega)
      (by simp [Expression.wf, hwf, hln, type_nul_free]) g1.node_lineno g1.cerr g1 ⟨rfl, rfl⟩
    obtain ⟨sym, h1, h2, -, -⟩ := yaml_to_expression_type fuel _ _ hfresh g1 e' g2 hdec
    rw [hc] at h2
    exact ⟨e', g2, sym, hdec, h1, h2⟩

theorem unset_type_decodes_to_symbol_witness :
    Expression_class.no_expr_class.wf = true ∧ int_range sampleGlobals.node_lineno = true ∧
    ∃ N : Nat, ∀ fuel : Nat, N ≤ fuel → ∀ g1 : Globals, ∃ e' g2 sym,
      yaml_to_expression fuel
        (Expression.mk sampleGlobals.node_lineno none .no_expr_class).to_yaml g1 = Res.ok e' g2 ∧
      e'.get_type = some sym ∧ sym.entry.str = lit "_no_type" :=
  ⟨by decide, by decide,
   (unset_type_decodes_to_symbol .no_expr_class sampleGlobals).2.2 (by decide) (by decide)⟩

/-- C8, as stated, fails: a `no_expr` built by its constructor has `get_type` unset
and encodes its type as `_no_type`, but decoding that encoding returns an
expression whose `get_type` is a symbol (slot 0 of the identifier table, text
`_no_type`), not the unset value. -/
theorem unset_type_not_restored_counterexample :
    (no_expr sampleGlobals).value.map Expression.get_type = some none ∧
    (no_expr sampleGlobals).value.map (fun e => e.to_yaml.find_child (lit "type") matches
      some (Yaml.val [95, 110, 111, 95, 116, 121, 112, 101])) = some true ∧
    (yaml_to_expression 1 (Expression.mk 1 none .no_expr_class).to_yaml
      sampleGlobals).value.map Expression.get_type =
        some (some ⟨0, ⟨lit "_no_type", 8, 0⟩⟩) := by
  decide!

/-! ### Token stream adapter -/

/-- The value `node_to_token` returns, and whether it returns at all, do not depend
on the process state. -/
theorem node_to_token_value_indep (atou : Str → Option Nat) (P : cool_parse) (node : Yaml)
    (tok : token) (pos : Nat) (g g' : Globals) :
    (node_to_token atou P node tok pos g).value = (node_to_token atou P node tok pos g').value := by
  unfold node_to_token
  cases h1 : node.find_child (lit "lineno") with
  | none => simp [child, h1, crash, Res.value, bind, Dec.bind]
  | some c1 =>
    cases c1 with
    | map kvs => simp [child, h1, crash, Res.value, bind, Dec.bind, val, pure]
    | seq cs => simp [child, h1, crash, Res.value, bind, Dec.bind, val, pure]
    | val t =>
      cases h2 : atou t with
      | none => simp [child, h1, h2, Res.value, bind, Dec.bind, val, pure, cerr_text]
      | some n =>
        cases h3 : node.find_child (lit "kind") with
        | none => simp [child, h1, h2, h3, crash, Res.value, bind, Dec.bind, val, pure]
        | some c3 =>
          cases c3 with
          | map kvs => simp [child, h1, h2, h3, crash, Res.value, bind, Dec.bind, val, pure]
          | seq cs => simp [child, h1, h2, h3, crash, Res.value, bind, Dec.bind, val, pure]
          | val k =>
            cases h4 : find_cool_token P k with
            | none =>
              simp [child, h1, h2, h3, h4, Res.value, bind, Dec.bind, val, pure, cerr_text]
            | some c =>
              cases h5 : node.find_child (lit "symbol") with
              | none =>
                cases h6 : node.find_child (lit "boolean") with
                | none =>
                  simp [child, h1, h2, h3, h4, h5, h6, Yaml.has_child, Res.value, bind,
                    Dec.bind, val, pure]
                | some c6 =>
                  cases c6 <;>
                  simp [child, h1, h2, h3, h4, h5, h6, Yaml.has_child, Res.value, bind,
                    Dec.bind, val, pure, crash]
              | some c5 =>
                cases h6 : node.find_child (lit "boolean") with
                | none =>
                  cases c5 <;>
                  simp [child, h1, h2, h3, h4, h5, h6, Yaml.has_child, Res.value, bind,
                    Dec.bind, val, pure, crash]
                | some c6 =>
                  cases c5 <;> cases c6 <;>
                  simp [child, h1, h2, h3, h4, h5, h6, Yaml.has_child, Res.value, bind,
                    Dec.bind, val, pure, crash]

theorem node_to_token_well_formed (atou : Str → Option Nat) (P : cool_parse) (node : Yaml)
    (n : Nat) (c : Int) (pos : Nat) (h : WellFormedToken atou P node n c) :
    ∃ tok : token, tok.kind = c ∧ tok.lineno = n ∧ ∀ g : Globals,
      node_to_token atou P node token.fresh pos g =
        Res.ok (true, tok) { g with curr_lineno := toInt32 n } := by
  obtain ⟨t, k, h1, h2, hn, h3, h4, h5, h6⟩ := h
  have hmod : n % 4294967296 = n := Nat.mod_eq_of_lt hn
  cases hs : node.find_child (lit "symbol") with
  | none =>
    cases hb : node.find_child (lit "boolean") with
    | none =>
      refine ⟨⟨n, c, [], false⟩, rfl, rfl, fun g => ?_⟩
      simp [node_to_token, child, h1, h2, h3, h4, hs, hb, Yaml.has_child, bind, Dec.bind, val,
        pure, hmod, token.fresh]
    | some cb =>
      obtain ⟨b, rfl⟩ := h6 cb hb
      refine ⟨⟨n, c, [], decide (b = lit "true")⟩, rfl, rfl, fun g => ?_⟩
      simp [node_to_token, child, h1, h2, h3, h4, hs, hb, Yaml.has_child, bind, Dec.bind, val,
        pure, hmod, token.fresh]
  | some cs =>
    obtain ⟨s, rfl⟩ := h5 cs hs
    cases hb : node.find_child (lit "boolean") with
    | none =>
      refine ⟨⟨n, c, s, false⟩, rfl, rfl, fun g => ?_⟩
      simp [node_to_token, child, h1, h2, h3, h4, hs, hb, Yaml.has_child, bind, Dec.bind, val,
        pure, hmod, token.fresh]
    | some cb =>
      obtain ⟨b, rfl⟩ := h6 cb hb
      refine ⟨⟨n, c, s, decide (b = lit "true")⟩, rfl, rfl, fun g => ?_⟩
      simp [node_to_token, child, h1, h2, h3, h4, hs, hb, Yaml.has_child, bind, Dec.bind, val,
        pure, hmod, token.fresh]

theorem node_to_token_malformed (atou : Str → Option Nat) (P : cool_parse) (node : Yaml)
    (pos : Nat) (h : MalformedToken atou P node) (g : Globals) :
    ∃ tok g1, node_to_token atou P node token.fresh pos g = Res.ok (false, tok) g1 ∧
      g1.idtable = g.idtable ∧ g1.inttable = g.inttable ∧ g1.stringtable = g.stringtable := by
  rcases h with ⟨t, h1, h2⟩ | ⟨t, n, k, h1, h2, h3, h4⟩
  · simp only [node_to_token, child, h1, h2, bind, Dec.bind, val, pure, cerr_text]
    exact ⟨_, _, rfl, rfl, rfl, rfl⟩
  · simp only [node_to_token, child, h1, h2, h3, h4, bind, Dec.bind, val, pure, cerr_text]
    exact ⟨_, _, rfl, rfl, rfl, rfl⟩

theorem populate_tables_returns (P : cool_parse) (tok : token) (yylval : YYSTYPE) (g : Globals) :
    ∃ yylval1 g1, populate_tables_from_token P tok yylval g = Res.ok yylval1 g1 ∧
      g1.curr_lineno = g.curr_lineno := by
  unfold populate_tables_from_token
  split
  · exact ⟨_, _, rfl, rfl⟩
  · split
    · exact ⟨_, _, rfl, rfl⟩
    · split
      · exact ⟨_, _, rfl, rfl⟩
      · split
        · exact ⟨_, _, rfl, rfl⟩
        · exact ⟨_, _, rfl, rfl⟩

/-- A pull at a well-formed token. -/
theorem cool_yylex_pull_well_formed (atou : Str → Option Nat) (P : cool_parse) (st : LexState)
    (tokens node : Yaml) (n : Nat) (c : Int)
    (htokens : st.token_root.find_child (lit "tokens") = some tokens)
    (hpos : st.pos ≠ tokens.num_children) (hnode : tokens.child_at st.pos = some node)
    (hwf : WellFormedToken atou P node n c) :
    ∃ st1, cool_yylex_pull atou P st = LexRes.ret c st1 ∧ st1.pos = st.pos + 1 ∧
      st1.token_root = st.token_root ∧ st1.init = st.init ∧
      st1.g.curr_lineno = toInt32 n := by
  obtain ⟨tok, hk, -, htok⟩ := node_to_token_well_formed atou P node n c st.pos hwf
  obtain ⟨yl, g2, hpop, hcl⟩ := populate_tables_returns P tok st.yylval
    { st.g with curr_lineno := toInt32 n }
  refine ⟨{ st with g := g2, pos := st.pos + 1, yylval := yl }, ?_, rfl, rfl, rfl, ?_⟩
  · simp only [cool_yylex_pull, htokens, hpos, if_false, hnode, htok, hpop, hk]
  · simpa using hcl

/-- A pull at the end of the tokens. -/
theorem cool_yylex_pull_end (atou : Str → Option Nat) (P : cool_parse) (st : LexState)
    (tokens : Yaml) (htokens : st.token_root.find_child (lit "tokens") = some tokens)
    (hpos : st.pos = tokens.num_children) :
    cool_yylex_pull atou P st = LexRes.ret YYEOF st := by
  simp only [cool_yylex_pull, htokens, hpos, if_true]

theorem cool_yylex_of_init (atou : Str → Option Nat) (P : cool_parse) (st : LexState)
    (h : st.init = 1) : cool_yylex atou P st = cool_yylex_pull atou P st := by
  simp [cool_yylex, h]

theorem cool_yylex_calls_from (atou : Str → Option Nat) (P : cool_parse) (toks : List Yaml)
    (infos : List (Nat × Int)) (hlen : infos.length = toks.length)
    (hwf : ∀ (i : Nat) (node : Yaml), toks[i]? = some node →
      ∃ n c, infos[i]? = some (n, c) ∧ WellFormedToken atou P node n c) :
    ∀ (k : Nat) (st : LexState), st.init = 1 →
      st.token_root.find_child (lit "tokens") = some (Yaml.seq toks) →
      st.pos + k = toks.length →
      ∃ last, cool_yylex_calls atou P (k + 1) st =
        (infos.drop st.pos).map (fun nc => (nc.2, toInt32 nc.1)) ++ [(YYEOF, last)] := by
  intro k
  induction k with
  | zero =>
    intro st hinit htr hpos
    refine ⟨st.g.curr_lineno, ?_⟩
    have hd : infos.drop st.pos = [] := by
      apply List.drop_eq_nil_of_le
      omega
    simp only [cool_yylex_calls, cool_yylex_of_init atou P st hinit,
      cool_yylex_pull_end atou P st _ htr (by simpa [Yaml.num_children] using hpos), hd,
      List.map_nil, List.nil_append]
  | succ k ih =>
    intro st hinit htr hpos
    have hlt : st.pos < toks.length := by omega
    obtain ⟨n, c, hinfo, hnode⟩ := hwf st.pos toks[st.pos] (List.getElem?_eq_getElem hlt)
    obtain ⟨st1, hpull, hp1, ht1, hi1, hc1⟩ := cool_yylex_pull_well_formed atou P st
      (Yaml.seq toks) toks[st.pos] n c htr (by simp only [Yaml.num_children]; omega)
      (by simp only [Yaml.child_at]; exact List.getElem?_eq_getElem hlt) hnode
    obtain ⟨last, hrest⟩ := ih st1 (by rw [hi1]; exact hinit) (by rw [ht1]; exact htr)
      (by omega)
    refine ⟨last, ?_⟩
    have hd : infos.drop st.pos = (n, c) :: infos.drop (st.pos + 1) := by
      have hlt' : st.pos < infos.length := by omega
      rw [List.drop_eq_getElem_cons hlt']
      congr 1
      exact Option.some.inj ((List.getElem?_eq_getElem hlt').symm.trans hinfo)
    rw [cool_yylex_calls, cool_yylex_of_init atou P st hinit, hpull]
    simp only []
    rw [hrest, hd, hp1, hc1]
    simp

theorem cool_yylex_calls_congr (atou : Str → Option Nat) (P : cool_parse) (n : Nat)
    (st st' : LexState) (h : cool_yylex atou P st = cool_yylex atou P st') :
    cool_yylex_calls atou P (n + 1) st = cool_yylex_calls atou P (n + 1) st' := by
  simp only [cool_yylex_calls, h]

/-- C6, amended. For every well-formed token document (root map with a scalar `name`
and a `tokens` sequence of `N` token maps, token `i` having a `lineno` that
`atou` reads as `n_i` and a `kind` with code `c_i`), the first `N` calls of
`cool_yylex` return `c_0 .. c_(N-1)` in document order, `curr_lineno` being `n_i`
converted to `int` when call `i` returns (which is `n_i` itself when it is
below 2^31), and call `N+1` returns the end-of-stream code 0. -/
theorem token_adapter_determinism (atou : Str → Option Nat) (P : cool_parse) (g : Globals)
    (doc : Yaml) (name : Str) (toks : List Yaml) (infos : List (Nat × Int))
    (hmap : doc.is_map = true) (hname : doc.find_child (lit "name") = some (Yaml.val name))
    (htoks : doc.find_child (lit "tokens") = some (Yaml.seq toks))
    (hlen : infos.length = toks.length)
    (hwf : ∀ (i : Nat) (node : Yaml), toks[i]? = some node →
      ∃ n c, infos[i]? = some (n, c) ∧ WellFormedToken atou P node n c) :
    (∃ last, cool_yylex_calls atou P (toks.length + 1) (LexState.start g doc) =
      infos.map (fun nc => (nc.2, toInt32 nc.1)) ++ [(YYEOF, last)]) ∧
    (∀ nc ∈ infos, nc.1 < 2147483648 → toInt32 nc.1 = nc.1) := by
  constructor
  · obtain ⟨last, h⟩ := cool_yylex_calls_from atou P toks infos hlen hwf toks.length
      ⟨g, doc, 1, 0, doc, name, name, YYSTYPE.unset⟩ rfl htoks (by simp)
    refine ⟨last, ?_⟩
    have hfirst : cool_yylex atou P (LexState.start g doc) =
        cool_yylex atou P ⟨g, doc, 1, 0, doc, name, name, YYSTYPE.unset⟩ := by
      rw [cool_yylex_of_init atou P ⟨g, doc, 1, 0, doc, name, name, YYSTYPE.unset⟩ rfl]
      simp [cool_yylex, LexState.start, hmap, hname]
    rw [cool_yylex_calls_congr atou P _ _ _ hfirst, h]
    simp
  · intro nc _ hlt
    simp only [toInt32]
    omega

theorem token_adapter_determinism_witness :
    sampleTokenDoc.is_map = true ∧
    sampleTokenDoc.find_child (lit "name") = some (Yaml.val (lit "m.cl")) ∧
    (∃ last, cool_yylex_calls atou_decimal sample_cool_parse (2 + 1)
        (LexState.start sampleGlobals sampleTokenDoc) =
      [((258 : Int), toInt32 ((1 : Nat) : Int)), (278, toInt32 ((1 : Nat) : Int))] ++
        [(YYEOF, last)]) := by
  have hwf : ∀ (i : Nat) (node : Yaml),
      [Yaml.map [(lit "kind", Yaml.val (lit "CLASS")), (lit "lineno", Yaml.val (lit "1"))],
       Yaml.map [(lit "kind", Yaml.val (lit "TYPEID")), (lit "lineno", Yaml.val (lit "1")),
        (lit "symbol", Yaml.val (lit "Main"))]][i]? = some node →
      ∃ n c, [((1 : Nat), (258 : Int)), (1, 278)][i]? = some (n, c) ∧
        WellFormedToken atou_decimal sample_cool_parse node n c := by
    intro i node hi
    match i, hi with
    | 0, hi =>
      simp only [List.getElem?_cons_zero, Option.some.injEq] at hi
      subst hi
      refine ⟨1, 258, rfl, lit "1", lit "CLASS", ?_, by decide, by decide, ?_, by decide, ?_, ?_⟩
      · simp [Yaml.find_child]
      · simp [Yaml.find_child]
      · intro c hc; simp [Yaml.find_child] at hc
      · intro c hc; simp [Yaml.find_child] at hc
    | 1, hi =>
      simp only [List.getElem?_cons_succ, List.getElem?_cons_zero, Option.some.injEq] at hi
      subst hi
      refine ⟨1, 278, rfl, lit "1", lit "TYPEID", ?_, by decide, by decide, ?_, by decide, ?_, ?_⟩
      · simp [Yaml.find_child]
      · simp [Yaml.find_child]
      · intro c hc
        simp [Yaml.find_child] at hc
        exact ⟨_, hc.symm⟩
      · intro c hc; simp [Yaml.find_child] at hc
    | i + 2, hi => simp at hi
  exact ⟨rfl, by simp [sampleTokenDoc, Yaml.find_child],
    (token_adapter_determinism atou_decimal sample_cool_parse sampleGlobals sampleTokenDoc
      (lit "m.cl") _ [(1, 258), (1, 278)] rfl (by simp [sampleTokenDoc, Yaml.find_child])
      (by simp [sampleTokenDoc, Yaml.find_child]) rfl hwf).1⟩

/-- C6, as stated, fails: a token whose `lineno` is the unsigned integer 3000000000
is delivered with its kind code, but `curr_lineno`, an `int`, is then
-1294967296, not 3000000000. -/
theorem curr_lineno_wraps_counterexample :
    atou_decimal (lit "3000000000") = some 3000000000 ∧
    cool_yylex_calls atou_decimal sample_cool_parse 2
        (LexState.start sampleGlobals bigLineTokenDoc) =
      [(258, -1294967296), (0, -1294967296)] ∧
    (-1294967296 : Int) ≠ 3000000000 := by
  decide!

theorem cool_yylex_loaded (atou : Str → Option Nat) (P : cool_parse) (st sa : LexState)
    (h : st.loaded = some sa) :
    cool_yylex atou P st = cool_yylex_pull atou P sa ∧ sa.init ≠ 0 := by
  unfold LexState.loaded at h
  unfold cool_yylex
  by_cases hinit : st.init = 0
  · simp only [hinit, if_true] at h ⊢
    cases hm : st.doc.is_map with
    | false => simp [hm] at h
    | true =>
      simp only [hm, Bool.true_eq_false, if_false] at h ⊢
      cases hn : st.doc.find_child (lit "name") with
      | none => simp [hn] at h
      | some c =>
        cases c with
        | val name =>
          simp only [hn, Option.some.injEq] at h
          subst h
          exact ⟨rfl, by simp⟩
        | map kvs => simp [hn] at h
        | seq cs => simp [hn] at h
  · simp only [hinit, if_false, Option.some.injEq] at h ⊢
    subst h
    exact ⟨rfl, hinit⟩

/-- The code a pull returns depends only on the cursor, the number of tokens and
the token under the cursor. -/
theorem cool_yylex_pull_code (atou : Str → Option Nat) (P : cool_parse) (st st' : LexState)
    (tokens tokens' : Yaml)
    (h1 : st.token_root.find_child (lit "tokens") = some tokens)
    (h2 : st'.token_root.find_child (lit "tokens") = some tokens')
    (hpos : st'.pos = st.pos) (hnum : tokens'.num_children = tokens.num_children)
    (hnode : tokens'.child_at st.pos = tokens.child_at st.pos) :
    (cool_yylex_pull atou P st').code = (cool_yylex_pull atou P st).code := by
  simp only [cool_yylex_pull, h1, h2, hpos, hnum, hnode]
  split
  · rfl
  · cases hn : tokens.child_at st.pos with
    | none => rfl
    | some node =>
      simp only []
      have hv := node_to_token_value_indep atou P node token.fresh st.pos st'.g st.g
      cases hr' : node_to_token atou P node token.fresh st.pos st'.g with
      | ok v g1' =>
        cases hr : node_to_token atou P node token.fresh st.pos st.g with
        | ok w g1 =>
          rw [hr', hr] at hv
          simp only [Res.value, Option.some.injEq] at hv
          subst hv
          obtain ⟨b, tok⟩ := v
          cases b with
          | false => rfl
          | true =>
            simp only []
            obtain ⟨y1, g2, hp1, -⟩ := populate_tables_returns P tok st'.yylval g1'
            obtain ⟨y2, g3, hp2, -⟩ := populate_tables_returns P tok st.yylval g1
            rw [hp1, hp2]
            rfl
        | exit c g1 => rw [hr', hr] at hv; simp [Res.value] at hv
        | crash g1 => rw [hr', hr] at hv; simp [Res.value] at hv
        | out_of_fuel => rw [hr', hr] at hv; simp [Res.value] at hv
      | exit c' g1' =>
        cases hr : node_to_token atou P node token.fresh st.pos st.g with
        | ok w g1 => rw [hr', hr] at hv; simp [Res.value] at hv
        | exit c g1 => rfl
        | crash g1 => rfl
        | out_of_fuel => rfl
      | crash g1' =>
        cases hr : node_to_token atou P node token.fresh st.pos st.g with
        | ok w g1 => rw [hr', hr] at hv; simp [Res.value] at hv
        | exit c g1 => rfl
        | crash g1 => rfl
        | out_of_fuel => rfl
      | out_of_fuel =>
        cases hr : node_to_token atou P node token.fresh st.pos st.g with
        | ok w g1 => rw [hr', hr] at hv; simp [Res.value] at hv
        | exit c g1 => rfl
        | crash g1 => rfl
        | out_of_fuel => rfl

/-- C7. A malformed token is a per-token soft failure: when the cursor of the adapter
(initialised, or on its first call with a loadable document) is on a token whose
`lineno` `atou` rejects, or whose `kind` is not in `string_to_cool_token`, the
call returns the error-token code 256, advances the cursor by one and leaves the
three tables unchanged; and the next call returns, for the token after it,
exactly the code returned in any state whose cursor is on that same next token
(in particular the state reached had the malformed token been well formed). -/
theorem malformed_token_is_soft_failure (atou : Str → Option Nat) (P : cool_parse)
    (st sa : LexState) (tokens node : Yaml) (hloaded : st.loaded = some sa)
    (htokens : sa.token_root.find_child (lit "tokens") = some tokens)
    (hpos : sa.pos ≠ tokens.num_children) (hnode : tokens.child_at sa.pos = some node)
    (hbad : MalformedToken atou P node) :
    ∃ st1, cool_yylex atou P st = LexRes.ret YYerror st1 ∧ st1.pos = st.pos + 1 ∧
      st1.g.idtable = st.g.idtable ∧ st1.g.inttable = st.g.inttable ∧
      st1.g.stringtable = st.g.stringtable ∧
      ∀ (st2 sa2 : LexState) (tokens2 : Yaml), st2.loaded = some sa2 → sa2.pos = st.pos + 1 →
        sa2.token_root.find_child (lit "tokens") = some tokens2 →
        tokens2.num_children = tokens.num_children →
        tokens2.child_at (st.pos + 1) = tokens.child_at (st.pos + 1) →
        (cool_yylex atou P st2).code = (cool_yylex atou P st1).code := by
  obtain ⟨hcall, hinit⟩ := cool_yylex_loaded atou P st sa hloaded
  obtain ⟨tok, g1, hntt, ht1, ht2, ht3⟩ := node_to_token_malformed atou P node sa.pos hbad sa.g
  have hg : sa.g = st.g ∧ sa.pos = st.pos := by
    unfold LexState.loaded at hloaded
    split at hloaded
    · split at hloaded
      · cases hloaded
      · split at hloaded
        · cases hloaded; exact ⟨rfl, rfl⟩
        · cases hloaded
    · cases hloaded; exact ⟨rfl, rfl⟩
  obtain ⟨hg, hp⟩ := hg
  rw [← hp]
  refine ⟨{ sa with g := g1, pos := sa.pos + 1 }, ?_, rfl, ?_, ?_, ?_, ?_⟩
  · rw [hcall]
    simp only [cool_yylex_pull, htokens, hpos, if_false, hnode, hntt]
  · rw [← hg]; exact ht1
  · rw [← hg]; exact ht2
  · rw [← hg]; exact ht3
  · intro st2 sa2 tokens2 hl2 hp2 htk2 hnum hch
    obtain ⟨hcall2, -⟩ := cool_yylex_loaded atou P st2 sa2 hl2
    have hl1 : ({ sa with g := g1, pos := sa.pos + 1 } : LexState).loaded =
        some { sa with g := g1, pos := sa.pos + 1 } := by
      simp [LexState.loaded, hinit]
    obtain ⟨hcall1, -⟩ := cool_yylex_loaded atou P _ _ hl1
    rw [hcall2, hcall1]
    exact cool_yylex_pull_code atou P { sa with g := g1, pos := sa.pos + 1 } sa2 tokens tokens2
      htokens htk2 hp2 hnum hch

theorem malformed_token_is_soft_failure_witness :
    (LexState.start sampleGlobals bogusTokenDoc).loaded =
      some ⟨sampleGlobals, bogusTokenDoc, 1, 0, bogusTokenDoc, lit "m.cl", lit "m.cl",
        YYSTYPE.unset⟩ ∧
    MalformedToken atou_decimal sample_cool_parse
      (Yaml.map [(lit "kind", Yaml.val (lit "BOGUS")), (lit "lineno", Yaml.val (lit "1"))]) ∧
    ∃ st1, cool_yylex atou_decimal sample_cool_parse (LexState.start sampleGlobals bogusTokenDoc) =
        LexRes.ret YYerror st1 ∧ st1.pos = 0 + 1 ∧
      st1.g.idtable = sampleGlobals.idtable ∧ st1.g.inttable = sampleGlobals.inttable ∧
      st1.g.stringtable = sampleGlobals.stringtable ∧
      (cool_yylex atou_decimal sample_cool_parse st1).code = some 258 := by
  have hl : (LexState.start sampleGlobals bogusTokenDoc).loaded =
      some ⟨sampleGlobals, bogusTokenDoc, 1, 0, bogusTokenDoc, lit "m.cl", lit "m.cl",
        YYSTYPE.unset⟩ := by
    simp [LexState.loaded, LexState.start, bogusTokenDoc, Yaml.is_map, Yaml.find_child]
  have hbad : MalformedToken atou_decimal sample_cool_parse
      (Yaml.map [(lit "kind", Yaml.val (lit "BOGUS")), (lit "lineno", Yaml.val (lit "1"))]) :=
    Or.inr ⟨lit "1", 1, lit "BOGUS", by simp [Yaml.find_child], by decide,
      by simp [Yaml.find_child], by decide⟩
  obtain ⟨st1, h1, h2, h3, h4, h5, h6⟩ := malformed_token_is_soft_failure atou_decimal
    sample_cool_parse (LexState.start sampleGlobals bogusTokenDoc) _ _ _ hl
    (by simp [bogusTokenDoc, Yaml.find_child]; rfl) (by simp [Yaml.num_children])
    (by simp [Yaml.child_at]) hbad
  refine ⟨hl, hbad, st1, h1, h2, h3, h4, h5, ?_⟩
  have hcode : (cool_yylex atou_decimal sample_cool_parse
      ⟨sampleGlobals, bogusTokenDoc, 1, 1, bogusTokenDoc, lit "m.cl", lit "m.cl",
        YYSTYPE.unset⟩).code = some 258 := by decide!
  rw [← hcode]
  exact (h6 _ _ _ (by simp [LexState.loaded]; rfl) rfl
    (by simp [bogusTokenDoc, Yaml.find_child]) rfl rfl).symm

/-! ### String tables: lookups -/

/-- C11. `lookup_string(s)` returns an entry exactly when some entry of the table has
text `s`; the entry it returns is the one `add_string(s)` returns on that table
(which then leaves the table as it is); the table is unchanged in every case; and
when no entry has text `s` the call ends in the assertion failure. -/
theorem lookup_string_found_iff (t : StringTable) (s : Str) :
    ((∃ e ∈ t.tbl, e.str = s) ↔ ∃ entry, (t.lookup_string s).1 = Lookup.found entry) ∧
    (∀ entry, (t.lookup_string s).1 = Lookup.found entry →
      entry = (t.add_string s).1 ∧ (t.add_string s).2 = t) ∧
    (t.lookup_string s).2 = t ∧
    ((∀ e ∈ t.tbl, e.str ≠ s) → (t.lookup_string s).1 = Lookup.assertion_failure) := by
  cases h : scan s (toInt32 s.length) t.tbl 0 with
  | some x =>
    have hl : t.lookup_string s = (Lookup.found x, t) := by
      simp only [StringTable.lookup_string, h]
    have hadd : t.add_string s = (x, t) := by
      apply add_string_maxchars_found
      rw [scan_len_irrelevant s _ (toInt32 s.length)]
      exact h
    obtain ⟨-, h2, h3⟩ := scan_some_spec _ _ _ _ _ h
    rw [hl, hadd]
    refine ⟨⟨fun _ => ⟨x, rfl⟩, fun _ => ⟨x.entry, List.getElem?_mem h2, h3⟩⟩, ?_, rfl, ?_⟩
    · intro entry he
      simp only [Lookup.found.injEq] at he
      exact ⟨he.symm, rfl⟩
    · intro hn
      exact absurd h3 (hn _ (List.getElem?_mem h2))
  | none =>
    have hl : t.lookup_string s = (Lookup.assertion_failure, t) := by
      simp only [StringTable.lookup_string, h]
    have hn := (scan_eq_none_iff _ _ _ _).mp h
    rw [hl]
    refine ⟨⟨?_, ?_⟩, ?_, rfl, fun _ => rfl⟩
    · rintro ⟨e, he, hs⟩
      exact absurd hs (hn e he)
    · rintro ⟨entry, he⟩
      cases he
    · intro entry he
      cases he

theorem lookup_string_found_iff_witness :
    (sampleTable.lookup_string (lit "ab")).1 = Lookup.found ⟨0, ⟨lit "ab", 1, 0⟩⟩ ∧
    (sampleTable.lookup_string (lit "c")).1 = Lookup.assertion_failure := by
  refine ⟨?_, (lookup_string_found_iff sampleTable (lit "c")).2.2.2 (by decide)⟩
  obtain ⟨entry, he⟩ := (lookup_string_found_iff sampleTable (lit "ab")).1.mp
    ⟨⟨lit "ab", 1, 0⟩, by decide, rfl⟩
  rw [he, ((lookup_string_found_iff sampleTable (lit "ab")).2.1 entry he).1]
  decide

theorem scan_index_none (ind : Int) (l : List Entry) (k : Nat)
    (h : ∀ e ∈ l, e.index ≠ ind) : scan_index ind l k = none := by
  induction l generalizing k with
  | nil => rfl
  | cons x xs ih =>
    have hx : ¬ (ind = x.index) := fun hx => h x (List.mem_cons_self _ _) hx.symm
    simp only [scan_index, Entry.equal_index, hx, decide_False, Bool.false_eq_true, if_false]
    exact ih _ (fun e he => h e (List.mem_cons_of_mem _ he))

theorem scan_index_slot (l : List Entry) (k i : Nat) (e : Entry)
    (h : ∀ (j : Nat) (e' : Entry), l[j]? = some e' → e'.index = ((k + j : Nat) : Int))
    (hi : l[i]? = some e) : scan_index ((k + i : Nat) : Int) l k = some ⟨k + i, e⟩ := by
  induction l generalizing k i with
  | nil => simp at hi
  | cons x xs ih =>
    have hx : x.index = ((k + 0 : Nat) : Int) := h 0 x (by simp)
    cases i with
    | zero =>
      simp only [List.getElem?_cons_zero, Option.some.injEq] at hi
      subst hi
      simp [scan_index, Entry.equal_index, hx]
    | succ i =>
      simp only [List.getElem?_cons_succ] at hi
      have hne : ¬ (((k + (i + 1) : Nat) : Int) = x.index) := by
        rw [hx]; omega
      simp only [scan_index, Entry.equal_index, hne, decide_False, Bool.false_eq_true, if_false]
      have := ih (k + 1) i (fun j e' hj => by
        have := h (j + 1) e' (by simpa using hj)
        rw [this]; congr 1; omega) hi
      have e1 : k + (i + 1) = k + 1 + i := by omega
      rw [e1]
      exact this

/-- A lookup by index in a table that has only been filled through `add_string`. -/
theorem lookup_canonical (t : StringTable) (ht : t.Canonical) (i : Int) :
    (t.lookup i).2 = t ∧
    (∀ e, 0 ≤ i → t.tbl[i.toNat]? = some e → (t.lookup i).1 = Lookup.found ⟨i.toNat, e⟩) ∧
    (¬ (0 ≤ i ∧ i < (t.tbl.length : Int)) → (t.lookup i).1 = Lookup.assertion_failure) := by
  obtain ⟨-, -, hk⟩ := ht
  refine ⟨?_, ?_, ?_⟩
  · simp only [StringTable.lookup]
    split <;> rfl
  · intro e h0 he
    have := scan_index_slot t.tbl 0 i.toNat e (fun j e' hj => by simpa using hk j e' hj) he
    have hi : ((0 + i.toNat : Nat) : Int) = i := by omega
    rw [hi] at this
    simp only [StringTable.lookup, this, Nat.zero_add]
  · intro hn
    have : scan_index i t.tbl 0 = none := by
      apply scan_index_none
      intro e he hidx
      obtain ⟨j, hj⟩ := List.getElem?_of_mem he
      have h1 := hk j e hj
      have h2 := (List.getElem?_eq_some.mp hj).1
      omega
    simp only [StringTable.lookup, this]

theorem add_string_maxchars_texts (t : StringTable) (s : Str) (m : Int) :
    (t.add_string_maxchars s m).2.texts = if s ∈ t.texts then t.texts else t.texts ++ [s] := by
  cases h : scan s (cmin (toInt32 s.length) m) t.tbl 0 with
  | some x =>
    rw [add_string_maxchars_found t s m x h]
    obtain ⟨-, h2, h3⟩ := scan_some_spec _ _ _ _ _ h
    have hmem : s ∈ t.texts := by
      simp only [StringTable.texts, List.mem_map]
      exact ⟨x.entry, List.getElem?_mem h2, h3⟩
    simp only [hmem, if_true]
  | none =>
    rw [add_string_maxchars_new t s m h]
    have hnot : s ∉ t.texts := by
      rw [scan_eq_none_iff] at h
      simp only [StringTable.texts, List.mem_map, not_exists, not_and]
      exact fun e he => h e he
    rw [if_neg hnot]
    simp only [StringTable.texts, List.map_append, List.map_cons, List.map_nil]

/-- Every interning call is an `add_string(text, maxchars)` for the text it looks for. -/
theorem call_eq_add_string_maxchars (t : StringTable) (c : TableCall) :
    ∃ m, t.call c = t.add_string_maxchars c.text m := by
  cases c with
  | add_string s => exact ⟨MAXSIZE, rfl⟩
  | add_string_maxchars s m => exact ⟨m, rfl⟩
  | add_int i => exact ⟨MAXSIZE, rfl⟩

/-- What a run of interning calls does to a canonical table. -/
theorem calls_canonical (cs : List TableCall) (t : StringTable) (ht : t.Canonical) :
    (t.calls cs).Canonical ∧
    (t.calls cs).texts =
      (cs.map TableCall.text).foldl (fun acc s => if s ∈ acc then acc else acc ++ [s]) t.texts := by
  induction cs generalizing t with
  | nil => exact ⟨ht, rfl⟩
  | cons c cs ih =>
    obtain ⟨m, hm⟩ := call_eq_add_string_maxchars t c
    have hc := (add_string_maxchars_canonical t c.text m ht).1
    obtain ⟨h1, h2⟩ := ih (t.add_string_maxchars c.text m).2 hc
    simp only [StringTable.calls, hm, List.map_cons, List.foldl_cons]
    exact ⟨h1, by rw [h2, add_string_maxchars_texts]⟩

/-- C12. For every table built from the empty table by interning calls (`add_string`
with or without `maxchars`, `add_int`) and holding `n` entries: the texts of the
table are the distinct texts of the calls in first-seen order; `lookup(i)` leaves
the table unchanged; it returns an entry exactly when `0 <= i < n`; the entry
returned is the one in slot `i`, whose index is `i` and whose text is the
`(i+1)`-th distinct text; for every other `i` the call ends in the assertion
failure; and after any further interning call, `lookup` of the index of the entry
that call returned gives that entry. -/
theorem lookup_by_index (cs : List TableCall) (t : StringTable)
    (ht : t = StringTable.empty.calls cs) (i : Int) :
    t.texts = first_seen (cs.map TableCall.text) ∧
    (t.lookup i).2 = t ∧
    ((0 ≤ i ∧ i < (t.tbl.length : Int)) ↔ ∃ entry, (t.lookup i).1 = Lookup.found entry) ∧
    (∀ entry, (t.lookup i).1 = Lookup.found entry →
      entry.entry.index = i ∧ (entry.addr : Int) = i ∧ t.tbl[entry.addr]? = some entry.entry ∧
      (first_seen (cs.map TableCall.text))[entry.addr]? = some entry.entry.str) ∧
    (¬ (0 ≤ i ∧ i < (t.tbl.length : Int)) → (t.lookup i).1 = Lookup.assertion_failure) ∧
    (∀ c : TableCall, ((t.call c).2.lookup (t.call c).1.entry.index).1 =
      Lookup.found (t.call c).1) := by
  obtain ⟨hcan, htexts⟩ := calls_canonical cs StringTable.empty canonical_empty
  rw [← ht] at hcan htexts
  have hfs : t.texts = first_seen (cs.map TableCall.text) := by
    rw [htexts]; rfl
  obtain ⟨h1, h2, h3⟩ := lookup_canonical t hcan i
  have hfound : 0 ≤ i ∧ i < (t.tbl.length : Int) → ∃ e, t.tbl[i.toNat]? = some e ∧
      (t.lookup i).1 = Lookup.found ⟨i.toNat, e⟩ := by
    intro hi
    have hlt : i.toNat < t.tbl.length := by omega
    exact ⟨t.tbl[i.toNat], List.getElem?_eq_getElem hlt, h2 _ hi.1 (List.getElem?_eq_getElem hlt)⟩
  refine ⟨hfs, h1, ⟨fun hi => ?_, fun he => ?_⟩, ?_, h3, ?_⟩
  · obtain ⟨e, -, he⟩ := hfound hi
    exact ⟨_, he⟩
  · by_contra hn
    obtain ⟨entry, he⟩ := he
    rw [h3 hn] at he
    cases he
  · intro entry he
    have hi : 0 ≤ i ∧ i < (t.tbl.length : Int) := by
      by_contra hn
      rw [h3 hn] at he
      cases he
    obtain ⟨e, hslot, hl⟩ := hfound hi
    rw [hl] at he
    simp only [Lookup.found.injEq] at he
    subst he
    refine ⟨?_, ?_, hslot, ?_⟩
    · have := hcan.2.2 _ _ hslot
      simp only [this]; omega
    · simp only []; omega
    · rw [← hfs]
      simp only [StringTable.texts, List.getElem?_map, hslot, Option.map_some']
  · intro c
    obtain ⟨m, hm⟩ := call_eq_add_string_maxchars t c
    rw [hm]
    obtain ⟨hc2, -, hget, hidx, -⟩ := add_string_maxchars_canonical t c.text m hcan
    have h0 : (0 : Int) ≤ (t.add_string_maxchars c.text m).1.entry.index := by
      rw [hidx]; omega
    have := (lookup_canonical _ hc2 (t.add_string_maxchars c.text m).1.entry.index).2.1
      (t.add_string_maxchars c.text m).1.entry h0 (by rw [hidx]; simpa using hget)
    rw [this, hidx]
    simp

theorem lookup_by_index_witness :
    ((StringTable.empty.calls sampleCalls).lookup 1).1 = Lookup.found ⟨1, ⟨lit "7", 1, 1⟩⟩ ∧
    ((StringTable.empty.calls sampleCalls).lookup 3).1 = Lookup.assertion_failure ∧
    ((StringTable.empty.calls sampleCalls).lookup (-1)).1 = Lookup.assertion_failure := by
  exact ⟨by decide, (lookup_by_index sampleCalls _ rfl 3).2.2.2.2.1 (by decide),
    (lookup_by_index sampleCalls _ rfl (-1)).2.2.2.2.1 (by decide)⟩

/-! ### String tables: integers -/

theorem dec_digits_length (fuel : Nat) :
    ∀ (n k : Nat), n < 10 ^ (k + 1) → (dec_digits fuel n []).length ≤ k + 1 := by
  induction fuel with
  | zero => intro n k _; simp [dec_digits]
  | succ fuel ih =>
    intro n k h
    simp only [dec_digits]
    split
    · simp
    · rename_i h0
      rw [dec_digits_append]
      cases k with
      | zero =>
        exfalso
        apply h0
        simp only [Nat.zero_add, pow_one] at h
        omega
      | succ k =>
        have hlt : n / 10 < 10 ^ (k + 1) := by
          apply Nat.div_lt_of_lt_mul
          rw [pow_succ] at h
          omega
        have := ih (n / 10) k hlt
        simp only [List.length_append, List.length_singleton]
        omega

theorem dec_digits_zero (fuel : Nat) : dec_digits (fuel + 1) 0 [] = [48] := by
  simp [dec_digits]

theorem dec_digits_head (fuel : Nat) :
    ∀ n : Nat, n < fuel → 0 < n → (dec_digits fuel n []).head? ≠ some 48 := by
  induction fuel with
  | zero => intro n h; omega
  | succ fuel ih =>
    intro n h hpos
    simp only [dec_digits]
    split
    · rename_i h0
      simp only [List.head?_cons, ne_eq, Option.some.injEq]
      omega
    · rename_i h0
      rw [dec_digits_append]
      have hne := (dec_digits_spec fuel (n / 10) (by omega)).1
      have := ih (n / 10) (by omega) (by omega)
      obtain ⟨d, ds, hd⟩ := List.exists_cons_of_ne_nil hne
      rw [hd] at this ⊢
      simpa using this

/-- C13. For every `int` value `i` (0, negative values and `INT_MIN` included),
`add_int(i)` returns the entry and leaves the table that `add_string` gives for the
decimal text of `i`: that text has at most 11 bytes, so with its terminating NUL it
fits the 20-byte buffer untruncated; it is an optional minus sign (present exactly
when `i` is negative) followed by a non-empty run of decimal digits whose value is
the magnitude of `i` and which starts with `0` only when it is the single digit
`0`; and `stoi` reads `i` back from it. -/
theorem add_int_decimal_text (t : StringTable) (i : Int) (h : int_range i = true) :
    t.add_int i = t.add_string (int_to_chars i) ∧
    (int_to_chars i).length + 1 ≤ 20 ∧ (int_to_chars i).length ≤ 11 ∧
    (∃ digits : Str, int_to_chars i = (if i < 0 then [45] else []) ++ digits ∧ digits ≠ [] ∧
      (∀ d ∈ digits, isdigit d = true) ∧ (digits.head? = some 48 → digits = [48]) ∧
      ((digits.foldl (fun acc d => acc * 10 + (d - 48)) 0 : Nat) : Int) = |i|) ∧
    stoi (int_to_chars i) = some i := by
  have hr := h
  simp only [int_range, decide_eq_true_eq] at hr
  obtain ⟨hne, hdig, hval⟩ := dec_digits_spec (i.natAbs + 1) i.natAbs (by omega)
  have hlen : (dec_digits (i.natAbs + 1) i.natAbs []).length ≤ 10 :=
    dec_digits_length _ _ 9 (by norm_num; omega)
  have hform : int_to_chars i =
      (if i < 0 then [45] else []) ++ dec_digits (i.natAbs + 1) i.natAbs [] := by
    simp only [int_to_chars]
    split <;> simp
  have hlen11 : (int_to_chars i).length ≤ 11 := by
    rw [hform]
    split <;> simp <;> omega
  have hnul : (0 : Nat) ∉ int_to_chars i := by
    rw [hform]
    intro h0
    rcases List.mem_append.mp h0 with h0 | h0
    · split at h0 <;> simp at h0
    · have := hdig 0 h0
      omega
  refine ⟨?_, by omega, hlen11, ⟨_, hform, hne, ?_, ?_, ?_⟩, stoi_int_to_chars i h⟩
  · simp only [StringTable.add_int, snprintf_d]
    rw [List.take_of_length_le (by omega), c_str_of_not_mem _ hnul]
  · intro d hd
    simpa [isdigit] using hdig d hd
  · intro hhead
    by_cases hz : i.natAbs = 0
    · rw [hz]; exact dec_digits_zero _
    · exact absurd hhead (dec_digits_head _ _ (by omega) (by omega))
  · rw [hval]
    exact Int.natCast_natAbs i

theorem add_int_decimal_text_witness :
    int_range (-2147483648) = true ∧
    StringTable.empty.add_int (-2147483648) =
      StringTable.empty.add_string (int_to_chars (-2147483648)) ∧
    int_to_chars (-2147483648) = lit "-2147483648" ∧
    int_to_chars 0 = lit "0" :=
  ⟨by decide, (add_int_decimal_text StringTable.empty (-2147483648) (by decide)).1,
    by decide, by decide⟩

/-! ### Generic list codec: a node that is not a sequence -/

/-- C14. For every external node that is not a sequence, every element decoder and
every process state, `yaml_to_list` returns (it is not fatal), having written its
diagnostic to the error stream and nothing else; the list it was given comes back
unchanged, so the fresh list that every decoder passes comes back empty; and the
result is the same for every element decoder, even one that would end the process,
so the element decoder is not called. -/
theorem yaml_to_list_non_sequence {phylum : Type} (tree_nodes : List phylum)
    (yaml_to_treenode : Yaml → Dec phylum) (n : Yaml) (h : n.is_seq = false) (g : Globals) :
    yaml_to_list tree_nodes yaml_to_treenode n g =
      Res.ok tree_nodes { g with cerr := g.cerr ++
        [Output.text (lit "Unexpected non-sequence from the input yaml\n")] } ∧
    (yaml_to_list [] yaml_to_treenode n g).value = some [] ∧
    (yaml_to_list tree_nodes yaml_to_treenode n g).fatal = false ∧
    (∀ other : Yaml → Dec phylum,
      yaml_to_list tree_nodes other n g = yaml_to_list tree_nodes yaml_to_treenode n g) := by
  cases n with
  | seq children => simp [Yaml.is_seq] at h
  | val s => exact ⟨rfl, rfl, rfl, fun _ => rfl⟩
  | map children => exact ⟨rfl, rfl, rfl, fun _ => rfl⟩

theorem yaml_to_list_non_sequence_witness :
    (Yaml.map [(lit "lineno", Yaml.val (lit "1"))]).is_seq = false ∧
    yaml_to_list [] (fun _ => (crash : Dec Formal))
        (Yaml.map [(lit "lineno", Yaml.val (lit "1"))]) sampleGlobals =
      Res.ok [] { sampleGlobals with cerr := sampleGlobals.cerr ++
        [Output.text (lit "Unexpected non-sequence from the input yaml\n")] } :=
  ⟨rfl, (yaml_to_list_non_sequence [] (fun _ => (crash : Dec Formal))
    (Yaml.map [(lit "lineno", Yaml.val (lit "1"))]) rfl sampleGlobals).1⟩

/-! ### Tree codec: the keys every node carries -/

theorem kind_of_tag_tag (k : Kind) : kind_of_tag k.tag = some k := by
  cases k <;> decide

theorem kind_tag_mem (k : Kind) : k.tag ∈ class_tags := by
  cases k <;> decide

/-- The keys `lineno`, `class` and `type` in the map of a node. -/
theorem tree_node_keys (t : tree_node) :
    t.to_yaml.is_map = true ∧
    t.to_yaml.count_key (lit "lineno") = 1 ∧
    t.to_yaml.find_child (lit "lineno") = some (Yaml.val (int_to_chars t.get_line_number)) ∧
    t.to_yaml.count_key (lit "class") = 1 ∧
    t.to_yaml.find_child (lit "class") = some (Yaml.val t.kind.tag) ∧
    t.to_yaml.has_child (lit "type") = t.is_Expression ∧
    t.to_yaml.count_key (lit "type") = (if t.is_Expression = true then 1 else 0) := by
  cases t with
  | of_Program p =>
    cases p
    simp [tree_node.to_yaml, Program.to_yaml, Yaml.is_map, Yaml.count_key, Yaml.find_child,
      Yaml.has_child, emit_lineno, tree_node.get_line_number, tree_node.kind, Kind.tag,
      tree_node.is_Expression]
  | of_Class_ c =>
    cases c
    simp [tree_node.to_yaml, Class_.to_yaml, Yaml.is_map, Yaml.count_key, Yaml.find_child,
      Yaml.has_child, emit_lineno, tree_node.get_line_number, tree_node.kind, Kind.tag,
      tree_node.is_Expression]
  | of_Feature f =>
    cases f <;>
    simp [tree_node.to_yaml, Feature.to_yaml, Yaml.is_map, Yaml.count_key, Yaml.find_child,
      Yaml.has_child, emit_lineno, tree_node.get_line_number, tree_node.kind, Kind.tag,
      tree_node.is_Expression]
  | of_Formal f =>
    cases f
    simp [tree_node.to_yaml, Formal.to_yaml, Yaml.is_map, Yaml.count_key, Yaml.find_child,
      Yaml.has_child, emit_lineno, tree_node.get_line_number, tree_node.kind, Kind.tag,
      tree_node.is_Expression]
  | of_Case c =>
    cases c
    simp [tree_node.to_yaml, Case.to_yaml, Yaml.is_map, Yaml.count_key, Yaml.find_child,
      Yaml.has_child, emit_lineno, tree_node.get_line_number, tree_node.kind, Kind.tag,
      tree_node.is_Expression]
  | of_Expression e =>
    cases e with
    | mk ln ty node =>
      cases node <;>
      simp [tree_node.to_yaml, Expression.to_yaml, Expression_class.to_yaml_rest, Yaml.is_map,
        Yaml.count_key, Yaml.find_child, Yaml.has_child, emit_lineno, emit_type_eq,
        tree_node.get_line_number, Expression.get_line_number, tree_node.kind,
        Expression_class.kind, Kind.tag, tree_node.is_Expression]

/-- C15. For every tree node of every kind, `to_yaml` produces a map with exactly one
`lineno` key, holding the decimal text of the node's line number, and exactly one
`class` key, holding one of the 30 class tags; two nodes with the same tag have
the same kind; and the map has a `type` key (exactly one) if and only if the node
is an expression. -/
theorem to_yaml_lineno_class_type (t : tree_node) :
    t.to_yaml.is_map = true ∧
    t.to_yaml.count_key (lit "lineno") = 1 ∧
    t.to_yaml.find_child (lit "lineno") = some (Yaml.val (int_to_chars t.get_line_number)) ∧
    t.to_yaml.count_key (lit "class") = 1 ∧
    (∃ tag ∈ class_tags, t.to_yaml.find_child (lit "class") = some (Yaml.val tag)) ∧
    (class_tags.length = 30 ∧ class_tags.Nodup) ∧
    (∀ u : tree_node, u.kind ≠ t.kind →
      u.to_yaml.find_child (lit "class") ≠ t.to_yaml.find_child (lit "class")) ∧
    (t.to_yaml.has_child (lit "type") = true ↔ t.is_Expression = true) ∧
    (t.is_Expression = true → t.to_yaml.count_key (lit "type") = 1) := by
  obtain ⟨h1, h2, h3, h4, h5, h6, h7⟩ := tree_node_keys t
  refine ⟨h1, h2, h3, h4, ⟨_, kind_tag_mem _, h5⟩, by decide, ?_, by rw [h6], ?_⟩
  · intro u hne heq
    rw [(tree_node_keys u).2.2.2.2.1, h5] at heq
    simp only [Option.some.injEq, Yaml.val.injEq] at heq
    have := kind_of_tag_tag u.kind
    rw [heq, kind_of_tag_tag] at this
    exact hne (Option.some.inj this).symm
  · intro he
    rw [h7, if_pos he]

theorem to_yaml_lineno_class_type_witness :
    (tree_node.of_Program sampleProgram).kind ≠
      (tree_node.of_Expression (.mk 1 none .no_expr_class)).kind ∧
    (tree_node.of_Program sampleProgram).to_yaml.find_child (lit "class") ≠
      (tree_node.of_Expression (.mk 1 none .no_expr_class)).to_yaml.find_child (lit "class") ∧
    (tree_node.of_Expression (.mk 1 none .no_expr_class)).to_yaml.count_key (lit "type") = 1 :=
  ⟨by decide,
   (to_yaml_lineno_class_type (.of_Expression (.mk 1 none .no_expr_class))).2.2.2.2.2.2.1
     (.of_Program sampleProgram) (by decide),
   (to_yaml_lineno_class_type (.of_Expression (.mk 1 none .no_expr_class))).2.2.2.2.2.2.2.2 rfl⟩

/-! ### Tree codec: boolean constants -/

theorem set_lineno_ok (node : Yaml) (l : Str) (n : Int) (g : Globals)
    (hl : node.find_child (lit "lineno") = some (Yaml.val l)) (hs : stoi l = some n) :
    set_lineno node g = Res.ok g.node_lineno { g with node_lineno := n } := by
  simp only [set_lineno, child_of_find _ _ _ hl, dec_pure_bind, get_string_val_val, hs]
  rfl

/-- Decoding a map whose class tag is `bool_const`. -/
theorem yaml_to_expression_bool_const (fuel : Nat) (node : Yaml) (l v ty : Str) (n : Int)
    (g : Globals)
    (hclass : node.find_child (lit "class") = some (Yaml.val (lit "bool_const")))
    (hl : node.find_child (lit "lineno") = some (Yaml.val l)) (hs : stoi l = some n)
    (hv : node.find_child (lit "val") = some (Yaml.val v))
    (hty : node.find_child (lit "type") = some (Yaml.val ty)) :
    yaml_to_expression (fuel + 1) node g =
      Res.ok (Expression.mk n (some (g.idtable.add_string (c_str ty)).1)
          (.bool_const_class (decide (v = lit "1"))))
        { g with idtable := (g.idtable.add_string (c_str ty)).2 } := by
  simp only [yaml_to_expression, child_of_find _ _ _ hclass, child_of_find _ _ _ hv,
    child_of_find _ _ _ hty, dec_pure_bind, get_string_val_val, val_val, lit_inj,
    String.reduceEq, if_false, if_true, dec_bind_assoc, dec_map_eq, bool_const]
  rw [dec_bind_ok _ _ _ _ _ (set_lineno_ok node l n g hl hs)]
  rfl

/-- C16. For every boolean value `b` and every `bool_const` node holding it (built by
the constructor `bool_const(b)`, on any line and with any type set later):
`to_yaml` writes under the key `val` the text `1` when `b` is true and the text
`0` when it is false, never another text. Decoding any map with class tag
`bool_const` (with integer text under `lineno` and scalars under `val` and
`type`) returns a `bool_const` node whose value is true exactly when the text
under `val` is `1`. Hence decoding the encoding of a `bool_const` node gives a
`bool_const` node on the same line with the same value `b`. -/
theorem bool_const_codec (b : Boolean) (ln : Int) (ty : Option Symbol) (g : Globals) :
    bool_const b g = Res.ok (Expression.mk g.node_lineno none (.bool_const_class b)) g ∧
    (Expression.mk ln ty (.bool_const_class b)).to_yaml.find_child (lit "class") =
      some (Yaml.val (lit "bool_const")) ∧
    (Expression.mk ln ty (.bool_const_class b)).to_yaml.find_child (lit "val") =
      some (Yaml.val (Boolean_to_chars b)) ∧
    (Boolean_to_chars b = lit "0" ∨ Boolean_to_chars b = lit "1") ∧
    (Boolean_to_chars b = lit "1" ↔ b = true) ∧
    (∀ (fuel : Nat) (node : Yaml) (l v t : Str) (n : Int) (g1 : Globals),
      node.find_child (lit "class") = some (Yaml.val (lit "bool_const")) →
      node.find_child (lit "lineno") = some (Yaml.val l) → stoi l = some n →
      node.find_child (lit "val") = some (Yaml.val v) →
      node.find_child (lit "type") = some (Yaml.val t) →
      yaml_to_expression (fuel + 1) node g1 =
        Res.ok (Expression.mk n (some (g1.idtable.add_string (c_str t)).1)
            (.bool_const_class (decide (v = lit "1"))))
          { g1 with idtable := (g1.idtable.add_string (c_str t)).2 }) ∧
    (int_range ln = true → ∀ (fuel : Nat) (g1 : Globals),
      yaml_to_expression (fuel + 1) (Expression.mk ln ty (.bool_const_class b)).to_yaml g1 =
        Res.ok (Expression.mk ln (some (g1.idtable.add_string (c_str (type_text ty))).1)
            (.bool_const_class b))
          { g1 with idtable := (g1.idtable.add_string (c_str (type_text ty))).2 }) := by
  have hclass : (Expression.mk ln ty (.bool_const_class b)).to_yaml.find_child (lit "class") =
      some (Yaml.val (lit "bool_const")) := by
    simp [Expression.to_yaml, Expression_class.to_yaml_rest, Yaml.find_child, emit_lineno,
      emit_type_eq]
  have hval : (Expression.mk ln ty (.bool_const_class b)).to_yaml.find_child (lit "val") =
      some (Yaml.val (Boolean_to_chars b)) := by
    simp [Expression.to_yaml, Expression_class.to_yaml_rest, Yaml.find_child, emit_lineno,
      emit_type_eq]
  have hlineno : (Expression.mk ln ty (.bool_const_class b)).to_yaml.find_child (lit "lineno") =
      some (Yaml.val (int_to_chars ln)) := by
    simp [Expression.to_yaml, Yaml.find_child, emit_lineno]
  have htype : (Expression.mk ln ty (.bool_const_class b)).to_yaml.find_child (lit "type") =
      some (Yaml.val (type_text ty)) := by
    simp [Expression.to_yaml, Yaml.find_child, emit_lineno, emit_type_eq]
  refine ⟨rfl, hclass, hval, ?_, ?_, ?_, ?_⟩
  · cases b
    · exact Or.inl rfl
    · exact Or.inr rfl
  · cases b <;> decide
  · intro fuel node l v t n g1 h1 h2 h3 h4 h5
    exact yaml_to_expression_bool_const fuel node l v t n g1 h1 h2 h3 h4 h5
  · intro hln fuel g1
    rw [yaml_to_expression_bool_const fuel _ _ _ _ ln g1 hclass hlineno
      (stoi_int_to_chars ln hln) hval htype, Boolean_to_chars_eq_one]

theorem bool_const_codec_witness :
    int_range 7 = true ∧
    yaml_to_expression (0 + 1) (Expression.mk 7 none (.bool_const_class true)).to_yaml
        sampleGlobals =
      Res.ok (Expression.mk 7 (some (sampleGlobals.idtable.add_string
            (c_str (type_text none))).1) (.bool_const_class true))
        { sampleGlobals with
            idtable := (sampleGlobals.idtable.add_string (c_str (type_text none))).2 } :=
  ⟨by decide,
   (bool_const_codec true 7 none sampleGlobals).2.2.2.2.2.2 (by decide) 0 sampleGlobals⟩

/-! ### Tree codec: the minimal class -/

/-- C17. Encoding a program that owns the one class built as
`class_(name, parent, empty feature list, filename)` yields a program map whose
`classes` sequence has exactly one child, the map of that class, with
`class = class_`, `name` and `parent` holding the texts of the two symbols (`Main`
and `Object` in the scenario), `features` an empty sequence and `filename` holding
the file name text; and for every class the `features` sequence of its map has as
many children as the class has features. -/
theorem minimal_class_encoding (g : Globals) (name parent filename : Symbol)
    (ln : Int) (features : List Feature) :
    (∃ c p cm, class_ name parent [] filename g = Res.ok c g ∧ program [c] g = Res.ok p g ∧
      p.to_yaml.find_child (lit "class") = some (Yaml.val (lit "program")) ∧
      p.to_yaml.find_child (lit "classes") = some (Yaml.seq [cm]) ∧ cm = c.to_yaml ∧
      cm.is_map = true ∧
      cm.find_child (lit "class") = some (Yaml.val (lit "class_")) ∧
      cm.find_child (lit "name") = some (Yaml.val name.entry.str) ∧
      cm.find_child (lit "parent") = some (Yaml.val parent.entry.str) ∧
      cm.find_child (lit "features") = some (Yaml.seq []) ∧
      cm.find_child (lit "filename") = some (Yaml.val filename.entry.str)) ∧
    (∃ fs, (Class_.class__class ln name parent features filename).to_yaml.find_child
        (lit "features") = some (Yaml.seq fs) ∧
      fs.length = features.length ∧ fs = features.map Feature.to_yaml) := by
  constructor
  · refine ⟨_, _, _, rfl, rfl, ?_, ?_, rfl, rfl, ?_, ?_, ?_, ?_, ?_⟩ <;>
    simp [Program.to_yaml, Class_.to_yaml, Yaml.find_child, emit_lineno, list_to_yaml,
      Entry.get_string]
  · refine ⟨features.map Feature.to_yaml, ?_, by simp, rfl⟩
    simp [Class_.to_yaml, Yaml.find_child, emit_lineno, list_to_yaml_eq_map]

theorem minimal_class_encoding_witness :
    sampleProgram.to_yaml =
      Yaml.map [(lit "lineno", Yaml.val (lit "1")), (lit "class", Yaml.val (lit "program")),
        (lit "classes", Yaml.seq [
          Yaml.map [(lit "lineno", Yaml.val (lit "1")), (lit "class", Yaml.val (lit "class_")),
            (lit "name", Yaml.val (lit "Main")), (lit "parent", Yaml.val (lit "Object")),
            (lit "features", Yaml.seq []), (lit "filename", Yaml.val (lit "m.cl"))]])] ∧
    ∃ fs, (Class_.class__class 1 ⟨0, ⟨lit "Main", 4, 0⟩⟩ ⟨1, ⟨lit "Object", 6, 1⟩⟩ []
        ⟨0, ⟨lit "m.cl", 4, 0⟩⟩).to_yaml.find_child (lit "features") = some (Yaml.seq fs) ∧
      fs.length = ([] : List Feature).length ∧ fs = ([] : List Feature).map Feature.to_yaml :=
  ⟨rfl, (minimal_class_encoding sampleGlobals ⟨0, ⟨lit "Main", 4, 0⟩⟩ ⟨1, ⟨lit "Object", 6, 1⟩⟩
    ⟨0, ⟨lit "m.cl", 4, 0⟩⟩ 1 []).2⟩

/-! ### Token stream adapter: payloads -/

/-- The token `node_to_token` makes of a well-formed token map: its kind is the code
of the `kind` text and its `symbol` is the text under `symbol`, or empty when the
map has no such key. -/
theorem node_to_token_payload (atou : Str → Option Nat) (P : cool_parse) (node : Yaml)
    (n : Nat) (c : Int) (pos : Nat) (h : WellFormedToken atou P node n c) :
    ∃ tok : token, tok.kind = c ∧
      (∀ s, node.find_child (lit "symbol") = some (Yaml.val s) → tok.symbol = s) ∧
      (node.find_child (lit "symbol") = none → tok.symbol = []) ∧
      ∀ g : Globals, node_to_token atou P node token.fresh pos g =
        Res.ok (true, tok) { g with curr_lineno := toInt32 n } := by
  obtain ⟨t, k, h1, h2, hn, h3, h4, h5, h6⟩ := h
  have hmod : n % 4294967296 = n := Nat.mod_eq_of_lt hn
  cases hs : node.find_child (lit "symbol") with
  | none =>
    cases hb : node.find_child (lit "boolean") with
    | none =>
      refine ⟨⟨n, c, [], false⟩, rfl, fun s hs' => (by cases hs'), fun _ => rfl, fun g => ?_⟩
      simp [node_to_token, child, h1, h2, h3, h4, hs, hb, Yaml.has_child, bind, Dec.bind, val,
        pure, hmod, token.fresh]
    | some cb =>
      obtain ⟨b, rfl⟩ := h6 cb hb
      refine ⟨⟨n, c, [], decide (b = lit "true")⟩, rfl, fun s hs' => (by cases hs'),
        fun _ => rfl, fun g => ?_⟩
      simp [node_to_token, child, h1, h2, h3, h4, hs, hb, Yaml.has_child, bind, Dec.bind, val,
        pure, hmod, token.fresh]
  | some cs =>
    obtain ⟨s, rfl⟩ := h5 cs hs
    cases hb : node.find_child (lit "boolean") with
    | none =>
      refine ⟨⟨n, c, s, false⟩, rfl, fun s' hs' => (by cases hs'; rfl), fun h0 => (by cases h0),
        fun g => ?_⟩
      simp [node_to_token, child, h1, h2, h3, h4, hs, hb, Yaml.has_child, bind, Dec.bind, val,
        pure, hmod, token.fresh]
    | some cb =>
      obtain ⟨b, rfl⟩ := h6 cb hb
      refine ⟨⟨n, c, s, decide (b = lit "true")⟩, rfl, fun s' hs' => (by cases hs'; rfl),
        fun h0 => (by cases h0), fun g => ?_⟩
      simp [node_to_token, child, h1, h2, h3, h4, hs, hb, Yaml.has_child, bind, Dec.bind, val,
        pure, hmod, token.fresh]

/-- Which table `populate_tables_from_token` fills, by the kind of the token. -/
theorem populate_tables_routing (P : cool_parse) (hP : P.case_labels_distinct) (tok : token)
    (yylval : YYSTYPE) (g : Globals) :
    (tok.kind = P.INT_CONST →
      populate_tables_from_token P tok yylval g =
        Res.ok (YYSTYPE.symbol (g.inttable.add_string tok.symbol).1)
          { g with inttable := (g.inttable.add_string tok.symbol).2 }) ∧
    (tok.kind = P.STR_CONST →
      populate_tables_from_token P tok yylval g =
        Res.ok (YYSTYPE.symbol (g.stringtable.add_string (get_unescaped_string tok.symbol)).1)
          { g with
              cerr := g.cerr ++ (get_unescaped_string_cerr tok.symbol).2.map Output.text,
              stringtable :=
                (g.stringtable.add_string (get_unescaped_string tok.symbol)).2 }) ∧
    (tok.kind = P.TYPEID ∨ tok.kind = P.OBJECTID →
      populate_tables_from_token P tok yylval g =
        Res.ok (YYSTYPE.symbol (g.idtable.add_string tok.symbol).1)
          { g with idtable := (g.idtable.add_string tok.symbol).2 }) ∧
    (tok.kind ≠ P.INT_CONST → tok.kind ≠ P.STR_CONST → tok.kind ≠ P.TYPEID →
      tok.kind ≠ P.OBJECTID →
      ∃ yylval1, populate_tables_from_token P tok yylval g = Res.ok yylval1 g) := by
  simp only [cool_parse.case_labels_distinct, List.nodup_cons, List.mem_cons, List.mem_singleton,
    not_or, List.not_mem_nil, not_false_eq_true, List.nodup_nil, and_true] at hP
  obtain ⟨⟨h12, h13, h14, h15⟩, ⟨h23, h24, h25⟩, ⟨h34, h35⟩, h45⟩ := hP
  refine ⟨fun h => ?_, fun h => ?_, fun h => ?_, fun h1 h2 h3 h4 => ?_⟩
  · simp only [populate_tables_from_token, h, if_true]
    rfl
  · have h1 : ¬ (P.STR_CONST = P.INT_CONST) := fun e => h12 e.symm
    simp only [populate_tables_from_token, h, h1, if_false, if_true]
    rfl
  · have h1 : ¬ (tok.kind = P.INT_CONST) := by
      rcases h with h | h <;> rw [h] <;> intro e
      · exact h13 e.symm
      · exact h14 e.symm
    have h2 : ¬ (tok.kind = P.STR_CONST) := by
      rcases h with h | h <;> rw [h] <;> intro e
      · exact h23 e.symm
      · exact h24 e.symm
    simp only [populate_tables_from_token, h1, h2, h, if_false, if_true]
    rfl
  · simp only [populate_tables_from_token, h1, h2, h3, h4, or_self, if_false]
    split
    · exact ⟨_, rfl⟩
    · exact ⟨_, rfl⟩


/-- Loading the document on the first call changes neither the process state nor the
cursor nor `cool_yylval`. -/
theorem loaded_same (st sa : LexState) (h : st.loaded = some sa) :
    sa.g = st.g ∧ sa.pos = st.pos ∧ sa.yylval = st.yylval := by
  unfold LexState.loaded at h
  split at h
  · split at h
    · cases h
    · split at h
      · cases h; exact ⟨rfl, rfl, rfl⟩
      · cases h
  · cases h; exact ⟨rfl, rfl, rfl⟩

/-- C18. Payload routing of a successful pull. When the cursor of the adapter
(initialised, or on its first call with a loadable document) is on a well-formed
token whose kind has code `c`, the call returns `c`; with `symbol` the text under
the key `symbol` of the token (empty when there is none): for `INT_CONST` the
text is interned in the integer table, for `STR_CONST` `get_unescaped_string` of
the text is interned in the string table, for `TYPEID` and `OBJECTID` the text is
interned in the identifier table, `cool_yylval` receiving the entry, and the two
other tables are left as they were; for every other kind the three tables are
left as they were. The codes of the `case` labels are taken to be pairwise
distinct. -/
theorem payload_routing (atou : Str → Option Nat) (P : cool_parse)
    (hP : P.case_labels_distinct) (st sa : LexState) (tokens node : Yaml) (n : Nat) (c : Int)
    (hloaded : st.loaded = some sa)
    (htokens : sa.token_root.find_child (lit "tokens") = some tokens)
    (hpos : sa.pos ≠ tokens.num_children) (hnode : tokens.child_at sa.pos = some node)
    (hwf : WellFormedToken atou P node n c) :
    ∃ (symbol : Str) (st1 : LexState),
      (∀ s, node.find_child (lit "symbol") = some (Yaml.val s) → symbol = s) ∧
      (node.find_child (lit "symbol") = none → symbol = []) ∧
      cool_yylex atou P st = LexRes.ret c st1 ∧
      (c = P.INT_CONST →
        st1.g.inttable = (st.g.inttable.add_string symbol).2 ∧
        st1.yylval = YYSTYPE.symbol (st.g.inttable.add_string symbol).1 ∧
        st1.g.idtable = st.g.idtable ∧ st1.g.stringtable = st.g.stringtable) ∧
      (c = P.STR_CONST →
        st1.g.stringtable = (st.g.stringtable.add_string (get_unescaped_string symbol)).2 ∧
        st1.yylval =
          YYSTYPE.symbol (st.g.stringtable.add_string (get_unescaped_string symbol)).1 ∧
        st1.g.idtable = st.g.idtable ∧ st1.g.inttable = st.g.inttable) ∧
      (c = P.TYPEID ∨ c = P.OBJECTID →
        st1.g.idtable = (st.g.idtable.add_string symbol).2 ∧
        st1.yylval = YYSTYPE.symbol (st.g.idtable.add_string symbol).1 ∧
        st1.g.inttable = st.g.inttable ∧ st1.g.stringtable = st.g.stringtable) ∧
      (c ≠ P.INT_CONST → c ≠ P.STR_CONST → c ≠ P.TYPEID → c ≠ P.OBJECTID →
        st1.g.idtable = st.g.idtable ∧ st1.g.inttable = st.g.inttable ∧
        st1.g.stringtable = st.g.stringtable) := by
  obtain ⟨hcall, -⟩ := cool_yylex_loaded atou P st sa hloaded
  obtain ⟨hg, -, -⟩ := loaded_same st sa hloaded
  obtain ⟨tok, hk, hsym1, hsym2, htok⟩ := node_to_token_payload atou P node n c sa.pos hwf
  obtain ⟨yl, g2, hpop, -⟩ := populate_tables_returns P tok sa.yylval
    { sa.g with curr_lineno := toInt32 n }
  obtain ⟨r1, r2, r3, r4⟩ := populate_tables_routing P hP tok sa.yylval
    { sa.g with curr_lineno := toInt32 n }
  rw [hk] at r1 r2 r3 r4
  refine ⟨tok.symbol, { sa with g := g2, pos := sa.pos + 1, yylval := yl }, hsym1, hsym2, ?_,
    fun h => ?_, fun h => ?_, fun h => ?_, fun h1 h2 h3 h4 => ?_⟩
  · rw [hcall]
    simp only [cool_yylex_pull, htokens, hpos, if_false, hnode, htok, hpop, hk]
  · have := (r1 h).symm.trans hpop
    simp only [Res.ok.injEq] at this
    obtain ⟨e1, e2⟩ := this
    refine ⟨?_, ?_, ?_, ?_⟩
    · show g2.inttable = _
      rw [← e2, ← hg]
    · show yl = _
      rw [← e1, ← hg]
    · show g2.idtable = _
      rw [← e2, ← hg]
    · show g2.stringtable = _
      rw [← e2, ← hg]
  · have := (r2 h).symm.trans hpop
    simp only [Res.ok.injEq] at this
    obtain ⟨e1, e2⟩ := this
    refine ⟨?_, ?_, ?_, ?_⟩
    · show g2.stringtable = _
      rw [← e2, ← hg]
    · show yl = _
      rw [← e1, ← hg]
    · show g2.idtable = _
      rw [← e2, ← hg]
    · show g2.inttable = _
      rw [← e2, ← hg]
  · have := (r3 h).symm.trans hpop
    simp only [Res.ok.injEq] at this
    obtain ⟨e1, e2⟩ := this
    refine ⟨?_, ?_, ?_, ?_⟩
    · show g2.idtable = _
      rw [← e2, ← hg]
    · show yl = _
      rw [← e1, ← hg]
    · show g2.inttable = _
      rw [← e2, ← hg]
    · show g2.stringtable = _
      rw [← e2, ← hg]
  · obtain ⟨y, hy⟩ := r4 h1 h2 h3 h4
    have := hy.symm.trans hpop
    simp only [Res.ok.injEq] at this
    obtain ⟨-, e2⟩ := this
    refine ⟨?_, ?_, ?_⟩
    · show g2.idtable = _
      rw [← e2, ← hg]
    · show g2.inttable = _
      rw [← e2, ← hg]
    · show g2.stringtable = _
      rw [← e2, ← hg]
theorem payload_routing_witness :
    sample_cool_parse.case_labels_distinct ∧
    ∃ st1, cool_yylex atou_decimal sample_cool_parse
        ⟨sampleGlobals, sampleTokenDoc, 1, 1, sampleTokenDoc, lit "m.cl", lit "m.cl",
          YYSTYPE.unset⟩ = LexRes.ret 278 st1 ∧
      st1.g.idtable = (sampleGlobals.idtable.add_string (lit "Main")).2 ∧
      st1.yylval = YYSTYPE.symbol (sampleGlobals.idtable.add_string (lit "Main")).1 ∧
      st1.g.inttable = sampleGlobals.inttable ∧ st1.g.stringtable = sampleGlobals.stringtable := by
  have hP : sample_cool_parse.case_labels_distinct := by
    unfold cool_parse.case_labels_distinct
    decide
  have hfind : (Yaml.map [(lit "kind", Yaml.val (lit "TYPEID")), (lit "lineno", Yaml.val (lit "1")),
      (lit "symbol", Yaml.val (lit "Main"))]).find_child (lit "symbol") =
      some (Yaml.val (lit "Main")) := by
    simp [Yaml.find_child]
  have hwf : WellFormedToken atou_decimal sample_cool_parse
      (Yaml.map [(lit "kind", Yaml.val (lit "TYPEID")), (lit "lineno", Yaml.val (lit "1")),
        (lit "symbol", Yaml.val (lit "Main"))]) 1 278 := by
    refine ⟨lit "1", lit "TYPEID", ?_, by decide, by decide, ?_, by decide, ?_, ?_⟩
    · simp [Yaml.find_child]
    · simp [Yaml.find_child]
    · intro c hc
      rw [hfind] at hc
      exact ⟨_, (Option.some.inj hc).symm⟩
    · intro c hc; simp [Yaml.find_child] at hc
  obtain ⟨symbol, st1, hs, -, hcall, -, -, hid, -⟩ := payload_routing atou_decimal
    sample_cool_parse hP
    ⟨sampleGlobals, sampleTokenDoc, 1, 1, sampleTokenDoc, lit "m.cl", lit "m.cl", YYSTYPE.unset⟩
    _ _ _ 1 278 (by simp [LexState.loaded]; rfl)
    (by simp [sampleTokenDoc, Yaml.find_child]; rfl) (by simp [Yaml.num_children])
    (by simp [Yaml.child_at]) hwf
  have hsym := hs _ hfind
  subst hsym
  exact ⟨hP, st1, hcall, hid (Or.inl rfl)⟩

/-! ### Token stream adapter: the end of the stream -/

/-- C19. Exhausted is absorbing. When a call of the adapter (initialised, or on its
first call with a loadable document) finds the cursor equal to the number of
tokens, it returns the end-of-stream code 0 and leaves cursor and process state as
they were; and every later call returns 0 again and leaves the whole state of the
adapter (cursor, `curr_lineno`, the three tables) as it is. -/
theorem exhausted_is_absorbing (atou : Str → Option Nat) (P : cool_parse) (st sa : LexState)
    (tokens : Yaml) (hloaded : st.loaded = some sa)
    (htokens : sa.token_root.find_child (lit "tokens") = some tokens)
    (hpos : sa.pos = tokens.num_children) :
    cool_yylex atou P st = LexRes.ret YYEOF sa ∧ sa.pos = st.pos ∧ sa.g = st.g ∧
    cool_yylex atou P sa = LexRes.ret YYEOF sa ∧
    (∀ n : Nat, cool_yylex_trace atou P n sa = List.replicate n (YYEOF, sa)) ∧
    (∀ (n : Nat) (code : Int) (st1 : LexState), (code, st1) ∈ cool_yylex_trace atou P n sa →
      code = YYEOF ∧ st1.pos = st.pos ∧ st1.g.curr_lineno = st.g.curr_lineno ∧
      st1.g.idtable = st.g.idtable ∧ st1.g.inttable = st.g.inttable ∧
      st1.g.stringtable = st.g.stringtable) := by
  obtain ⟨hcall, hinit⟩ := cool_yylex_loaded atou P st sa hloaded
  obtain ⟨hg, hp, -⟩ := loaded_same st sa hloaded
  have hend := cool_yylex_pull_end atou P sa tokens htokens hpos
  have hsa : cool_yylex atou P sa = LexRes.ret YYEOF sa := by
    have hl : sa.loaded = some sa := by simp [LexState.loaded, hinit]
    rw [(cool_yylex_loaded atou P sa sa hl).1, hend]
  have htrace : ∀ n : Nat, cool_yylex_trace atou P n sa = List.replicate n (YYEOF, sa) := by
    intro n
    induction n with
    | zero => rfl
    | succ n ih => simp only [cool_yylex_trace, hsa, ih, List.replicate_succ]
  refine ⟨by rw [hcall, hend], hp, hg, hsa, htrace, ?_⟩
  intro n code st1 hmem
  rw [htrace n] at hmem
  have := List.eq_of_mem_replicate hmem
  simp only [Prod.mk.injEq] at this
  obtain ⟨h1, h2⟩ := this
  subst h1 h2
  rw [hg, hp]
  exact ⟨rfl, rfl, rfl, rfl, rfl, rfl⟩

theorem exhausted_is_absorbing_witness :
    cool_yylex atou_decimal sample_cool_parse
        ⟨sampleGlobals, sampleTokenDoc, 1, 2, sampleTokenDoc, lit "m.cl", lit "m.cl",
          YYSTYPE.unset⟩ =
      LexRes.ret YYEOF ⟨sampleGlobals, sampleTokenDoc, 1, 2, sampleTokenDoc, lit "m.cl",
        lit "m.cl", YYSTYPE.unset⟩ ∧
    cool_yylex_trace atou_decimal sample_cool_parse 3
        ⟨sampleGlobals, sampleTokenDoc, 1, 2, sampleTokenDoc, lit "m.cl", lit "m.cl",
          YYSTYPE.unset⟩ =
      List.replicate 3 (YYEOF, ⟨sampleGlobals, sampleTokenDoc, 1, 2, sampleTokenDoc, lit "m.cl",
        lit "m.cl", YYSTYPE.unset⟩) := by
  have h := exhausted_is_absorbing atou_decimal sample_cool_parse
    ⟨sampleGlobals, sampleTokenDoc, 1, 2, sampleTokenDoc, lit "m.cl", lit "m.cl", YYSTYPE.unset⟩
    ⟨sampleGlobals, sampleTokenDoc, 1, 2, sampleTokenDoc, lit "m.cl", lit "m.cl", YYSTYPE.unset⟩
    (Yaml.seq [
      Yaml.map [(lit "kind", Yaml.val (lit "CLASS")), (lit "lineno", Yaml.val (lit "1"))],
      Yaml.map [(lit "kind", Yaml.val (lit "TYPEID")), (lit "lineno", Yaml.val (lit "1")),
        (lit "symbol", Yaml.val (lit "Main"))]])
    (by simp [LexState.loaded]) (by simp [sampleTokenDoc, Yaml.find_child])
    (by simp [Yaml.num_children])
  exact ⟨h.1, h.2.2.2.2.1 3⟩

/-! ### String escapes: malformed escapes -/

/-- Bytes other than the backslash are copied by the loop of
`get_unescaped_string`. -/
theorem unescape_loop_plain (p : Str) :
    ∀ (fuel : Nat) (rest out : Str), 92 ∉ p →
      unescape_loop (fuel + p.length) (p ++ rest) out = unescape_loop fuel rest (out ++ p) := by
  induction p with
  | nil => intro fuel rest out _; simp
  | cons c p ih =>
    intro fuel rest out hp
    have hc : c ≠ 92 := fun h => hp (by simp [h])
    have hp' : 92 ∉ p := fun h => hp (List.mem_cons_of_mem _ h)
    have e : fuel + (c :: p).length = (fuel + p.length) + 1 := by simp; omega
    rw [e, List.cons_append]
    simp only [unescape_loop, hc, ne_eq, not_false_eq_true, if_true]
    rw [ih fuel rest (out ++ [c]) hp']
    simp

theorem dropWhile_backslash (s : Str) :
    ∀ (c : Nat) (t : Str), s.dropWhile (fun c => decide (c ≠ 92)) = c :: t →
      ∃ p, s = p ++ 92 :: t ∧ 92 ∉ p := by
  induction s with
  | nil => intro c t h; simp at h
  | cons x xs ih =>
    intro c t h
    by_cases hx : x = 92
    · subst hx
      simp only [List.dropWhile_cons, ne_eq, not_true_eq_false, decide_False,
        Bool.false_eq_true, if_false, List.cons.injEq] at h
      exact ⟨[], by simp [h.2], by simp⟩
    · simp only [List.dropWhile_cons, ne_eq, hx, not_false_eq_true, decide_True, if_true] at h
      obtain ⟨p, hp1, hp2⟩ := ih c t h
      refine ⟨x :: p, by simp [hp1], ?_⟩
      intro hm
      rcases List.mem_cons.mp hm with hm | hm
      · exact hx hm.symm
      · exact hp2 hm

/-- What `get_unescaped_string` does at a first backslash that starts no known
escape. -/
theorem get_unescaped_string_malformed (s : Str) (h : malformed_at_first_backslash s = true) :
    get_unescaped_string_cerr s = ([], [msg_unexpected_end]) ∨
    get_unescaped_string_cerr s = ([], [msg_unexpected_escape]) := by
  unfold malformed_at_first_backslash at h
  split at h
  · cases h
  · rename_i c hd
    obtain ⟨p, hs, hp⟩ := dropWhile_backslash s c [] hd
    left
    subst hs
    have e : (p ++ [92]).length = 1 + p.length := by simp; omega
    rw [get_unescaped_string_cerr, e, unescape_loop_plain p 1 [92] [] hp]
    simp [unescape_loop]
  · rename_i c d rest hd
    obtain ⟨p, hs, hp⟩ := dropWhile_backslash s c (d :: rest) hd
    right
    subst hs
    simp only [Bool.and_eq_true, Bool.not_eq_true', decide_eq_false_iff_not, List.mem_cons,
      List.mem_singleton, not_or, List.not_mem_nil, not_false_eq_true, and_true, or_false] at h
    obtain ⟨⟨h1, h2, h3, h4, h5, h6⟩, hoct⟩ := h
    have e : (p ++ 92 :: d :: rest).length = (rest.length + 2) + p.length := by simp; omega
    rw [get_unescaped_string_cerr, e, unescape_loop_plain p _ _ [] hp]
    simp only [unescape_loop, ne_eq, not_true_eq_false, if_false, h1, h2, h3, h4, h5, h6, hoct,
      if_true]

/-- C24. When the root of the token document is not a map, the first call of
`cool_yylex` returns the end-of-stream code 0 (it is not fatal), having written
its diagnostic to the error stream; the three tables, `curr_lineno`, the current
file name, the cursor and `cool_yylval` are left as they were, and the adapter
stays uninitialised. -/
theorem malformed_document_is_end_of_stream (atou : Str → Option Nat) (P : cool_parse)
    (st : LexState) (hinit : st.init = 0) (hdoc : st.doc.is_map = false) :
    ∃ st1, cool_yylex atou P st = LexRes.ret YYEOF st1 ∧ YYEOF = 0 ∧
      st1.g.idtable = st.g.idtable ∧ st1.g.inttable = st.g.inttable ∧
      st1.g.stringtable = st.g.stringtable ∧ st1.g.curr_lineno = st.g.curr_lineno ∧
      st1.curr_filename = st.curr_filename ∧ st1.pos = st.pos ∧ st1.yylval = st.yylval ∧
      st1.init = 0 ∧
      st1.g.cerr = st.g.cerr ++
        [Output.text (lit "Failed to parse the input; expected a YAML token stream.\n")] := by
  refine ⟨{ st with token_root := st.doc, g := { st.g with cerr := st.g.cerr ++
    [Output.text (lit "Failed to parse the input; expected a YAML token stream.\n")] } },
    ?_, rfl, rfl, rfl, rfl, rfl, rfl, rfl, rfl, hinit, rfl⟩
  simp only [cool_yylex, hinit, if_true, hdoc]

theorem malformed_document_is_end_of_stream_witness :
    ∃ st1, cool_yylex atou_decimal sample_cool_parse
        (LexState.start sampleGlobals (Yaml.seq [])) = LexRes.ret YYEOF st1 ∧
      st1.g.idtable = sampleGlobals.idtable ∧ st1.curr_filename = lit "<stdin>" := by
  obtain ⟨st1, h1, -, h2, -, -, -, h3, -⟩ := malformed_document_is_end_of_stream atou_decimal
    sample_cool_parse (LexState.start sampleGlobals (Yaml.seq [])) rfl rfl
  exact ⟨st1, h1, h2, h3⟩

/-! ### The inferred type field -/

/-- C26. Every expression constructor returns an expression whose type is unset, and
for every expression `e` and symbol `s`, `set_type(s)` gives `e` with `get_type`
equal to `s` and nothing else changed: the line number and the fields of the class
(kind, symbols, children) are the same, and the encoding is the encoding of `e`
with the child under the key `type` replaced. -/
theorem set_type_changes_type_only (e : Expression) (s : Option Symbol) :
    (∀ (node : Expression_class) (g : Globals),
      new_Expression node g = Res.ok (Expression.mk g.node_lineno none node) g ∧
      (Expression.mk g.node_lineno none node).get_type = none) ∧
    (∀ (name type_name : Symbol) (e1 e2 e3 : Expression) (l : List Expression)
        (cs : List Case) (b : Boolean),
      assign name e1 = new_Expression (.assign_class name e1) ∧
      static_dispatch e1 type_name name l =
        new_Expression (.static_dispatch_class e1 type_name name l) ∧
      dispatch e1 name l = new_Expression (.dispatch_class e1 name l) ∧
      cond e1 e2 e3 = new_Expression (.cond_class e1 e2 e3) ∧
      loop e1 e2 = new_Expression (.loop_class e1 e2) ∧
      typcase e1 cs = new_Expression (.typcase_class e1 cs) ∧
      block l = new_Expression (.block_class l) ∧
      let_ name type_name e1 e2 = new_Expression (.let_class name type_name e1 e2) ∧
      plus e1 e2 = new_Expression (.plus_class e1 e2) ∧
      sub e1 e2 = new_Expression (.sub_class e1 e2) ∧
      mul e1 e2 = new_Expression (.mul_class e1 e2) ∧
      divide e1 e2 = new_Expression (.divide_class e1 e2) ∧
      neg e1 = new_Expression (.neg_class e1) ∧
      lt e1 e2 = new_Expression (.lt_class e1 e2) ∧
      eq e1 e2 = new_Expression (.eq_class e1 e2) ∧
      leq e1 e2 = new_Expression (.leq_class e1 e2) ∧
      comp e1 = new_Expression (.comp_class e1) ∧
      int_const name = new_Expression (.int_const_class name) ∧
      bool_const b = new_Expression (.bool_const_class b) ∧
      string_const name = new_Expression (.string_const_class name) ∧
      new_ name = new_Expression (.new__class name) ∧
      isvoid e1 = new_Expression (.isvoid_class e1) ∧
      no_expr = new_Expression .no_expr_class ∧
      object name = new_Expression (.object_class name)) ∧
    (e.set_type s).get_type = s ∧
    (e.set_type s).get_line_number = e.get_line_number ∧
    (e.set_type s).node = e.node ∧
    (∃ lineno rest, e.to_yaml = Yaml.map (lineno :: emit_type e.get_type :: rest) ∧
      (e.set_type s).to_yaml = Yaml.map (lineno :: emit_type s :: rest) ∧
      lineno.1 = lit "lineno" ∧ (∀ kv ∈ rest, kv.1 ≠ lit "type")) := by
  refine ⟨fun node g => ⟨rfl, rfl⟩, fun _ _ _ _ _ _ _ _ => ?_, ?_⟩
  · exact ⟨rfl, rfl, rfl, rfl, rfl, rfl, rfl, rfl, rfl, rfl, rfl, rfl, rfl, rfl, rfl, rfl, rfl,
      rfl, rfl, rfl, rfl, rfl, rfl, rfl⟩
  · cases e with
    | mk ln ty node =>
      refine ⟨rfl, rfl, rfl, emit_lineno ln, Expression_class.to_yaml_rest node, ?_, ?_, rfl, ?_⟩
      · simp [Expression.to_yaml, Expression.get_type]
      · simp [Expression.to_yaml, Expression.set_type]
      · cases node <;> simp [Expression_class.to_yaml_rest]

theorem set_type_changes_type_only_witness :
    (typedSum.set_type none).get_type = none ∧
    (typedSum.set_type none).get_line_number = 5 ∧
    (typedSum.set_type none).node = typedSum.node :=
  ⟨(set_type_changes_type_only typedSum none).2.2.1,
   (set_type_changes_type_only typedSum none).2.2.2.1,
   (set_type_changes_type_only typedSum none).2.2.2.2.1⟩

/-! ### Lists of nodes -/

/-- C27 at its failing inputs. For every list `l`, `nth(l, n)` with `n` equal to the
size of `l` passes the range test `n > length` and dereferences the past-the-end
iterator: it neither reports the error nor returns an element of `l`. For every
smaller `n` it returns the element at position `n`, and for every larger `n` it
reports the error. -/
theorem nth_reads_past_the_end {Elem : Type} (l : List Elem) :
    nth l l.length = NthRes.past_the_end ∧
    nth l l.length ≠ NthRes.error_exit ∧
    (∀ x, nth l l.length ≠ NthRes.ret x) ∧
    (∀ n, n < l.length → ∃ x, l[n]? = some x ∧ nth l n = NthRes.ret x) ∧
    (∀ n, l.length < n → nth l n = NthRes.error_exit) := by
  have h0 : nth l l.length = NthRes.past_the_end := by
    simp [nth]
  refine ⟨h0, (by rw [h0]; intro h; cases h), fun x => (by rw [h0]; intro h; cases h), ?_, ?_⟩
  · intro n hn
    refine ⟨l[n], List.getElem?_eq_getElem hn, ?_⟩
    have hd : l.drop n = l[n] :: l.drop (n + 1) := List.drop_eq_getElem_cons hn
    simp only [nth, hd]
    rw [if_neg (by omega)]
  · intro n hn
    simp only [nth]
    rw [if_pos (by omega)]

theorem nth_reads_past_the_end_witness :
    nth ([] : List Nat) 0 = NthRes.past_the_end ∧ nth [7, 8] 2 = NthRes.past_the_end :=
  ⟨(nth_reads_past_the_end ([] : List Nat)).1, (nth_reads_past_the_end [7, 8]).1⟩

/-! ### String escapes: octal escapes -/

/-- The value `stoi(oct_string, 0, 8)` of three octal digits. -/
theorem stoi_octal_digits (d1 d2 d3 : Nat) (h1 : 48 ≤ d1 ∧ d1 ≤ 51) (h2 : 48 ≤ d2 ∧ d2 ≤ 55)
    (h3 : 48 ≤ d3 ∧ d3 ≤ 55) :
    stoi_octal [d1, d2, d3] = 64 * (d1 - 48) + 8 * (d2 - 48) + (d3 - 48) := by
  simp only [stoi_octal, List.foldl_cons, List.foldl_nil]
  omega

/-- C30 at its failing inputs. For every octal escape (backslash, `d1` in `0..3`, `d2`
and `d3` in `0..7`) and every string `t` without a backslash, `get_unescaped_string`
of the escape followed by `t` is the byte `64*d1 + 8*d2 + d3` followed by `t`
without its first byte: the escape consumes five input bytes, and whenever `t` is
not empty the result is not the byte followed by all of `t`. -/
theorem octal_escape_consumes_five_bytes (d1 d2 d3 : Nat) (t : Str)
    (h1 : 48 ≤ d1 ∧ d1 ≤ 51) (h2 : 48 ≤ d2 ∧ d2 ≤ 55) (h3 : 48 ≤ d3 ∧ d3 ≤ 55)
    (ht : 92 ∉ t) :
    get_unescaped_string (92 :: d1 :: d2 :: d3 :: t) =
      (64 * (d1 - 48) + 8 * (d2 - 48) + (d3 - 48)) :: t.drop 1 ∧
    (get_unescaped_string_cerr (92 :: d1 :: d2 :: d3 :: t)).2 = [] ∧
    (t ≠ [] → get_unescaped_string (92 :: d1 :: d2 :: d3 :: t) ≠
      (64 * (d1 - 48) + 8 * (d2 - 48) + (d3 - 48)) :: t) := by
  have hdrop : 92 ∉ t.drop 1 := fun h => ht (List.mem_of_mem_drop h)
  have hoct : octal_pattern_match [d1, d2, d3] = true := by
    simp only [octal_pattern_match, decide_eq_true_eq]
    omega
  have hplain : ∀ (fuel : Nat) (p out : Str), 92 ∉ p → p.length ≤ fuel →
      unescape_loop fuel p out = (out ++ p, []) := by
    intro fuel p out hp hlen
    have := unescape_loop_plain p (fuel - p.length) [] out hp
    rw [List.append_nil, Nat.sub_add_cancel hlen] at this
    rw [this]
    cases (fuel - p.length) <;> rfl
  have key : get_unescaped_string_cerr (92 :: d1 :: d2 :: d3 :: t) =
      ((64 * (d1 - 48) + 8 * (d2 - 48) + (d3 - 48)) :: t.drop 1, []) := by
    have e1 : ¬ (d1 = 92) := by omega
    have e2 : ¬ (d1 = 34) := by omega
    have e3 : ¬ (d1 = 110) := by omega
    have e4 : ¬ (d1 = 116) := by omega
    have e5 : ¬ (d1 = 98) := by omega
    have e6 : ¬ (d1 = 102) := by omega
    simp only [get_unescaped_string_cerr, List.length_cons, unescape_loop, ne_eq,
      not_true_eq_false, if_false, e1, e2, e3, e4, e5, e6, List.take_succ_cons, List.take_zero,
      hoct, Bool.true_eq_false, List.drop_succ_cons, List.nil_append,
      stoi_octal_digits d1 d2 d3 h1 h2 h3]
    rw [hplain _ _ _ hdrop (by simp only [List.length_drop]; omega)]
    rfl
  refine ⟨(by rw [get_unescaped_string, key]), (by rw [key]), ?_⟩
  intro hne
  rw [get_unescaped_string, key]
  intro h
  have hlen := congrArg List.length h
  obtain ⟨x, xs, rfl⟩ := List.exists_cons_of_ne_nil hne
  simp at hlen

theorem octal_escape_consumes_five_bytes_witness :
    get_unescaped_string [92, 49, 48, 49, 120, 121] = [65, 121] ∧
    get_unescaped_string [92, 49, 48, 49, 120, 121] ≠ [65, 120, 121] := by
  have h := octal_escape_consumes_five_bytes 49 48 49 [120, 121] (by decide) (by decide)
    (by decide) (by decide)
  exact ⟨h.1, h.2.2 (by decide)⟩

/-! ### Copies of nodes -/

mutual
/-- What `copy_Expression` does to an expression: copying a copy gives what copying
the original gives, the copy is fresh at the line it was made on, and an expression
that is fresh at the current line is its own copy. -/
theorem copy_at_spec_expression (ln ln' : Int) : ∀ e : Expression,
    (e.copy_at ln).copy_at ln' = e.copy_at ln' ∧ (e.copy_at ln).fresh_at ln = true ∧
    (e.fresh_at ln = true → e.copy_at ln = e)
  | .mk l t nd => by
    have h := copy_at_spec_class ln ln' nd
    refine ⟨?_, ?_, ?_⟩
    · simp only [Expression.copy_at, h.1]
    · simp only [Expression.copy_at, Expression.fresh_at, h.2.1, decide_True, Option.isNone_none,
        Bool.and_self]
    · intro hf
      simp only [Expression.fresh_at, Bool.and_eq_true, decide_eq_true_eq,
        Option.isNone_iff_eq_none] at hf
      obtain ⟨⟨h1, h2⟩, h3⟩ := hf
      simp only [Expression.copy_at, h.2.2 h3, h1, h2]
/-- What `copy_Expression` does to the fields of each class (see
`copy_at_spec_expression`). -/
theorem copy_at_spec_class (ln ln' : Int) : ∀ nd : Expression_class,
    (nd.copy_at ln).copy_at ln' = nd.copy_at ln' ∧ (nd.copy_at ln).fresh_at ln = true ∧
    (nd.fresh_at ln = true → nd.copy_at ln = nd)
  | .assign_class a1 a2 => by
    have ha2 := copy_at_spec_expression ln ln' a2
    refine ⟨?_, ?_, ?_⟩
    · simp only [Expression_class.copy_at, ha2.1]
    · simp only [Expression_class.copy_at, Expression_class.fresh_at, ha2.2.1, Bool.and_self]
    · intro hf
      simp only [Expression_class.fresh_at, Bool.and_eq_true] at hf
      simp only [Expression_class.copy_at, ha2.2.2 hf]
  | .static_dispatch_class a1 a2 a3 a4 => by
    have ha1 := copy_at_spec_expression ln ln' a1
    refine ⟨?_, ?_, ?_⟩
    · simp only [Expression_class.copy_at, ha1.1]
    · simp only [Expression_class.copy_at, Expression_class.fresh_at, ha1.2.1, Bool.and_self]
    · intro hf
      simp only [Expression_class.fresh_at, Bool.and_eq_true] at hf
      simp only [Expression_class.copy_at, ha1.2.2 hf]
  | .dispatch_class a1 a2 a3 => by
    have ha1 := copy_at_spec_expression ln ln' a1
    refine ⟨?_, ?_, ?_⟩
    · simp only [Expression_class.copy_at, ha1.1]
    · simp only [Expression_class.copy_at, Expression_class.fresh_at, ha1.2.1, Bool.and_self]
    · intro hf
      simp only [Expression_class.fresh_at, Bool.and_eq_true] at hf
      simp only [Expression_class.copy_at, ha1.2.2 hf]
  | .cond_class a1 a2 a3 => by
    have ha1 := copy_at_spec_expression ln ln' a1
    have ha2 := copy_at_spec_expression ln ln' a2
    have ha3 := copy_at_spec_expression ln ln' a3
    refine ⟨?_, ?_, ?_⟩
    · simp only [Expression_class.copy_at, ha1.1, ha2.1, ha3.1]
    · simp only [Expression_class.copy_at, Expression_class.fresh_at, ha1.2.1, ha2.2.1, ha3.2.1, Bool.and_self]
    · intro hf
      simp only [Expression_class.fresh_at, Bool.and_eq_true] at hf
      simp only [Expression_class.copy_at, ha1.2.2 hf.1.1, ha2.2.2 hf.1.2, ha3.2.2 hf.2]
  | .loop_class a1 a2 => by
    have ha1 := copy_at_spec_expression ln ln' a1
    have ha2 := copy_at_spec_expression ln ln' a2
    refine ⟨?_, ?_, ?_⟩
    · simp only [Expression_class.copy_at, ha1.1, ha2.1]
    · simp only [Expression_class.copy_at, Expression_class.fresh_at, ha1.2.1, ha2.2.1, Bool.and_self]
    · intro hf
      simp only [Expression_class.fresh_at, Bool.and_eq_true] at hf
      simp only [Expression_class.copy_at, ha1.2.2 hf.1, ha2.2.2 hf.2]
  | .typcase_class a1 a2 => by
    have ha1 := copy_at_spec_expression ln ln' a1
    refine ⟨?_, ?_, ?_⟩
    · simp only [Expression_class.copy_at, ha1.1]
    · simp only [Expression_class.copy_at, Expression_class.fresh_at, ha1.2.1, Bool.and_self]
    · intro hf
      simp only [Expression_class.fresh_at, Bool.and_eq_true] at hf
      simp only [Expression_class.copy_at, ha1.2.2 hf]
  | .block_class a1 => by
    exact ⟨rfl, rfl, fun _ => rfl⟩
  | .let_class a1 a2 a3 a4 => by
    have ha3 := copy_at_spec_expression ln ln' a3
    have ha4 := copy_at_spec_expression ln ln' a4
    refine ⟨?_, ?_, ?_⟩
    · simp only [Expression_class.copy_at, ha3.1, ha4.1]
    · simp only [Expression_class.copy_at, Expression_class.fresh_at, ha3.2.1, ha4.2.1, Bool.and_self]
    · intro hf
      simp only [Expression_class.fresh_at, Bool.and_eq_true] at hf
      simp only [Expression_class.copy_at, ha3.2.2 hf.1, ha4.2.2 hf.2]
  | .plus_class a1 a2 => by
    have ha1 := copy_at_spec_expression ln ln' a1
    have ha2 := copy_at_spec_expression ln ln' a2
    refine ⟨?_, ?_, ?_⟩
    · simp only [Expression_class.copy_at, ha1.1, ha2.1]
    · simp only [Expression_class.copy_at, Expression_class.fresh_at, ha1.2.1, ha2.2.1, Bool.and_self]
    · intro hf
      simp only [Expression_class.fresh_at, Bool.and_eq_true] at hf
      simp only [Expression_class.copy_at, ha1.2.2 hf.1, ha2.2.2 hf.2]
  | .sub_class a1 a2 => by
    have ha1 := copy_at_spec_expression ln ln' a1
    have ha2 := copy_at_spec_expression ln ln' a2
    refine ⟨?_, ?_, ?_⟩
    · simp only [Expression_class.copy_at, ha1.1, ha2.1]
    · simp only [Expression_class.copy_at, Expression_class.fresh_at, ha1.2.1, ha2.2.1, Bool.and_self]
    · intro hf
      simp only [Expression_class.fresh_at, Bool.and_eq_true] at hf
      simp only [Expression_class.copy_at, ha1.2.2 hf.1, ha2.2.2 hf.2]
  | .mul_class a1 a2 => by
    have ha1 := copy_at_spec_expression ln ln' a1
    have ha2 := copy_at_spec_expression ln ln' a2
    refine ⟨?_, ?_, ?_⟩
    · simp only [Expression_class.copy_at, ha1.1, ha2.1]
    · simp only [Expression_class.copy_at, Expression_class.fresh_at, ha1.2.1, ha2.2.1, Bool.and_self]
    · intro hf
      simp only [Expression_class.fresh_at, Bool.and_eq_true] at hf
      simp only [Expression_class.copy_at, ha1.2.2 hf.1, ha2.2.2 hf.2]
  | .divide_class a1 a2 => by
    have ha1 := copy_at_spec_expression ln ln' a1
    have ha2 := copy_at_spec_expression ln ln' a2
    refine ⟨?_, ?_, ?_⟩
    · simp only [Expression_class.copy_at, ha1.1, ha2.1]
    · simp only [Expression_class.copy_at, Expression_class.fresh_at, ha1.2.1, ha2.2.1, Bool.and_self]
    · intro hf
      simp only [Expression_class.fresh_at, Bool.and_eq_true] at hf
      simp only [Expression_class.copy_at, ha1.2.2 hf.1, ha2.2.2 hf.2]
  | .neg_class a1 => by
    have ha1 := copy_at_spec_expression ln ln' a1
    refine ⟨?_, ?_, ?_⟩
    · simp only [Expression_class.copy_at, ha1.1]
    · simp only [Expression_class.copy_at, Expression_class.fresh_at, ha1.2.1, Bool.and_self]
    · intro hf
      simp only [Expression_class.fresh_at, Bool.and_eq_true] at hf
      simp only [Expression_class.copy_at, ha1.2.2 hf]
  | .lt_class a1 a2 => by
    have ha1 := copy_at_spec_expression ln ln' a1
    have ha2 := copy_at_spec_expression ln ln' a2
    refine ⟨?_, ?_, ?_⟩
    · simp only [Expression_class.copy_at, ha1.1, ha2.1]
    · simp only [Expression_class.copy_at, Expression_class.fresh_at, ha1.2.1, ha2.2.1, Bool.and_self]
    · intro hf
      simp only [Expression_class.fresh_at, Bool.and_eq_true] at hf
      simp only [Expression_class.copy_at, ha1.2.2 hf.1, ha2.2.2 hf.2]
  | .eq_class a1 a2 => by
    have ha1 := copy_at_spec_expression ln ln' a1
    have ha2 := copy_at_spec_expression ln ln' a2
    refine ⟨?_, ?_, ?_⟩
    · simp only [Expression_class.copy_at, ha1.1, ha2.1]
    · simp only [Expression_class.copy_at, Expression_class.fresh_at, ha1.2.1, ha2.2.1, Bool.and_self]
    · intro hf
      simp only [Expression_class.fresh_at, Bool.and_eq_true] at hf
      simp only [Expression_class.copy_at, ha1.2.2 hf.1, ha2.2.2 hf.2]
  | .leq_class a1 a2 => by
    have ha1 := copy_at_spec_expression ln ln' a1
    have ha2 := copy_at_spec_expression ln ln' a2
    refine ⟨?_, ?_, ?_⟩
    · simp only [Expression_class.copy_at, ha1.1, ha2.1]
    · simp only [Expression_class.copy_at, Expression_class.fresh_at, ha1.2.1, ha2.2.1, Bool.and_self]
    · intro hf
      simp only [Expression_class.fresh_at, Bool.and_eq_true] at hf
      simp only [Expression_class.copy_at, ha1.2.2 hf.1, ha2.2.2 hf.2]
  | .comp_class a1 => by
    have ha1 := copy_at_spec_expression ln ln' a1
    refine ⟨?_, ?_, ?_⟩
    · simp only [Expression_class.copy_at, ha1.1]
    · simp only [Expression_class.copy_at, Expression_class.fresh_at, ha1.2.1, Bool.and_self]
    · intro hf
      simp only [Expression_class.fresh_at, Bool.and_eq_true] at hf
      simp only [Expression_class.copy_at, ha1.2.2 hf]
  | .int_const_class a1 => by
    exact ⟨rfl, rfl, fun _ => rfl⟩
  | .bool_const_class a1 => by
    exact ⟨rfl, rfl, fun _ => rfl⟩
  | .string_const_class a1 => by
    exact ⟨rfl, rfl, fun _ => rfl⟩
  | .new__class a1 => by
    exact ⟨rfl, rfl, fun _ => rfl⟩
  | .isvoid_class a1 => by
    have ha1 := copy_at_spec_expression ln ln' a1
    refine ⟨?_, ?_, ?_⟩
    · simp only [Expression_class.copy_at, ha1.1]
    · simp only [Expression_class.copy_at, Expression_class.fresh_at, ha1.2.1, Bool.and_self]
    · intro hf
      simp only [Expression_class.fresh_at, Bool.and_eq_true] at hf
      simp only [Expression_class.copy_at, ha1.2.2 hf]
  | .no_expr_class => by
    exact ⟨rfl, rfl, fun _ => rfl⟩
  | .object_class a1 => by
    exact ⟨rfl, rfl, fun _ => rfl⟩
end

theorem copy_at_kind (ln : Int) (nd : Expression_class) :
    (nd.copy_at ln).kind = nd.kind := by
  cases nd <;> rfl

/-- C25, amended. A copy is the node rebuilt by its constructor. For every node and
every process state the copy functions return, without changing the state: the
copy has the same kind, the same symbols and boolean, and the same child lists
(the same elements in the same order); a child expression that is not inside a
list is replaced by its copy; the line number of the copy, and of every child
expression copied with it, is the current line, and their type is unset. Hence
copying a copy gives what copying the original gives, and the copy of an
expression equals the expression, so that their encodings are equal, exactly when
the expression and the child expressions copied with it already have the current
line and an unset type. -/
theorem copy_rebuilds_node (e : Expression) (g : Globals) (ln' : Int) :
    e.copy_Expression g = Res.ok (e.copy_at g.node_lineno) g ∧
    (e.copy_at g.node_lineno).node.kind = e.node.kind ∧
    (e.copy_at g.node_lineno).get_line_number = g.node_lineno ∧
    (e.copy_at g.node_lineno).get_type = none ∧
    (e.copy_at g.node_lineno).copy_at ln' = e.copy_at ln' ∧
    (e.copy_at g.node_lineno = e ↔ e.fresh_at g.node_lineno = true) ∧
    (e.fresh_at g.node_lineno = true → (e.copy_at g.node_lineno).to_yaml = e.to_yaml) ∧
    (∀ (ln : Int) (name type_decl return_type parent filename : Symbol) (formals : List Formal)
        (features : List Feature) (classes : List Class_),
      (Case.branch_class ln name type_decl e).copy_Case g =
        Res.ok (.branch_class g.node_lineno name type_decl (e.copy_at g.node_lineno)) g ∧
      (Formal.formal_class ln name type_decl).copy_Formal g =
        Res.ok (.formal_class g.node_lineno name type_decl) g ∧
      (Feature.method_class ln name formals return_type e).copy_Feature g =
        Res.ok (.method_class g.node_lineno name formals return_type
          (e.copy_at g.node_lineno)) g ∧
      (Feature.attr_class ln name type_decl e).copy_Feature g =
        Res.ok (.attr_class g.node_lineno name type_decl (e.copy_at g.node_lineno)) g ∧
      (Class_.class__class ln name parent features filename).copy_Class_ g =
        Res.ok (.class__class g.node_lineno name parent features filename) g ∧
      (Program.program_class ln classes).copy_Program g =
        Res.ok (.program_class g.node_lineno classes) g) := by
  obtain ⟨h1, h2, h3⟩ := copy_at_spec_expression g.node_lineno ln' e
  have hiff : e.copy_at g.node_lineno = e ↔ e.fresh_at g.node_lineno = true :=
    ⟨fun h => by rw [← h]; exact h2, h3⟩
  refine ⟨rfl, ?_, ?_, ?_, h1, hiff, fun hf => by rw [h3 hf], ?_⟩
  · cases e with
    | mk l t nd => exact copy_at_kind _ nd
  · cases e; rfl
  · cases e; rfl
  · intro ln name type_decl return_type parent filename formals features classes
    exact ⟨rfl, rfl, rfl, rfl, rfl, rfl⟩

theorem copy_rebuilds_node_witness :
    (Expression.mk 5 none .no_expr_class).fresh_at 5 = true ∧
    (Expression.mk 5 none .no_expr_class).copy_Expression { sampleGlobals with node_lineno := 5 } =
      Res.ok (Expression.mk 5 none .no_expr_class) { sampleGlobals with node_lineno := 5 } ∧
    ((Expression.mk 5 none .no_expr_class).copy_at 5).to_yaml =
      (Expression.mk 5 none .no_expr_class).to_yaml :=
  ⟨rfl, (copy_rebuilds_node (.mk 5 none .no_expr_class) { sampleGlobals with node_lineno := 5 } 0).1,
   (copy_rebuilds_node (.mk 5 none .no_expr_class)
     { sampleGlobals with node_lineno := 5 } 0).2.2.2.2.2.2.1 rfl⟩

/-- C25, as stated, fails: the copy of `typedSum`, an expression on line 5 with type
`Int`, made while the current line is 5, has an unset type, and so have the two
operands copied with it; its encoding holds `_no_type` where the encoding of the
original holds `Int`. Made while the current line is 1, the copy is on line 1. -/
theorem copy_drops_type_counterexample :
    typedSum.get_type = some ⟨0, ⟨lit "Int", 3, 0⟩⟩ ∧
    (typedSum.copy_Expression { sampleGlobals with node_lineno := 5 }).value.map
      Expression.get_type = some none ∧
    (typedSum.copy_Expression { sampleGlobals with node_lineno := 5 }).value.map
        (fun c => c.to_yaml.scalars) =
      some [lit "lineno", lit "5", lit "type", lit "_no_type", lit "class", lit "plus",
        lit "e1", lit "lineno", lit "5", lit "type", lit "_no_type", lit "class",
        lit "int_const", lit "token", lit "1",
        lit "e2", lit "lineno", lit "5", lit "type", lit "_no_type", lit "class",
        lit "int_const", lit "token", lit "2"] ∧
    typedSum.to_yaml.scalars =
      [lit "lineno", lit "5", lit "type", lit "Int", lit "class", lit "plus",
        lit "e1", lit "lineno", lit "5", lit "type", lit "Int", lit "class",
        lit "int_const", lit "token", lit "1",
        lit "e2", lit "lineno", lit "5", lit "type", lit "Int", lit "class",
        lit "int_const", lit "token", lit "2"] ∧
    (typedSum.copy_Expression sampleGlobals).value.map Expression.get_line_number = some 1 := by
  decide!

/-! ### Decoders: line numbers -/

theorem partial_step {α β : Type} {P : Globals → Prop} {x : Dec α} {f : α → Dec β}
    {φ : α → Prop} {P' : α → Globals → Prop} {R : β → Globals → Prop}
    (hx : Partial P x (fun a g => φ a ∧ P' a g)) (hf : ∀ a, φ a → Partial (P' a) (f a) R) :
    Partial P (x >>= f) R := by
  intro g hg b g' h
  obtain ⟨a, g1, h1, h2⟩ := dec_bind_inv x f g g' b h
  obtain ⟨ha, hp⟩ := hx g hg a g1 h1
  exact hf a ha g1 hp b g' h2

theorem partial_ite {α : Type} (c : Prop) [Decidable c] (P : Globals → Prop) (x y : Dec α)
    (Q : α → Globals → Prop) (hx : Partial P x Q) (hy : Partial P y Q) :
    Partial P (if c then x else y) Q := by
  split
  · exact hx
  · exact hy

theorem partial_fail {α : Type} (P : Globals → Prop) (Q : α → Globals → Prop) :
    Partial P (fail : Dec α) Q := by
  intro g _ a g' h
  cases h

/-- A step that returns without changing the state keeps every state predicate. -/
theorem partial_same_state {α : Type} (P : Globals → Prop) (x : Dec α)
    (h : ∀ g a g', x g = Res.ok a g' → g' = g) :
    Partial P x (fun _ g => True ∧ P g) := by
  intro g hg a g' hx
  rw [h g a g' hx]
  exact ⟨trivial, hg⟩

theorem child_same_state (node : Yaml) (key : Str) (g : Globals) (a : Yaml) (g' : Globals)
    (h : child node key g = Res.ok a g') : g' = g := by
  cases hf : node.find_child key with
  | none => simp only [child, hf] at h; cases h
  | some c => simp only [child, hf] at h; cases h; rfl

theorem val_same_state (node : Yaml) (g : Globals) (a : Str) (g' : Globals)
    (h : val node g = Res.ok a g') : g' = g := by
  cases node <;> cases h
  rfl

theorem pl_child (q : Int → Prop) (node : Yaml) (key : Str) :
    Partial (LineIs q) (child node key) (fun _ g => True ∧ LineIs q g) :=
  partial_same_state _ _ (child_same_state node key)

theorem pl_get_string_val (q : Int → Prop) (node : Yaml) :
    Partial (LineIs q) (get_string_val node) (fun _ g => True ∧ LineIs q g) :=
  partial_same_state _ _ (val_same_state node)

theorem pl_val (q : Int → Prop) (node : Yaml) :
    Partial (LineIs q) (val node) (fun _ g => True ∧ LineIs q g) :=
  partial_same_state _ _ (val_same_state node)

theorem pl_set_lineno (q : Int → Prop) (node : Yaml) :
    Partial (LineIs q) (set_lineno node)
      (fun prev g => q prev ∧ LineIs (fun v => node.lineno = some v) g) := by
  intro g hg prev g' h
  rcases set_lineno_cases node g with ⟨t, v, hf, hs, hset⟩ | hcrash
  · rw [hset] at h
    cases h
    exact ⟨hg, by simp [LineIs, Yaml.lineno, hf, hs]⟩
  · rw [hcrash] at h
    cases h

theorem pl_restore (q : Int → Prop) (prev : Int) :
    Partial (LineIs q) (restore_lineno prev) (fun _ g => True ∧ LineIs (fun v => v = prev) g) := by
  intro g _ a g' h
  cases h
  exact ⟨trivial, rfl⟩

theorem pl_idtable (q : Int → Prop) (s : Str) :
    Partial (LineIs q) (idtable_add_string s) (fun _ g => True ∧ LineIs q g) := by
  intro g hg a g' h
  cases h
  exact ⟨trivial, hg⟩

theorem pl_inttable (q : Int → Prop) (s : Str) :
    Partial (LineIs q) (inttable_add_string s) (fun _ g => True ∧ LineIs q g) := by
  intro g hg a g' h
  cases h
  exact ⟨trivial, hg⟩

theorem pl_stringtable (q : Int → Prop) (s : Str) :
    Partial (LineIs q) (stringtable_add_string s) (fun _ g => True ∧ LineIs q g) := by
  intro g hg a g' h
  cases h
  exact ⟨trivial, hg⟩

theorem pl_cerr_text (q : Int → Prop) (s : Str) :
    Partial (LineIs q) (cerr_text s) (fun _ g => True ∧ LineIs q g) := by
  intro g hg a g' h
  cases h
  exact ⟨trivial, hg⟩

theorem pl_cerr_pointer (q : Int → Prop) :
    Partial (LineIs q) cerr_pointer (fun _ g => True ∧ LineIs q g) := by
  intro g hg a g' h
  cases h
  exact ⟨trivial, hg⟩

theorem pl_new_Expression (q : Int → Prop) (node : Expression_class) :
    Partial (LineIs q) (new_Expression node) (fun e g => q e.get_line_number ∧ LineIs q g) := by
  intro g hg a g' h
  cases h
  exact ⟨hg, hg⟩

theorem pl_branch (q : Int → Prop) (name type_decl : Symbol) (expr : Expression) :
    Partial (LineIs q) (branch name type_decl expr)
      (fun c g => q (tree_node.of_Case c).get_line_number ∧ LineIs q g) := by
  intro g hg a g' h
  cases h
  exact ⟨hg, hg⟩

theorem pl_formal (q : Int → Prop) (name type_decl : Symbol) :
    Partial (LineIs q) (formal name type_decl)
      (fun c g => q (tree_node.of_Formal c).get_line_number ∧ LineIs q g) := by
  intro g hg a g' h
  cases h
  exact ⟨hg, hg⟩

theorem pl_method (q : Int → Prop) (name : Symbol) (formals : List Formal) (return_type : Symbol)
    (expr : Expression) :
    Partial (LineIs q) (method name formals return_type expr)
      (fun c g => q (tree_node.of_Feature c).get_line_number ∧ LineIs q g) := by
  intro g hg a g' h
  cases h
  exact ⟨hg, hg⟩

theorem pl_attr (q : Int → Prop) (name type_decl : Symbol) (init : Expression) :
    Partial (LineIs q) (attr name type_decl init)
      (fun c g => q (tree_node.of_Feature c).get_line_number ∧ LineIs q g) := by
  intro g hg a g' h
  cases h
  exact ⟨hg, hg⟩

theorem pl_class_ (q : Int → Prop) (name parent : Symbol) (features : List Feature)
    (filename : Symbol) :
    Partial (LineIs q) (class_ name parent features filename)
      (fun c g => q (tree_node.of_Class_ c).get_line_number ∧ LineIs q g) := by
  intro g hg a g' h
  cases h
  exact ⟨hg, hg⟩

theorem pl_program (q : Int → Prop) (classes : List Class_) :
    Partial (LineIs q) (program classes)
      (fun c g => q (tree_node.of_Program c).get_line_number ∧ LineIs q g) := by
  intro g hg a g' h
  cases h
  exact ⟨hg, hg⟩

theorem pl_list_loop {α : Type} (q : Int → Prop) (dec : Yaml → Dec α)
    (ψ : Yaml → α → Prop)
    (h : ∀ c, Partial (LineIs q) (dec c) (fun a g => ψ c a ∧ LineIs q g)) (cs : List Yaml) :
    ∀ acc : List α, Partial (LineIs q) (yaml_to_list_loop dec cs acc)
      (fun _ g => True ∧ LineIs q g) := by
  induction cs with
  | nil =>
    intro acc g hg a g' hx
    cases hx
    exact ⟨trivial, hg⟩
  | cons c cs ih =>
    intro acc
    simp only [yaml_to_list_loop]
    exact partial_step (h c) (fun a _ => ih (acc ++ [a]))

theorem pl_list {α : Type} (q : Int → Prop) (dec : Yaml → Dec α) (ψ : Yaml → α → Prop)
    (h : ∀ c, Partial (LineIs q) (dec c) (fun a g => ψ c a ∧ LineIs q g)) (n : Yaml) :
    Partial (LineIs q) (yaml_to_list [] dec n) (fun _ g => True ∧ LineIs q g) := by
  cases n with
  | seq cs => exact pl_list_loop q dec ψ h cs []
  | val s =>
    intro g hg a g' hx
    cases hx
    exact ⟨trivial, hg⟩
  | map kvs =>
    intro g hg a g' hx
    cases hx
    exact ⟨trivial, hg⟩

/-- The last step of `yaml_to_expression`, after the line has been restored. -/
theorem pl_final_set_type (q : Int → Prop) (node : Yaml) (prev : Int) (e : Expression) (s : Str)
    (hq : q prev) (he : node.lineno = some e.get_line_number) :
    Partial (LineIs (fun v => v = prev))
      (idtable_add_string s >>= fun ty => pure (e.set_type (some ty)))
      (fun t g => node.lineno = some t.get_line_number ∧ LineIs q g) := by
  intro g hg t g' h
  obtain ⟨sym, g1, h1, h2⟩ := dec_bind_inv _ _ _ _ _ h
  cases h1
  cases h2
  refine ⟨?_, ?_⟩
  · cases e; exact he
  · show q g.node_lineno
    rw [show g.node_lineno = prev from hg]
    exact hq

/-- The last step of the other decoders, after the line has been restored. -/
theorem pl_final_pure {α : Type} (q : Int → Prop) (φ : α → Prop) (prev : Int) (x : α)
    (hq : q prev) (hx : φ x) :
    Partial (LineIs (fun v => v = prev)) (pure x) (fun t g => φ t ∧ LineIs q g) := by
  intro g hg t g' h
  cases h
  refine ⟨hx, ?_⟩
  show q g.node_lineno
  rw [show g.node_lineno = prev from hg]
  exact hq

set_option maxRecDepth 100000 in
set_option maxHeartbeats 4000000 in
/-- Whatever `yaml_to_expression` and `yaml_to_case` return has the line number
written under the key `lineno` of the map decoded, and the ambient line is then
what it was before the call. -/
theorem decode_lines_aux (fuel : Nat) :
    (∀ (node : Yaml) (q : Int → Prop), Partial (LineIs q) (yaml_to_expression fuel node)
      (fun e g => node.lineno = some e.get_line_number ∧ LineIs q g)) ∧
    (∀ (node : Yaml) (q : Int → Prop), Partial (LineIs q) (yaml_to_case fuel node)
      (fun c g => node.lineno = some (tree_node.of_Case c).get_line_number ∧ LineIs q g)) := by
  induction fuel with
  | zero =>
    constructor
    · intro node q g _ a g' h
      cases h
    · intro node q g _ a g' h
      cases h
  | succ fuel ih =>
    obtain ⟨ihE, ihC⟩ := ih
    constructor
    · intro node q
      simp only [yaml_to_expression, dec_pure_bind, dec_bind_assoc, dec_map_eq,
        assign, static_dispatch, dispatch, cond, loop, typcase, block, let_, plus, sub, mul,
        divide, neg, lt, eq, leq, comp, int_const, bool_const, string_const, new_, isvoid,
        no_expr, object]
      refine partial_step (pl_child _ _ _) ?_
      intro _ _
      refine partial_step (pl_get_string_val _ _) ?_
      intro _ _
      refine partial_step (pl_set_lineno _ _) ?_
      intro prev hprev
      repeat (first
        | with_reducible exact pl_final_set_type _ _ _ _ _ (by assumption) (by assumption)
        | with_reducible exact partial_fail _ _
        | with_reducible refine partial_ite _ _ _ _ _ ?_ ?_
        | (with_reducible refine partial_step (pl_child _ _ _) ?_; intro _ _)
        | (with_reducible refine partial_step (pl_get_string_val _ _) ?_; intro _ _)
        | (with_reducible refine partial_step (pl_idtable _ _) ?_; intro _ _)
        | (with_reducible refine partial_step (pl_inttable _ _) ?_; intro _ _)
        | (with_reducible refine partial_step (pl_stringtable _ _) ?_; intro _ _)
        | (with_reducible refine partial_step (pl_cerr_text _ _) ?_; intro _ _)
        | (with_reducible refine partial_step (pl_cerr_pointer _) ?_; intro _ _)
        | (with_reducible refine partial_step (pl_new_Expression _ _) ?_; intro _ _)
        | (with_reducible refine partial_step (pl_restore _ _) ?_; intro _ _)
        | (with_reducible refine partial_step (ihE _ _) ?_; intro _ _)
        | (with_reducible refine partial_step (pl_list _ _ _ (fun c => ihE c _) _) ?_; intro _ _)
        | (with_reducible refine partial_step (pl_list _ _ _ (fun c => ihC c _) _) ?_; intro _ _))
    · intro node q
      simp only [yaml_to_case, dec_pure_bind, dec_bind_assoc, dec_map_eq]
      refine partial_step (pl_child _ _ _) ?_
      intro _ _
      refine partial_step (pl_get_string_val _ _) ?_
      intro _ _
      refine partial_step (pl_set_lineno _ _) ?_
      intro prev hprev
      repeat (first
        | with_reducible exact pl_final_pure _ _ _ _ (by assumption) (by assumption)
        | with_reducible exact partial_fail _ _
        | with_reducible refine partial_ite _ _ _ _ _ ?_ ?_
        | (with_reducible refine partial_step (pl_child _ _ _) ?_; intro _ _)
        | (with_reducible refine partial_step (pl_get_string_val _ _) ?_; intro _ _)
        | (with_reducible refine partial_step (pl_idtable _ _) ?_; intro _ _)
        | (with_reducible refine partial_step (pl_branch _ _ _ _) ?_; intro _ _)
        | (with_reducible refine partial_step (pl_restore _ _) ?_; intro _ _)
        | (with_reducible refine partial_step (ihE _ _) ?_; intro _ _))

/-- The line number and the ambient line after `yaml_to_formal` (see
`decode_lines_aux`). -/
theorem decode_lines_formal (node : Yaml) (q : Int → Prop) :
    Partial (LineIs q) (yaml_to_formal node)
      (fun c g => node.lineno = some (tree_node.of_Formal c).get_line_number ∧ LineIs q g) := by
  simp only [yaml_to_formal, dec_pure_bind, dec_bind_assoc, dec_map_eq]
  refine partial_step (pl_child _ _ _) ?_
  intro _ _
  refine partial_step (pl_get_string_val _ _) ?_
  intro _ _
  refine partial_step (pl_set_lineno _ _) ?_
  intro prev hprev
  repeat (first
    | with_reducible exact pl_final_pure _ _ _ _ (by assumption) (by assumption)
    | with_reducible exact partial_fail _ _
    | with_reducible refine partial_ite _ _ _ _ _ ?_ ?_
    | (with_reducible refine partial_step (pl_child _ _ _) ?_; intro _ _)
    | (with_reducible refine partial_step (pl_get_string_val _ _) ?_; intro _ _)
    | (with_reducible refine partial_step (pl_idtable _ _) ?_; intro _ _)
    | (with_reducible refine partial_step (pl_formal _ _ _) ?_; intro _ _)
    | (with_reducible refine partial_step (pl_restore _ _) ?_; intro _ _))

/-- The line number and the ambient line after `yaml_to_feature` (see
`decode_lines_aux`). -/
theorem decode_lines_feature (fuel : Nat) (node : Yaml) (q : Int → Prop) :
    Partial (LineIs q) (yaml_to_feature fuel node)
      (fun c g => node.lineno = some (tree_node.of_Feature c).get_line_number ∧ LineIs q g) := by
  have ihE := (decode_lines_aux fuel).1
  have hF := decode_lines_formal
  simp only [yaml_to_feature, dec_pure_bind, dec_bind_assoc, dec_map_eq]
  refine partial_step (pl_child _ _ _) ?_
  intro _ _
  refine partial_step (pl_get_string_val _ _) ?_
  intro _ _
  refine partial_step (pl_set_lineno _ _) ?_
  intro prev hprev
  repeat (first
    | with_reducible exact pl_final_pure _ _ _ _ (by assumption) (by assumption)
    | with_reducible exact partial_fail _ _
    | with_reducible refine partial_ite _ _ _ _ _ ?_ ?_
    | (with_reducible refine partial_step (pl_child _ _ _) ?_; intro _ _)
    | (with_reducible refine partial_step (pl_get_string_val _ _) ?_; intro _ _)
    | (with_reducible refine partial_step (pl_idtable _ _) ?_; intro _ _)
    | (with_reducible refine partial_step (pl_method _ _ _ _ _) ?_; intro _ _)
    | (with_reducible refine partial_step (pl_attr _ _ _ _) ?_; intro _ _)
    | (with_reducible refine partial_step (pl_restore _ _) ?_; intro _ _)
    | (with_reducible refine partial_step (ihE _ _) ?_; intro _ _)
    | (with_reducible refine partial_step (pl_list _ _ _ (fun c => hF c _) _) ?_; intro _ _))

/-- The line number and the ambient line after `yaml_to_class_` (see
`decode_lines_aux`). -/
theorem decode_lines_class_ (fuel : Nat) (node : Yaml) (q : Int → Prop) :
    Partial (LineIs q) (yaml_to_class_ fuel node)
      (fun c g => node.lineno = some (tree_node.of_Class_ c).get_line_number ∧ LineIs q g) := by
  have hFe := decode_lines_feature fuel
  simp only [yaml_to_class_, dec_pure_bind, dec_bind_assoc, dec_map_eq]
  refine partial_step (pl_child _ _ _) ?_
  intro _ _
  refine partial_step (pl_get_string_val _ _) ?_
  intro _ _
  refine partial_step (pl_set_lineno _ _) ?_
  intro prev hprev
  repeat (first
    | with_reducible exact pl_final_pure _ _ _ _ (by assumption) (by assumption)
    | with_reducible exact partial_fail _ _
    | with_reducible refine partial_ite _ _ _ _ _ ?_ ?_
    | (with_reducible refine partial_step (pl_child _ _ _) ?_; intro _ _)
    | (with_reducible refine partial_step (pl_get_string_val _ _) ?_; intro _ _)
    | (with_reducible refine partial_step (pl_idtable _ _) ?_; intro _ _)
    | (with_reducible refine partial_step (pl_stringtable _ _) ?_; intro _ _)
    | (with_reducible refine partial_step (pl_class_ _ _ _ _ _) ?_; intro _ _)
    | (with_reducible refine partial_step (pl_restore _ _) ?_; intro _ _)
    | (with_reducible refine partial_step (pl_list _ _ _ (fun c => hFe c _) _) ?_; intro _ _))

/-- The line number and the ambient line after `yaml_to_program` (see
`decode_lines_aux`). -/
theorem decode_lines_program (fuel : Nat) (node : Yaml) (q : Int → Prop) :
    Partial (LineIs q) (yaml_to_program fuel node)
      (fun c g => node.lineno = some (tree_node.of_Program c).get_line_number ∧ LineIs q g) := by
  have hCl := decode_lines_class_ fuel
  simp only [yaml_to_program, dec_pure_bind, dec_bind_assoc, dec_map_eq]
  refine partial_step (pl_child _ _ _) ?_
  intro _ _
  refine partial_step (pl_get_string_val _ _) ?_
  intro _ _
  refine partial_step (pl_set_lineno _ _) ?_
  intro prev hprev
  repeat (first
    | with_reducible exact pl_final_pure _ _ _ _ (by assumption) (by assumption)
    | with_reducible exact partial_fail _ _
    | with_reducible refine partial_ite _ _ _ _ _ ?_ ?_
    | (with_reducible refine partial_step (pl_child _ _ _) ?_; intro _ _)
    | (with_reducible refine partial_step (pl_program _ _) ?_; intro _ _)
    | (with_reducible refine partial_step (pl_restore _ _) ?_; intro _ _)
    | (with_reducible refine partial_step (pl_list _ _ _ (fun c => hCl c _) _) ?_; intro _ _))

/-- C23. Ambient line restored: for each of the six decoders, every external map,
every fuel and every process state, if the decoder returns a node then the ambient
`node_lineno` after the call is what it was before the call, whatever `lineno`
values the map and its descendants hold. -/
theorem ambient_line_restored (fuel : Nat) (node : Yaml) (g g' : Globals) :
    (∀ p, yaml_to_program fuel node g = Res.ok p g' → g'.node_lineno = g.node_lineno) ∧
    (∀ c, yaml_to_class_ fuel node g = Res.ok c g' → g'.node_lineno = g.node_lineno) ∧
    (∀ f, yaml_to_feature fuel node g = Res.ok f g' → g'.node_lineno = g.node_lineno) ∧
    (∀ f, yaml_to_formal node g = Res.ok f g' → g'.node_lineno = g.node_lineno) ∧
    (∀ c, yaml_to_case fuel node g = Res.ok c g' → g'.node_lineno = g.node_lineno) ∧
    (∀ e, yaml_to_expression fuel node g = Res.ok e g' → g'.node_lineno = g.node_lineno) :=
  ⟨fun p h => (decode_lines_program fuel node (fun v => v = g.node_lineno) g rfl p g' h).2,
   fun c h => (decode_lines_class_ fuel node (fun v => v = g.node_lineno) g rfl c g' h).2,
   fun f h => (decode_lines_feature fuel node (fun v => v = g.node_lineno) g rfl f g' h).2,
   fun f h => (decode_lines_formal node (fun v => v = g.node_lineno) g rfl f g' h).2,
   fun c h => ((decode_lines_aux fuel).2 node (fun v => v = g.node_lineno) g rfl c g' h).2,
   fun e h => ((decode_lines_aux fuel).1 node (fun v => v = g.node_lineno) g rfl e g' h).2⟩

theorem ambient_line_restored_witness :
    ∃ e g',
      yaml_to_expression (sizeOf nestedLines + 1) nestedLines.to_yaml sampleGlobals =
        Res.ok e g' ∧
      g'.node_lineno = sampleGlobals.node_lineno := by
  obtain ⟨e, g', h, -, -⟩ := (yaml_to_expression_round_trip_aux _).1 nestedLines
    (Nat.lt_succ_self _) (by decide) 1 [] sampleGlobals ⟨rfl, rfl⟩
  exact ⟨e, g', h, (ambient_line_restored _ _ sampleGlobals g').2.2.2.2.2 e h⟩

/-- C22. The node a decoder builds for a map has the line number written under that
map's own `lineno` key: for each of the six decoders, every external map, every
fuel and every process state (whatever ambient line a parent or a sibling decoded
before has left), if the decoder returns a node then the integer read from the
map's `lineno` is that node's line number. The decoders call each other on the
maps of the children, so this holds for the map of every node at any depth. On the
encoding of a well-formed program the decoder does return, given enough fuel, and
the tree it returns encodes to the same map again, every node writing its line
under `lineno` of its own map. -/
theorem decoded_line_is_own_lineno :
    (∀ (fuel : Nat) (node : Yaml) (g g' : Globals),
      (∀ p, yaml_to_program fuel node g = Res.ok p g' →
        node.lineno = some (tree_node.of_Program p).get_line_number) ∧
      (∀ c, yaml_to_class_ fuel node g = Res.ok c g' →
        node.lineno = some (tree_node.of_Class_ c).get_line_number) ∧
      (∀ f, yaml_to_feature fuel node g = Res.ok f g' →
        node.lineno = some (tree_node.of_Feature f).get_line_number) ∧
      (∀ f, yaml_to_formal node g = Res.ok f g' →
        node.lineno = some (tree_node.of_Formal f).get_line_number) ∧
      (∀ c, yaml_to_case fuel node g = Res.ok c g' →
        node.lineno = some (tree_node.of_Case c).get_line_number) ∧
      (∀ e, yaml_to_expression fuel node g = Res.ok e g' →
        node.lineno = some e.get_line_number)) ∧
    (∀ p : Program, p.wf = true → ∃ N : Nat, ∀ fuel : Nat, N ≤ fuel → ∀ g : Globals,
      ∃ p' g', yaml_to_program fuel p.to_yaml g = Res.ok p' g' ∧ p'.to_yaml = p.to_yaml ∧
        (tree_node.of_Program p').get_line_number =
          (tree_node.of_Program p).get_line_number) ∧
    (∀ t : tree_node, int_range t.get_line_number = true →
      t.to_yaml.lineno = some t.get_line_number) := by
  have hown : ∀ t : tree_node, int_range t.get_line_number = true →
      t.to_yaml.lineno = some t.get_line_number := by
    intro t ht
    have hline : t.to_yaml.find_child (lit "lineno") =
        some (Yaml.val (int_to_chars t.get_line_number)) := (tree_node_keys t).2.2.1
    simp only [Yaml.lineno, hline]
    exact stoi_int_to_chars _ ht
  refine ⟨fun fuel node g g' => ⟨?_, ?_, ?_, ?_, ?_, ?_⟩, ?_, hown⟩
  · exact fun p h => (decode_lines_program fuel node (fun _ => True) g trivial p g' h).1
  · exact fun c h => (decode_lines_class_ fuel node (fun _ => True) g trivial c g' h).1
  · exact fun f h => (decode_lines_feature fuel node (fun _ => True) g trivial f g' h).1
  · exact fun f h => (decode_lines_formal node (fun _ => True) g trivial f g' h).1
  · exact fun c h => ((decode_lines_aux fuel).2 node (fun _ => True) g trivial c g' h).1
  · exact fun e h => ((decode_lines_aux fuel).1 node (fun _ => True) g trivial e g' h).1
  · intro p hwf
    refine ⟨sizeOf p + 1, fun fuel hfuel g => ?_⟩
    obtain ⟨p', g', h1, h2, -⟩ :=
      yaml_to_program_round_trip fuel p (by omega) hwf g.node_lineno g.cerr g ⟨rfl, rfl⟩
    refine ⟨p', g', h1, h2, ?_⟩
    have ha := (decode_lines_program fuel _ (fun _ => True) g trivial p' g' h1).1
    have hr : int_range (tree_node.of_Program p).get_line_number = true := by
      cases p with
      | program_class ln classes =>
        simp only [Program.wf, Bool.and_eq_true] at hwf
        exact hwf.1
    have hb := hown (tree_node.of_Program p) hr
    simp only [tree_node.to_yaml] at hb
    rw [hb] at ha
    exact (Option.some.inj ha).symm

theorem decoded_line_is_own_lineno_witness :
    (yaml_to_expression 3 nestedLines.to_yaml sampleGlobals).value.map
      (fun e => (e.get_line_number, match e.node with
        | .neg_class e1 => some e1.get_line_number
        | _ => none)) = some (7, some 9) ∧
    sampleGlobals.node_lineno = 1 ∧
    ∃ e g',
      yaml_to_expression (sizeOf nestedLines + 1) nestedLines.to_yaml sampleGlobals =
        Res.ok e g' ∧
      nestedLines.to_yaml.lineno = some e.get_line_number ∧ e.get_line_number = 7 := by
  refine ⟨by decide!, rfl, ?_⟩
  obtain ⟨e, g', h, -, -⟩ := (yaml_to_expression_round_trip_aux _).1 nestedLines
    (Nat.lt_succ_self _) (by decide) 1 [] sampleGlobals ⟨rfl, rfl⟩
  have hl := (decoded_line_is_own_lineno.1 _ _ sampleGlobals g').2.2.2.2.2 e h
  have hn : nestedLines.to_yaml.lineno = some 7 := by decide
  refine ⟨e, g', h, hl, ?_⟩
  rw [hn] at hl
  exact (Option.some.inj hl).symm

/-! ### Decoders: the type of an expression -/

theorem partial_any {α : Type} (P : Globals → Prop) (x : Dec α) :
    Partial P x (fun _ _ => True ∧ True) :=
  fun _ _ _ _ _ => ⟨trivial, trivial⟩

/-- A text with a NUL byte is no type name. The encoding of `nulTyped` holds under
`type` the three-byte text `A`, NUL, `B`; `yaml_to_expression` returns on it with a
type of the one-byte text `A`, since it interns
`get_string_val(node["type"])->c_str()`, the text up to the first NUL byte. -/
theorem type_text_cut_at_nul :
    (nulTyped.to_yaml.find_child (lit "type") matches some (Yaml.val [65, 0, 66])) = true ∧
    (yaml_to_expression 1 nulTyped.to_yaml sampleGlobals).value.map
      (fun e => (e.get_type.map (fun s => s.entry.str),
        e.to_yaml.find_child (lit "type") matches some (Yaml.val [65]))) =
      some (some [65], true) := by
  decide!

/-! ### Decoders: the tables -/

theorem kept_refl (g : Globals) : g.kept g := fun _ _ _ h => h

theorem kept_trans (g1 g2 g3 : Globals) (h12 : g1.kept g2) (h23 : g2.kept g3) : g1.kept g3 :=
  fun tab i e h => h23 tab i e (h12 tab i e h)

theorem interned_mono (g0 : Globals) (l l' : List (Table × Symbol)) (g : Globals)
    (h : ∀ p ∈ l', p ∈ l) (hg : Interned g0 l g) : Interned g0 l' g :=
  ⟨hg.1, fun p hp => hg.2 p (h p hp)⟩

/-- Interning keeps every entry of the table in its slot. -/
theorem add_string_kept (t : StringTable) (s : Str) (i : Nat) (e : Entry)
    (h : t.tbl[i]? = some e) : (t.add_string s).2.tbl[i]? = some e := by
  unfold StringTable.add_string
  cases hs : scan s (cmin (toInt32 s.length) MAXSIZE) t.tbl 0 with
  | some x =>
    rw [add_string_maxchars_found t s _ x hs]
    exact h
  | none =>
    rw [add_string_maxchars_new t s _ hs]
    have hi : i < t.tbl.length := by
      by_contra hn
      rw [List.getElem?_eq_none (by omega)] at h
      cases h
    simp only [List.getElem?_append_left hi]
    exact h

theorem partial_pre {α : Type} (P P' : Globals → Prop) (x : Dec α) (Q : α → Globals → Prop)
    (hP : ∀ g, P g → P' g) (h : Partial P' x Q) : Partial P x Q :=
  fun g hg a g' hx => h g (hP g hg) a g' hx

/-- A step that returns without changing the state keeps every state predicate and
tells what it returned. -/
theorem partial_same_fact {α : Type} (P : Globals → Prop) (x : Dec α) (φ : α → Prop)
    (h : ∀ g a g', x g = Res.ok a g' → g' = g ∧ φ a) :
    Partial P x (fun a g => φ a ∧ P g) := by
  intro g hg a g' hx
  obtain ⟨h1, h2⟩ := h g a g' hx
  rw [h1]
  exact ⟨h2, hg⟩

theorem pi_child (P : Globals → Prop) (node : Yaml) (key : Str) :
    Partial P (child node key) (fun _ g => True ∧ P g) :=
  partial_same_state _ _ (child_same_state node key)

theorem pi_get_string_val (P : Globals → Prop) (node : Yaml) :
    Partial P (get_string_val node) (fun _ g => True ∧ P g) :=
  partial_same_state _ _ (val_same_state node)

theorem pi_set_lineno (g0 : Globals) (l : List (Table × Symbol)) (node : Yaml) :
    Partial (Interned g0 l) (set_lineno node) (fun _ g => True ∧ Interned g0 l g) := by
  intro g hg prev g' h
  rcases set_lineno_cases node g with ⟨t, v, -, -, hset⟩ | hcrash
  · rw [hset] at h
    cases h
    exact ⟨trivial, hg⟩
  · rw [hcrash] at h
    cases h

theorem pi_restore (g0 : Globals) (l : List (Table × Symbol)) (prev : Int) :
    Partial (Interned g0 l) (restore_lineno prev) (fun _ g => True ∧ Interned g0 l g) := by
  intro g hg a g' h
  cases h
  exact ⟨trivial, hg⟩

theorem pi_cerr_text (g0 : Globals) (l : List (Table × Symbol)) (s : Str) :
    Partial (Interned g0 l) (cerr_text s) (fun _ g => True ∧ Interned g0 l g) := by
  intro g hg a g' h
  cases h
  exact ⟨trivial, hg⟩

theorem pi_cerr_pointer (g0 : Globals) (l : List (Table × Symbol)) :
    Partial (Interned g0 l) cerr_pointer (fun _ g => True ∧ Interned g0 l g) := by
  intro g hg a g' h
  cases h
  exact ⟨trivial, hg⟩

theorem pi_idtable (g0 : Globals) (l : List (Table × Symbol)) (s : Str) :
    Partial (Interned g0 l) (idtable_add_string s)
      (fun sym g => True ∧ Interned g0 ((Table.idtable, sym) :: l) g) := by
  intro g hg a g' h
  cases h
  refine ⟨trivial, ?_, ?_⟩
  · intro tab i e he
    have h1 := hg.1 tab i e he
    cases tab
    · exact add_string_kept _ _ _ _ h1
    · exact h1
    · exact h1
  · intro p hp
    rcases List.mem_cons.mp hp with rfl | hp
    · exact add_string_slot _ _
    · have h1 := hg.2 p hp
      obtain ⟨tab, sym⟩ := p
      cases tab
      · exact add_string_kept _ _ _ _ h1
      · exact h1
      · exact h1

theorem pi_inttable (g0 : Globals) (l : List (Table × Symbol)) (s : Str) :
    Partial (Interned g0 l) (inttable_add_string s)
      (fun sym g => True ∧ Interned g0 ((Table.inttable, sym) :: l) g) := by
  intro g hg a g' h
  cases h
  refine ⟨trivial, ?_, ?_⟩
  · intro tab i e he
    have h1 := hg.1 tab i e he
    cases tab
    · exact h1
    · exact add_string_kept _ _ _ _ h1
    · exact h1
  · intro p hp
    rcases List.mem_cons.mp hp with rfl | hp
    · exact add_string_slot _ _
    · have h1 := hg.2 p hp
      obtain ⟨tab, sym⟩ := p
      cases tab
      · exact h1
      · exact add_string_kept _ _ _ _ h1
      · exact h1

theorem pi_stringtable (g0 : Globals) (l : List (Table × Symbol)) (s : Str) :
    Partial (Interned g0 l) (stringtable_add_string s)
      (fun sym g => True ∧ Interned g0 ((Table.stringtable, sym) :: l) g) := by
  intro g hg a g' h
  cases h
  refine ⟨trivial, ?_, ?_⟩
  · intro tab i e he
    have h1 := hg.1 tab i e he
    cases tab
    · exact h1
    · exact h1
    · exact add_string_kept _ _ _ _ h1
  · intro p hp
    rcases List.mem_cons.mp hp with rfl | hp
    · exact add_string_slot _ _
    · have h1 := hg.2 p hp
      obtain ⟨tab, sym⟩ := p
      cases tab
      · exact h1
      · exact h1
      · exact add_string_kept _ _ _ _ h1

theorem pi_new_Expression (P : Globals → Prop) (node : Expression_class) :
    Partial P (new_Expression node) (fun e g => e.node = node ∧ P g) :=
  partial_same_fact _ _ _ (fun g a g' h => by cases h; exact ⟨rfl, rfl⟩)

theorem pi_branch (P : Globals → Prop) (name type_decl : Symbol) (expr : Expression) :
    Partial P (branch name type_decl expr)
      (fun c g => c.symbols = (Table.idtable, name) :: (Table.idtable, type_decl) ::
        expr.symbols ∧ P g) :=
  partial_same_fact _ _ _ (fun g a g' h => by cases h; exact ⟨rfl, rfl⟩)

theorem pi_formal (P : Globals → Prop) (name type_decl : Symbol) :
    Partial P (formal name type_decl)
      (fun c g => c.symbols = [(Table.idtable, name), (Table.idtable, type_decl)] ∧ P g) :=
  partial_same_fact _ _ _ (fun g a g' h => by cases h; exact ⟨rfl, rfl⟩)

theorem pi_method (P : Globals → Prop) (name : Symbol) (formals : List Formal)
    (return_type : Symbol) (expr : Expression) :
    Partial P (method name formals return_type expr)
      (fun c g => c.symbols = (Table.idtable, name) :: (Table.idtable, return_type) ::
        (list_symbols Formal.symbols formals ++ expr.symbols) ∧ P g) :=
  partial_same_fact _ _ _ (fun g a g' h => by cases h; exact ⟨rfl, rfl⟩)

theorem pi_attr (P : Globals → Prop) (name type_decl : Symbol) (init : Expression) :
    Partial P (attr name type_decl init)
      (fun c g => c.symbols = (Table.idtable, name) :: (Table.idtable, type_decl) ::
        init.symbols ∧ P g) :=
  partial_same_fact _ _ _ (fun g a g' h => by cases h; exact ⟨rfl, rfl⟩)

theorem pi_class_ (P : Globals → Prop) (name parent : Symbol) (features : List Feature)
    (filename : Symbol) :
    Partial P (class_ name parent features filename)
      (fun c g => c.symbols = (Table.idtable, name) :: (Table.idtable, parent) ::
        (Table.stringtable, filename) :: list_symbols Feature.symbols features ∧ P g) :=
  partial_same_fact _ _ _ (fun g a g' h => by cases h; exact ⟨rfl, rfl⟩)

theorem pi_program (P : Globals → Prop) (classes : List Class_) :
    Partial P (program classes)
      (fun c g => c.symbols = list_symbols Class_.symbols classes ∧ P g) :=
  partial_same_fact _ _ _ (fun g a g' h => by cases h; exact ⟨rfl, rfl⟩)

theorem list_symbols_append {α : Type} (sym : α → List (Table × Symbol)) (a b : List α) :
    list_symbols sym (a ++ b) = list_symbols sym a ++ list_symbols sym b := by
  induction a with
  | nil => rfl
  | cons x xs ih =>
    show sym x ++ list_symbols sym (xs ++ b) = (sym x ++ list_symbols sym xs) ++ _
    rw [ih, List.append_assoc]

theorem Expressions_symbols_eq (es : List Expression) :
    Expressions_symbols es = list_symbols Expression.symbols es := by
  induction es with
  | nil => simp only [Expressions_symbols, list_symbols]
  | cons e es ih => simp only [Expressions_symbols, list_symbols, ih]

theorem Cases_symbols_eq (cs : List Case) :
    Cases_symbols cs = list_symbols Case.symbols cs := by
  induction cs with
  | nil => simp only [Cases_symbols, list_symbols]
  | cons c cs ih => simp only [Cases_symbols, list_symbols, ih]

theorem pi_list_loop {α : Type} (g0 : Globals) (sym : α → List (Table × Symbol))
    (dec : Yaml → Dec α)
    (h : ∀ c l, Partial (Interned g0 l) (dec c) (fun a g => True ∧ Interned g0 (sym a ++ l) g))
    (l : List (Table × Symbol)) (cs : List Yaml) :
    ∀ acc : List α, Partial (Interned g0 (list_symbols sym acc ++ l))
      (yaml_to_list_loop dec cs acc)
      (fun r g => True ∧ Interned g0 (list_symbols sym r ++ l) g) := by
  induction cs with
  | nil =>
    intro acc g hg a g' hx
    cases hx
    exact ⟨trivial, hg⟩
  | cons c cs ih =>
    intro acc
    simp only [yaml_to_list_loop]
    refine partial_step (h c _) ?_
    intro a _
    refine partial_pre _ _ _ _ (fun g hg => interned_mono _ _ _ _ ?_ hg) (ih (acc ++ [a]))
    intro p hp
    simp only [list_symbols_append, list_symbols, List.append_nil, List.mem_append] at hp ⊢
    tauto

theorem pi_list {α : Type} (g0 : Globals) (sym : α → List (Table × Symbol))
    (dec : Yaml → Dec α)
    (h : ∀ c l, Partial (Interned g0 l) (dec c) (fun a g => True ∧ Interned g0 (sym a ++ l) g))
    (l : List (Table × Symbol)) (n : Yaml) :
    Partial (Interned g0 l) (yaml_to_list [] dec n)
      (fun r g => True ∧ Interned g0 (list_symbols sym r ++ l) g) := by
  cases n with
  | seq cs => exact pi_list_loop g0 sym dec h l cs []
  | val s =>
    intro g hg a g' hx
    cases hx
    exact ⟨trivial, hg⟩
  | map kvs =>
    intro g hg a g' hx
    cases hx
    exact ⟨trivial, hg⟩

/-- The last step of `yaml_to_expression`: the type is interned and stored. -/
theorem pi_final_set_type (g0 : Globals) (l0 lcur : List (Table × Symbol)) (e0 : Expression)
    (nd : Expression_class) (s : Str) (h0 : e0.node = nd)
    (hsub : ∀ p ∈ nd.symbols ++ l0, p ∈ lcur) :
    Partial (Interned g0 lcur)
      (idtable_add_string s >>= fun ty => pure (e0.set_type (some ty)))
      (fun e g => True ∧ Interned g0 (e.symbols ++ l0) g) := by
  refine partial_step (pi_idtable _ _ _) ?_
  intro ty _ g hg e g' h
  cases h
  refine ⟨trivial, interned_mono _ _ _ _ ?_ hg⟩
  intro p hp
  cases e0 with
  | mk ln t node =>
    simp only [Expression.node] at h0
    subst h0
    simp only [Expression.set_type, Expression.symbols, type_symbols, List.mem_append,
      List.mem_cons, List.mem_singleton, List.not_mem_nil, or_false] at hp ⊢
    rcases hp with (rfl | hp) | hp
    · exact Or.inl rfl
    · exact Or.inr (hsub p (List.mem_append.mpr (Or.inl hp)))
    · exact Or.inr (hsub p (List.mem_append.mpr (Or.inr hp)))

/-- The last step of the other decoders. -/
theorem pi_final_pure {α : Type} (sym : α → List (Table × Symbol)) (g0 : Globals)
    (l0 lcur : List (Table × Symbol)) (x : α) (L : List (Table × Symbol)) (hx : sym x = L)
    (hsub : ∀ p ∈ L ++ l0, p ∈ lcur) :
    Partial (Interned g0 lcur) (pure x) (fun t g => True ∧ Interned g0 (sym t ++ l0) g) := by
  intro g hg t g' h
  cases h
  refine ⟨trivial, interned_mono _ _ _ _ ?_ hg⟩
  rw [hx]
  exact hsub

set_option maxRecDepth 100000 in
set_option maxHeartbeats 4000000 in
/-- Whatever `yaml_to_expression` and `yaml_to_case` return, every symbol field of
the result is an entry of its table, and the entries of the tables the decoding
started with are all kept, as are the symbols interned before. -/
theorem decode_tables_aux (fuel : Nat) (g0 : Globals) :
    (∀ (node : Yaml) (l : List (Table × Symbol)),
      Partial (Interned g0 l) (yaml_to_expression fuel node)
        (fun e g => True ∧ Interned g0 (e.symbols ++ l) g)) ∧
    (∀ (node : Yaml) (l : List (Table × Symbol)),
      Partial (Interned g0 l) (yaml_to_case fuel node)
        (fun c g => True ∧ Interned g0 (c.symbols ++ l) g)) := by
  induction fuel with
  | zero =>
    constructor
    · intro node l g _ a g' h
      cases h
    · intro node l g _ a g' h
      cases h
  | succ fuel ih =>
    obtain ⟨ihE, ihC⟩ := ih
    constructor
    · intro node l
      simp only [yaml_to_expression, dec_pure_bind, dec_bind_assoc, dec_map_eq,
        assign, static_dispatch, dispatch, cond, loop, typcase, block, let_, plus, sub, mul,
        divide, neg, lt, eq, leq, comp, int_const, bool_const, string_const, new_, isvoid,
        no_expr, object]
      repeat' (first
        | with_reducible refine pi_final_set_type _ _ _ _ _ _ (by assumption) ?_
        | with_reducible exact partial_fail _ _
        | with_reducible refine partial_ite _ _ _ _ _ ?_ ?_
        | (with_reducible refine partial_step (pi_child _ _ _) ?_; intro _ _)
        | (with_reducible refine partial_step (pi_get_string_val _ _) ?_; intro _ _)
        | (with_reducible refine partial_step (pi_set_lineno _ _ _) ?_; intro _ _)
        | (with_reducible refine partial_step (pi_restore _ _ _) ?_; intro _ _)
        | (with_reducible refine partial_step (pi_idtable _ _ _) ?_; intro _ _)
        | (with_reducible refine partial_step (pi_inttable _ _ _) ?_; intro _ _)
        | (with_reducible refine partial_step (pi_stringtable _ _ _) ?_; intro _ _)
        | (with_reducible refine partial_step (pi_cerr_text _ _ _) ?_; intro _ _)
        | (with_reducible refine partial_step (pi_cerr_pointer _ _) ?_; intro _ _)
        | (with_reducible refine partial_step (pi_new_Expression _ _) ?_; intro _ _)
        | (with_reducible refine partial_step (ihE _ _) ?_; intro _ _)
        | (with_reducible refine partial_step (pi_list _ _ _ ihE _ _) ?_; intro _ _)
        | (with_reducible refine partial_step (pi_list _ _ _ ihC _ _) ?_; intro _ _))
      all_goals
        intro p hp
        simp only [Expression_class.symbols, Expressions_symbols_eq, Cases_symbols_eq,
          List.mem_append, List.mem_cons, List.mem_singleton, List.not_mem_nil, false_or,
          or_false] at hp ⊢
        tauto
    · intro node l
      simp only [yaml_to_case, dec_pure_bind, dec_bind_assoc, dec_map_eq]
      repeat' (first
        | with_reducible refine pi_final_pure _ _ _ _ _ _ (by assumption) ?_
        | with_reducible exact partial_fail _ _
        | with_reducible refine partial_ite _ _ _ _ _ ?_ ?_
        | (with_reducible refine partial_step (pi_child _ _ _) ?_; intro _ _)
        | (with_reducible refine partial_step (pi_get_string_val _ _) ?_; intro _ _)
        | (with_reducible refine partial_step (pi_set_lineno _ _ _) ?_; intro _ _)
        | (with_reducible refine partial_step (pi_restore _ _ _) ?_; intro _ _)
        | (with_reducible refine partial_step (pi_idtable _ _ _) ?_; intro _ _)
        | (with_reducible refine partial_step (pi_branch _ _ _ _) ?_; intro _ _)
        | (with_reducible refine partial_step (ihE _ _) ?_; intro _ _))
      all_goals
        intro p hp
        simp only [List.mem_append, List.mem_cons] at hp ⊢
        tauto

/-- The symbols and the tables after `yaml_to_formal` (see `decode_tables_aux`). -/
theorem decode_tables_formal (g0 : Globals) (node : Yaml) (l : List (Table × Symbol)) :
    Partial (Interned g0 l) (yaml_to_formal node)
      (fun c g => True ∧ Interned g0 (c.symbols ++ l) g) := by
  simp only [yaml_to_formal, dec_pure_bind, dec_bind_assoc, dec_map_eq]
  repeat' (first
    | with_reducible refine pi_final_pure _ _ _ _ _ _ (by assumption) ?_
    | with_reducible exact partial_fail _ _
    | with_reducible refine partial_ite _ _ _ _ _ ?_ ?_
    | (with_reducible refine partial_step (pi_child _ _ _) ?_; intro _ _)
    | (with_reducible refine partial_step (pi_get_string_val _ _) ?_; intro _ _)
    | (with_reducible refine partial_step (pi_set_lineno _ _ _) ?_; intro _ _)
    | (with_reducible refine partial_step (pi_restore _ _ _) ?_; intro _ _)
    | (with_reducible refine partial_step (pi_idtable _ _ _) ?_; intro _ _)
    | (with_reducible refine partial_step (pi_formal _ _ _) ?_; intro _ _))
  all_goals
    intro p hp
    simp only [List.mem_append, List.mem_cons, List.mem_singleton] at hp ⊢
    tauto

/-- The symbols and the tables after `yaml_to_feature` (see `decode_tables_aux`). -/
theorem decode_tables_feature (fuel : Nat) (g0 : Globals) (node : Yaml)
    (l : List (Table × Symbol)) :
    Partial (Interned g0 l) (yaml_to_feature fuel node)
      (fun c g => True ∧ Interned g0 (c.symbols ++ l) g) := by
  have ihE := (decode_tables_aux fuel g0).1
  have hF := decode_tables_formal g0
  simp only [yaml_to_feature, dec_pure_bind, dec_bind_assoc, dec_map_eq]
  repeat' (first
    | with_reducible refine pi_final_pure _ _ _ _ _ _ (by assumption) ?_
    | with_reducible exact partial_fail _ _
    | with_reducible refine partial_ite _ _ _ _ _ ?_ ?_
    | (with_reducible refine partial_step (pi_child _ _ _) ?_; intro _ _)
    | (with_reducible refine partial_step (pi_get_string_val _ _) ?_; intro _ _)
    | (with_reducible refine partial_step (pi_set_lineno _ _ _) ?_; intro _ _)
    | (with_reducible refine partial_step (pi_restore _ _ _) ?_; intro _ _)
    | (with_reducible refine partial_step (pi_idtable _ _ _) ?_; intro _ _)
    | (with_reducible refine partial_step (pi_method _ _ _ _ _) ?_; intro _ _)
    | (with_reducible refine partial_step (pi_attr _ _ _ _) ?_; intro _ _)
    | (with_reducible refine partial_step (ihE _ _) ?_; intro _ _)
    | (with_reducible refine partial_step (pi_list _ _ _ hF _ _) ?_; intro _ _))
  all_goals
    intro p hp
    simp only [List.mem_append, List.mem_cons] at hp ⊢
    tauto

/-- The symbols and the tables after `yaml_to_class_` (see `decode_tables_aux`). -/
theorem decode_tables_class_ (fuel : Nat) (g0 : Globals) (node : Yaml)
    (l : List (Table × Symbol)) :
    Partial (Interned g0 l) (yaml_to_class_ fuel node)
      (fun c g => True ∧ Interned g0 (c.symbols ++ l) g) := by
  have hFe := decode_tables_feature fuel g0
  simp only [yaml_to_class_, dec_pure_bind, dec_bind_assoc, dec_map_eq]
  repeat' (first
    | with_reducible refine pi_final_pure _ _ _ _ _ _ (by assumption) ?_
    | with_reducible exact partial_fail _ _
    | with_reducible refine partial_ite _ _ _ _ _ ?_ ?_
    | (with_reducible refine partial_step (pi_child _ _ _) ?_; intro _ _)
    | (with_reducible refine partial_step (pi_get_string_val _ _) ?_; intro _ _)
    | (with_reducible refine partial_step (pi_set_lineno _ _ _) ?_; intro _ _)
    | (with_reducible refine partial_step (pi_restore _ _ _) ?_; intro _ _)
    | (with_reducible refine partial_step (pi_idtable _ _ _) ?_; intro _ _)
    | (with_reducible refine partial_step (pi_stringtable _ _ _) ?_; intro _ _)
    | (with_reducible refine partial_step (pi_class_ _ _ _ _ _) ?_; intro _ _)
    | (with_reducible refine partial_step (pi_list _ _ _ hFe _ _) ?_; intro _ _))
  all_goals
    intro p hp
    simp only [List.mem_append, List.mem_cons] at hp ⊢
    tauto

/-- The symbols and the tables after `yaml_to_program` (see `decode_tables_aux`). -/
theorem decode_tables_program (fuel : Nat) (g0 : Globals) (node : Yaml)
    (l : List (Table × Symbol)) :
    Partial (Interned g0 l) (yaml_to_program fuel node)
      (fun c g => True ∧ Interned g0 (c.symbols ++ l) g) := by
  have hCl := decode_tables_class_ fuel g0
  simp only [yaml_to_program, dec_pure_bind, dec_bind_assoc, dec_map_eq]
  repeat' (first
    | with_reducible refine pi_final_pure _ _ _ _ _ _ (by assumption) ?_
    | with_reducible exact partial_fail _ _
    | with_reducible refine partial_ite _ _ _ _ _ ?_ ?_
    | (with_reducible refine partial_step (pi_child _ _ _) ?_; intro _ _)
    | (with_reducible refine partial_step (pi_get_string_val _ _) ?_; intro _ _)
    | (with_reducible refine partial_step (pi_set_lineno _ _ _) ?_; intro _ _)
    | (with_reducible refine partial_step (pi_restore _ _ _) ?_; intro _ _)
    | (with_reducible refine partial_step (pi_program _ _) ?_; intro _ _)
    | (with_reducible refine partial_step (pi_list _ _ _ hCl _ _) ?_; intro _ _))
  all_goals
    intro p hp
    simp only [List.mem_append, List.mem_cons] at hp ⊢
    tauto

theorem interned_start (g : Globals) : Interned g [] g :=
  ⟨kept_refl g, fun _ hp => absurd hp (List.not_mem_nil _)⟩

theorem interned_result (g0 g : Globals) (l : List (Table × Symbol))
    (h : True ∧ Interned g0 (l ++ []) g) :
    (∀ q ∈ l, q.2.entry_of (g.table q.1)) ∧ g0.kept g :=
  ⟨fun q hq => h.2.2 q (List.mem_append.mpr (Or.inl hq)), h.2.1⟩

/-- C29. Interning never fails and only grows the tables. Each of the three interning
calls of the decoders returns, in every state, a symbol that is an entry of its
table with the text asked for, and keeps every entry the tables had. For each of
the six decoders, every external map and every state, if the decoder returns a
node then every symbol field of that node and of the nodes below it is an entry of
its table (the file name of a class and the token of a string constant in the
string table, the token of an integer constant in the integer table, every other
symbol, set types included, in the identifier table), and every entry that was in
a table before the call is still in the same slot with the same text and index. On
the encoding of a well-formed program the decoder does return, given enough fuel,
and the tree it returns encodes to the same map again, so the text of every symbol
field is the text of its key in the map. -/
theorem decode_interns_and_keeps_tables :
    (∀ (s : Str) (g : Globals),
      (∃ sym g', idtable_add_string s g = Res.ok sym g' ∧ sym.entry_of g'.idtable ∧
        sym.entry.str = s ∧ g.kept g') ∧
      (∃ sym g', inttable_add_string s g = Res.ok sym g' ∧ sym.entry_of g'.inttable ∧
        sym.entry.str = s ∧ g.kept g') ∧
      (∃ sym g', stringtable_add_string s g = Res.ok sym g' ∧ sym.entry_of g'.stringtable ∧
        sym.entry.str = s ∧ g.kept g')) ∧
    (∀ (fuel : Nat) (node : Yaml) (g g' : Globals),
      (∀ p, yaml_to_program fuel node g = Res.ok p g' →
        (∀ q ∈ p.symbols, q.2.entry_of (g'.table q.1)) ∧ g.kept g') ∧
      (∀ c, yaml_to_class_ fuel node g = Res.ok c g' →
        (∀ q ∈ c.symbols, q.2.entry_of (g'.table q.1)) ∧ g.kept g') ∧
      (∀ f, yaml_to_feature fuel node g = Res.ok f g' →
        (∀ q ∈ f.symbols, q.2.entry_of (g'.table q.1)) ∧ g.kept g') ∧
      (∀ f, yaml_to_formal node g = Res.ok f g' →
        (∀ q ∈ f.symbols, q.2.entry_of (g'.table q.1)) ∧ g.kept g') ∧
      (∀ c, yaml_to_case fuel node g = Res.ok c g' →
        (∀ q ∈ c.symbols, q.2.entry_of (g'.table q.1)) ∧ g.kept g') ∧
      (∀ e, yaml_to_expression fuel node g = Res.ok e g' →
        (∀ q ∈ e.symbols, q.2.entry_of (g'.table q.1)) ∧ g.kept g')) ∧
    (∀ p : Program, p.wf = true → ∃ N : Nat, ∀ fuel : Nat, N ≤ fuel → ∀ g : Globals,
      ∃ p' g', yaml_to_program fuel p.to_yaml g = Res.ok p' g' ∧ p'.to_yaml = p.to_yaml ∧
        (∀ q ∈ p'.symbols, q.2.entry_of (g'.table q.1)) ∧ g.kept g') := by
  refine ⟨fun s g => ⟨?_, ?_, ?_⟩, fun fuel node g g' => ⟨?_, ?_, ?_, ?_, ?_, ?_⟩, ?_⟩
  · obtain ⟨-, h1, h2⟩ := pi_idtable g [] s g (interned_start g) _ _ rfl
    exact ⟨_, _, rfl, h2 _ (List.mem_cons_self _ _), add_string_str _ _, h1⟩
  · obtain ⟨-, h1, h2⟩ := pi_inttable g [] s g (interned_start g) _ _ rfl
    exact ⟨_, _, rfl, h2 _ (List.mem_cons_self _ _), add_string_str _ _, h1⟩
  · obtain ⟨-, h1, h2⟩ := pi_stringtable g [] s g (interned_start g) _ _ rfl
    exact ⟨_, _, rfl, h2 _ (List.mem_cons_self _ _), add_string_str _ _, h1⟩
  · exact fun p h => interned_result _ _ _
      (decode_tables_program fuel g node [] g (interned_start g) p g' h)
  · exact fun c h => interned_result _ _ _
      (decode_tables_class_ fuel g node [] g (interned_start g) c g' h)
  · exact fun f h => interned_result _ _ _
      (decode_tables_feature fuel g node [] g (interned_start g) f g' h)
  · exact fun f h => interned_result _ _ _
      (decode_tables_formal g node [] g (interned_start g) f g' h)
  · exact fun c h => interned_result _ _ _
      ((decode_tables_aux fuel g).2 node [] g (interned_start g) c g' h)
  · exact fun e h => interned_result _ _ _
      ((decode_tables_aux fuel g).1 node [] g (interned_start g) e g' h)
  · intro p hwf
    refine ⟨sizeOf p + 1, fun fuel hfuel g => ?_⟩
    obtain ⟨p', g', h1, h2, -⟩ :=
      yaml_to_program_round_trip fuel p (by omega) hwf g.node_lineno g.cerr g ⟨rfl, rfl⟩
    obtain ⟨k1, k2⟩ := interned_result _ _ _
      (decode_tables_program fuel g _ [] g (interned_start g) p' g' h1)
    exact ⟨p', g', h1, h2, k1, k2⟩

theorem decode_interns_and_keeps_tables_witness :
    sampleProgram.wf = true ∧
    ∃ N : Nat, ∀ fuel : Nat, N ≤ fuel → ∀ g : Globals,
      ∃ p' g', yaml_to_program fuel sampleProgram.to_yaml g = Res.ok p' g' ∧
        p'.to_yaml = sampleProgram.to_yaml ∧
        (∀ q ∈ p'.symbols, q.2.entry_of (g'.table q.1)) ∧ g.kept g' :=
  ⟨by decide, decode_interns_and_keeps_tables.2.2 sampleProgram (by decide)⟩

/-! ### Decoders: the keys read -/

theorem partial_ite_cases {α : Type} (c : Prop) [Decidable c] (P : Globals → Prop)
    (x y : Dec α) (Q : α → Globals → Prop) (hx : c → Partial P x Q)
    (hy : ¬c → Partial P y Q) : Partial P (if c then x else y) Q := by
  split
  · exact hx (by assumption)
  · exact hy (by assumption)

/-- What a step tells about the value it returns. -/
theorem partial_fact {α : Type} (x : Dec α) (φ : α → Prop)
    (h : ∀ g a g', x g = Res.ok a g' → φ a) :
    Partial (fun _ => True) x (fun a _ => φ a ∧ True) :=
  fun g _ a g' hx => ⟨h g a g' hx, trivial⟩

theorem partial_const {α : Type} (x : Dec α) (q : Prop) (h : q) :
    Partial (fun _ => True) x (fun _ _ => q) :=
  fun _ _ _ _ _ => h

theorem pk_child (node : Yaml) (key : Str) :
    Partial (fun _ => True) (child node key)
      (fun c _ => node.find_child key = some c ∧ True) := by
  refine partial_fact _ _ (fun g a g' h => ?_)
  cases hf : node.find_child key with
  | none => simp only [child, hf] at h; cases h
  | some c => simp only [child, hf] at h; cases h; rfl

theorem pk_get_string_val (node : Yaml) :
    Partial (fun _ => True) (get_string_val node) (fun s _ => node = Yaml.val s ∧ True) := by
  refine partial_fact _ _ (fun g a g' h => ?_)
  cases node <;> cases h
  rfl

theorem pk_set_lineno (node : Yaml) :
    Partial (fun _ => True) (set_lineno node)
      (fun _ _ => node.find_child (lit "lineno") ≠ none ∧ True) := by
  refine partial_fact _ _ (fun g a g' h => ?_)
  rcases set_lineno_cases node g with ⟨t, v, hf, -, -⟩ | hcrash
  · rw [hf]
    exact Option.some_ne_none _
  · rw [hcrash] at h
    cases h

set_option maxRecDepth 100000 in
set_option maxHeartbeats 4000000 in
/-- Whenever `yaml_to_expression` returns, the map had every key the decoder reads
for its class tag. -/
theorem yaml_to_expression_keys (fuel : Nat) (node : Yaml) :
    Partial (fun _ => True) (yaml_to_expression fuel node)
      (fun _ _ => ∀ key ∈ node.keys_read expression_keys, node.find_child key ≠ none) := by
  cases fuel with
  | zero =>
    intro g _ a g' h
    cases h
  | succ fuel =>
    simp only [yaml_to_expression, dec_pure_bind, dec_bind_assoc, dec_map_eq,
      assign, static_dispatch, dispatch, cond, loop, typcase, block, let_, plus, sub, mul,
      divide, neg, lt, eq, leq, comp, int_const, bool_const, string_const, new_, isvoid,
      no_expr, object]
    refine partial_step (pk_child _ _) ?_
    intro c0 hc0
    refine partial_step (pk_get_string_val _) ?_
    intro tag htag
    have hclass : node.find_child (lit "class") ≠ none := by rw [hc0]; exact Option.some_ne_none _
    have hkeys : node.keys_read expression_keys = expression_keys tag := by
      simp only [Yaml.keys_read, Yaml.class_tag, hc0, htag]
    rw [hkeys]
    clear hkeys hc0 htag
    repeat' (first
      | with_reducible exact partial_fail _ _
      | ((with_reducible refine partial_ite_cases _ _ _ _ _ ?_ ?_) <;> intro _)
      | (with_reducible refine partial_step (pk_child _ _) ?_; intro _ _)
      | (with_reducible refine partial_step (pk_set_lineno _) ?_; intro _ _)
      | (with_reducible refine partial_step (partial_any _ _) ?_; intro _ _)
      | with_reducible refine partial_const _ _ ?_)
    all_goals
      simp only [expression_keys, *, lit_inj, String.reduceEq, if_true, if_false,
        List.cons_append, List.nil_append, List.forall_mem_cons, List.not_mem_nil,
        false_implies, implies_true, and_true, ne_eq, not_false_eq_true, and_self,
        reduceCtorEq]

set_option maxRecDepth 100000 in
/-- Whenever `yaml_to_case` returns, the map had every key the decoder reads for its
class tag. -/
theorem yaml_to_case_keys (fuel : Nat) (node : Yaml) :
    Partial (fun _ => True) (yaml_to_case fuel node)
      (fun _ _ => ∀ key ∈ node.keys_read case_keys, node.find_child key ≠ none) := by
  cases fuel with
  | zero =>
    intro g _ a g' h
    cases h
  | succ fuel =>
    simp only [yaml_to_case, dec_pure_bind, dec_bind_assoc, dec_map_eq]
    refine partial_step (pk_child _ _) ?_
    intro c0 hc0
    refine partial_step (pk_get_string_val _) ?_
    intro tag htag
    have hclass : node.find_child (lit "class") ≠ none := by rw [hc0]; exact Option.some_ne_none _
    have hkeys : node.keys_read case_keys = case_keys tag := by
      simp only [Yaml.keys_read, Yaml.class_tag, hc0, htag]
    rw [hkeys]
    clear hkeys hc0 htag
    repeat' (first
      | with_reducible exact partial_fail _ _
      | ((with_reducible refine partial_ite_cases _ _ _ _ _ ?_ ?_) <;> intro _)
      | (with_reducible refine partial_step (pk_child _ _) ?_; intro _ _)
      | (with_reducible refine partial_step (pk_set_lineno _) ?_; intro _ _)
      | (with_reducible refine partial_step (partial_any _ _) ?_; intro _ _)
      | with_reducible refine partial_const _ _ ?_)
    all_goals
      simp only [case_keys, *, lit_inj, String.reduceEq, if_true, if_false,
        List.cons_append, List.nil_append, List.forall_mem_cons, List.not_mem_nil,
        false_implies, implies_true, and_true, ne_eq, not_false_eq_true, and_self,
        reduceCtorEq]

set_option maxRecDepth 100000 in
/-- Whenever `yaml_to_formal` returns, the map had every key the decoder reads for its
class tag. -/
theorem yaml_to_formal_keys (node : Yaml) :
    Partial (fun _ => True) (yaml_to_formal node)
      (fun _ _ => ∀ key ∈ node.keys_read formal_keys, node.find_child key ≠ none) := by
  simp only [yaml_to_formal, dec_pure_bind, dec_bind_assoc, dec_map_eq]
  refine partial_step (pk_child _ _) ?_
  intro c0 hc0
  refine partial_step (pk_get_string_val _) ?_
  intro tag htag
  have hclass : node.find_child (lit "class") ≠ none := by rw [hc0]; exact Option.some_ne_none _
  have hkeys : node.keys_read formal_keys = formal_keys tag := by
    simp only [Yaml.keys_read, Yaml.class_tag, hc0, htag]
  rw [hkeys]
  clear hkeys hc0 htag
  repeat' (first
    | with_reducible exact partial_fail _ _
    | ((with_reducible refine partial_ite_cases _ _ _ _ _ ?_ ?_) <;> intro _)
    | (with_reducible refine partial_step (pk_child _ _) ?_; intro _ _)
    | (with_reducible refine partial_step (pk_set_lineno _) ?_; intro _ _)
    | (with_reducible refine partial_step (partial_any _ _) ?_; intro _ _)
    | with_reducible refine partial_const _ _ ?_)
  all_goals
    simp only [formal_keys, *, lit_inj, String.reduceEq, if_true, if_false,
      List.cons_append, List.nil_append, List.forall_mem_cons, List.not_mem_nil,
      false_implies, implies_true, and_true, ne_eq, not_false_eq_true, and_self,
      reduceCtorEq]

set_option maxRecDepth 100000 in
/-- Whenever `yaml_to_feature` returns, the map had every key the decoder reads for its
class tag. -/
theorem yaml_to_feature_keys (fuel : Nat) (node : Yaml) :
    Partial (fun _ => True) (yaml_to_feature fuel node)
      (fun _ _ => ∀ key ∈ node.keys_read feature_keys, node.find_child key ≠ none) := by
  simp only [yaml_to_feature, dec_pure_bind, dec_bind_assoc, dec_map_eq]
  refine partial_step (pk_child _ _) ?_
  intro c0 hc0
  refine partial_step (pk_get_string_val _) ?_
  intro tag htag
  have hclass : node.find_child (lit "class") ≠ none := by rw [hc0]; exact Option.some_ne_none _
  have hkeys : node.keys_read feature_keys = feature_keys tag := by
    simp only [Yaml.keys_read, Yaml.class_tag, hc0, htag]
  rw [hkeys]
  clear hkeys hc0 htag
  repeat' (first
    | with_reducible exact partial_fail _ _
    | ((with_reducible refine partial_ite_cases _ _ _ _ _ ?_ ?_) <;> intro _)
    | (with_reducible refine partial_step (pk_child _ _) ?_; intro _ _)
    | (with_reducible refine partial_step (pk_set_lineno _) ?_; intro _ _)
    | (with_reducible refine partial_step (partial_any _ _) ?_; intro _ _)
    | with_reducible refine partial_const _ _ ?_)
  all_goals
    simp only [feature_keys, *, lit_inj, String.reduceEq, if_true, if_false,
      List.cons_append, List.nil_append, List.forall_mem_cons, List.not_mem_nil,
      false_implies, implies_true, and_true, ne_eq, not_false_eq_true, and_self,
      reduceCtorEq]

set_option maxRecDepth 100000 in
/-- Whenever `yaml_to_class_` returns, the map had every key the decoder reads for its
class tag. -/
theorem yaml_to_class__keys (fuel : Nat) (node : Yaml) :
    Partial (fun _ => True) (yaml_to_class_ fuel node)
      (fun _ _ => ∀ key ∈ node.keys_read class_keys, node.find_child key ≠ none) := by
  simp only [yaml_to_class_, dec_pure_bind, dec_bind_assoc, dec_map_eq]
  refine partial_step (pk_child _ _) ?_
  intro c0 hc0
  refine partial_step (pk_get_string_val _) ?_
  intro tag htag
  have hclass : node.find_child (lit "class") ≠ none := by rw [hc0]; exact Option.some_ne_none _
  have hkeys : node.keys_read class_keys = class_keys tag := by
    simp only [Yaml.keys_read, Yaml.class_tag, hc0, htag]
  rw [hkeys]
  clear hkeys hc0 htag
  repeat' (first
    | with_reducible exact partial_fail _ _
    | ((with_reducible refine partial_ite_cases _ _ _ _ _ ?_ ?_) <;> intro _)
    | (with_reducible refine partial_step (pk_child _ _) ?_; intro _ _)
    | (with_reducible refine partial_step (pk_set_lineno _) ?_; intro _ _)
    | (with_reducible refine partial_step (partial_any _ _) ?_; intro _ _)
    | with_reducible refine partial_const _ _ ?_)
  all_goals
    simp only [class_keys, *, lit_inj, String.reduceEq, if_true, if_false,
      List.cons_append, List.nil_append, List.forall_mem_cons, List.not_mem_nil,
      false_implies, implies_true, and_true, ne_eq, not_false_eq_true, and_self,
      reduceCtorEq]

set_option maxRecDepth 100000 in
/-- Whenever `yaml_to_program` returns, the map had every key the decoder reads for its
class tag. -/
theorem yaml_to_program_keys (fuel : Nat) (node : Yaml) :
    Partial (fun _ => True) (yaml_to_program fuel node)
      (fun _ _ => ∀ key ∈ node.keys_read program_keys, node.find_child key ≠ none) := by
  simp only [yaml_to_program, dec_pure_bind, dec_bind_assoc, dec_map_eq]
  refine partial_step (pk_child _ _) ?_
  intro c0 hc0
  refine partial_step (pk_get_string_val _) ?_
  intro tag htag
  have hclass : node.find_child (lit "class") ≠ none := by rw [hc0]; exact Option.some_ne_none _
  have hkeys : node.keys_read program_keys = program_keys tag := by
    simp only [Yaml.keys_read, Yaml.class_tag, hc0, htag]
  rw [hkeys]
  clear hkeys hc0 htag
  repeat' (first
    | with_reducible exact partial_fail _ _
    | ((with_reducible refine partial_ite_cases _ _ _ _ _ ?_ ?_) <;> intro _)
    | (with_reducible refine partial_step (pk_child _ _) ?_; intro _ _)
    | (with_reducible refine partial_step (pk_set_lineno _) ?_; intro _ _)
    | (with_reducible refine partial_step (partial_any _ _) ?_; intro _ _)
    | with_reducible refine partial_const _ _ ?_)
  all_goals
    simp only [program_keys, *, lit_inj, String.reduceEq, if_true, if_false,
      List.cons_append, List.nil_append, List.forall_mem_cons, List.not_mem_nil,
      false_implies, implies_true, and_true, ne_eq, not_false_eq_true, and_self,
      reduceCtorEq]

/-! ### Decoders: they end -/

theorem halts_step {α β : Type} {x : Dec α} {f : α → Dec β} {φ : α → Prop} {ψ : β → Prop}
    (hx : Halts x φ) (hf : ∀ a, φ a → Halts (f a) ψ) : Halts (x >>= f) ψ := by
  intro g
  have hb : (x >>= f) g = Dec.bind x f g := rfl
  obtain ⟨h1, h2⟩ := hx g
  rw [hb]
  cases hxg : x g with
  | ok a g1 =>
    simp only [Dec.bind, hxg]
    exact hf a (h2 a g1 hxg) g1
  | exit c g1 =>
    simp only [Dec.bind, hxg]
    exact ⟨fun h => (by cases h), fun a g' h => (by cases h)⟩
  | crash g1 =>
    simp only [Dec.bind, hxg]
    exact ⟨fun h => (by cases h), fun a g' h => (by cases h)⟩
  | out_of_fuel => exact absurd hxg h1

theorem halts_ite {α : Type} (c : Prop) [Decidable c] (x y : Dec α) (ψ : α → Prop)
    (hx : Halts x ψ) (hy : Halts y ψ) : Halts (if c then x else y) ψ := by
  split
  · exact hx
  · exact hy

theorem halts_fail {α : Type} (ψ : α → Prop) : Halts (fail : Dec α) ψ :=
  fun _ => ⟨fun h => (by cases h), fun a g' h => (by cases h)⟩

theorem halts_pure {α : Type} (x : α) : Halts (pure x : Dec α) (fun _ => True) :=
  fun _ => ⟨fun h => (by cases h), fun _ _ _ => trivial⟩

theorem halts_of_ne {α : Type} (x : Dec α) (h : ∀ g, x g ≠ Res.out_of_fuel) :
    Halts x (fun _ => True) :=
  fun g => ⟨h g, fun _ _ _ => trivial⟩

/-- A child of a map is smaller than the map. -/
theorem find_child_sizeOf (node : Yaml) (key : Str) (c : Yaml)
    (h : node.find_child key = some c) : sizeOf c < sizeOf node := by
  cases node with
  | val s => cases h
  | seq cs => cases h
  | map children =>
    simp only [Yaml.find_child, Option.map_eq_some'] at h
    obtain ⟨kv, hfind, hc⟩ := h
    have hmem := List.mem_of_find?_eq_some hfind
    have h1 := List.sizeOf_lt_of_mem hmem
    obtain ⟨k, v⟩ := kv
    simp only at hc
    subst hc
    simp only [Prod.mk.sizeOf_spec] at h1
    simp only [Yaml.map.sizeOf_spec]
    omega

theorem halts_child (node : Yaml) (key : Str) :
    Halts (child node key) (fun c => sizeOf c < sizeOf node) := by
  intro g
  cases hf : node.find_child key with
  | none =>
    simp only [child, hf]
    exact ⟨fun h => (by cases h), fun a g' h => (by cases h)⟩
  | some c =>
    simp only [child, hf]
    refine ⟨fun h => (by cases h), fun a g' h => ?_⟩
    cases h
    exact find_child_sizeOf node key _ hf

theorem halts_get_string_val (node : Yaml) : Halts (get_string_val node) (fun _ => True) := by
  refine halts_of_ne _ (fun g h => ?_)
  cases node <;> cases h

theorem halts_val (node : Yaml) : Halts (val node) (fun _ => True) := by
  refine halts_of_ne _ (fun g h => ?_)
  cases node <;> cases h

theorem halts_set_lineno (node : Yaml) : Halts (set_lineno node) (fun _ => True) := by
  refine halts_of_ne _ (fun g h => ?_)
  rcases set_lineno_cases node g with ⟨t, v, -, -, hset⟩ | hcrash
  · rw [hset] at h
    cases h
  · rw [hcrash] at h
    cases h

theorem halts_restore (prev : Int) : Halts (restore_lineno prev) (fun _ => True) :=
  halts_of_ne _ (fun _ h => by cases h)

theorem halts_idtable (s : Str) : Halts (idtable_add_string s) (fun _ => True) :=
  halts_of_ne _ (fun _ h => by cases h)

theorem halts_inttable (s : Str) : Halts (inttable_add_string s) (fun _ => True) :=
  halts_of_ne _ (fun _ h => by cases h)

theorem halts_stringtable (s : Str) : Halts (stringtable_add_string s) (fun _ => True) :=
  halts_of_ne _ (fun _ h => by cases h)

theorem halts_cerr_text (s : Str) : Halts (cerr_text s) (fun _ => True) :=
  halts_of_ne _ (fun _ h => by cases h)

theorem halts_cerr_pointer : Halts cerr_pointer (fun _ => True) :=
  halts_of_ne _ (fun _ h => by cases h)

theorem halts_new_Expression (node : Expression_class) :
    Halts (new_Expression node) (fun _ => True) :=
  halts_of_ne _ (fun _ h => by cases h)

theorem halts_branch (name type_decl : Symbol) (expr : Expression) :
    Halts (branch name type_decl expr) (fun _ => True) :=
  halts_of_ne _ (fun _ h => by cases h)

theorem halts_formal (name type_decl : Symbol) : Halts (formal name type_decl) (fun _ => True) :=
  halts_of_ne _ (fun _ h => by cases h)

theorem halts_method (name : Symbol) (formals : List Formal) (return_type : Symbol)
    (expr : Expression) : Halts (method name formals return_type expr) (fun _ => True) :=
  halts_of_ne _ (fun _ h => by cases h)

theorem halts_attr (name type_decl : Symbol) (init : Expression) :
    Halts (attr name type_decl init) (fun _ => True) :=
  halts_of_ne _ (fun _ h => by cases h)

theorem halts_class_ (name parent : Symbol) (features : List Feature) (filename : Symbol) :
    Halts (class_ name parent features filename) (fun _ => True) :=
  halts_of_ne _ (fun _ h => by cases h)

theorem halts_program (classes : List Class_) : Halts (program classes) (fun _ => True) :=
  halts_of_ne _ (fun _ h => by cases h)

theorem halts_list_loop {α : Type} (dec : Yaml → Dec α) (bound : Nat) (cs : List Yaml)
    (hcs : ∀ c ∈ cs, sizeOf c < bound)
    (h : ∀ c, sizeOf c < bound → Halts (dec c) (fun _ => True)) :
    ∀ acc : List α, Halts (yaml_to_list_loop dec cs acc) (fun _ => True) := by
  induction cs with
  | nil =>
    intro acc
    exact halts_pure acc
  | cons c cs ih =>
    intro acc
    simp only [yaml_to_list_loop]
    refine halts_step (h c (hcs c (List.mem_cons_self _ _))) ?_
    intro a _
    exact ih (fun c' hc' => hcs c' (List.mem_cons_of_mem _ hc')) _

theorem halts_list {α : Type} (dec : Yaml → Dec α) (n : Yaml) (bound : Nat)
    (hn : sizeOf n < bound) (h : ∀ c, sizeOf c < bound → Halts (dec c) (fun _ => True)) :
    Halts (yaml_to_list [] dec n) (fun _ => True) := by
  cases n with
  | seq cs =>
    refine halts_list_loop dec bound cs (fun c hc => ?_) h []
    have h1 := List.sizeOf_lt_of_mem hc
    simp only [Yaml.seq.sizeOf_spec] at hn
    omega
  | val s => exact halts_of_ne _ (fun _ h => by cases h)
  | map kvs => exact halts_of_ne _ (fun _ h => by cases h)

set_option maxRecDepth 100000 in
set_option maxHeartbeats 4000000 in
/-- With more fuel than the size of the map, `yaml_to_expression` and `yaml_to_case`
end: they return or the process is terminated. -/
theorem yaml_to_expression_halts_aux (fuel : Nat) :
    (∀ node : Yaml, sizeOf node < fuel →
      Halts (yaml_to_expression fuel node) (fun _ => True)) ∧
    (∀ node : Yaml, sizeOf node < fuel → Halts (yaml_to_case fuel node) (fun _ => True)) := by
  induction fuel with
  | zero => exact ⟨fun _ h => absurd h (Nat.not_lt_zero _), fun _ h => absurd h (Nat.not_lt_zero _)⟩
  | succ fuel ih =>
    obtain ⟨ihE, ihC⟩ := ih
    constructor
    · intro node hsize
      have ihE' : ∀ c : Yaml, sizeOf c < sizeOf node →
          Halts (yaml_to_expression fuel c) (fun _ => True) := fun c hc => ihE c (by omega)
      have ihC' : ∀ c : Yaml, sizeOf c < sizeOf node →
          Halts (yaml_to_case fuel c) (fun _ => True) := fun c hc => ihC c (by omega)
      simp only [yaml_to_expression, dec_pure_bind, dec_bind_assoc, dec_map_eq,
        assign, static_dispatch, dispatch, cond, loop, typcase, block, let_, plus, sub, mul,
        divide, neg, lt, eq, leq, comp, int_const, bool_const, string_const, new_, isvoid,
        no_expr, object]
      repeat' (first
        | with_reducible exact halts_fail _
        | with_reducible exact halts_pure _
        | with_reducible refine halts_ite _ _ _ _ ?_ ?_
        | (with_reducible refine halts_step (halts_child _ _) ?_; intro _ _)
        | (with_reducible refine halts_step (halts_get_string_val _) ?_; intro _ _)
        | (with_reducible refine halts_step (halts_val _) ?_; intro _ _)
        | (with_reducible refine halts_step (halts_set_lineno _) ?_; intro _ _)
        | (with_reducible refine halts_step (halts_restore _) ?_; intro _ _)
        | (with_reducible refine halts_step (halts_idtable _) ?_; intro _ _)
        | (with_reducible refine halts_step (halts_inttable _) ?_; intro _ _)
        | (with_reducible refine halts_step (halts_stringtable _) ?_; intro _ _)
        | (with_reducible refine halts_step (halts_cerr_text _) ?_; intro _ _)
        | (with_reducible refine halts_step halts_cerr_pointer ?_; intro _ _)
        | (with_reducible refine halts_step (halts_new_Expression _) ?_; intro _ _)
        | (with_reducible refine halts_step (ihE' _ (by assumption)) ?_; intro _ _)
        | (with_reducible refine halts_step (halts_list _ _ _ (by assumption) ihE') ?_; intro _ _)
        | (with_reducible refine halts_step (halts_list _ _ _ (by assumption) ihC') ?_; intro _ _))
    · intro node hsize
      have ihE' : ∀ c : Yaml, sizeOf c < sizeOf node →
          Halts (yaml_to_expression fuel c) (fun _ => True) := fun c hc => ihE c (by omega)
      simp only [yaml_to_case, dec_pure_bind, dec_bind_assoc, dec_map_eq]
      repeat' (first
        | with_reducible exact halts_fail _
        | with_reducible exact halts_pure _
        | with_reducible refine halts_ite _ _ _ _ ?_ ?_
        | (with_reducible refine halts_step (halts_child _ _) ?_; intro _ _)
        | (with_reducible refine halts_step (halts_get_string_val _) ?_; intro _ _)
        | (with_reducible refine halts_step (halts_set_lineno _) ?_; intro _ _)
        | (with_reducible refine halts_step (halts_restore _) ?_; intro _ _)
        | (with_reducible refine halts_step (halts_idtable _) ?_; intro _ _)
        | (with_reducible refine halts_step (halts_branch _ _ _) ?_; intro _ _)
        | (with_reducible refine halts_step (ihE' _ (by assumption)) ?_; intro _ _))

/-- The decoder `yaml_to_formal` ends on every map. -/
theorem yaml_to_formal_halts (node : Yaml) : Halts (yaml_to_formal node) (fun _ => True) := by
  simp only [yaml_to_formal, dec_pure_bind, dec_bind_assoc, dec_map_eq]
  repeat' (first
    | with_reducible exact halts_fail _
    | with_reducible exact halts_pure _
    | with_reducible refine halts_ite _ _ _ _ ?_ ?_
    | (with_reducible refine halts_step (halts_child _ _) ?_; intro _ _)
    | (with_reducible refine halts_step (halts_get_string_val _) ?_; intro _ _)
    | (with_reducible refine halts_step (halts_set_lineno _) ?_; intro _ _)
    | (with_reducible refine halts_step (halts_restore _) ?_; intro _ _)
    | (with_reducible refine halts_step (halts_idtable _) ?_; intro _ _)
    | (with_reducible refine halts_step (halts_formal _ _) ?_; intro _ _))

/-- With more fuel than the size of the map, `yaml_to_feature` ends. -/
theorem yaml_to_feature_halts (fuel : Nat) (node : Yaml) (hsize : sizeOf node < fuel) :
    Halts (yaml_to_feature fuel node) (fun _ => True) := by
  have ihE' : ∀ c : Yaml, sizeOf c < sizeOf node →
      Halts (yaml_to_expression fuel c) (fun _ => True) :=
    fun c hc => (yaml_to_expression_halts_aux fuel).1 c (by omega)
  have hF : ∀ c : Yaml, sizeOf c < sizeOf node → Halts (yaml_to_formal c) (fun _ => True) :=
    fun c _ => yaml_to_formal_halts c
  simp only [yaml_to_feature, dec_pure_bind, dec_bind_assoc, dec_map_eq]
  repeat' (first
    | with_reducible exact halts_fail _
    | with_reducible exact halts_pure _
    | with_reducible refine halts_ite _ _ _ _ ?_ ?_
    | (with_reducible refine halts_step (halts_child _ _) ?_; intro _ _)
    | (with_reducible refine halts_step (halts_get_string_val _) ?_; intro _ _)
    | (with_reducible refine halts_step (halts_set_lineno _) ?_; intro _ _)
    | (with_reducible refine halts_step (halts_restore _) ?_; intro _ _)
    | (with_reducible refine halts_step (halts_idtable _) ?_; intro _ _)
    | (with_reducible refine halts_step (halts_method _ _ _ _) ?_; intro _ _)
    | (with_reducible refine halts_step (halts_attr _ _ _) ?_; intro _ _)
    | (with_reducible refine halts_step (ihE' _ (by assumption)) ?_; intro _ _)
    | (with_reducible refine halts_step (halts_list _ _ _ (by assumption) hF) ?_; intro _ _))

/-- With more fuel than the size of the map, `yaml_to_class_` ends. -/
theorem yaml_to_class__halts (fuel : Nat) (node : Yaml) (hsize : sizeOf node < fuel) :
    Halts (yaml_to_class_ fuel node) (fun _ => True) := by
  have hFe : ∀ c : Yaml, sizeOf c < sizeOf node →
      Halts (yaml_to_feature fuel c) (fun _ => True) :=
    fun c hc => yaml_to_feature_halts fuel c (by omega)
  simp only [yaml_to_class_, dec_pure_bind, dec_bind_assoc, dec_map_eq]
  repeat' (first
    | with_reducible exact halts_fail _
    | with_reducible exact halts_pure _
    | with_reducible refine halts_ite _ _ _ _ ?_ ?_
    | (with_reducible refine halts_step (halts_child _ _) ?_; intro _ _)
    | (with_reducible refine halts_step (halts_get_string_val _) ?_; intro _ _)
    | (with_reducible refine halts_step (halts_set_lineno _) ?_; intro _ _)
    | (with_reducible refine halts_step (halts_restore _) ?_; intro _ _)
    | (with_reducible refine halts_step (halts_idtable _) ?_; intro _ _)
    | (with_reducible refine halts_step (halts_stringtable _) ?_; intro _ _)
    | (with_reducible refine halts_step (halts_class_ _ _ _ _) ?_; intro _ _)
    | (with_reducible refine halts_step (halts_list _ _ _ (by assumption) hFe) ?_; intro _ _))

/-- With more fuel than the size of the map, `yaml_to_program` ends. -/
theorem yaml_to_program_halts (fuel : Nat) (node : Yaml) (hsize : sizeOf node < fuel) :
    Halts (yaml_to_program fuel node) (fun _ => True) := by
  have hCl : ∀ c : Yaml, sizeOf c < sizeOf node →
      Halts (yaml_to_class_ fuel c) (fun _ => True) :=
    fun c hc => yaml_to_class__halts fuel c (by omega)
  simp only [yaml_to_program, dec_pure_bind, dec_bind_assoc, dec_map_eq]
  repeat' (first
    | with_reducible exact halts_fail _
    | with_reducible exact halts_pure _
    | with_reducible refine halts_ite _ _ _ _ ?_ ?_
    | (with_reducible refine halts_step (halts_child _ _) ?_; intro _ _)
    | (with_reducible refine halts_step (halts_get_string_val _) ?_; intro _ _)
    | (with_reducible refine halts_step (halts_set_lineno _) ?_; intro _ _)
    | (with_reducible refine halts_step (halts_restore _) ?_; intro _ _)
    | (with_reducible refine halts_step (halts_program _) ?_; intro _ _)
    | (with_reducible refine halts_step (halts_list _ _ _ (by assumption) hCl) ?_; intro _ _))

/-- A call that cannot return ends without a value; if it ends at all, the process
was terminated. -/
theorem fatal_of_no_return {α : Type} (x : Dec α) (q : Prop)
    (hk : Partial (fun _ => True) x (fun _ _ => q)) (hq : ¬q) (g : Globals) :
    (x g).value = none ∧ (x g ≠ Res.out_of_fuel → (x g).fatal = true) := by
  cases hx : x g with
  | ok a g' => exact absurd (hk g trivial a g' hx) hq
  | exit c g' => exact ⟨rfl, fun _ => rfl⟩
  | crash g' => exact ⟨rfl, fun _ => rfl⟩
  | out_of_fuel => exact ⟨rfl, fun h => absurd rfl h⟩

theorem missing_key_not_all (node : Yaml) (key : Str) (keys : List Str)
    (hkey : node.find_child key = none) (hmem : key ∈ keys) :
    ¬∀ k ∈ keys, node.find_child k ≠ none :=
  fun h => h key hmem hkey

/-- C21. Missing required key is fatal: if an external map has no child under a key
that a decoder reads for the class tag of the map (`class`, `lineno`, the keys of
the symbols, children and sequences of that node kind, and `type` for an
expression), then the decoder returns no node, whatever the fuel and the state,
and with enough fuel the call ends with the process terminated (`exit` or death
in the library call). No node is handed back, so there is no partially built
result. -/
theorem missing_key_is_fatal (node : Yaml) (key : Str) (hkey : node.find_child key = none) :
    (key ∈ node.keys_read program_keys →
      (∀ (fuel : Nat) (g : Globals), (yaml_to_program fuel node g).value = none) ∧
      ∃ N : Nat, ∀ fuel : Nat, N ≤ fuel → ∀ g : Globals,
        (yaml_to_program fuel node g).fatal = true) ∧
    (key ∈ node.keys_read class_keys →
      (∀ (fuel : Nat) (g : Globals), (yaml_to_class_ fuel node g).value = none) ∧
      ∃ N : Nat, ∀ fuel : Nat, N ≤ fuel → ∀ g : Globals,
        (yaml_to_class_ fuel node g).fatal = true) ∧
    (key ∈ node.keys_read feature_keys →
      (∀ (fuel : Nat) (g : Globals), (yaml_to_feature fuel node g).value = none) ∧
      ∃ N : Nat, ∀ fuel : Nat, N ≤ fuel → ∀ g : Globals,
        (yaml_to_feature fuel node g).fatal = true) ∧
    (key ∈ node.keys_read formal_keys →
      ∀ g : Globals, (yaml_to_formal node g).value = none ∧
        (yaml_to_formal node g).fatal = true) ∧
    (key ∈ node.keys_read case_keys →
      (∀ (fuel : Nat) (g : Globals), (yaml_to_case fuel node g).value = none) ∧
      ∃ N : Nat, ∀ fuel : Nat, N ≤ fuel → ∀ g : Globals,
        (yaml_to_case fuel node g).fatal = true) ∧
    (key ∈ node.keys_read expression_keys →
      (∀ (fuel : Nat) (g : Globals), (yaml_to_expression fuel node g).value = none) ∧
      ∃ N : Nat, ∀ fuel : Nat, N ≤ fuel → ∀ g : Globals,
        (yaml_to_expression fuel node g).fatal = true) := by
  refine ⟨fun hmem => ⟨fun fuel g => ?_, sizeOf node + 1, fun fuel hfuel g => ?_⟩,
    fun hmem => ⟨fun fuel g => ?_, sizeOf node + 1, fun fuel hfuel g => ?_⟩,
    fun hmem => ⟨fun fuel g => ?_, sizeOf node + 1, fun fuel hfuel g => ?_⟩,
    fun hmem g => ?_,
    fun hmem => ⟨fun fuel g => ?_, sizeOf node + 1, fun fuel hfuel g => ?_⟩,
    fun hmem => ⟨fun fuel g => ?_, sizeOf node + 1, fun fuel hfuel g => ?_⟩⟩
  · exact (fatal_of_no_return _ _ (yaml_to_program_keys fuel node)
      (missing_key_not_all node key _ hkey hmem) g).1
  · exact (fatal_of_no_return _ _ (yaml_to_program_keys fuel node)
      (missing_key_not_all node key _ hkey hmem) g).2
      (yaml_to_program_halts fuel node (by omega) g).1
  · exact (fatal_of_no_return _ _ (yaml_to_class__keys fuel node)
      (missing_key_not_all node key _ hkey hmem) g).1
  · exact (fatal_of_no_return _ _ (yaml_to_class__keys fuel node)
      (missing_key_not_all node key _ hkey hmem) g).2
      (yaml_to_class__halts fuel node (by omega) g).1
  · exact (fatal_of_no_return _ _ (yaml_to_feature_keys fuel node)
      (missing_key_not_all node key _ hkey hmem) g).1
  · exact (fatal_of_no_return _ _ (yaml_to_feature_keys fuel node)
      (missing_key_not_all node key _ hkey hmem) g).2
      (yaml_to_feature_halts fuel node (by omega) g).1
  · have h := fatal_of_no_return _ _ (yaml_to_formal_keys node)
      (missing_key_not_all node key _ hkey hmem) g
    exact ⟨h.1, h.2 (yaml_to_formal_halts node g).1⟩
  · exact (fatal_of_no_return _ _ (yaml_to_case_keys fuel node)
      (missing_key_not_all node key _ hkey hmem) g).1
  · exact (fatal_of_no_return _ _ (yaml_to_case_keys fuel node)
      (missing_key_not_all node key _ hkey hmem) g).2
      ((yaml_to_expression_halts_aux fuel).2 node (by omega) g).1
  · exact (fatal_of_no_return _ _ (yaml_to_expression_keys fuel node)
      (missing_key_not_all node key _ hkey hmem) g).1
  · exact (fatal_of_no_return _ _ (yaml_to_expression_keys fuel node)
      (missing_key_not_all node key _ hkey hmem) g).2
      ((yaml_to_expression_halts_aux fuel).1 node (by omega) g).1

theorem missing_key_is_fatal_witness :
    sumWithoutE2.find_child (lit "e2") = none ∧
    lit "e2" ∈ sumWithoutE2.keys_read expression_keys ∧
    (∀ (fuel : Nat) (g : Globals), (yaml_to_expression fuel sumWithoutE2 g).value = none) ∧
    ∃ N : Nat, ∀ fuel : Nat, N ≤ fuel → ∀ g : Globals,
      (yaml_to_expression fuel sumWithoutE2 g).fatal = true :=
  ⟨rfl, by decide,
   (missing_key_is_fatal sumWithoutE2 (lit "e2") rfl).2.2.2.2.2 (by decide)⟩

/-! ### List builders -/

theorem list_new_spec {Elem : Type} (elements : List Elem) (h : ListHeap Elem) :
    (list_new elements h).1 = h.length ∧
    (list_new elements h).2[(list_new elements h).1]? = some elements ∧
    ∀ (p : Nat) (l : List Elem), h[p]? = some l → (list_new elements h).2[p]? = some l := by
  refine ⟨rfl, ?_, ?_⟩
  · show (h ++ [elements])[h.length]? = some elements
    simp
  · intro p l hp
    show (h ++ [elements])[p]? = some l
    have hlt : p < h.length := by
      by_contra hn
      rw [List.getElem?_eq_none (by omega)] at hp
      cases hp
    rw [List.getElem?_append_left hlt]
    exact hp

theorem list_splice_end_eq {Elem : Type} (p1 p2 : Nat) (h : ListHeap Elem) (l1 l2 : List Elem)
    (hne : p1 ≠ p2) (h1 : h[p1]? = some l1) (h2 : h[p2]? = some l2) :
    append_list p1 p2 h = some (p1, (h.set p1 (l1 ++ l2)).set p2 []) := by
  simp only [append_list, list_splice_end, h1, h2, hne, if_false]

theorem getElem?_lt_of_some {α : Type} (l : List α) (p : Nat) (x : α) (h : l[p]? = some x) :
    p < l.length := by
  by_contra hn
  rw [List.getElem?_eq_none (by omega)] at h
  cases h

theorem append_list_spec {Elem : Type} (p1 p2 : Nat) (h : ListHeap Elem) (l1 l2 : List Elem)
    (hne : p1 ≠ p2) (h1 : h[p1]? = some l1) (h2 : h[p2]? = some l2) :
    ∃ hp, append_list p1 p2 h = some (p1, hp) ∧ hp[p1]? = some (l1 ++ l2) ∧
      hp[p2]? = some [] ∧ (∀ p, p ≠ p1 → p ≠ p2 → hp[p]? = h[p]?) ∧ hp.length = h.length := by
  have hl1 := getElem?_lt_of_some h p1 l1 h1
  have hl2 := getElem?_lt_of_some h p2 l2 h2
  refine ⟨_, list_splice_end_eq p1 p2 h l1 l2 hne h1 h2, ?_, ?_, ?_, ?_⟩
  · rw [List.getElem?_set_ne (Ne.symm hne), List.getElem?_set_self hl1]
  · rw [List.getElem?_set_self (by simpa using hl2)]
  · intro p hp1 hp2
    rw [List.getElem?_set_ne (Ne.symm hp2), List.getElem?_set_ne (Ne.symm hp1)]
  · simp

/-- C38. The list builders of the five phyla (`nil_X`, `single_X`, `append_X` for
Classes, Features, Formals, Expressions and Cases) are the same three functions
at five element types. `nil_X()` returns a new list object that is empty and
`single_X(e)` a new list object holding exactly `e`; neither changes a list that
existed. For two different list objects `p1` and `p2`, `append_X(p1, p2)` returns
`p1`, which then holds its former elements followed by the former elements of
`p2`, in their order, so its length is the sum of the two lengths; `p2` is left
empty and no other list changes. Appending a new empty list to `p`, or `p` to a
new empty list, gives a list with the elements of `p`; and for three different
lists, appending `c` to the result of appending `b` to `a` leaves the same lists
as appending to `a` the result of appending `c` to `b`. -/
theorem list_builders_spec (Elem : Type) (h : ListHeap Elem) :
    (nil_Classes = nil_list ∧ single_Classes = single_list ∧ append_Classes = append_list ∧
      nil_Features = nil_list ∧ single_Features = single_list ∧
      append_Features = append_list ∧
      nil_Formals = nil_list ∧ single_Formals = single_list ∧ append_Formals = append_list ∧
      nil_Expressions = nil_list ∧ single_Expressions = single_list ∧
      append_Expressions = append_list ∧
      nil_Cases = nil_list ∧ single_Cases = single_list ∧ append_Cases = append_list) ∧
    ((nil_list h).1 = h.length ∧ (nil_list h).2[(nil_list h).1]? = some ([] : List Elem) ∧
      ∀ (p : Nat) (l : List Elem), h[p]? = some l → (nil_list h).2[p]? = some l) ∧
    (∀ e : Elem, (single_list e h).1 = h.length ∧
      (single_list e h).2[(single_list e h).1]? = some [e] ∧
      ∀ (p : Nat) (l : List Elem), h[p]? = some l → (single_list e h).2[p]? = some l) ∧
    (∀ (p1 p2 : Nat) (l1 l2 : List Elem), p1 ≠ p2 → h[p1]? = some l1 → h[p2]? = some l2 →
      ∃ hp, append_list p1 p2 h = some (p1, hp) ∧ hp[p1]? = some (l1 ++ l2) ∧
        (l1 ++ l2).length = l1.length + l2.length ∧ hp[p2]? = some [] ∧
        (∀ p, p ≠ p1 → p ≠ p2 → hp[p]? = h[p]?) ∧ hp.length = h.length) ∧
    (∀ (p : Nat) (l : List Elem), h[p]? = some l →
      (∃ hp, append_list p (nil_list h).1 (nil_list h).2 = some (p, hp) ∧ hp[p]? = some l) ∧
      (∃ hp, append_list (nil_list h).1 p (nil_list h).2 = some ((nil_list h).1, hp) ∧
        hp[(nil_list h).1]? = some l ∧ hp[p]? = some [])) ∧
    (∀ (a b c : Nat) (la lb lc : List Elem), a ≠ b → a ≠ c → b ≠ c →
      h[a]? = some la → h[b]? = some lb → h[c]? = some lc →
      ∃ hab habc hbc habc', append_list a b h = some (a, hab) ∧
        append_list a c hab = some (a, habc) ∧ append_list b c h = some (b, hbc) ∧
        append_list a b hbc = some (a, habc') ∧
        habc[a]? = some (la ++ lb ++ lc) ∧ habc'[a]? = some (la ++ (lb ++ lc)) ∧
        habc = habc') := by
  refine ⟨⟨rfl, rfl, rfl, rfl, rfl, rfl, rfl, rfl, rfl, rfl, rfl, rfl, rfl, rfl, rfl⟩,
    list_new_spec [] h, fun e => list_new_spec [e] h, ?_, ?_, ?_⟩
  · intro p1 p2 l1 l2 hne h1 h2
    obtain ⟨hp, k1, k2, k3, k4, k5⟩ := append_list_spec p1 p2 h l1 l2 hne h1 h2
    exact ⟨hp, k1, k2, List.length_append _ _, k3, k4, k5⟩
  · intro p l hp
    have hlt := getElem?_lt_of_some h p l hp
    obtain ⟨n1, n2, n3⟩ := list_new_spec ([] : List Elem) h
    have hne : p ≠ (nil_list h).1 := by
      show p ≠ h.length
      omega
    constructor
    · obtain ⟨hq, k1, k2, -⟩ := append_list_spec p (nil_list h).1 (nil_list h).2 l []
        hne (n3 p l hp) n2
      exact ⟨hq, k1, by simpa using k2⟩
    · obtain ⟨hq, k1, k2, k3, -⟩ := append_list_spec (nil_list h).1 p (nil_list h).2 [] l
        (Ne.symm hne) n2 (n3 p l hp)
      exact ⟨hq, k1, by simpa using k2, k3⟩
  · intro a b c la lb lc hab hac hbc ha hb hc
    obtain ⟨h1, k1, k2, k3, k4, k5⟩ := append_list_spec a b h la lb hab ha hb
    have hc1 : h1[c]? = some lc := by rw [k4 c (Ne.symm hac) (Ne.symm hbc)]; exact hc
    obtain ⟨h2, m1, m2, m3, m4, m5⟩ := append_list_spec a c h1 (la ++ lb) lc hac k2 hc1
    obtain ⟨h3, n1, n2, n3, n4, n5⟩ := append_list_spec b c h lb lc hbc hb hc
    have ha3 : h3[a]? = some la := by rw [n4 a hab hac]; exact ha
    obtain ⟨h4, q1, q2, q3, q4, q5⟩ := append_list_spec a b h3 la (lb ++ lc) hab ha3 n2
    refine ⟨h1, h2, h3, h4, k1, m1, n1, q1, m2, q2, ?_⟩
    apply List.ext_getElem?
    intro i
    by_cases hia : i = a
    · subst hia
      rw [m2, q2, List.append_assoc]
    by_cases hib : i = b
    · subst hib
      rw [m4 i hia hbc, k3, q3]
    by_cases hic : i = c
    · subst hic
      rw [m3, q4 i hia hib, n3]
    rw [m4 i hia hic, k4 i hia hib, q4 i hia hib, n4 i hib hic]

theorem list_builders_spec_witness :
    ∃ hp, append_list 0 1 ([[1, 2], [3]] : ListHeap Nat) = some (0, hp) ∧
      hp[0]? = some ([1, 2] ++ [3]) ∧ hp[1]? = some [] :=
  match (list_builders_spec Nat [[1, 2], [3]]).2.2.2.1 0 1 [1, 2] [3] (by decide) rfl rfl with
  | ⟨hp, k1, k2, _, k3, _⟩ => ⟨hp, k1, k2, k3⟩
/-! ### String tables: the entry created and the table invariant -/

theorem toInt32_le (n : Nat) : toInt32 n ≤ n := by
  unfold toInt32
  omega

theorem toInt32_small (n : Nat) (h : n < 2147483648) : toInt32 n = n := by
  unfold toInt32
  omega

theorem cmin_eq_min (a b : Int) : cmin a b = min a b := by
  unfold cmin
  split <;> omega

/-- Every entry of a table made from the empty table by interning calls has a
length that does not exceed the length of its text. -/
theorem calls_len_le (cs : List TableCall) (t : StringTable)
    (ht : ∀ e ∈ t.tbl, e.len ≤ (e.str.length : Int)) :
    ∀ e ∈ (t.calls cs).tbl, e.len ≤ (e.str.length : Int) := by
  induction cs generalizing t with
  | nil => exact ht
  | cons c cs ih =>
    obtain ⟨m, hm⟩ := call_eq_add_string_maxchars t c
    simp only [StringTable.calls, hm]
    apply ih
    cases hs : scan c.text (cmin (toInt32 c.text.length) m) t.tbl 0 with
    | some x =>
      rw [add_string_maxchars_found t c.text m x hs]
      exact ht
    | none =>
      rw [add_string_maxchars_new t c.text m hs]
      intro e he
      rcases List.mem_append.mp he with he | he
      · exact ht e he
      · rw [List.mem_singleton] at he
        subst he
        dsimp only
        rw [cmin_eq_min]
        exact le_trans (min_le_left _ _) (toInt32_le _)

/-- C31, amended. An entry created by `add_string(s, maxchars)` (no entry of the
table has the text `s`) stores the whole text `s` and the length
`min((int)|s|, maxchars)`, which is `min(|s|, maxchars)` whenever `|s|` is an `int`
value (below 2^31); for the one-argument `add_string(s)` the length is
`min((int)|s|, 1000000)`, which is `min(|s|, 1000000)` under the same condition.
In every case `get_len` does not exceed the length of `get_string`, the entry
returned by a call always has the text `s`, and every entry of a table made from
the empty table by interning calls has `get_len` at most the length of its
`get_string`. -/
theorem add_string_stores_whole_text (t : StringTable) (s : Str) (maxchars : Int) :
    ((∀ e ∈ t.tbl, e.str ≠ s) →
      (t.add_string_maxchars s maxchars).1.entry.get_string = s ∧
      (t.add_string_maxchars s maxchars).1.entry.get_len =
        min (toInt32 s.length) maxchars ∧
      (s.length < 2147483648 →
        (t.add_string_maxchars s maxchars).1.entry.get_len = min (s.length : Int) maxchars) ∧
      (t.add_string_maxchars s maxchars).1.entry.get_len ≤
        ((t.add_string_maxchars s maxchars).1.entry.get_string.length : Int) ∧
      (t.add_string s).1.entry.get_string = s ∧
      (t.add_string s).1.entry.get_len = min (toInt32 s.length) 1000000 ∧
      (s.length < 2147483648 →
        (t.add_string s).1.entry.get_len = min (s.length : Int) 1000000) ∧
      (t.add_string s).1.entry.get_len ≤ ((t.add_string s).1.entry.get_string.length : Int)) ∧
    (t.add_string_maxchars s maxchars).1.entry.get_string = s ∧
    (t.add_string s).1.entry.get_string = s ∧
    (∀ cs : List TableCall, ∀ e ∈ (StringTable.empty.calls cs).tbl,
      e.get_len ≤ (e.get_string.length : Int)) := by
  have hnew : ∀ m : Int, (∀ e ∈ t.tbl, e.str ≠ s) →
      (t.add_string_maxchars s m).1.entry = ⟨s, min (toInt32 s.length) m, t.index⟩ := by
    intro m h
    rw [add_string_maxchars_new t s m ((scan_eq_none_iff _ _ _ _).mpr h), cmin_eq_min]
  have hstr : ∀ m : Int, (t.add_string_maxchars s m).1.entry.str = s := by
    intro m
    cases hs : scan s (cmin (toInt32 s.length) m) t.tbl 0 with
    | some x =>
      rw [add_string_maxchars_found t s m x hs]
      exact (scan_some_spec _ _ _ _ _ hs).2.2
    | none => rw [add_string_maxchars_new t s m hs]
  refine ⟨fun h => ?_, hstr maxchars, hstr MAXSIZE, ?_⟩
  · have h1 := hnew maxchars h
    have h2 : (t.add_string s).1.entry = ⟨s, min (toInt32 s.length) 1000000, t.index⟩ :=
      hnew MAXSIZE h
    simp only [Entry.get_string, Entry.get_len, h1, h2]
    refine ⟨trivial, trivial, fun hs => ?_, ?_, trivial, trivial, fun hs => ?_, ?_⟩
    · rw [toInt32_small _ hs]
    · exact le_trans (min_le_left _ _) (toInt32_le _)
    · rw [toInt32_small _ hs]
    · exact le_trans (min_le_left _ _) (toInt32_le _)
  · intro cs e he
    exact calls_len_le cs StringTable.empty (fun e he => by cases he) e he

theorem add_string_stores_whole_text_witness :
    (StringTable.empty.add_string_maxchars (lit "abc") 2).1.entry.get_string = lit "abc" ∧
    (StringTable.empty.add_string_maxchars (lit "abc") 2).1.entry.get_len = 2 ∧
    (StringTable.empty.add_string (lit "abc")).1.entry.get_len = 3 := by
  have h := (add_string_stores_whole_text StringTable.empty (lit "abc") 2).1
    (fun e he => by cases he)
  exact ⟨h.1, h.2.2.1 (by decide), h.2.2.2.2.2.2.1 (by decide)⟩

/-- The entry created for a text of 2^31 bytes stores the length `-2^31`. -/
theorem add_string_len_wraps (t : StringTable) (s : Str) (m : Int)
    (hnew : ∀ e ∈ t.tbl, e.str ≠ s) (hs : s.length = 2147483648) (hm : -2147483648 ≤ m) :
    (t.add_string_maxchars s m).1.entry.get_len = -2147483648 := by
  have h32 : toInt32 ((2147483648 : Nat) : Int) = -2147483648 := by decide
  have hlen : (t.add_string_maxchars s m).1.entry.len = cmin (toInt32 (s.length : Nat)) m := by
    rw [add_string_maxchars_new t s m ((scan_eq_none_iff _ _ _ _).mpr hnew)]
  unfold Entry.get_len
  rw [hlen, hs, h32, cmin_eq_min]
  exact min_eq_left hm

/-- C31, as stated, fails: for a text of 2^31 bytes `(int)s.length()` is `-2^31`, so
the entry that `add_string(s)` creates in the empty table stores the length
`-2^31`, not `min(|s|, 1000000) = 1000000`, and `add_string(s, 5)` stores `-2^31`,
not 5. -/
theorem add_string_len_wraps_counterexample :
    ∃ s : Str, s.length = 2147483648 ∧
      (StringTable.empty.add_string s).1.entry.get_len = -2147483648 ∧
      min (2147483648 : Int) 1000000 = 1000000 ∧
      (StringTable.empty.add_string_maxchars s 5).1.entry.get_len = -2147483648 ∧
      min (2147483648 : Int) 5 = 5 :=
  ⟨List.replicate 2147483648 97, List.length_replicate _ _,
    add_string_len_wraps StringTable.empty _ MAXSIZE (fun _ he => nomatch he)
      (List.length_replicate _ _) (by decide),
    by norm_num,
    add_string_len_wraps StringTable.empty _ 5 (fun _ he => nomatch he)
      (List.length_replicate _ _) (by decide),
    by norm_num⟩

theorem op_canonical (t : StringTable) (c : TableOp) (t1 : StringTable) (ht : t.Canonical)
    (h : t.op c = some t1) : t1.Canonical := by
  cases c with
  | add_string s =>
    simp only [StringTable.op, Option.some.injEq] at h
    subst h
    exact (add_string_maxchars_canonical t s MAXSIZE ht).1
  | add_string_maxchars s m =>
    simp only [StringTable.op, Option.some.injEq] at h
    subst h
    exact (add_string_maxchars_canonical t s m ht).1
  | add_int i =>
    simp only [StringTable.op, Option.some.injEq] at h
    subst h
    exact (add_string_maxchars_canonical t _ MAXSIZE ht).1
  | lookup_string s =>
    simp only [StringTable.op, StringTable.lookup_string] at h
    cases hs : scan s (toInt32 s.length) t.tbl 0 with
    | some x =>
      simp only [hs, Option.some.injEq] at h
      subst h
      exact ht
    | none => simp [hs] at h
  | lookup ind =>
    simp only [StringTable.op, StringTable.lookup] at h
    cases hs : scan_index ind t.tbl 0 with
    | some x =>
      simp only [hs, Option.some.injEq] at h
      subst h
      exact ht
    | none => simp [hs] at h

theorem ops_canonical (cs : List TableOp) (t t1 : StringTable) (ht : t.Canonical)
    (h : t.ops cs = some t1) : t1.Canonical := by
  induction cs generalizing t with
  | nil =>
    simp only [StringTable.ops, Option.some.injEq] at h
    subst h
    exact ht
  | cons c cs ih =>
    simp only [StringTable.ops] at h
    cases hc : t.op c with
    | none => simp [hc] at h
    | some t2 =>
      simp only [hc] at h
      exact ih t2 (op_canonical t c t2 ht hc) h

/-- C33. Every table reached from the empty table by a sequence of calls of
`add_string` (with or without `maxchars`), `add_int`, `lookup_string` and `lookup`
that all return has entries with pairwise distinct texts, the entry in slot `k`
has index `k`, and the next-index counter is the number of entries; the lookups
leave the table as it is, also when their assertion fails. -/
theorem table_invariant (cs : List TableOp) (t : StringTable)
    (h : StringTable.empty.ops cs = some t) :
    t.texts.Nodup ∧
    (∀ (i j : Nat) (e1 e2 : Entry), t.tbl[i]? = some e1 → t.tbl[j]? = some e2 →
      e1.get_string = e2.get_string → i = j) ∧
    (∀ (k : Nat) (e : Entry), t.tbl[k]? = some e → e.index = k) ∧
    t.index = t.tbl.length ∧
    (∀ s : Str, (t.lookup_string s).2 = t) ∧ (∀ ind : Int, (t.lookup ind).2 = t) := by
  obtain ⟨h1, h2, h3⟩ := ops_canonical cs StringTable.empty t canonical_empty h
  refine ⟨h2, ?_, h3, h1, ?_, ?_⟩
  · intro i j e1 e2 hi hj he
    have hi' : t.texts[i]? = some e1.str := by simp [StringTable.texts, hi]
    have hj' : t.texts[j]? = some e2.str := by simp [StringTable.texts, hj]
    have hil : i < t.texts.length := getElem?_lt_of_some _ _ _ hi'
    have hjl : j < t.texts.length := getElem?_lt_of_some _ _ _ hj'
    rw [List.getElem?_eq_getElem hil] at hi'
    rw [List.getElem?_eq_getElem hjl] at hj'
    have heq : t.texts[i] = t.texts[j] := by
      rw [Option.some.inj hi', Option.some.inj hj']
      exact he
    exact (List.Nodup.getElem_inj_iff h2).mp heq
  · intro s
    simp only [StringTable.lookup_string]
    split <;> rfl
  · intro ind
    simp only [StringTable.lookup]
    split <;> rfl

theorem table_invariant_witness :
    StringTable.empty.ops [.add_string (lit "x"), .add_int 7, .lookup_string (lit "x"),
        .add_string_maxchars (lit "x") 1, .lookup 1, .add_string (lit "y")] =
      some ⟨[⟨lit "x", 1, 0⟩, ⟨lit "7", 1, 1⟩, ⟨lit "y", 1, 2⟩], 3⟩ ∧
    (⟨[⟨lit "x", 1, 0⟩, ⟨lit "7", 1, 1⟩, ⟨lit "y", 1, 2⟩], 3⟩ : StringTable).texts.Nodup ∧
    (⟨[⟨lit "x", 1, 0⟩, ⟨lit "7", 1, 1⟩, ⟨lit "y", 1, 2⟩], 3⟩ : StringTable).index = 3 := by
  have h0 : StringTable.empty.ops [.add_string (lit "x"), .add_int 7,
      .lookup_string (lit "x"), .add_string_maxchars (lit "x") 1, .lookup 1,
      .add_string (lit "y")] =
      some ⟨[⟨lit "x", 1, 0⟩, ⟨lit "7", 1, 1⟩, ⟨lit "y", 1, 2⟩], 3⟩ := by decide
  have h := table_invariant _ _ h0
  exact ⟨h0, h.1, h.2.2.2.1⟩

/-! ### String escapes: the output of `get_escaped_string` -/

/-- What `get_escaped_string` writes for one byte, by the case of its `switch`. -/
theorem escape_char_cases (c : Nat) :
    (c = 92 ∧ escape_char c = [92, 92]) ∨ (c = 34 ∧ escape_char c = [92, 34]) ∨
    (c = 10 ∧ escape_char c = [92, 110]) ∨ (c = 9 ∧ escape_char c = [92, 116]) ∨
    (c = 8 ∧ escape_char c = [92, 98]) ∨ (c = 12 ∧ escape_char c = [92, 102]) ∨
    (isprint c = true ∧ c ≠ 92 ∧ c ≠ 34 ∧ escape_char c = [c]) ∨
    (isprint c = false ∧ c ≠ 10 ∧ c ≠ 9 ∧ c ≠ 8 ∧ c ≠ 12 ∧ escape_char c = 92 :: octal3 c) := by
  unfold escape_char
  by_cases h1 : c = 92
  · simp [h1]
  by_cases h2 : c = 34
  · simp [h2]
  by_cases h3 : c = 10
  · simp [h3]
  by_cases h4 : c = 9
  · simp [h4]
  by_cases h5 : c = 8
  · simp [h5]
  by_cases h6 : c = 12
  · simp [h6]
  by_cases h7 : isprint c = true
  · simp [h1, h2, h3, h4, h5, h6, h7]
  · simp [h1, h2, h3, h4, h5, h6, h7]

theorem get_escaped_string_append (s1 s2 : Str) :
    get_escaped_string (s1 ++ s2) = get_escaped_string s1 ++ get_escaped_string s2 := by
  induction s1 with
  | nil => rfl
  | cons c s1 ih =>
    show escape_char c ++ get_escaped_string (s1 ++ s2) =
      (escape_char c ++ get_escaped_string s1) ++ get_escaped_string s2
    rw [ih, List.append_assoc]

/-- The three digits written for a byte are octal digits, the first at most 3, and
their value is the byte. -/
theorem octal3_spec (c : Nat) (hc : c < 256) :
    ∃ d1 d2 d3, octal3 c = [d1, d2, d3] ∧ 48 ≤ d1 ∧ d1 ≤ 51 ∧ 48 ≤ d2 ∧ d2 ≤ 55 ∧
      48 ≤ d3 ∧ d3 ≤ 55 ∧ 64 * (d1 - 48) + 8 * (d2 - 48) + (d3 - 48) = c := by
  refine ⟨_, _, _, rfl, ?_, ?_, ?_, ?_, ?_, ?_, ?_⟩ <;> omega

theorem escape_char_printable (c x : Nat) (hx : x ∈ escape_char c) : isprint x = true := by
  rcases escape_char_cases c with ⟨-, h⟩ | ⟨-, h⟩ | ⟨-, h⟩ | ⟨-, h⟩ | ⟨-, h⟩ | ⟨-, h⟩ |
    ⟨hp, -, -, h⟩ | ⟨-, -, -, -, -, h⟩
  all_goals rw [h] at hx
  all_goals simp only [List.mem_cons, List.mem_singleton, List.not_mem_nil, or_false, octal3] at hx
  · rcases hx with rfl | rfl <;> decide
  · rcases hx with rfl | rfl <;> decide
  · rcases hx with rfl | rfl <;> decide
  · rcases hx with rfl | rfl <;> decide
  · rcases hx with rfl | rfl <;> decide
  · rcases hx with rfl | rfl <;> decide
  · rw [hx]; exact hp
  · simp only [isprint, decide_eq_true_eq]
    omega

theorem escape_char_length (c : Nat) : 1 ≤ (escape_char c).length := by
  rcases escape_char_cases c with ⟨-, h⟩ | ⟨-, h⟩ | ⟨-, h⟩ | ⟨-, h⟩ | ⟨-, h⟩ | ⟨-, h⟩ |
    ⟨-, -, -, h⟩ | ⟨-, -, -, -, -, h⟩
  all_goals rw [h]
  all_goals simp

/-- The bytes written for one byte hold no double quote that is not escaped. -/
theorem escape_char_no_quote (c : Nat) (r : Str) :
    has_unescaped_quote (escape_char c ++ r) = has_unescaped_quote r := by
  have hplain : ∀ (x : Nat) (t : Str), x ≠ 92 → x ≠ 34 →
      has_unescaped_quote (x :: t) = has_unescaped_quote t := by
    intro x t h1 h2
    cases t with
    | nil => simp [has_unescaped_quote, h2]
    | cons d t => simp [has_unescaped_quote, h1, h2]
  have hesc : ∀ (x : Nat) (t : Str),
      has_unescaped_quote (92 :: x :: t) = has_unescaped_quote t := by
    intro x t
    simp [has_unescaped_quote]
  rcases escape_char_cases c with ⟨-, h⟩ | ⟨-, h⟩ | ⟨-, h⟩ | ⟨-, h⟩ | ⟨-, h⟩ | ⟨-, h⟩ |
    ⟨-, h1, h2, h⟩ | ⟨-, -, -, -, -, h⟩
  all_goals rw [h]
  · exact hesc _ _
  · exact hesc _ _
  · exact hesc _ _
  · exact hesc _ _
  · exact hesc _ _
  · exact hesc _ _
  · exact hplain c r h1 h2
  · simp only [octal3, List.cons_append, List.nil_append]
    rw [hesc, hplain _ _ (by omega) (by omega), hplain _ _ (by omega) (by omega)]

/-- A double quote in the bytes written for one byte follows a backslash. -/
theorem escape_char_quote_at (c i : Nat) (h : (escape_char c)[i]? = some 34) :
    i = 1 ∧ (escape_char c)[0]? = some 92 := by
  rcases escape_char_cases c with ⟨-, hc⟩ | ⟨-, hc⟩ | ⟨-, hc⟩ | ⟨-, hc⟩ | ⟨-, hc⟩ | ⟨-, hc⟩ |
    ⟨-, -, h2, hc⟩ | ⟨-, -, -, -, -, hc⟩
  all_goals rw [hc] at h ⊢
  all_goals
    rcases i with _ | _ | _ | _ | i
    all_goals simp [octal3] at h ⊢
  all_goals omega

theorem escaped_quote_preceded (s : Str) :
    ∀ i, (get_escaped_string s)[i]? = some 34 →
      ∃ j, i = j + 1 ∧ (get_escaped_string s)[j]? = some 92 := by
  induction s with
  | nil => intro i h; simp [get_escaped_string] at h
  | cons c s ih =>
    intro i h
    simp only [get_escaped_string] at h ⊢
    by_cases hi : i < (escape_char c).length
    · rw [List.getElem?_append_left hi] at h
      obtain ⟨h1, h2⟩ := escape_char_quote_at c i h
      refine ⟨0, h1, ?_⟩
      rw [List.getElem?_append_left (by omega)]
      exact h2
    · rw [List.getElem?_append_right (by omega)] at h
      obtain ⟨j, hj1, hj2⟩ := ih _ h
      refine ⟨(escape_char c).length + j, by omega, ?_⟩
      rw [List.getElem?_append_right (by omega)]
      rw [show (escape_char c).length + j - (escape_char c).length = j by omega]
      exact hj2

/-- C35. For every byte string `s`, the output of `get_escaped_string(s)` consists of
printable characters only; it holds no unescaped double quote (read from the left
with each backslash escaping the byte after it, no double quote is left over, and
every double quote of the output stands right after a backslash); it is at least
as long as `s`; and every byte of `s` that is not printable and is none of newline,
tab, backspace and form feed is written, at its place in the output, as a
backslash followed by exactly three octal digits, the first at most 3, whose value
is the byte (0..255). -/
theorem escaped_string_shape (s : Str) :
    (∀ x ∈ get_escaped_string s, isprint x = true) ∧
    has_unescaped_quote (get_escaped_string s) = false ∧
    (∀ i, (get_escaped_string s)[i]? = some 34 →
      ∃ j, i = j + 1 ∧ (get_escaped_string s)[j]? = some 92) ∧
    s.length ≤ (get_escaped_string s).length ∧
    (∀ (s1 s2 : Str) (c : Nat), s = s1 ++ c :: s2 → c < 256 → isprint c = false →
      c ≠ 10 → c ≠ 9 → c ≠ 8 → c ≠ 12 →
      ∃ d1 d2 d3, get_escaped_string s =
          get_escaped_string s1 ++ [92, d1, d2, d3] ++ get_escaped_string s2 ∧
        48 ≤ d1 ∧ d1 ≤ 51 ∧ 48 ≤ d2 ∧ d2 ≤ 55 ∧ 48 ≤ d3 ∧ d3 ≤ 55 ∧
        64 * (d1 - 48) + 8 * (d2 - 48) + (d3 - 48) = c) := by
  refine ⟨?_, ?_, escaped_quote_preceded s, ?_, ?_⟩
  · induction s with
    | nil => intro x hx; simp [get_escaped_string] at hx
    | cons c s ih =>
      intro x hx
      simp only [get_escaped_string, List.mem_append] at hx
      rcases hx with hx | hx
      · exact escape_char_printable c x hx
      · exact ih x hx
  · induction s with
    | nil => rfl
    | cons c s ih =>
      simp only [get_escaped_string]
      rw [escape_char_no_quote, ih]
  · induction s with
    | nil => simp
    | cons c s ih =>
      simp only [get_escaped_string, List.length_cons, List.length_append]
      have := escape_char_length c
      omega
  · intro s1 s2 c hs hc hp h10 h9 h8 h12
    obtain ⟨d1, d2, d3, ho, k⟩ := octal3_spec c hc
    refine ⟨d1, d2, d3, ?_, k⟩
    have hesc : escape_char c = 92 :: octal3 c := by
      rcases escape_char_cases c with ⟨h, -⟩ | ⟨h, -⟩ | ⟨h, -⟩ | ⟨h, -⟩ | ⟨h, -⟩ | ⟨h, -⟩ |
        ⟨h, -⟩ | ⟨-, -, -, -, -, h⟩
      · subst h; simp [isprint] at hp
      · subst h; simp [isprint] at hp
      · exact absurd h h10
      · exact absurd h h9
      · exact absurd h h8
      · exact absurd h h12
      · rw [h] at hp; cases hp
      · exact h
    rw [hs, get_escaped_string_append]
    simp only [get_escaped_string, hesc, ho, List.append_assoc, List.cons_append,
      List.nil_append]

theorem escaped_string_shape_witness :
    isprint 1 = false ∧
    ∃ d1 d2 d3, get_escaped_string [65, 1, 34] =
        get_escaped_string [65] ++ [92, d1, d2, d3] ++ get_escaped_string [34] ∧
      48 ≤ d1 ∧ d1 ≤ 51 ∧ 48 ≤ d2 ∧ d2 ≤ 55 ∧ 48 ≤ d3 ∧ d3 ≤ 55 ∧
      64 * (d1 - 48) + 8 * (d2 - 48) + (d3 - 48) = 1 :=
  ⟨by decide, (escaped_string_shape [65, 1, 34]).2.2.2.2 [65] [34] 1 rfl
    (by decide) (by decide) (by decide) (by decide) (by decide) (by decide)⟩

/-! ### String escapes: the escaped form determines the string -/

/-- The bytes written for one byte can be told apart from what follows them: from
the output one reads off the byte and the rest. -/
theorem escape_char_cancel (a b : Nat) (r1 r2 : Str) (ha : a < 256) (hb : b < 256)
    (h : escape_char a ++ r1 = escape_char b ++ r2) : a = b ∧ r1 = r2 := by
  rcases escape_char_cases a with ⟨va, ea⟩ | ⟨va, ea⟩ | ⟨va, ea⟩ | ⟨va, ea⟩ | ⟨va, ea⟩ |
    ⟨va, ea⟩ | ⟨-, va, va', ea⟩ | ⟨va, -, -, -, -, ea⟩ <;>
  rcases escape_char_cases b with ⟨vb, eb⟩ | ⟨vb, eb⟩ | ⟨vb, eb⟩ | ⟨vb, eb⟩ | ⟨vb, eb⟩ |
    ⟨vb, eb⟩ | ⟨-, vb, vb', eb⟩ | ⟨vb, -, -, -, -, eb⟩ <;>
  rw [ea, eb] at h <;>
  simp only [octal3, List.cons_append, List.nil_append, List.cons.injEq] at h <;>
  first
    | exact ⟨by omega, h.2.2⟩
    | exact ⟨by omega, h.2⟩
    | exact ⟨by omega, h.2.2.2.2⟩
    | exact ⟨by omega, by omega⟩

/-- C34. `get_escaped_string` is injective on byte strings: two strings of bytes
(values below 256) with the same escaped form are equal. -/
theorem get_escaped_string_injective (s1 s2 : Str) (h1 : ∀ c ∈ s1, c < 256)
    (h2 : ∀ c ∈ s2, c < 256) (h : get_escaped_string s1 = get_escaped_string s2) : s1 = s2 := by
  induction s1 generalizing s2 with
  | nil =>
    cases s2 with
    | nil => rfl
    | cons b s2 =>
      have hl := congrArg List.length h
      simp only [get_escaped_string, List.length_nil, List.length_append] at hl
      have := escape_char_length b
      omega
  | cons a s1 ih =>
    cases s2 with
    | nil =>
      have hl := congrArg List.length h
      simp only [get_escaped_string, List.length_nil, List.length_append] at hl
      have := escape_char_length a
      omega
    | cons b s2 =>
      simp only [get_escaped_string] at h
      obtain ⟨hab, hr⟩ := escape_char_cancel a b _ _ (h1 a (List.mem_cons_self _ _))
        (h2 b (List.mem_cons_self _ _)) h
      rw [hab, ih s2 (fun c hc => h1 c (List.mem_cons_of_mem _ hc))
        (fun c hc => h2 c (List.mem_cons_of_mem _ hc)) hr]

theorem get_escaped_string_injective_witness :
    get_escaped_string [92, 110] = get_escaped_string [92, 110] ∧ [92, 110] = ([92, 110] : Str) ∧
    get_escaped_string [92, 110] ≠ get_escaped_string [10] :=
  ⟨rfl, get_escaped_string_injective [92, 110] [92, 110] (by decide) (by decide) rfl,
   by decide⟩

/-! ### String escapes: the restricted round trip -/

/-- What `get_escaped_string` writes for a byte that needs no octal escape. -/
theorem escape_char_cases_plain (c : Nat)
    (hc : isprint c = true ∨ c = 10 ∨ c = 9 ∨ c = 8 ∨ c = 12) :
    (c = 92 ∧ escape_char c = [92, 92]) ∨ (c = 34 ∧ escape_char c = [92, 34]) ∨
    (c = 10 ∧ escape_char c = [92, 110]) ∨ (c = 9 ∧ escape_char c = [92, 116]) ∨
    (c = 8 ∧ escape_char c = [92, 98]) ∨ (c = 12 ∧ escape_char c = [92, 102]) ∨
    (c ≠ 92 ∧ escape_char c = [c]) := by
  rcases escape_char_cases c with h | h | h | h | h | h | ⟨-, v, -, e⟩ | ⟨v, v1, v2, v3, v4, -⟩
  iterate 6 (repeat (first | exact Or.inl h | refine Or.inr ?_))
  · repeat (first | exact ⟨v, e⟩ | refine Or.inr ?_)
  · rcases hc with hc | hc | hc | hc | hc
    · rw [hc] at v; cases v
    · exact absurd hc v1
    · exact absurd hc v2
    · exact absurd hc v3
    · exact absurd hc v4

/-- The loop of `get_unescaped_string` on the escaped form of a string without octal
escapes. -/
theorem unescape_loop_escaped (s : Str)
    (hs : ∀ c ∈ s, isprint c = true ∨ c = 10 ∨ c = 9 ∨ c = 8 ∨ c = 12) :
    ∀ (fuel : Nat) (out : Str), (get_escaped_string s).length ≤ fuel →
      unescape_loop fuel (get_escaped_string s) out = (out ++ s, []) := by
  induction s with
  | nil =>
    intro fuel out _
    cases fuel <;> simp [get_escaped_string, unescape_loop]
  | cons c s ih =>
    intro fuel out hfuel
    have ih' := ih (fun x hx => hs x (List.mem_cons_of_mem _ hx))
    have hc := hs c (List.mem_cons_self _ _)
    simp only [get_escaped_string, List.length_append] at hfuel ⊢
    rcases escape_char_cases_plain c hc with ⟨v, e⟩ | ⟨v, e⟩ | ⟨v, e⟩ | ⟨v, e⟩ | ⟨v, e⟩ |
      ⟨v, e⟩ | ⟨v, e⟩
    all_goals
      rw [e] at hfuel ⊢
      simp only [List.length_cons, List.length_nil] at hfuel
      obtain ⟨f, rfl⟩ : ∃ f, fuel = f + 1 := ⟨fuel - 1, by omega⟩
      simp only [List.cons_append, List.nil_append]
      simp only [unescape_loop, ne_eq, not_true_eq_false, if_false, if_true, v,
        not_false_eq_true, reduceCtorEq, Nat.reduceEqDiff]
      rw [ih' f _ (by omega)]
      simp [v]

/-- C32. Restricted escape round trip: for every string made only of printable
characters (backslash and double quote included) and the characters newline, tab,
backspace and form feed, `get_unescaped_string(get_escaped_string(s))` is `s`, and
nothing is written to the error stream. -/
theorem restricted_escape_round_trip (s : Str)
    (hs : ∀ c ∈ s, isprint c = true ∨ c = 10 ∨ c = 9 ∨ c = 8 ∨ c = 12) :
    get_unescaped_string (get_escaped_string s) = s ∧
    (get_unescaped_string_cerr (get_escaped_string s)).2 = [] := by
  have h := unescape_loop_escaped s hs (get_escaped_string s).length [] (Nat.le_refl _)
  simp only [List.nil_append] at h
  constructor
  · rw [get_unescaped_string, get_unescaped_string_cerr, h]
  · rw [get_unescaped_string_cerr, h]

theorem restricted_escape_round_trip_witness :
    get_escaped_string [97, 92, 34, 10, 9, 8, 12, 49] =
      [97, 92, 92, 92, 34, 92, 110, 92, 116, 92, 98, 92, 102, 49] ∧
    get_unescaped_string (get_escaped_string [97, 92, 34, 10, 9, 8, 12, 49]) =
      [97, 92, 34, 10, 9, 8, 12, 49] :=
  ⟨by decide, (restricted_escape_round_trip [97, 92, 34, 10, 9, 8, 12, 49] (by decide)).1⟩

/-! ### Token stream adapter: the ambient line after a failing token -/

/-- The two ways `node_to_token` fails, with the line it leaves. -/
theorem node_to_token_failing_line (atou : Str → Option Nat) (P : cool_parse) (node : Yaml)
    (pos : Nat) (g : Globals) (t : Str)
    (h1 : node.find_child (lit "lineno") = some (Yaml.val t)) :
    (atou t = none →
      ∃ tok g1, node_to_token atou P node token.fresh pos g = Res.ok (false, tok) g1 ∧
        g1.curr_lineno = g.curr_lineno ∧ g1.idtable = g.idtable ∧
        g1.inttable = g.inttable ∧ g1.stringtable = g.stringtable) ∧
    (∀ (n : Nat) (k : Str), atou t = some n →
      node.find_child (lit "kind") = some (Yaml.val k) → find_cool_token P k = none →
      ∃ tok g1, node_to_token atou P node token.fresh pos g = Res.ok (false, tok) g1 ∧
        g1.curr_lineno = toInt32 (n % 4294967296 : Nat) ∧ g1.idtable = g.idtable ∧
        g1.inttable = g.inttable ∧ g1.stringtable = g.stringtable) := by
  constructor
  · intro h2
    simp only [node_to_token, child, h1, h2, bind, Dec.bind, val, pure, cerr_text]
    exact ⟨_, _, rfl, rfl, rfl, rfl, rfl⟩
  · intro n k h2 h3 h4
    simp only [node_to_token, child, h1, h2, h3, h4, bind, Dec.bind, val, pure, cerr_text]
    exact ⟨_, _, rfl, rfl, rfl, rfl, rfl⟩

/-- C36, amended. A pull that fails because the token's `lineno` is not an unsigned
integer returns the error code and leaves `curr_lineno` as it was; a pull that
fails because the token's kind is not in `string_to_cool_token` returns the error
code having set `curr_lineno` to that token's `lineno` converted to `int`, which
is the `lineno` itself whenever it is below 2^31. In both cases the three tables
are as before the pull, and the cursor has moved on by one. -/
theorem failing_token_line (atou : Str → Option Nat) (P : cool_parse)
    (st sa : LexState) (tokens node : Yaml) (t : Str) (hloaded : st.loaded = some sa)
    (htokens : sa.token_root.find_child (lit "tokens") = some tokens)
    (hpos : sa.pos ≠ tokens.num_children) (hnode : tokens.child_at sa.pos = some node)
    (hline : node.find_child (lit "lineno") = some (Yaml.val t)) :
    (atou t = none →
      ∃ st1, cool_yylex atou P st = LexRes.ret YYerror st1 ∧
        st1.g.curr_lineno = st.g.curr_lineno ∧ st1.pos = st.pos + 1 ∧
        st1.g.idtable = st.g.idtable ∧ st1.g.inttable = st.g.inttable ∧
        st1.g.stringtable = st.g.stringtable) ∧
    (∀ (n : Nat) (k : Str), atou t = some n → n < 4294967296 →
      node.find_child (lit "kind") = some (Yaml.val k) → find_cool_token P k = none →
      ∃ st1, cool_yylex atou P st = LexRes.ret YYerror st1 ∧
        st1.g.curr_lineno = toInt32 n ∧ (n < 2147483648 → st1.g.curr_lineno = n) ∧
        st1.pos = st.pos + 1 ∧
        st1.g.idtable = st.g.idtable ∧ st1.g.inttable = st.g.inttable ∧
        st1.g.stringtable = st.g.stringtable) := by
  obtain ⟨hcall, -⟩ := cool_yylex_loaded atou P st sa hloaded
  obtain ⟨hg, hp, -⟩ := loaded_same st sa hloaded
  obtain ⟨hA, hB⟩ := node_to_token_failing_line atou P node sa.pos sa.g t hline
  constructor
  · intro h2
    obtain ⟨tok, g1, hntt, k0, k1, k2, k3⟩ := hA h2
    refine ⟨{ sa with g := g1, pos := sa.pos + 1 }, ?_, ?_, ?_, ?_, ?_, ?_⟩
    · rw [hcall]
      simp only [cool_yylex_pull, htokens, hpos, if_false, hnode, hntt]
    · rw [← hg]; exact k0
    · rw [← hp]
    · rw [← hg]; exact k1
    · rw [← hg]; exact k2
    · rw [← hg]; exact k3
  · intro n k h2 hn h3 h4
    obtain ⟨tok, g1, hntt, k0, k1, k2, k3⟩ := hB n k h2 h3 h4
    rw [Nat.mod_eq_of_lt hn] at k0
    refine ⟨{ sa with g := g1, pos := sa.pos + 1 }, ?_, k0, ?_, ?_, ?_, ?_, ?_⟩
    · rw [hcall]
      simp only [cool_yylex_pull, htokens, hpos, if_false, hnode, hntt]
    · intro hsmall
      show g1.curr_lineno = n
      rw [k0]
      unfold toInt32
      omega
    · rw [← hp]
    · rw [← hg]; exact k1
    · rw [← hg]; exact k2
    · rw [← hg]; exact k3

theorem failing_token_line_witness :
    cool_yylex_calls atou_decimal sample_cool_parse 3
        (LexState.start sampleGlobals failingTokenDoc) = [(256, 1), (256, 7), (0, 7)] ∧
    ∃ st1, cool_yylex atou_decimal sample_cool_parse
        (LexState.start sampleGlobals failingTokenDoc) = LexRes.ret YYerror st1 ∧
      st1.g.curr_lineno = sampleGlobals.curr_lineno ∧
      st1.g.idtable = sampleGlobals.idtable := by
  refine ⟨by decide!, ?_⟩
  obtain ⟨st1, h1, h2, -, h3, -⟩ := (failing_token_line atou_decimal sample_cool_parse
    (LexState.start sampleGlobals failingTokenDoc)
    ⟨sampleGlobals, failingTokenDoc, 1, 0, failingTokenDoc, lit "m.cl", lit "m.cl",
      YYSTYPE.unset⟩
    (Yaml.seq [
      Yaml.map [(lit "kind", Yaml.val (lit "CLASS")), (lit "lineno", Yaml.val (lit "x"))],
      Yaml.map [(lit "kind", Yaml.val (lit "BOGUS")), (lit "lineno", Yaml.val (lit "7"))]])
    (Yaml.map [(lit "kind", Yaml.val (lit "CLASS")), (lit "lineno", Yaml.val (lit "x"))])
    (lit "x") (by simp [LexState.loaded, LexState.start, failingTokenDoc, Yaml.is_map,
      Yaml.find_child]) (by simp [failingTokenDoc, Yaml.find_child])
    (by simp [Yaml.num_children]) (by simp [Yaml.child_at])
    (by simp [Yaml.find_child])).1 (by decide)
  exact ⟨st1, h1, h2, h3⟩

/-- C36, as stated, fails: a token of the unknown kind `BOGUS` whose `lineno` is the
unsigned integer 3000000000 makes the pull return the error code with
`curr_lineno` set to -1294967296, not to 3000000000. -/
theorem failing_token_line_wraps_counterexample :
    atou_decimal (lit "3000000000") = some 3000000000 ∧
    find_cool_token sample_cool_parse (lit "BOGUS") = none ∧
    cool_yylex_calls atou_decimal sample_cool_parse 1
        (LexState.start sampleGlobals bogusBigLineTokenDoc) = [(256, -1294967296)] ∧
    (-1294967296 : Int) ≠ 3000000000 := by
  decide!

/-! ### Token kinds: the two tables agree -/

/-- In a list of pairs with pairwise distinct first components, looking up the first
component of a member finds that member. -/
theorem find_of_mem_nodup {α β : Type} [DecidableEq α] (L : List (α × β))
    (h : (L.map Prod.fst).Nodup) (k : α) (v : β) (hm : (k, v) ∈ L) :
    L.find? (fun kv => decide (kv.1 = k)) = some (k, v) := by
  induction L with
  | nil => cases hm
  | cons x L ih =>
    simp only [List.map_cons, List.nodup_cons] at h
    rcases List.mem_cons.mp hm with hx | hx
    · subst hx
      simp [List.find?]
    · have hne : x.1 ≠ k := by
        intro hk
        apply h.1
        rw [hk]
        exact List.mem_map.mpr ⟨(k, v), hx, rfl⟩
      simp only [List.find?, hne, decide_False]
      exact ih h.2 hx

theorem cool_token_cases_eq (P : cool_parse) :
    cool_token_cases P = (string_to_cool_token P).map Prod.swap := rfl

theorem string_to_cool_token_names (P : cool_parse) :
    (string_to_cool_token P).map Prod.fst = token_names := rfl

theorem token_names_nodup : token_names.Nodup := by decide

theorem find_cool_token_of_mem (P : cool_parse) (name : Str) (c : Int)
    (h : (name, c) ∈ string_to_cool_token P) : find_cool_token P name = some c := by
  unfold find_cool_token
  rw [find_of_mem_nodup (string_to_cool_token P)
    (by rw [string_to_cool_token_names]; exact token_names_nodup) name c h]
  rfl

theorem mem_of_find_cool_token (P : cool_parse) (name : Str) (c : Int)
    (h : find_cool_token P name = some c) : (name, c) ∈ string_to_cool_token P := by
  unfold find_cool_token at h
  cases hf : (string_to_cool_token P).find? (fun kv => decide (kv.1 = name)) with
  | none => rw [hf] at h; cases h
  | some kv =>
    rw [hf] at h
    have h1 := List.find?_some hf
    have h2 := List.mem_of_find?_eq_some hf
    simp only [decide_eq_true_eq] at h1
    simp only [Option.map_some', Option.some.injEq] at h
    obtain ⟨a, b⟩ := kv
    simp only at h1 h
    subst h1 h
    exact h2

theorem cool_token_to_string_of_mem (P : cool_parse) (hP : P.token_labels_distinct)
    (name : Str) (c : Int) (h : (name, c) ∈ string_to_cool_token P) :
    cool_token_to_string P c = name := by
  have hm : (c, name) ∈ cool_token_cases P := by
    rw [cool_token_cases_eq]
    exact List.mem_map.mpr ⟨(name, c), h, rfl⟩
  unfold cool_token_to_string
  rw [find_of_mem_nodup (cool_token_cases P) hP c name hm]

theorem mem_of_cool_token_to_string (P : cool_parse) (c : Int)
    (h : cool_token_to_string P c ≠ invalid_token) :
    (cool_token_to_string P c, c) ∈ string_to_cool_token P := by
  unfold cool_token_to_string at h ⊢
  cases hf : (cool_token_cases P).find? (fun kv => decide (kv.1 = c)) with
  | none => rw [hf] at h; exact absurd rfl h
  | some kv =>
    have h1 := List.find?_some hf
    have h2 := List.mem_of_find?_eq_some hf
    simp only [decide_eq_true_eq] at h1
    rw [cool_token_cases_eq] at h2
    obtain ⟨x, hx, hswap⟩ := List.mem_map.mp h2
    obtain ⟨a, b⟩ := x
    subst hswap
    simp only [Prod.swap] at h1 ⊢
    subst h1
    exact hx

/-- Every child of the map `build_yaml_tree` writes is a scalar, and the children
under `kind` and `lineno` are the first two. -/
theorem build_yaml_tree_children (P : cool_parse) (lineno code : Int) (symbol : Symbol)
    (boolean : Bool) (error_msg : Str) :
    (build_yaml_tree P lineno code symbol boolean error_msg).find_child (lit "kind") =
      some (Yaml.val (cool_token_to_string P code)) ∧
    (build_yaml_tree P lineno code symbol boolean error_msg).find_child (lit "lineno") =
      some (Yaml.val (int_to_chars lineno)) ∧
    (∀ (key : Str) (c : Yaml),
      (build_yaml_tree P lineno code symbol boolean error_msg).find_child key = some c →
      ∃ s, c = Yaml.val s) := by
  refine ⟨?_, ?_, ?_⟩
  · simp [build_yaml_tree, Yaml.find_child]
  · simp [build_yaml_tree, Yaml.find_child, lit_inj]
  · intro key c h
    unfold build_yaml_tree at h
    simp only [Yaml.find_child, Option.map_eq_some'] at h
    obtain ⟨kv, hfind, hc⟩ := h
    have hmem := List.mem_of_find?_eq_some hfind
    subst hc
    rcases List.mem_append.mp hmem with h | h
    · simp only [List.mem_cons, List.mem_singleton, List.not_mem_nil, or_false] at h
      rcases h with h | h <;> exact ⟨_, by rw [h]⟩
    · split_ifs at h
      all_goals first
        | exact absurd h (List.not_mem_nil _)
        | exact ⟨_, by rw [List.mem_singleton.mp h]⟩

/-- C37. The token kind tables agree, given that the `case` labels of
`cool_token_to_string` are pairwise distinct (as C++ requires): for every name in
`string_to_cool_token` with code `c`, `cool_token_to_string(c)` is that name; for
every code `c` for which `cool_token_to_string(c)` is not `<Invalid Token>`,
`string_to_cool_token` maps `cool_token_to_string(c)` back to `c`; and the map
that `build_yaml_tree` writes for a token with such a code and a line that `atou`
reads back is accepted by `node_to_token`, which delivers the same code. -/
theorem token_kind_tables_agree (P : cool_parse) (hP : P.token_labels_distinct) :
    (∀ (name : Str) (c : Int), find_cool_token P name = some c →
      cool_token_to_string P c = name) ∧
    (∀ name ∈ token_names, ∃ c, find_cool_token P name = some c ∧
      cool_token_to_string P c = name) ∧
    (∀ c : Int, cool_token_to_string P c ≠ invalid_token →
      find_cool_token P (cool_token_to_string P c) = some c) ∧
    (∀ (atou : Str → Option Nat) (lineno code : Int) (symbol : Symbol) (boolean : Bool)
        (error_msg : Str) (pos : Nat),
      cool_token_to_string P code ≠ invalid_token →
      atou (int_to_chars lineno) = some lineno.toNat → lineno.toNat < 4294967296 →
      ∃ tok : token, tok.kind = code ∧ tok.lineno = lineno.toNat ∧ ∀ g : Globals,
        node_to_token atou P (build_yaml_tree P lineno code symbol boolean error_msg)
            token.fresh pos g =
          Res.ok (true, tok) { g with curr_lineno := toInt32 lineno.toNat }) := by
  refine ⟨?_, ?_, ?_, ?_⟩
  · intro name c h
    exact cool_token_to_string_of_mem P hP name c (mem_of_find_cool_token P name c h)
  · intro name hname
    rw [← string_to_cool_token_names P] at hname
    obtain ⟨kv, hkv, hfst⟩ := List.mem_map.mp hname
    obtain ⟨a, c⟩ := kv
    simp only at hfst
    subst hfst
    exact ⟨c, find_cool_token_of_mem P a c hkv, cool_token_to_string_of_mem P hP a c hkv⟩
  · intro c h
    exact find_cool_token_of_mem P _ c (mem_of_cool_token_to_string P c h)
  · intro atou lineno code symbol boolean error_msg pos hvalid hatou hrange
    obtain ⟨hkind, hline, hscalar⟩ :=
      build_yaml_tree_children P lineno code symbol boolean error_msg
    exact node_to_token_well_formed atou P _ lineno.toNat code pos
      ⟨_, _, hline, hatou, hrange, hkind,
        find_cool_token_of_mem P _ code (mem_of_cool_token_to_string P code hvalid),
        fun c hc => hscalar _ c hc, fun c hc => hscalar _ c hc⟩

theorem sample_labels_distinct : sample_cool_parse.token_labels_distinct := by
  unfold cool_parse.token_labels_distinct
  decide

theorem token_kind_tables_agree_witness :
    sample_cool_parse.token_labels_distinct ∧
    find_cool_token sample_cool_parse (lit "DARROW") = some 272 ∧
    cool_token_to_string sample_cool_parse 272 = lit "DARROW" ∧
    cool_token_to_string sample_cool_parse 1 = invalid_token ∧
    cool_token_to_string sample_cool_parse 258 ≠ invalid_token ∧
    ∃ tok : token, tok.kind = 258 ∧ tok.lineno = (7 : Int).toNat ∧ ∀ g : Globals,
      node_to_token atou_decimal sample_cool_parse
          (build_yaml_tree sample_cool_parse 7 258 ⟨0, ⟨[], 0, 0⟩⟩ false []) token.fresh 0 g =
        Res.ok (true, tok) { g with curr_lineno := toInt32 (7 : Int).toNat } :=
  ⟨sample_labels_distinct, by decide,
   (token_kind_tables_agree sample_cool_parse sample_labels_distinct).1 (lit "DARROW") 272
     (by decide),
   by decide, by decide,
   (token_kind_tables_agree sample_cool_parse sample_labels_distinct).2.2.2 atou_decimal 7 258
     ⟨0, ⟨[], 0, 0⟩⟩ false [] 0 (by decide) (by decide) (by decide)⟩

end Cool
